import Mathlib

/-!
# Red-black tree of `rbt.c`: heap model

The C program keeps its nodes in malloc'ed memory and links them by pointers.
The model keeps a memory `mem : Nat → rbnode α` indexed by addresses.  The two
nodes embedded in the `rbtree` struct get the fixed addresses `RB_ROOT` (the
root stub, `&rbt->root`) and `RB_NIL` (the sentinel, `&rbt->nil`).  `malloc`
is a bump allocator: it hands out the address `brk` and increments it, so it
never fails and never reuses an address; `free` leaves the memory alone.
A `NULL` pointer result is `none`.  Every loop of the source is a recursive
function with a fuel argument; running out of fuel gives `none`.  The public
operations start their loops with fuel `brk`, which the theorems show to be
enough on every well-formed tree.
-/

namespace Rbt

/-- The colour tag of a node: `#define RED 0`, `#define BLACK 1`. -/
inductive Color where
  | RED
  | BLACK
  deriving DecidableEq, Repr

/-- The C struct `rbnode`: three links, a colour and the element pointer
(`none` is the `NULL` element of the sentinel and of the root stub). -/
structure rbnode (α : Type) where
  left : Nat
  right : Nat
  parent : Nat
  color : Color
  data : Option α
  deriving DecidableEq

/-- Address of the root stub `&rbt->root`. -/
def RB_ROOT : Nat := 0

/-- Address of the sentinel `&rbt->nil`. -/
def RB_NIL : Nat := 1

/-- The C struct `rbtree` together with the memory its nodes live in and the
program's global rotation counters.  The comparator `rbt->compare` is set once
by `rb_create` and never reassigned; the operations that call it take it as an
argument.  `destroyed` logs the arguments of the calls to `rbt->destroy`. -/
structure rbtree (α : Type) where
  mem : Nat → rbnode α
  min : Option Nat
  brk : Nat
  destroyed : List (Option α)
  cnt_left_insert : Nat
  cnt_right_insert : Nat
  cnt_left_delete : Nat
  cnt_right_delete : Nat

/-- A node record with its left link replaced. -/
def rbnode.put_left {α : Type} (n : rbnode α) (v : Nat) : rbnode α :=
  match n with
  | ⟨_, r, p, c, d⟩ => ⟨v, r, p, c, d⟩

/-- A node record with its right link replaced. -/
def rbnode.put_right {α : Type} (n : rbnode α) (v : Nat) : rbnode α :=
  match n with
  | ⟨l, _, p, c, d⟩ => ⟨l, v, p, c, d⟩

/-- A node record with its parent link replaced. -/
def rbnode.put_parent {α : Type} (n : rbnode α) (v : Nat) : rbnode α :=
  match n with
  | ⟨l, r, _, c, d⟩ => ⟨l, r, v, c, d⟩

/-- A node record with its colour replaced. -/
def rbnode.put_color {α : Type} (n : rbnode α) (v : Color) : rbnode α :=
  match n with
  | ⟨l, r, p, _, d⟩ => ⟨l, r, p, v, d⟩

/-- A node record with its element pointer replaced. -/
def rbnode.put_data {α : Type} (n : rbnode α) (v : Option α) : rbnode α :=
  match n with
  | ⟨l, r, p, c, _⟩ => ⟨l, r, p, c, v⟩

/-- Memory write `a->left = v`. -/
def set_left {α : Type} (m : Nat → rbnode α) (a v : Nat) : Nat → rbnode α :=
  fun b => if b = a then (m a).put_left v else m b

/-- Memory write `a->right = v`. -/
def set_right {α : Type} (m : Nat → rbnode α) (a v : Nat) : Nat → rbnode α :=
  fun b => if b = a then (m a).put_right v else m b

/-- Memory write `a->parent = v`. -/
def set_parent {α : Type} (m : Nat → rbnode α) (a v : Nat) : Nat → rbnode α :=
  fun b => if b = a then (m a).put_parent v else m b

/-- Memory write `a->color = c`. -/
def set_color {α : Type} (m : Nat → rbnode α) (a : Nat) (c : Color) : Nat → rbnode α :=
  fun b => if b = a then (m a).put_color c else m b

/-- Memory write `a->data = d`. -/
def set_data {α : Type} (m : Nat → rbnode α) (a : Nat) (d : Option α) : Nat → rbnode α :=
  fun b => if b = a then (m a).put_data d else m b

/-- Memory write of a whole node, `*a = n`. -/
def set_node {α : Type} (m : Nat → rbnode α) (a : Nat) (n : rbnode α) : Nat → rbnode α :=
  fun b => if b = a then n else m b

/-- The comparator of the demo record type, `compare_func`, on the `int` keys. -/
def compare_func (a b : Int) : Int :=
  if a = b then 0 else if a > b then 1 else -1

/-- The function `rb_create`: both embedded nodes are BLACK, hold no element
and link to the sentinel; no minimum is cached. -/
def rb_create {α : Type} : rbtree α :=
  { mem := fun _ =>
      { left := RB_NIL, right := RB_NIL, parent := RB_NIL, color := Color.BLACK, data := none }
    min := none
    brk := 2
    destroyed := []
    cnt_left_insert := 0
    cnt_right_insert := 0
    cnt_left_delete := 0
    cnt_right_delete := 0 }

/-- The loop of `rb_find`, started at `p`: `some (some p)` is the node found,
`some none` the `NULL` result.  A node without an element cannot be compared
(the comparator asserts that its arguments are not `NULL`). -/
def find_loop {α : Type} (cmp : α → α → Int) (m : Nat → rbnode α) (data : α) :
    Nat → Nat → Option (Option Nat)
  | 0, _ => none
  | fuel + 1, p =>
    if p ≠ RB_NIL then
      match (m p).data with
      | none => none
      | some d =>
        let c := cmp data d
        if c = 0 then some (some p)
        else find_loop cmp m data fuel (if c < 0 then (m p).left else (m p).right)
    else some none

/-- The function `rb_find`. -/
def rb_find {α : Type} (cmp : α → α → Int) (s : rbtree α) (data : α) : Option (Option Nat) :=
  find_loop cmp s.mem data s.brk (s.mem RB_ROOT).left

/-- First loop of `rb_successor`: `for ( ; p->left != NIL; p = p->left) ;`. -/
def leftmost_loop {α : Type} (m : Nat → rbnode α) : Nat → Nat → Option Nat
  | 0, _ => none
  | fuel + 1, p =>
    if (m p).left ≠ RB_NIL then leftmost_loop m fuel (m p).left else some p

/-- Second loop of `rb_successor`:
`for (p = node->parent; node == p->right; node = p, p = p->parent) ;`. -/
def climb_loop {α : Type} (m : Nat → rbnode α) : Nat → Nat → Nat → Option Nat
  | 0, _, _ => none
  | fuel + 1, node, p =>
    if node = (m p).right then climb_loop m fuel p (m p).parent else some p

/-- The function `rb_successor` on a memory, with explicit fuel. -/
def successor_mem {α : Type} (m : Nat → rbnode α) (fuel : Nat) (node : Nat) :
    Option (Option Nat) :=
  let p := (m node).right
  if p ≠ RB_NIL then
    (leftmost_loop m fuel p).map some
  else
    (climb_loop m fuel node (m node).parent).map
      (fun q => if q = RB_ROOT then none else some q)

/-- The function `rb_successor`. -/
def rb_successor {α : Type} (s : rbtree α) (node : Nat) : Option (Option Nat) :=
  successor_mem s.mem s.brk node

/-- The function `rotate_left`; of `rbt` it only uses the sentinel's address. -/
def rotate_left {α : Type} (m : Nat → rbnode α) (x : Nat) : Nat → rbnode α :=
  let y := (m x).right
  let m1 := set_right m x (m y).left
  let m2 := if (m1 x).right ≠ RB_NIL then set_parent m1 (m1 x).right x else m1
  let m3 := set_parent m2 y (m2 x).parent
  let m4 :=
    if x = (m3 (m3 x).parent).left then set_left m3 (m3 x).parent y
    else set_right m3 (m3 x).parent y
  let m5 := set_left m4 y x
  set_parent m5 x y

/-- The function `rotate_right`. -/
def rotate_right {α : Type} (m : Nat → rbnode α) (x : Nat) : Nat → rbnode α :=
  let y := (m x).left
  let m1 := set_left m x (m y).right
  let m2 := if (m1 x).left ≠ RB_NIL then set_parent m1 (m1 x).left x else m1
  let m3 := set_parent m2 y (m2 x).parent
  let m4 :=
    if x = (m3 (m3 x).parent).left then set_left m3 (m3 x).parent y
    else set_right m3 (m3 x).parent y
  let m5 := set_right m4 y x
  set_parent m5 x y

/-- One pass through the body of the do-while loop of `insert_repair`: the
state and the value of `current` at the end of the pass. -/
def insert_repair_body {α : Type} (s : rbtree α) (current : Nat) : rbtree α × Nat :=
  let m := s.mem
  if (m current).parent = (m (m (m current).parent).parent).left then
    let uncle := (m (m (m current).parent).parent).right
    if (m uncle).color = Color.RED then
      let m1 := set_color m (m current).parent Color.BLACK
      let m2 := set_color m1 uncle Color.BLACK
      let current1 := (m2 (m2 current).parent).parent
      let m3 := set_color m2 current1 Color.RED
      ({ s with mem := m3 }, current1)
    else
      let s1 : rbtree α × Nat :=
        if current = (m (m current).parent).right then
          let current1 := (m current).parent
          ({ s with mem := rotate_left m current1,
                    cnt_left_insert := s.cnt_left_insert + 1 }, current1)
        else (s, current)
      let current1 := s1.2
      let m1 := set_color s1.1.mem (s1.1.mem current1).parent Color.BLACK
      let m2 := set_color m1 (m1 (m1 current1).parent).parent Color.RED
      let m3 := rotate_right m2 (m2 (m2 current1).parent).parent
      ({ s1.1 with mem := m3, cnt_right_insert := s1.1.cnt_right_insert + 1 }, current1)
  else
    let uncle := (m (m (m current).parent).parent).left
    if (m uncle).color = Color.RED then
      let m1 := set_color m (m current).parent Color.BLACK
      let m2 := set_color m1 uncle Color.BLACK
      let current1 := (m2 (m2 current).parent).parent
      let m3 := set_color m2 current1 Color.RED
      ({ s with mem := m3 }, current1)
    else
      let s1 : rbtree α × Nat :=
        if current = (m (m current).parent).left then
          let current1 := (m current).parent
          ({ s with mem := rotate_right m current1,
                    cnt_right_insert := s.cnt_right_insert + 1 }, current1)
        else (s, current)
      let current1 := s1.2
      let m1 := set_color s1.1.mem (s1.1.mem current1).parent Color.BLACK
      let m2 := set_color m1 (m1 (m1 current1).parent).parent Color.RED
      let m3 := rotate_left m2 (m2 (m2 current1).parent).parent
      ({ s1.1 with mem := m3, cnt_left_insert := s1.1.cnt_left_insert + 1 }, current1)

/-- The function `insert_repair`: `do body while (current->parent->color == RED)`. -/
def insert_repair {α : Type} : Nat → rbtree α → Nat → Option (rbtree α)
  | 0, _, _ => none
  | fuel + 1, s, current =>
    let r := insert_repair_body s current
    if (r.1.mem (r.1.mem r.2).parent).color = Color.RED then insert_repair fuel r.1 r.2
    else some r.1

/-- The descent loop of `rb_insert`: the value of `parent` when `current`
reaches the sentinel. -/
def insert_descend {α : Type} (cmp : α → α → Int) (m : Nat → rbnode α) (data : α) :
    Nat → Nat → Nat → Option Nat
  | 0, _, _ => none
  | fuel + 1, current, parent =>
    if current ≠ RB_NIL then
      match (m current).data with
      | none => none
      | some d =>
        insert_descend cmp m data fuel
          (if cmp data d < 0 then (m current).left else (m current).right) current
    else some parent

/-- The `RB_MIN` block of `rb_insert`, the new value of `rbt->min`:
`if (rbt->min == NULL || compare(current->data, rbt->min->data) < 0) rbt->min = current;`. -/
def insert_min {α : Type} (cmp : α → α → Int) (m : Nat → rbnode α) (min : Option Nat)
    (current : Nat) : Option (Option Nat) :=
  match min with
  | none => some (some current)
  | some mn =>
    (m current).data.bind fun d => (m mn).data.map fun e =>
      if cmp d e < 0 then some current else some mn

/-- The function `rb_insert` (compiled with `RB_DUP` and `RB_MIN`): the new
state and the handle of the new node. -/
def rb_insert {α : Type} (cmp : α → α → Int) (s : rbtree α) (data : α) :
    Option (rbtree α × Option Nat) :=
  (insert_descend cmp s.mem data s.brk (s.mem RB_ROOT).left RB_ROOT).bind fun parent =>
    let current := s.brk
    let m1 := set_node s.mem current
      { left := RB_NIL, right := RB_NIL, parent := parent, color := Color.RED, data := some data }
    let goLeft : Option Bool :=
      if parent = RB_ROOT then some true
      else (m1 parent).data.map (fun d => decide (cmp data d < 0))
    goLeft.bind fun gl =>
      let m2 := if gl then set_left m1 parent current else set_right m1 parent current
      (insert_min cmp m2 s.min current).bind fun mn =>
        let s2 : rbtree α := { s with mem := m2, brk := s.brk + 1, min := mn }
        let s3 : Option (rbtree α) :=
          if (s2.mem (s2.mem current).parent).color = Color.RED then
            insert_repair s2.brk s2 current
          else some s2
        s3.map fun s4 =>
          ({ s4 with mem := set_color s4.mem (s4.mem RB_ROOT).left Color.BLACK }, some current)

/-- Lines 416-423 of `delete_repair`, for a left child `current`: a RED
sibling is made BLACK and a left rotation at the parent brings a BLACK sibling.
The state and the value of `sibling` afterwards. -/
def delete_red_sibling_left {α : Type} (s : rbtree α) (current sibling : Nat) :
    rbtree α × Nat :=
  let m := s.mem
  if (m sibling).color = Color.RED then
    let m1 := set_color m sibling Color.BLACK
    let m2 := set_color m1 (m1 current).parent Color.RED
    let m3 := rotate_left m2 (m2 current).parent
    ({ s with mem := m3, cnt_left_delete := s.cnt_left_delete + 1 },
      (m3 (m3 current).parent).right)
  else (s, sibling)

/-- Lines 426-452 of `delete_repair`, for a left child `current`: the cases
of a BLACK sibling.  The state, the value of `current`, and whether the loop
was left by `break`. -/
def delete_black_sibling_left {α : Type} (s : rbtree α) (current sibling : Nat) :
    rbtree α × Nat × Bool :=
  let m := s.mem
  if (m (m sibling).right).color = Color.BLACK ∧ (m (m sibling).left).color = Color.BLACK then
    let m1 := set_color m sibling Color.RED
    if (m1 (m1 current).parent).color = Color.RED then
      ({ s with mem := set_color m1 (m1 current).parent Color.BLACK }, current, true)
    else
      ({ s with mem := m1 }, (m1 current).parent, false)
  else
    let s2 : rbtree α × Nat :=
      if (m (m sibling).right).color = Color.BLACK then
        let m1 := set_color m (m sibling).left Color.BLACK
        let m2 := set_color m1 sibling Color.RED
        let m3 := rotate_right m2 sibling
        ({ s with mem := m3, cnt_right_delete := s.cnt_right_delete + 1 },
          (m3 (m3 current).parent).right)
      else (s, sibling)
    let m := s2.1.mem
    let sibling := s2.2
    let m1 := set_color m sibling (m (m current).parent).color
    let m2 := set_color m1 (m1 current).parent Color.BLACK
    let m3 := set_color m2 (m2 sibling).right Color.BLACK
    let m4 := rotate_left m3 (m3 current).parent
    ({ s2.1 with mem := m4, cnt_left_delete := s2.1.cnt_left_delete + 1 }, current, true)

/-- Lines 456-462 of `delete_repair`, for a right child `current`: a RED
sibling is made BLACK and a right rotation at the parent brings a BLACK
sibling.  The state and the value of `sibling` afterwards. -/
def delete_red_sibling_right {α : Type} (s : rbtree α) (current sibling : Nat) :
    rbtree α × Nat :=
  let m := s.mem
  if (m sibling).color = Color.RED then
    let m1 := set_color m sibling Color.BLACK
    let m2 := set_color m1 (m1 current).parent Color.RED
    let m3 := rotate_right m2 (m2 current).parent
    ({ s with mem := m3, cnt_right_delete := s.cnt_right_delete + 1 },
      (m3 (m3 current).parent).left)
  else (s, sibling)

/-- Lines 466-492 of `delete_repair`, for a right child `current`: the cases
of a BLACK sibling.  The state, the value of `current`, and whether the loop
was left by `break`. -/
def delete_black_sibling_right {α : Type} (s : rbtree α) (current sibling : Nat) :
    rbtree α × Nat × Bool :=
  let m := s.mem
  if (m (m sibling).right).color = Color.BLACK ∧ (m (m sibling).left).color = Color.BLACK then
    let m1 := set_color m sibling Color.RED
    if (m1 (m1 current).parent).color = Color.RED then
      ({ s with mem := set_color m1 (m1 current).parent Color.BLACK }, current, true)
    else
      ({ s with mem := m1 }, (m1 current).parent, false)
  else
    let s2 : rbtree α × Nat :=
      if (m (m sibling).left).color = Color.BLACK then
        let m1 := set_color m (m sibling).right Color.BLACK
        let m2 := set_color m1 sibling Color.RED
        let m3 := rotate_left m2 sibling
        ({ s with mem := m3, cnt_left_delete := s.cnt_left_delete + 1 },
          (m3 (m3 current).parent).left)
      else (s, sibling)
    let m := s2.1.mem
    let sibling := s2.2
    let m1 := set_color m sibling (m (m current).parent).color
    let m2 := set_color m1 (m1 current).parent Color.BLACK
    let m3 := set_color m2 (m2 sibling).left Color.BLACK
    let m4 := rotate_right m3 (m3 current).parent
    ({ s2.1 with mem := m4, cnt_right_delete := s2.1.cnt_right_delete + 1 }, current, true)

/-- One pass through the body of the do-while loop of `delete_repair`: the
state, the value of `current`, and whether the pass left the loop by `break`. -/
def delete_repair_body {α : Type} (s : rbtree α) (current : Nat) : rbtree α × Nat × Bool :=
  let m := s.mem
  if current = (m (m current).parent).left then
    let s1 := delete_red_sibling_left s current (m (m current).parent).right
    delete_black_sibling_left s1.1 current s1.2
  else
    let s1 := delete_red_sibling_right s current (m (m current).parent).left
    delete_black_sibling_right s1.1 current s1.2

/-- The function `delete_repair`: `do body while (current != RB_FIRST(rbt))`,
where the body may `break`. -/
def delete_repair {α : Type} : Nat → rbtree α → Nat → Option (rbtree α)
  | 0, _, _ => none
  | fuel + 1, s, current =>
    let r := delete_repair_body s current
    if r.2.2 then some r.1
    else if r.2.1 ≠ (r.1.mem RB_ROOT).left then delete_repair fuel r.1 r.2.1
    else some r.1

/-- Lines 354-368 of `rb_delete` (compiled with `RB_MIN`): the choice of the
node `target` that is spliced out.  A node with a sentinel child is spliced
out itself, and the cached minimum moves to its successor if it was the
minimum; otherwise the successor is spliced out after its element pointer was
copied into `node`.  The state and the value of `target`. -/
def delete_choose {α : Type} (s : rbtree α) (node : Nat) : Option (rbtree α × Nat) :=
  if (s.mem node).left = RB_NIL ∨ (s.mem node).right = RB_NIL then
    if s.min = some node then
      (rb_successor s node).map fun q => ({ s with min := q }, node)
    else some (s, node)
  else
    match rb_successor s node with
    | some (some target) =>
      some ({ s with mem := set_data s.mem node (s.mem target).data }, target)
    | _ => none

/-- Lines 384-390 of `rb_delete`: `child` takes the place of `target` below
the parent of `target`. -/
def splice_out {α : Type} (m : Nat → rbnode α) (target child : Nat) : Nat → rbnode α :=
  let m1 := if child ≠ RB_NIL then set_parent m child (m target).parent else m
  if target = (m1 (m1 target).parent).left then set_left m1 (m1 target).parent child
  else set_right m1 (m1 target).parent child

/-- Lines 370-403 of `rb_delete`: the colour repair, the splice of `child`
into the place of `target`, and the fate of the element pointer `data`. -/
def delete_splice {α : Type} (s1 : rbtree α) (target : Nat) (data : Option α) (keep : Int) :
    Option (rbtree α × Option α) :=
  let child :=
    if (s1.mem target).left = RB_NIL then (s1.mem target).right else (s1.mem target).left
  let repaired : Option (rbtree α) :=
    if (s1.mem target).color = Color.BLACK then
      if (s1.mem child).color = Color.RED then
        some { s1 with mem := set_color s1.mem child Color.BLACK }
      else if target = (s1.mem RB_ROOT).left then some s1
      else delete_repair s1.brk s1 target
    else some s1
  repaired.map fun s2 =>
    let m2 := splice_out s2.mem target child
    if keep = 0 then
      ({ s2 with mem := m2, destroyed := s2.destroyed ++ [data] }, none)
    else ({ s2 with mem := m2 }, data)

/-- The function `rb_delete` (compiled with `RB_MIN`): the new state and the
returned element pointer. -/
def rb_delete {α : Type} (s : rbtree α) (node : Nat) (keep : Int) :
    Option (rbtree α × Option α) :=
  (delete_choose s node).bind fun st => delete_splice st.1 st.2 (s.mem node).data keep

/-- Insertion of a list of elements, one `rb_insert` call after the other (the
insertion loops of `main`, for keys that are not in the tree yet). -/
def insert_list {α : Type} (cmp : α → α → Int) : rbtree α → List α → Option (rbtree α)
  | s, [] => some s
  | s, x :: xs => (rb_insert cmp s x).bind fun r => insert_list cmp r.1 xs

/-- One pass of the deletion loop of `main`:
`node = rb_find(rbt, &dummy); if (node) rb_delete(rbt, node, keep);`. -/
def remove_key {α : Type} (cmp : α → α → Int) (s : rbtree α) (k : α) (keep : Int) :
    Option (rbtree α) :=
  (rb_find cmp s k).bind fun r =>
    match r with
    | some node => (rb_delete s node keep).map Prod.fst
    | none => some s

/-- The deletion loop of `main` over a list of keys. -/
def remove_list {α : Type} (cmp : α → α → Int) : rbtree α → List α → Int → Option (rbtree α)
  | s, [], _ => some s
  | s, k :: ks, keep => (remove_key cmp s k keep).bind fun s2 => remove_list cmp s2 ks keep

/-!
# Abstract trees and the well-formedness of a memory

A memory is well formed when it lays out a binary tree: `Tree α` is the shape
such a memory has, each node with its address, colour and element.  The shape
is determined by the memory; the invariants of the specification are stated
on it.
-/

/-- The shape of a tree in memory: `leaf` stands for a link to the sentinel,
`node l a c d r` for the node at address `a` with colour `c`, element `d` and
subtrees `l` and `r`. -/
inductive Tree (α : Type) where
  | leaf
  | node (l : Tree α) (a : Nat) (c : Color) (d : α) (r : Tree α)

/-- Address of the root of a shape; the sentinel for the empty shape. -/
def Tree.root {α : Type} : Tree α → Nat
  | Tree.leaf => RB_NIL
  | Tree.node _ a _ _ _ => a

/-- Colour of the root of a shape; the empty shape counts as BLACK. -/
def Tree.color {α : Type} : Tree α → Color
  | Tree.leaf => Color.BLACK
  | Tree.node _ _ c _ _ => c

/-- In-order list of the nodes of a shape, each as (address, element). -/
def Tree.nodes {α : Type} : Tree α → List (Nat × α)
  | Tree.leaf => []
  | Tree.node l a _ d r => l.nodes ++ (a, d) :: r.nodes

/-- In-order list of the node addresses. -/
def Tree.addrs {α : Type} (t : Tree α) : List Nat := t.nodes.map Prod.fst

/-- The in-order traversal: the elements in in-order. -/
def Tree.inorder {α : Type} (t : Tree α) : List α := t.nodes.map Prod.snd

/-- Number of nodes on the longest path from the root down to a node. -/
def Tree.height {α : Type} : Tree α → Nat
  | Tree.leaf => 0
  | Tree.node l _ _ _ r => max l.height r.height + 1

/-- The leftmost node of a shape, if it has a node. -/
def Tree.leftmost {α : Type} : Tree α → Option Nat
  | Tree.leaf => none
  | Tree.node Tree.leaf a _ _ _ => some a
  | Tree.node (Tree.node l b c d r) _ _ _ _ => (Tree.node l b c d r).leftmost

/-- The shape with its root recoloured. -/
def Tree.paint {α : Type} (c : Color) : Tree α → Tree α
  | Tree.leaf => Tree.leaf
  | Tree.node l a _ d r => Tree.node l a c d r

/-- Memory `m` lays out shape `t` below a node at address `p`: every node of
`t` is a cell other than the sentinel and the root stub, its links lead to the
roots of its subtrees, and its parent link leads back (to `p` from the root). -/
def Rep {α : Type} (m : Nat → rbnode α) : Nat → Tree α → Prop
  | _, Tree.leaf => True
  | p, Tree.node l a c d r =>
    a ≠ RB_NIL ∧ a ≠ RB_ROOT ∧
    m a = { left := l.root, right := r.root, parent := p, color := c, data := some d } ∧
    Rep m a l ∧ Rep m a r

/-- A memory is well formed with shape `t`: the sentinel links to itself and
holds no element, the root stub links to the real root on the left and to the
sentinel on the right and as parent and holds no element, the nodes of `t` are
laid out below the stub with parent links consistent with child links, and no
address occurs twice.  Colours of sentinel and stub are not constrained. -/
structure MWF {α : Type} (m : Nat → rbnode α) (t : Tree α) : Prop where
  nil_left : (m RB_NIL).left = RB_NIL
  nil_right : (m RB_NIL).right = RB_NIL
  nil_parent : (m RB_NIL).parent = RB_NIL
  nil_data : (m RB_NIL).data = none
  stub_left : (m RB_ROOT).left = t.root
  stub_right : (m RB_ROOT).right = RB_NIL
  stub_parent : (m RB_ROOT).parent = RB_NIL
  stub_data : (m RB_ROOT).data = none
  rep : Rep m RB_ROOT t
  nodup : t.addrs.Nodup

/-- A tree state is well formed with shape `t`: its memory is, and every node
was handed out by the allocator (its address is below `brk`). -/
structure WF {α : Type} (s : rbtree α) (t : Tree α) : Prop where
  mwf : MWF s.mem t
  brk_ge : 2 ≤ s.brk
  bound : ∀ a ∈ t.addrs, a < s.brk

/-- No RED node of the shape has a RED child. -/
def Tree.noRedRed {α : Type} : Tree α → Prop
  | Tree.leaf => True
  | Tree.node l _ c _ r =>
    (c = Color.RED → l.color = Color.BLACK ∧ r.color = Color.BLACK) ∧ l.noRedRed ∧ r.noRedRed

/-- What a node of colour `c` adds to a count of BLACK nodes. -/
def blk (c : Color) : Nat :=
  match c with
  | Color.RED => 0
  | Color.BLACK => 1

/-- For every path from the root of the shape to a sentinel link, the number
of BLACK nodes on it. -/
def Tree.pathBlacks {α : Type} : Tree α → List Nat
  | Tree.leaf => [0]
  | Tree.node l _ c _ r => (l.pathBlacks ++ r.pathBlacks).map (fun n => n + blk c)

/-- Every path from the root to a sentinel link has the same number of BLACK nodes. -/
def Tree.equalPaths {α : Type} (t : Tree α) : Prop :=
  ∀ a ∈ t.pathBlacks, ∀ b ∈ t.pathBlacks, a = b

/-- Number of BLACK nodes on the leftmost path of the shape. -/
def Tree.bh {α : Type} : Tree α → Nat
  | Tree.leaf => 0
  | Tree.node l _ c _ _ => l.bh + blk c

/-- At every node, both subtrees have the same number of BLACK nodes on their
leftmost paths. -/
def Tree.balanced {α : Type} : Tree α → Prop
  | Tree.leaf => True
  | Tree.node l _ _ _ r => l.bh = r.bh ∧ l.balanced ∧ r.balanced

/-- The colour invariants: sentinel BLACK, root stub BLACK, real root BLACK,
no RED node with a RED child (so none with a RED parent either, the root's
parent being the BLACK stub), and the same number of BLACK nodes on every path
from the root to the sentinel. -/
structure ColorInv {α : Type} (s : rbtree α) (t : Tree α) : Prop where
  nil_black : (s.mem RB_NIL).color = Color.BLACK
  stub_black : (s.mem RB_ROOT).color = Color.BLACK
  root_black : t.color = Color.BLACK
  no_red_red : t.noRedRed
  equal_paths : t.equalPaths

/-- The comparator is a total preorder: the sign of `cmp a b` is opposite to
the sign of `cmp b a`, and "not greater" is transitive. -/
structure CmpOrder {α : Type} (cmp : α → α → Int) : Prop where
  antisymm : ∀ a b, cmp a b < 0 ↔ 0 < cmp b a
  trans : ∀ a b c, cmp a b ≤ 0 → cmp b c ≤ 0 → cmp a c ≤ 0

/-- The order property on a list of elements: whenever `a` stands before `b`,
`compare(a, b) ≤ 0`. -/
def SortedBy {α : Type} (cmp : α → α → Int) (l : List α) : Prop :=
  l.Pairwise (fun a b => cmp a b ≤ 0)

/-- The order property of a shape, on its in-order traversal. -/
def Tree.ordered {α : Type} (cmp : α → α → Int) (t : Tree α) : Prop :=
  SortedBy cmp t.inorder

/-- The order property node by node, non-strict on both sides: every element
of the left subtree is not greater than the node's element and every element
of the right subtree is not less. -/
def Tree.bst {α : Type} (cmp : α → α → Int) : Tree α → Prop
  | Tree.leaf => True
  | Tree.node l _ _ d r =>
    (∀ e ∈ l.inorder, cmp e d ≤ 0) ∧ (∀ e ∈ r.inorder, cmp d e ≤ 0) ∧ l.bst cmp ∧ r.bst cmp

/-- The order property node by node as the specification words it for
duplicates: every element of the left subtree is strictly less than the
node's element and every element of the right subtree is not less. -/
def Tree.bstStrictLeft {α : Type} (cmp : α → α → Int) : Tree α → Prop
  | Tree.leaf => True
  | Tree.node l _ _ d r =>
    (∀ e ∈ l.inorder, cmp e d < 0) ∧ (∀ e ∈ r.inorder, cmp d e ≤ 0) ∧
    l.bstStrictLeft cmp ∧ r.bstStrictLeft cmp

/-- One step of a path from a node up to the root: the node passed, with the
subtree on the other side.  `L a c d r`: the path comes up from the left child
of `a`, whose right subtree is `r`.  `R l a c d`: it comes up from the right
child of `a`, whose left subtree is `l`. -/
inductive Frame (α : Type) where
  | L (a : Nat) (c : Color) (d : α) (r : Tree α)
  | R (l : Tree α) (a : Nat) (c : Color) (d : α)

/-- Address of the node of a frame. -/
def Frame.addr {α : Type} : Frame α → Nat
  | Frame.L a _ _ _ => a
  | Frame.R _ a _ _ => a

/-- Colour of the node of a frame. -/
def Frame.color {α : Type} : Frame α → Color
  | Frame.L _ c _ _ => c
  | Frame.R _ _ c _ => c

/-- The subtree hanging off the path at a frame. -/
def Frame.sibling {α : Type} : Frame α → Tree α
  | Frame.L _ _ _ r => r
  | Frame.R l _ _ _ => l

/-- The frame with its node recoloured. -/
def Frame.paint {α : Type} (c : Color) : Frame α → Frame α
  | Frame.L a _ d r => Frame.L a c d r
  | Frame.R l a _ d => Frame.R l a c d

/-- The node of a frame with `t` put below it on the path's side. -/
def Frame.fill {α : Type} : Frame α → Tree α → Tree α
  | Frame.L a c d r, t => Tree.node t a c d r
  | Frame.R l a c d, t => Tree.node l a c d t

/-- The whole shape: `t` put at the lower end of the path `fs` (innermost
frame first). -/
def plug {α : Type} : List (Frame α) → Tree α → Tree α
  | [], t => t
  | f :: fs, t => plug fs (f.fill t)

/-- Address of the node right above the lower end of a path; the root stub
for the empty path. -/
def ctxParent {α : Type} : List (Frame α) → Nat
  | [] => RB_ROOT
  | f :: _ => f.addr

/-- Colour of the node right above the lower end of a path, where the stub of
the empty path counts as BLACK. -/
def ctxColor {α : Type} : List (Frame α) → Color
  | [] => Color.BLACK
  | f :: _ => f.color

/-- The nodes that precede the lower end of a path in in-order. -/
def ctxBefore {α : Type} : List (Frame α) → List (Nat × α)
  | [] => []
  | Frame.L _ _ _ _ :: fs => ctxBefore fs
  | Frame.R l a _ d :: fs => ctxBefore fs ++ (l.nodes ++ [(a, d)])

/-- The nodes that follow the lower end of a path in in-order. -/
def ctxAfter {α : Type} : List (Frame α) → List (Nat × α)
  | [] => []
  | Frame.L a _ d r :: fs => ((a, d) :: r.nodes) ++ ctxAfter fs
  | Frame.R _ _ _ _ :: fs => ctxAfter fs

/-- Addresses of the nodes of a path and of the subtrees hanging off it. -/
def ctxAddrs {α : Type} (fs : List (Frame α)) : List Nat :=
  (ctxBefore fs).map Prod.fst ++ (ctxAfter fs).map Prod.fst

/-- A node record with the link on the path's side redirected to `b`: the
left link for the empty path (the stub) and for an `L` frame, the right link
for an `R` frame. -/
def holeSet {α : Type} (fs : List (Frame α)) (n : rbnode α) (b : Nat) : rbnode α :=
  match fs with
  | [] => { n with left := b }
  | Frame.L _ _ _ _ :: _ => { n with left := b }
  | Frame.R _ _ _ _ :: _ => { n with right := b }

/-- Memory `m` lays out the path `fs` above a node at address `a`: each frame's
node links to the node below it on the path's side and to its other subtree,
which is laid out too, and the stub's left link leads to the top of the path. -/
def RepCtx {α : Type} (m : Nat → rbnode α) : List (Frame α) → Nat → Prop
  | [], a => (m RB_ROOT).left = a
  | Frame.L x c d r :: fs, a =>
    x ≠ RB_NIL ∧ x ≠ RB_ROOT ∧
    m x = { left := a, right := r.root, parent := ctxParent fs, color := c, data := some d } ∧
    Rep m x r ∧ RepCtx m fs x
  | Frame.R l x c d :: fs, a =>
    x ≠ RB_NIL ∧ x ≠ RB_ROOT ∧
    m x = { left := l.root, right := a, parent := ctxParent fs, color := c, data := some d } ∧
    Rep m x l ∧ RepCtx m fs x

/-- The path the descent loop of `rb_insert` takes through a shape, extending
the path `fs` above it: left where the new element is less, right otherwise. -/
def zoom {α : Type} (cmp : α → α → Int) (x : α) : Tree α → List (Frame α) → List (Frame α)
  | Tree.leaf, fs => fs
  | Tree.node l a c d r, fs =>
    if cmp x d < 0 then zoom cmp x l (Frame.L a c d r :: fs)
    else zoom cmp x r (Frame.R l a c d :: fs)

/-- The colour conditions on a path whose lower end carries a subtree with `n`
BLACK nodes on each of its paths: every subtree hanging off the path satisfies
no-red-red and the balance condition and has the black count that balance asks
for, and a RED node of the path has a BLACK other child and a BLACK node above
it.  The link at the lower end itself is not constrained. -/
def CtxInv {α : Type} : List (Frame α) → Nat → Prop
  | [], _ => True
  | f :: fs, n =>
    f.sibling.noRedRed ∧ f.sibling.balanced ∧ f.sibling.bh = n ∧
    (f.color = Color.RED → f.sibling.color = Color.BLACK ∧ ctxColor fs = Color.BLACK) ∧
    CtxInv fs (n + blk f.color)

/-- A memory is well formed with shape `t` and its sentinel and root stub
are BLACK. -/
structure BWF {α : Type} (m : Nat → rbnode α) (t : Tree α) : Prop where
  mwf : MWF m t
  nil_black : (m RB_NIL).color = Color.BLACK
  stub_black : (m RB_ROOT).color = Color.BLACK

/-- What `insert_repair` leaves alone: the cached minimum, the allocator, the
log of destroyed elements and the deletion counters; the insertion counters
do not decrease and grow by at most two in total. -/
def InsFrame {α : Type} (s s2 : rbtree α) : Prop :=
  s2.min = s.min ∧ s2.brk = s.brk ∧ s2.destroyed = s.destroyed ∧
  s2.cnt_left_delete = s.cnt_left_delete ∧ s2.cnt_right_delete = s.cnt_right_delete ∧
  s.cnt_left_insert ≤ s2.cnt_left_insert ∧ s.cnt_right_insert ≤ s2.cnt_right_insert ∧
  s2.cnt_left_insert + s2.cnt_right_insert ≤ s.cnt_left_insert + s.cnt_right_insert + 2

/-- The colour state at the head of the loop of `insert_repair`: the current
node is RED, its subtree satisfies no-red-red and balance, and so does the
path above it, except for the link between the current node and its parent. -/
def RedFocus {α : Type} (fs : List (Frame α)) (u : Tree α) : Prop :=
  u.color = Color.RED ∧ u.noRedRed ∧ u.balanced ∧ CtxInv fs u.bh

/-- The comparisons along a path that the descent of `rb_insert` took for the
element `x`: it went left below a node whose element is greater than `x` and
right below every other node. -/
def PathOK {α : Type} (cmp : α → α → Int) (x : α) : List (Frame α) → Prop
  | [] => True
  | Frame.L _ _ d _ :: fs => cmp x d < 0 ∧ PathOK cmp x fs
  | Frame.R _ _ _ d :: fs => ¬ cmp x d < 0 ∧ PathOK cmp x fs

/-- Colour of the root of the whole shape, for a path whose lower end carries
a subtree with root colour `c`. -/
def ctxTop {α : Type} : List (Frame α) → Color → Color
  | [], c => c
  | f :: fs, _ => ctxTop fs f.color

/-- What `delete_repair` leaves alone: the cached minimum, the allocator, the
log of destroyed elements and the insertion counters; the deletion counters
do not decrease and grow by at most `n` in total. -/
def DelFrame {α : Type} (n : Nat) (s s2 : rbtree α) : Prop :=
  s2.min = s.min ∧ s2.brk = s.brk ∧ s2.destroyed = s.destroyed ∧
  s2.cnt_left_insert = s.cnt_left_insert ∧ s2.cnt_right_insert = s.cnt_right_insert ∧
  s.cnt_left_delete ≤ s2.cnt_left_delete ∧ s.cnt_right_delete ≤ s2.cnt_right_delete ∧
  s2.cnt_left_delete + s2.cnt_right_delete ≤ s.cnt_left_delete + s.cnt_right_delete + n

/-- What `rb_delete` does to the state outside the memory and the cached
minimum: the allocator and the insertion counters are left alone, the element
pointer `data` is handed to `destroy` exactly when `keep` is 0, and the
deletion counters do not decrease and grow by at most three in total. -/
def DeleteFrame {α : Type} (s s2 : rbtree α) (data : Option α) (keep : Int) : Prop :=
  s2.brk = s.brk ∧
  s2.destroyed = (if keep = 0 then s.destroyed ++ [data] else s.destroyed) ∧
  s2.cnt_left_insert = s.cnt_left_insert ∧ s2.cnt_right_insert = s.cnt_right_insert ∧
  s.cnt_left_delete ≤ s2.cnt_left_delete ∧ s.cnt_right_delete ≤ s2.cnt_right_delete ∧
  s2.cnt_left_delete + s2.cnt_right_delete ≤ s.cnt_left_delete + s.cnt_right_delete + 3

/-- The cached minimum is `NULL` or a node of the tree. -/
def MinValid {α : Type} (s : rbtree α) (t : Tree α) : Prop :=
  ∀ mn, s.min = some mn → mn ∈ t.addrs

/-- The address `a` is a node of the tree: a valid handle for `rb_delete`
and `rb_successor`. -/
def IsNode {α : Type} (s : rbtree α) (a : Nat) : Prop :=
  ∃ t, MWF s.mem t ∧ a ∈ t.addrs

/-- The tree states reachable from `rb_create` by calls of `rb_insert` and of
`rb_delete` on nodes of the tree. -/
inductive Reachable {α : Type} (cmp : α → α → Int) : rbtree α → Prop where
  | create : Reachable cmp rb_create
  | insert {s s2 : rbtree α} {x : α} {h : Option Nat} :
      Reachable cmp s → rb_insert cmp s x = some (s2, h) → Reachable cmp s2
  | delete {s s2 : rbtree α} {node : Nat} {keep : Int} {d : Option α} :
      Reachable cmp s → IsNode s node → rb_delete s node keep = some (s2, d) →
      Reachable cmp s2

/-- All invariants of a tree state with shape `t`: well-formedness, the colour
invariants, the order property, and the cached minimum is the leftmost node
(`NULL` for the empty tree). -/
structure Inv {α : Type} (cmp : α → α → Int) (s : rbtree α) (t : Tree α) : Prop where
  wf : WF s t
  color : ColorInv s t
  ordered : t.ordered cmp
  min : s.min = t.leftmost

/-- Whether a memory lays out a given shape can be computed. -/
instance Rep.decide {α : Type} [DecidableEq α] (m : Nat → rbnode α) :
    (p : Nat) → (t : Tree α) → Decidable (Rep m p t)
  | _, Tree.leaf => isTrue trivial
  | p, Tree.node l a c d r =>
    have := Rep.decide m a l
    have := Rep.decide m a r
    inferInstanceAs (Decidable (a ≠ RB_NIL ∧ a ≠ RB_ROOT ∧
      m a = { left := l.root, right := r.root, parent := p, color := c, data := some d } ∧
      Rep m a l ∧ Rep m a r))

/-! ## Concrete trees -/

/-- The tree of the example scenario: the keys 5, 3, 8, 1, 4, 7, 9 inserted in
that order into an empty tree. -/
def tree7 : rbtree Int :=
  (insert_list compare_func rb_create [5, 3, 8, 1, 4, 7, 9]).getD rb_create

/-- The shape of `tree7`. -/
def shape7 : Tree Int :=
  Tree.node
    (Tree.node (Tree.node Tree.leaf 5 Color.RED 1 Tree.leaf) 3 Color.BLACK 3
      (Tree.node Tree.leaf 6 Color.RED 4 Tree.leaf))
    2 Color.BLACK 5
    (Tree.node (Tree.node Tree.leaf 7 Color.RED 7 Tree.leaf) 4 Color.BLACK 8
      (Tree.node Tree.leaf 8 Color.RED 9 Tree.leaf))

/-- The tree of the example scenario after `rb_delete` on the node holding 5. -/
def tree6 : rbtree Int := ((rb_delete tree7 2 1).getD (rb_create, none)).1

/-- The shape of `tree6`. -/
def shape6 : Tree Int :=
  Tree.node
    (Tree.node (Tree.node Tree.leaf 5 Color.RED 1 Tree.leaf) 3 Color.BLACK 3
      (Tree.node Tree.leaf 6 Color.RED 4 Tree.leaf))
    2 Color.BLACK 7
    (Tree.node Tree.leaf 4 Color.BLACK 8 (Tree.node Tree.leaf 8 Color.RED 9 Tree.leaf))

/-- A tree with a duplicate: the keys 5, 5, 7 inserted in that order into an
empty tree. -/
def tree557 : rbtree Int := (insert_list compare_func rb_create [5, 5, 7]).getD rb_create

/-- The shape of `tree557`: the second 5 is the root, the first 5 its left
child. -/
def shape557 : Tree Int :=
  Tree.node (Tree.node Tree.leaf 2 Color.RED 5 Tree.leaf) 3 Color.BLACK 5
    (Tree.node Tree.leaf 4 Color.RED 7 Tree.leaf)

/-- A well-formed tree of one node holding 5 whose real root is RED. -/
def redRoot : rbtree Int :=
  { mem := fun a =>
      if a = 2 then
        { left := RB_NIL, right := RB_NIL, parent := RB_ROOT, color := Color.RED, data := some 5 }
      else if a = RB_ROOT then
        { left := 2, right := RB_NIL, parent := RB_NIL, color := Color.BLACK, data := none }
      else
        { left := RB_NIL, right := RB_NIL, parent := RB_NIL, color := Color.BLACK, data := none }
    min := some 2
    brk := 3
    destroyed := []
    cnt_left_insert := 0
    cnt_right_insert := 0
    cnt_left_delete := 0
    cnt_right_delete := 0 }

/-- The shape of `redRoot`. -/
def shapeRed : Tree Int := Tree.node Tree.leaf 2 Color.RED 5 Tree.leaf

/-!
# Traversal and the two checkers

The three recursive functions `rb_apply`, `check_order` and
`check_black_height` recurse on the links of the memory; each gets a fuel
argument that bounds the depth of the recursion.
-/

/-- The C enum `rbtraversal`. -/
inductive rbtraversal where
  | PREORDER
  | INORDER
  | POSTORDER
  deriving DecidableEq, Repr

/-- The recursion of `rb_apply` on the node `node`.  The visitor `func` gets
the element pointer of a node and the cookie; it returns the cookie as it
left it and its status.  The result is the cookie after the last call and the
status returned. -/
def rb_apply_rec {α σ : Type} (m : Nat → rbnode α) (func : Option α → σ → σ × Int)
    (order : rbtraversal) : Nat → Nat → σ → Option (σ × Int)
  | 0, _, _ => none
  | fuel + 1, node, cookie =>
    if node ≠ RB_NIL then
      let r1 := if order = rbtraversal.PREORDER then func (m node).data cookie else (cookie, 0)
      if r1.2 ≠ 0 then some r1
      else
        match rb_apply_rec m func order fuel (m node).left r1.1 with
        | none => none
        | some r2 =>
          if r2.2 ≠ 0 then some r2
          else
            let r3 := if order = rbtraversal.INORDER then func (m node).data r2.1 else (r2.1, 0)
            if r3.2 ≠ 0 then some r3
            else
              match rb_apply_rec m func order fuel (m node).right r3.1 with
              | none => none
              | some r4 =>
                if r4.2 ≠ 0 then some r4
                else
                  let r5 :=
                    if order = rbtraversal.POSTORDER then func (m node).data r4.1 else (r4.1, 0)
                  if r5.2 ≠ 0 then some r5 else some (r5.1, 0)
    else some (cookie, 0)

/-- The function `rb_apply`. -/
def rb_apply {α σ : Type} (s : rbtree α) (node : Nat) (func : Option α → σ → σ × Int)
    (cookie : σ) (order : rbtraversal) : Option (σ × Int) :=
  rb_apply_rec s.mem func order s.brk node cookie

/-- The function `check_order` (with `RB_DUP` defined): 1 if the subtree at
`n` is ordered within the bounds, else 0.  A node without an element cannot be
compared. -/
def check_order {α : Type} (cmp : α → α → Int) (m : Nat → rbnode α) :
    Nat → Nat → α → α → Option Int
  | 0, _, _, _ => none
  | fuel + 1, n, min, max =>
    if n = RB_NIL then some 1
    else
      match (m n).data with
      | none => none
      | some d =>
        if cmp d min < 0 ∨ cmp d max > 0 then some 0
        else
          match check_order cmp m fuel (m n).left min d with
          | none => none
          | some a =>
            if a = 0 then some 0
            else
              match check_order cmp m fuel (m n).right d max with
              | none => none
              | some b => some (if b ≠ 0 then 1 else 0)

/-- The function `rb_check_order`. -/
def rb_check_order {α : Type} (cmp : α → α → Int) (s : rbtree α) (min max : α) : Option Int :=
  check_order cmp s.mem s.brk (s.mem RB_ROOT).left min max

/-- The function `check_black_height`. -/
def check_black_height {α : Type} (m : Nat → rbnode α) : Nat → Nat → Option Int
  | 0, _ => none
  | fuel + 1, n =>
    if n = RB_NIL then some 1
    else if (m n).color = Color.RED ∧
        ((m (m n).left).color = Color.RED ∨ (m (m n).right).color = Color.RED ∨
          (m (m n).parent).color = Color.RED) then some 0
    else
      match check_black_height m fuel (m n).left with
      | none => none
      | some lbh =>
        if lbh = 0 then some 0
        else
          match check_black_height m fuel (m n).right with
          | none => none
          | some rbh =>
            if rbh = 0 then some 0
            else if lbh ≠ rbh then some 0
            else some (lbh + (if (m n).color = Color.BLACK then 1 else 0))

/-- The function `rb_check_black_height`. -/
def rb_check_black_height {α : Type} (s : rbtree α) : Option Int :=
  if (s.mem RB_ROOT).color = Color.RED ∨ (s.mem (s.mem RB_ROOT).left).color = Color.RED ∨
      (s.mem RB_NIL).color = Color.RED then some 0
  else check_black_height s.mem s.brk (s.mem RB_ROOT).left

/-! ## Specification side -/

/-- The black-height of the root of a shape as the glossary defines it: the
number of BLACK nodes on the (leftmost) path from the root to the sentinel,
the sentinel counted and the root itself not. -/
def Tree.blackHeight {α : Type} : Tree α → Nat
  | Tree.leaf => 0
  | Tree.node l _ _ _ _ => l.bh + 1

/-- The elements of a shape in pre-order. -/
def Tree.preorder {α : Type} : Tree α → List α
  | Tree.leaf => []
  | Tree.node l _ _ d r => d :: (l.preorder ++ r.preorder)

/-- The elements of a shape in post-order. -/
def Tree.postorder {α : Type} : Tree α → List α
  | Tree.leaf => []
  | Tree.node l _ _ d r => l.postorder ++ r.postorder ++ [d]

/-- The elements of a shape in the sequence of a traversal order. -/
def Tree.sequence {α : Type} (order : rbtraversal) (t : Tree α) : List α :=
  match order with
  | rbtraversal.PREORDER => t.preorder
  | rbtraversal.INORDER => t.inorder
  | rbtraversal.POSTORDER => t.postorder

/-- What the specification says of `rb_apply`: the visitor is called on the
elements of a sequence one after the other until it returns a status other
than 0; the result is that status, and 0 if there is none. -/
def visit_until {α σ : Type} (func : Option α → σ → σ × Int) : List (Option α) → σ → σ × Int
  | [], cookie => (cookie, 0)
  | x :: xs, cookie =>
    if (func x cookie).2 ≠ 0 then func x cookie else visit_until func xs (func x cookie).1

/-- A visitor that logs its calls: it appends the element it is called on to
the cookie and returns the status `g` gives for the element. -/
def log_visitor {α : Type} (g : Option α → Int) (x : Option α) (log : List (Option α)) :
    List (Option α) × Int :=
  (log ++ [x], g x)

/-- The memory of a tree state after `rotate_left` about `x`; the function
takes the memory only, the other fields of the state stay as they are. -/
def after_rotate_left {α : Type} (s : rbtree α) (x : Nat) : rbtree α :=
  { s with mem := rotate_left s.mem x }

/-- The memory of a tree state after `rotate_right` about `x`. -/
def after_rotate_right {α : Type} (s : rbtree α) (x : Nat) : rbtree α :=
  { s with mem := rotate_right s.mem x }

/-- The sentinel and the root stub are in `s2` as they were in `s`: the
sentinel's cell is unchanged, BLACK, linked to itself and without an element;
the colour of the stub is unchanged and BLACK; the right link of the stub is
unchanged and leads to the sentinel. -/
def GuardsKept {α : Type} (s s2 : rbtree α) : Prop :=
  s2.mem RB_NIL = s.mem RB_NIL ∧
  s2.mem RB_NIL = { left := RB_NIL, right := RB_NIL, parent := RB_NIL,
                    color := Color.BLACK, data := none } ∧
  (s2.mem RB_ROOT).color = (s.mem RB_ROOT).color ∧ (s2.mem RB_ROOT).color = Color.BLACK ∧
  (s2.mem RB_ROOT).right = (s.mem RB_ROOT).right ∧ (s2.mem RB_ROOT).right = RB_NIL

/-- The tree of the example scenario in the middle of `rb_insert` of the key
0: the new RED node, at address 9, is linked as the left child of the RED node
holding 1, and `insert_repair` has not run yet. -/
def tree7_linked : rbtree Int :=
  { tree7 with
    mem := set_left
      (set_node tree7.mem 9
        { left := RB_NIL, right := RB_NIL, parent := 5, color := Color.RED, data := some 0 })
      5 9
    brk := 10 }

/-- The path from the new node of `tree7_linked` up to the root: its parent
(holding 1, RED), its grandparent (holding 3, with the RED uncle holding 4 on
the other side) and the root. -/
def path7_linked : List (Frame Int) :=
  [Frame.L 5 Color.RED 1 Tree.leaf,
   Frame.L 3 Color.BLACK 3 (Tree.node Tree.leaf 6 Color.RED 4 Tree.leaf),
   Frame.L 2 Color.BLACK 5
     (Tree.node (Tree.node Tree.leaf 7 Color.RED 7 Tree.leaf) 4 Color.BLACK 8
       (Tree.node Tree.leaf 8 Color.RED 9 Tree.leaf))]

variable {α : Type}

/-! ## Memory writes -/

theorem RB_ROOT_ne_NIL : RB_ROOT ≠ RB_NIL := by decide

theorem put_left_eq (n : rbnode α) (v : Nat) : n.put_left v = { n with left := v } := by
  cases n; rfl

theorem put_right_eq (n : rbnode α) (v : Nat) : n.put_right v = { n with right := v } := by
  cases n; rfl

theorem put_parent_eq (n : rbnode α) (v : Nat) : n.put_parent v = { n with parent := v } := by
  cases n; rfl

theorem put_color_eq (n : rbnode α) (v : Color) : n.put_color v = { n with color := v } := by
  cases n; rfl

theorem put_data_eq (n : rbnode α) (v : Option α) : n.put_data v = { n with data := v } := by
  cases n; rfl

theorem set_left_apply (m : Nat → rbnode α) (a v b : Nat) :
    set_left m a v b = if b = a then { m a with left := v } else m b := by
  simp [set_left, put_left_eq]

theorem set_right_apply (m : Nat → rbnode α) (a v b : Nat) :
    set_right m a v b = if b = a then { m a with right := v } else m b := by
  simp [set_right, put_right_eq]

theorem set_parent_apply (m : Nat → rbnode α) (a v b : Nat) :
    set_parent m a v b = if b = a then { m a with parent := v } else m b := by
  simp [set_parent, put_parent_eq]

theorem set_color_apply (m : Nat → rbnode α) (a : Nat) (c : Color) (b : Nat) :
    set_color m a c b = if b = a then { m a with color := c } else m b := by
  simp [set_color, put_color_eq]

theorem set_data_apply (m : Nat → rbnode α) (a : Nat) (d : Option α) (b : Nat) :
    set_data m a d b = if b = a then { m a with data := d } else m b := by
  simp [set_data, put_data_eq]

theorem set_node_apply (m : Nat → rbnode α) (a : Nat) (n : rbnode α) (b : Nat) :
    set_node m a n b = if b = a then n else m b := rfl

theorem set_left_same (m : Nat → rbnode α) (a v : Nat) :
    set_left m a v a = { m a with left := v } := by simp [set_left_apply]

theorem set_left_other (m : Nat → rbnode α) (a v b : Nat) (h : b ≠ a) :
    set_left m a v b = m b := by simp [set_left_apply, h]

theorem set_right_same (m : Nat → rbnode α) (a v : Nat) :
    set_right m a v a = { m a with right := v } := by simp [set_right_apply]

theorem set_right_other (m : Nat → rbnode α) (a v b : Nat) (h : b ≠ a) :
    set_right m a v b = m b := by simp [set_right_apply, h]

theorem set_parent_same (m : Nat → rbnode α) (a v : Nat) :
    set_parent m a v a = { m a with parent := v } := by simp [set_parent_apply]

theorem set_parent_other (m : Nat → rbnode α) (a v b : Nat) (h : b ≠ a) :
    set_parent m a v b = m b := by simp [set_parent_apply, h]

theorem set_color_same (m : Nat → rbnode α) (a : Nat) (c : Color) :
    set_color m a c a = { m a with color := c } := by simp [set_color_apply]

theorem set_color_other (m : Nat → rbnode α) (a : Nat) (c : Color) (b : Nat) (h : b ≠ a) :
    set_color m a c b = m b := by simp [set_color_apply, h]

theorem set_data_same (m : Nat → rbnode α) (a : Nat) (d : Option α) :
    set_data m a d a = { m a with data := d } := by simp [set_data_apply]

theorem set_data_other (m : Nat → rbnode α) (a : Nat) (d : Option α) (b : Nat) (h : b ≠ a) :
    set_data m a d b = m b := by simp [set_data_apply, h]

theorem set_node_same (m : Nat → rbnode α) (a : Nat) (n : rbnode α) :
    set_node m a n a = n := by simp [set_node]

theorem set_node_other (m : Nat → rbnode α) (a : Nat) (n : rbnode α) (b : Nat) (h : b ≠ a) :
    set_node m a n b = m b := by simp [set_node, h]

/-! ## Shapes and paths -/

theorem addrs_node (l : Tree α) (a : Nat) (c : Color) (d : α) (r : Tree α) :
    (Tree.node l a c d r).addrs = l.addrs ++ a :: r.addrs := by
  simp [Tree.addrs, Tree.nodes]

theorem addrs_leaf : (Tree.leaf : Tree α).addrs = [] := rfl

theorem inorder_node (l : Tree α) (a : Nat) (c : Color) (d : α) (r : Tree α) :
    (Tree.node l a c d r).inorder = l.inorder ++ d :: r.inorder := by
  simp [Tree.inorder, Tree.nodes]

theorem nodes_plug (fs : List (Frame α)) (t : Tree α) :
    (plug fs t).nodes = ctxBefore fs ++ t.nodes ++ ctxAfter fs := by
  induction fs generalizing t with
  | nil => simp [plug, ctxBefore, ctxAfter]
  | cons f fs ih =>
    cases f <;> simp [plug, Frame.fill, ih, ctxBefore, ctxAfter, Tree.nodes]

theorem addrs_plug (fs : List (Frame α)) (t : Tree α) :
    (plug fs t).addrs = (ctxBefore fs).map Prod.fst ++ t.addrs ++ (ctxAfter fs).map Prod.fst := by
  simp [Tree.addrs, nodes_plug]

theorem mem_addrs_plug (fs : List (Frame α)) (t : Tree α) (k : Nat) :
    k ∈ (plug fs t).addrs ↔ k ∈ t.addrs ∨ k ∈ ctxAddrs fs := by
  simp [addrs_plug, ctxAddrs]; tauto

theorem nodup_plug (fs : List (Frame α)) (t : Tree α) :
    (plug fs t).addrs.Nodup ↔
      t.addrs.Nodup ∧ (ctxAddrs fs).Nodup ∧ ∀ k ∈ t.addrs, k ∉ ctxAddrs fs := by
  rw [addrs_plug, ctxAddrs]
  simp only [List.nodup_append, List.mem_append, List.Disjoint]
  constructor
  · rintro ⟨⟨h1, h2, h3⟩, h4, h5⟩
    refine ⟨h2, ⟨h1, h4, ?_⟩, ?_⟩
    · intro a ha hb; exact h5 (Or.inl ha) hb
    · intro k hk hk2
      rcases hk2 with hk2 | hk2
      · exact h3 hk2 hk
      · exact h5 (Or.inr hk) hk2
  · rintro ⟨h2, ⟨h1, h4, h6⟩, h7⟩
    refine ⟨⟨h1, h2, ?_⟩, h4, ?_⟩
    · intro a ha hb; exact h7 a hb (Or.inl ha)
    · intro a ha hb
      rcases ha with ha | ha
      · exact h6 ha hb
      · exact h7 a ha (Or.inr hb)

theorem ctxParent_mem (f : Frame α) (fs : List (Frame α)) :
    ctxParent (f :: fs) ∈ ctxAddrs (f :: fs) := by
  cases f <;> simp [ctxParent, ctxAddrs, ctxBefore, ctxAfter, Frame.addr]

theorem ctxAddrs_cons_L (a : Nat) (c : Color) (d : α) (r : Tree α) (fs : List (Frame α))
    (k : Nat) :
    k ∈ ctxAddrs (Frame.L a c d r :: fs) ↔ k = a ∨ k ∈ r.addrs ∨ k ∈ ctxAddrs fs := by
  simp [ctxAddrs, ctxBefore, ctxAfter, Tree.addrs]; tauto

theorem ctxAddrs_cons_R (l : Tree α) (a : Nat) (c : Color) (d : α) (fs : List (Frame α))
    (k : Nat) :
    k ∈ ctxAddrs (Frame.R l a c d :: fs) ↔ k = a ∨ k ∈ l.addrs ∨ k ∈ ctxAddrs fs := by
  simp [ctxAddrs, ctxBefore, ctxAfter, Tree.addrs]; tauto

theorem nodup_ctxAddrs_L {a : Nat} {c : Color} {d : α} {r : Tree α} {fs : List (Frame α)}
    (h : (ctxAddrs (Frame.L a c d r :: fs)).Nodup) :
    a ∉ r.addrs ∧ a ∉ ctxAddrs fs ∧ r.addrs.Nodup ∧ (ctxAddrs fs).Nodup ∧
      ∀ k ∈ r.addrs, k ∉ ctxAddrs fs := by
  have h2 : (plug fs (Tree.node Tree.leaf a c d r)).addrs.Nodup := by
    rw [addrs_plug]
    simpa [ctxAddrs, ctxBefore, ctxAfter, Tree.addrs, Tree.nodes] using h
  rw [nodup_plug] at h2
  obtain ⟨h3, h4, h5⟩ := h2
  simp only [addrs_node, addrs_leaf, List.nil_append, List.nodup_cons, List.mem_cons] at h3 h5
  refine ⟨h3.1, h5 a (Or.inl rfl), h3.2, h4, fun k hk => h5 k (Or.inr hk)⟩

theorem nodup_ctxAddrs_R {l : Tree α} {a : Nat} {c : Color} {d : α} {fs : List (Frame α)}
    (h : (ctxAddrs (Frame.R l a c d :: fs)).Nodup) :
    a ∉ l.addrs ∧ a ∉ ctxAddrs fs ∧ l.addrs.Nodup ∧ (ctxAddrs fs).Nodup ∧
      ∀ k ∈ l.addrs, k ∉ ctxAddrs fs := by
  have h2 : (plug fs (Tree.node l a c d Tree.leaf)).addrs.Nodup := by
    rw [addrs_plug]
    simpa [ctxAddrs, ctxBefore, ctxAfter, Tree.addrs, Tree.nodes] using h
  rw [nodup_plug] at h2
  obtain ⟨h3, h4, h5⟩ := h2
  simp only [addrs_node, addrs_leaf, List.append_nil, List.nodup_append, List.nodup_cons,
    List.mem_append, List.mem_cons, List.not_mem_nil, List.nodup_nil, List.Disjoint,
    List.mem_singleton] at h3 h5
  refine ⟨?_, h5 a (Or.inr (Or.inl rfl)), h3.1, h4, fun k hk => h5 k (Or.inl hk)⟩
  intro ha
  exact h3.2.2 ha (Or.inl rfl)

/-! ## Layout of shapes -/

theorem Rep.congr {m m2 : Nat → rbnode α} {p : Nat} {t : Tree α} (h : Rep m p t)
    (hm : ∀ a ∈ t.addrs, m2 a = m a) : Rep m2 p t := by
  induction t generalizing p with
  | leaf => trivial
  | node l a c d r ihl ihr =>
    obtain ⟨h1, h2, h3, h4, h5⟩ := h
    refine ⟨h1, h2, ?_, ihl h4 ?_, ihr h5 ?_⟩
    · rw [hm a (by simp [addrs_node]), h3]
    · intro k hk; exact hm k (by simp [addrs_node, hk])
    · intro k hk; exact hm k (by simp [addrs_node, hk])

theorem Rep.ne_nil {m : Nat → rbnode α} {p : Nat} {t : Tree α} (h : Rep m p t) :
    ∀ a ∈ t.addrs, a ≠ RB_NIL ∧ a ≠ RB_ROOT := by
  induction t generalizing p with
  | leaf => intro a ha; simp [addrs_leaf] at ha
  | node l x c d r ihl ihr =>
    obtain ⟨h1, h2, _, h4, h5⟩ := h
    intro a ha
    simp only [addrs_node, List.mem_append, List.mem_cons] at ha
    rcases ha with ha | rfl | ha
    · exact ihl h4 a ha
    · exact ⟨h1, h2⟩
    · exact ihr h5 a ha

theorem root_mem_or_nil (t : Tree α) : t.root = RB_NIL ∨ t.root ∈ t.addrs := by
  cases t with
  | leaf => left; rfl
  | node l a c d r => right; simp [Tree.root, addrs_node]

/-- Moving a laid-out shape below another parent: only the parent link of its
root changes. -/
theorem Rep.reparent {m m2 : Nat → rbnode α} {p q : Nat} {t : Tree α} (h : Rep m p t)
    (hnd : t.addrs.Nodup)
    (hroot : t.root ≠ RB_NIL → m2 t.root = { m t.root with parent := q })
    (hm : ∀ a ∈ t.addrs, a ≠ t.root → m2 a = m a) : Rep m2 q t := by
  cases t with
  | leaf => trivial
  | node l a c d r =>
    obtain ⟨h1, h2, h3, h4, h5⟩ := h
    simp only [addrs_node, List.nodup_append, List.nodup_cons, List.Disjoint,
      List.mem_cons] at hnd
    obtain ⟨hl, ⟨har, hr⟩, hd⟩ := hnd
    have hal : a ∉ l.addrs := fun ha => hd ha (Or.inl rfl)
    refine ⟨h1, h2, ?_, h4.congr ?_, h5.congr ?_⟩
    · have := hroot h1
      simp only [Tree.root] at this
      rw [this, h3]
    · intro k hk
      exact hm k (by simp [addrs_node, hk]) (by rintro rfl; exact hal hk)
    · intro k hk
      exact hm k (by simp [addrs_node, hk]) (by rintro rfl; exact har hk)

theorem RepCtx.congr_ctx {m m2 : Nat → rbnode α} {fs : List (Frame α)} {a : Nat}
    (h : RepCtx m fs a) (hroot : (m2 RB_ROOT).left = (m RB_ROOT).left)
    (hm : ∀ k ∈ ctxAddrs fs, m2 k = m k) : RepCtx m2 fs a := by
  induction fs generalizing a with
  | nil => simp only [RepCtx] at h ⊢; rw [hroot, h]
  | cons f fs ih =>
    cases f with
    | L x c d r =>
      obtain ⟨h1, h2, h3, h4, h5⟩ := h
      refine ⟨h1, h2, ?_, h4.congr ?_, ih h5 ?_⟩
      · rw [hm x ((ctxAddrs_cons_L ..).2 (Or.inl rfl)), h3]
      · intro k hk; exact hm k ((ctxAddrs_cons_L ..).2 (Or.inr (Or.inl hk)))
      · intro k hk; exact hm k ((ctxAddrs_cons_L ..).2 (Or.inr (Or.inr hk)))
    | R l x c d =>
      obtain ⟨h1, h2, h3, h4, h5⟩ := h
      refine ⟨h1, h2, ?_, h4.congr ?_, ih h5 ?_⟩
      · rw [hm x ((ctxAddrs_cons_R ..).2 (Or.inl rfl)), h3]
      · intro k hk; exact hm k ((ctxAddrs_cons_R ..).2 (Or.inr (Or.inl hk)))
      · intro k hk; exact hm k ((ctxAddrs_cons_R ..).2 (Or.inr (Or.inr hk)))

theorem RepCtx.ne_nil_ctx {m : Nat → rbnode α} {fs : List (Frame α)} {a : Nat}
    (h : RepCtx m fs a) : ∀ k ∈ ctxAddrs fs, k ≠ RB_NIL ∧ k ≠ RB_ROOT := by
  induction fs generalizing a with
  | nil => intro k hk; simp [ctxAddrs, ctxBefore, ctxAfter] at hk
  | cons f fs ih =>
    cases f with
    | L x c d r =>
      obtain ⟨h1, h2, _, h4, h5⟩ := h
      intro k hk
      rcases (ctxAddrs_cons_L ..).1 hk with rfl | hk | hk
      · exact ⟨h1, h2⟩
      · exact h4.ne_nil k hk
      · exact ih h5 k hk
    | R l x c d =>
      obtain ⟨h1, h2, _, h4, h5⟩ := h
      intro k hk
      rcases (ctxAddrs_cons_R ..).1 hk with rfl | hk | hk
      · exact ⟨h1, h2⟩
      · exact h4.ne_nil k hk
      · exact ih h5 k hk

theorem ctxParent_ne_nil {m : Nat → rbnode α} {fs : List (Frame α)} {a : Nat}
    (h : RepCtx m fs a) : ctxParent fs ≠ RB_NIL := by
  cases fs with
  | nil => exact RB_ROOT_ne_NIL
  | cons f fs => exact (h.ne_nil_ctx _ (ctxParent_mem f fs)).1

/-- The link on the path's side already leads to the node below. -/
theorem RepCtx.holeSet_self {m : Nat → rbnode α} {fs : List (Frame α)} {a : Nat}
    (h : RepCtx m fs a) : holeSet fs (m (ctxParent fs)) a = m (ctxParent fs) := by
  cases fs with
  | nil => simp only [RepCtx] at h; simp [holeSet, ctxParent, ← h]
  | cons f fs =>
    cases f with
    | L x c d r => obtain ⟨_, _, h3, _, _⟩ := h; simp [holeSet, ctxParent, Frame.addr, h3]
    | R l x c d => obtain ⟨_, _, h3, _, _⟩ := h; simp [holeSet, ctxParent, Frame.addr, h3]

/-- Redirecting the link at the lower end of a laid-out path. -/
theorem RepCtx.replace_ctx {m m2 : Nat → rbnode α} {fs : List (Frame α)} {a b : Nat}
    (h : RepCtx m fs a) (hnd : (ctxAddrs fs).Nodup)
    (hp : m2 (ctxParent fs) = holeSet fs (m (ctxParent fs)) b)
    (hroot : fs ≠ [] → (m2 RB_ROOT).left = (m RB_ROOT).left)
    (hm : ∀ k ∈ ctxAddrs fs, k ≠ ctxParent fs → m2 k = m k) : RepCtx m2 fs b := by
  cases fs with
  | nil =>
    simp only [RepCtx]
    simp only [ctxParent, holeSet] at hp
    rw [hp]
  | cons f fs =>
    have hroot2 := hroot (by simp)
    cases f with
    | L x c d r =>
      obtain ⟨h1, h2, h3, h4, h5⟩ := h
      obtain ⟨n1, n2, _, _, _⟩ := nodup_ctxAddrs_L hnd
      simp only [ctxParent, Frame.addr, holeSet] at hp hm
      refine ⟨h1, h2, ?_, h4.congr ?_, h5.congr_ctx hroot2 ?_⟩
      · rw [hp, h3]
      · intro k hk
        exact hm k ((ctxAddrs_cons_L ..).2 (Or.inr (Or.inl hk))) (by rintro rfl; exact n1 hk)
      · intro k hk
        exact hm k ((ctxAddrs_cons_L ..).2 (Or.inr (Or.inr hk))) (by rintro rfl; exact n2 hk)
    | R l x c d =>
      obtain ⟨h1, h2, h3, h4, h5⟩ := h
      obtain ⟨n1, n2, _, _, _⟩ := nodup_ctxAddrs_R hnd
      simp only [ctxParent, Frame.addr, holeSet] at hp hm
      refine ⟨h1, h2, ?_, h4.congr ?_, h5.congr_ctx hroot2 ?_⟩
      · rw [hp, h3]
      · intro k hk
        exact hm k ((ctxAddrs_cons_R ..).2 (Or.inr (Or.inl hk))) (by rintro rfl; exact n1 hk)
      · intro k hk
        exact hm k ((ctxAddrs_cons_R ..).2 (Or.inr (Or.inr hk))) (by rintro rfl; exact n2 hk)

/-- A shape put at the end of a path is laid out below the stub exactly when
the path is laid out above its root and the shape below the end of the path. -/
theorem rep_plug {m : Nat → rbnode α} {fs : List (Frame α)} {t : Tree α} :
    (m RB_ROOT).left = (plug fs t).root ∧ Rep m RB_ROOT (plug fs t) ↔
      RepCtx m fs t.root ∧ Rep m (ctxParent fs) t := by
  induction fs generalizing t with
  | nil => simp [plug, RepCtx, ctxParent]
  | cons f fs ih =>
    cases f with
    | L x c d r =>
      have h := @ih (Tree.node t x c d r)
      constructor
      · intro h0
        obtain ⟨h1, h2, h3, h4, h5, h6⟩ := h.1 h0
        exact ⟨⟨h2, h3, h4, h6, h1⟩, h5⟩
      · rintro ⟨⟨h2, h3, h4, h6, h1⟩, h5⟩
        exact h.2 ⟨h1, h2, h3, h4, h5, h6⟩
    | R l x c d =>
      have h := @ih (Tree.node l x c d t)
      constructor
      · intro h0
        obtain ⟨h1, h2, h3, h4, h5, h6⟩ := h.1 h0
        exact ⟨⟨h2, h3, h4, h5, h1⟩, h6⟩
      · rintro ⟨⟨h2, h3, h4, h5, h1⟩, h6⟩
        exact h.2 ⟨h1, h2, h3, h4, h5, h6⟩

/-! ## Well-formed memories along a path -/

theorem MWF.split {m : Nat → rbnode α} {fs : List (Frame α)} {t : Tree α}
    (h : MWF m (plug fs t)) :
    RepCtx m fs t.root ∧ Rep m (ctxParent fs) t ∧ t.addrs.Nodup ∧ (ctxAddrs fs).Nodup ∧
      ∀ k ∈ t.addrs, k ∉ ctxAddrs fs := by
  obtain ⟨h1, h2⟩ := rep_plug.1 ⟨h.stub_left, h.rep⟩
  obtain ⟨h3, h4, h5⟩ := (nodup_plug fs t).1 h.nodup
  exact ⟨h1, h2, h3, h4, h5⟩

/-- The record of a node, read off the shape. -/
theorem MWF.read {m : Nat → rbnode α} {fs : List (Frame α)} {l r : Tree α} {a : Nat}
    {c : Color} {d : α} (h : MWF m (plug fs (Tree.node l a c d r))) :
    m a = { left := l.root, right := r.root, parent := ctxParent fs, color := c,
            data := some d } :=
  h.split.2.1.2.2.1

theorem MWF.parent_not_mem {m : Nat → rbnode α} {fs : List (Frame α)} {t : Tree α}
    (h : MWF m (plug fs t)) : ctxParent fs ∉ t.addrs := by
  obtain ⟨h1, h2, _, _, h5⟩ := h.split
  cases fs with
  | nil => intro hk; exact (h2.ne_nil _ hk).2 rfl
  | cons f fs => intro hk; exact h5 _ hk (ctxParent_mem f fs)

/-- Replacing the shape at the lower end of a path: the new shape is laid out
there, the node above links to it, and nothing else changed. -/
theorem MWF.replace {m m2 : Nat → rbnode α} {fs : List (Frame α)} {t t2 : Tree α}
    (h : MWF m (plug fs t)) (hrep : Rep m2 (ctxParent fs) t2)
    (hnd : t2.addrs.Nodup) (hdisj : ∀ k ∈ t2.addrs, k ∉ ctxAddrs fs)
    (hp : m2 (ctxParent fs) = holeSet fs (m (ctxParent fs)) t2.root)
    (hm : ∀ k, k ∉ t.addrs → k ∉ t2.addrs → k ≠ ctxParent fs → m2 k = m k) :
    MWF m2 (plug fs t2) ∧ m2 RB_NIL = m RB_NIL ∧
      (m2 RB_ROOT).color = (m RB_ROOT).color := by
  obtain ⟨h1, h2, h3, h4, h5⟩ := h.split
  have hnil : m2 RB_NIL = m RB_NIL :=
    hm _ (fun hk => (h2.ne_nil _ hk).1 rfl) (fun hk => (hrep.ne_nil _ hk).1 rfl)
      (ctxParent_ne_nil h1).symm
  have hrootcell : fs ≠ [] → m2 RB_ROOT = m RB_ROOT := by
    intro hfs
    refine hm _ (fun hk => (h2.ne_nil _ hk).2 rfl) (fun hk => (hrep.ne_nil _ hk).2 rfl) ?_
    cases fs with
    | nil => exact absurd rfl hfs
    | cons f fs => exact ((h1.ne_nil_ctx _ (ctxParent_mem f fs)).2).symm
  have hstub : (m2 RB_ROOT).right = (m RB_ROOT).right ∧
      (m2 RB_ROOT).parent = (m RB_ROOT).parent ∧ (m2 RB_ROOT).data = (m RB_ROOT).data ∧
      (m2 RB_ROOT).color = (m RB_ROOT).color := by
    cases fs with
    | nil =>
      simp only [ctxParent, holeSet] at hp
      rw [hp]; exact ⟨rfl, rfl, rfl, rfl⟩
    | cons f fs =>
      rw [hrootcell (by simp)]; exact ⟨rfl, rfl, rfl, rfl⟩
  have hctx : RepCtx m2 fs t2.root := by
    refine h1.replace_ctx h4 hp (fun hfs => by rw [hrootcell hfs]) ?_
    intro k hk hkp
    exact hm k (fun hk2 => h5 k hk2 hk) (fun hk2 => hdisj k hk2 hk) hkp
  obtain ⟨g1, g2⟩ := rep_plug.2 ⟨hctx, hrep⟩
  refine ⟨⟨?_, ?_, ?_, ?_, g1, ?_, ?_, ?_, g2, ?_⟩, hnil, hstub.2.2.2⟩
  · rw [hnil]; exact h.nil_left
  · rw [hnil]; exact h.nil_right
  · rw [hnil]; exact h.nil_parent
  · rw [hnil]; exact h.nil_data
  · rw [hstub.1]; exact h.stub_right
  · rw [hstub.2.1]; exact h.stub_parent
  · rw [hstub.2.2.1]; exact h.stub_data
  · exact (nodup_plug fs t2).2 ⟨hnd, h4, hdisj⟩

/-- As `MWF.replace`, for a new shape with the same nodes in the same order. -/
theorem MWF.replace_same {m m2 : Nat → rbnode α} {fs : List (Frame α)} {t t2 : Tree α}
    (h : MWF m (plug fs t)) (hrep : Rep m2 (ctxParent fs) t2)
    (hnodes : t2.addrs = t.addrs)
    (hp : m2 (ctxParent fs) = holeSet fs (m (ctxParent fs)) t2.root)
    (hm : ∀ k, k ∉ t.addrs → k ≠ ctxParent fs → m2 k = m k) :
    MWF m2 (plug fs t2) ∧ m2 RB_NIL = m RB_NIL ∧
      (m2 RB_ROOT).color = (m RB_ROOT).color := by
  obtain ⟨_, _, h3, _, h5⟩ := h.split
  refine h.replace hrep (hnodes ▸ h3) (hnodes ▸ h5) hp ?_
  intro k hk _ hkp
  exact hm k hk hkp

/-- Recolouring the node at the lower end of a path. -/
theorem MWF.paint_mem {m : Nat → rbnode α} {fs : List (Frame α)} {l r : Tree α} {a : Nat}
    {c : Color} {d : α} (h : MWF m (plug fs (Tree.node l a c d r))) (c2 : Color) :
    MWF (set_color m a c2) (plug fs (Tree.node l a c2 d r)) ∧
      set_color m a c2 RB_NIL = m RB_NIL ∧
      (set_color m a c2 RB_ROOT).color = (m RB_ROOT).color := by
  obtain ⟨h1, h2, h3, _, _⟩ := h.split
  have hpa : ctxParent fs ≠ a := by
    intro e; exact h.parent_not_mem (by simp [addrs_node, e])
  obtain ⟨r1, r2, r3, r4, r5⟩ := h2
  simp only [addrs_node, List.nodup_append, List.nodup_cons, List.Disjoint,
    List.mem_cons] at h3
  obtain ⟨_, ⟨har, _⟩, hd⟩ := h3
  have hal : a ∉ l.addrs := fun ha => hd ha (Or.inl rfl)
  refine h.replace_same ⟨r1, r2, ?_, r4.congr ?_, r5.congr ?_⟩ ?_ ?_ ?_
  · rw [set_color_same, r3]
  · intro k hk; exact set_color_other _ _ _ _ (by rintro rfl; exact hal hk)
  · intro k hk; exact set_color_other _ _ _ _ (by rintro rfl; exact har hk)
  · simp [addrs_node]
  · rw [set_color_other _ _ _ _ hpa]; exact h1.holeSet_self.symm
  · intro k hk _
    exact set_color_other _ _ _ _ (by rintro rfl; exact hk (by simp [addrs_node]))

/-! ## Rotations -/

theorem rotate_left_cell (m : Nat → rbnode α) (x y a b c p : Nat) (cx cy : Color)
    (dx dy : Option α)
    (hx : m x = { left := a, right := y, parent := p, color := cx, data := dx })
    (hy : m y = { left := b, right := c, parent := x, color := cy, data := dy })
    (hxy : x ≠ y) (hbx : b ≠ x) (hby : b ≠ y) (hpx : p ≠ x) (hpy : p ≠ y) (hpb : p ≠ b)
    (k : Nat) :
    rotate_left m x k =
      if k = x then { left := a, right := b, parent := y, color := cx, data := dx }
      else if k = y then { left := x, right := c, parent := p, color := cy, data := dy }
      else if k = p then
        (if x = (m p).left then { m p with left := y } else { m p with right := y })
      else if k = b ∧ b ≠ RB_NIL then { m b with parent := x }
      else m k := by
  have hyx := hxy.symm
  have hxb := hbx.symm
  have hyb := hby.symm
  have hxp := hpx.symm
  have hyp := hpy.symm
  have hbp := hpb.symm
  by_cases hb : b = RB_NIL
  · by_cases hl : x = (m p).left
    · simp [rotate_left, set_left_apply, set_right_apply, set_parent_apply, hx, hy, hb, hxy, hyx, hpx, hpy, hxp,
        hyp, ← hl]
      split_ifs <;> simp_all
    · simp [rotate_left, set_left_apply, set_right_apply, set_parent_apply, hx, hy, hb, hxy, hyx, hpx, hpy, hxp,
        hyp, hl]
      split_ifs <;> simp_all
  · by_cases hl : x = (m p).left
    · simp [rotate_left, set_left_apply, set_right_apply, set_parent_apply, hx, hy, hb, hxy, hyx, hpx, hpy, hxp,
        hyp, hbx, hxb, hby, hyb, hpb, hbp, ← hl]
      split_ifs <;> simp_all
    · simp [rotate_left, set_left_apply, set_right_apply, set_parent_apply, hx, hy, hb, hxy, hyx, hpx, hpy, hxp,
        hyp, hbx, hxb, hby, hyb, hpb, hbp, hl]
      split_ifs <;> simp_all

theorem rotate_right_cell (m : Nat → rbnode α) (x y a b c p : Nat) (cx cy : Color)
    (dx dy : Option α)
    (hx : m x = { left := y, right := c, parent := p, color := cx, data := dx })
    (hy : m y = { left := a, right := b, parent := x, color := cy, data := dy })
    (hxy : x ≠ y) (hbx : b ≠ x) (hby : b ≠ y) (hpx : p ≠ x) (hpy : p ≠ y) (hpb : p ≠ b)
    (k : Nat) :
    rotate_right m x k =
      if k = x then { left := b, right := c, parent := y, color := cx, data := dx }
      else if k = y then { left := a, right := x, parent := p, color := cy, data := dy }
      else if k = p then
        (if x = (m p).left then { m p with left := y } else { m p with right := y })
      else if k = b ∧ b ≠ RB_NIL then { m b with parent := x }
      else m k := by
  have hyx := hxy.symm
  have hxb := hbx.symm
  have hyb := hby.symm
  have hxp := hpx.symm
  have hyp := hpy.symm
  have hbp := hpb.symm
  by_cases hb : b = RB_NIL
  · by_cases hl : x = (m p).left
    · simp [rotate_right, set_left_apply, set_right_apply, set_parent_apply, hx, hy, hb, hxy, hyx, hpx, hpy, hxp,
        hyp, ← hl]
      split_ifs <;> simp_all
    · simp [rotate_right, set_left_apply, set_right_apply, set_parent_apply, hx, hy, hb, hxy, hyx, hpx, hpy, hxp,
        hyp, hl]
      split_ifs <;> simp_all
  · by_cases hl : x = (m p).left
    · simp [rotate_right, set_left_apply, set_right_apply, set_parent_apply, hx, hy, hb, hxy, hyx, hpx, hpy, hxp,
        hyp, hbx, hxb, hby, hyb, hpb, hbp, ← hl]
      split_ifs <;> simp_all
    · simp [rotate_right, set_left_apply, set_right_apply, set_parent_apply, hx, hy, hb, hxy, hyx, hpx, hpy, hxp,
        hyp, hbx, hxb, hby, hyb, hpb, hbp, hl]
      split_ifs <;> simp_all

/-- The test `x == x->parent->left` picks the link of the parent that leads to `x`. -/
theorem RepCtx.redirect {m : Nat → rbnode α} {fs : List (Frame α)} {x : Nat}
    (h : RepCtx m fs x) (hx : x ≠ RB_NIL) (hnot : x ∉ ctxAddrs fs) (y : Nat) :
    (if x = (m (ctxParent fs)).left then { m (ctxParent fs) with left := y }
      else { m (ctxParent fs) with right := y }) = holeSet fs (m (ctxParent fs)) y := by
  cases fs with
  | nil =>
    simp only [RepCtx] at h
    simp [ctxParent, holeSet, h]
  | cons f fs =>
    cases f with
    | L a c d r =>
      obtain ⟨_, _, h3, _, _⟩ := h
      simp [ctxParent, holeSet, Frame.addr, h3]
    | R l a c d =>
      obtain ⟨_, _, h3, _, _⟩ := h
      have hxl : x ≠ l.root := by
        rcases root_mem_or_nil l with e | e
        · rw [e]; exact hx
        · intro e2; exact hnot ((ctxAddrs_cons_R ..).2 (Or.inr (Or.inl (e2 ▸ e))))
      simp [ctxParent, holeSet, Frame.addr, h3, hxl]

/-- The function `rotate_left` at the node at the lower end of a path whose
right child is a node: the child takes its place. -/
theorem MWF.rotl_mem {m : Nat → rbnode α} {fs : List (Frame α)} {A B C : Tree α}
    {x y : Nat} {cx cy : Color} {dx dy : α}
    (h : MWF m (plug fs (Tree.node A x cx dx (Tree.node B y cy dy C)))) :
    MWF (rotate_left m x) (plug fs (Tree.node (Tree.node A x cx dx B) y cy dy C)) ∧
      rotate_left m x RB_NIL = m RB_NIL ∧
      (rotate_left m x RB_ROOT).color = (m RB_ROOT).color := by
  obtain ⟨h1, h2, h3, _, h5⟩ := h.split
  have hpar := h.parent_not_mem
  obtain ⟨x1, x2, hx, rA, y1, y2, hy, rB, rC⟩ := h2
  simp only [addrs_node, List.nodup_append, List.nodup_cons, List.Disjoint, List.mem_cons,
    List.mem_append, not_or] at h3 hpar h5
  obtain ⟨ndA, ⟨⟨hxB, hxy, hxC⟩, ndB, ⟨hyC, ndC⟩, dBC⟩, dA⟩ := h3
  have hxA : x ∉ A.addrs := fun e => dA e (Or.inl rfl)
  have hyA : y ∉ A.addrs := fun e => dA e (Or.inr (Or.inr (Or.inl rfl)))
  have hyB : y ∉ B.addrs := fun e => dBC e (Or.inl rfl)
  have hpx : ctxParent fs ≠ x := fun e => hpar.2.1 e
  have hpy : ctxParent fs ≠ y := fun e => hpar.2.2.2.1 e
  have hbx : B.root ≠ x := by
    rcases root_mem_or_nil B with e | e
    · rw [e]; exact fun e2 => x1 e2.symm
    · intro e2; exact hxB (e2 ▸ e)
  have hby : B.root ≠ y := by
    rcases root_mem_or_nil B with e | e
    · rw [e]; exact fun e2 => y1 e2.symm
    · intro e2; exact hyB (e2 ▸ e)
  have hpb : ctxParent fs ≠ B.root := by
    rcases root_mem_or_nil B with e | e
    · rw [e]; exact ctxParent_ne_nil h1
    · intro e2; exact hpar.2.2.1 (e2 ▸ e)
  have cell := rotate_left_cell m x y A.root B.root C.root (ctxParent fs) cx cy (some dx)
    (some dy) hx hy hxy hbx hby hpx hpy hpb
  have hout : ∀ k, k ≠ x → k ≠ y → k ≠ ctxParent fs → k ∉ B.addrs →
      rotate_left m x k = m k := by
    intro k k1 k2 k3 k4
    rw [cell k, if_neg k1, if_neg k2, if_neg k3, if_neg]
    rintro ⟨e1, e2⟩
    rcases root_mem_or_nil B with e | e
    · exact e2 e
    · exact k4 (e1 ▸ e)
  refine h.replace_same ⟨y1, y2, ?_, ⟨x1, x2, ?_, rA.congr ?_, rB.reparent ndB ?_ ?_⟩,
    rC.congr ?_⟩ ?_ ?_ ?_
  · rw [cell y, if_neg (Ne.symm hxy), if_pos rfl]; rfl
  · rw [cell x, if_pos rfl]
  · intro k hk
    exact hout k (by rintro rfl; exact hxA hk) (by rintro rfl; exact hyA hk)
      (by rintro rfl; exact hpar.1 hk) (fun e => dA hk (Or.inr (Or.inl e)))
  · intro hb
    rw [cell B.root, if_neg hbx, if_neg hby, if_neg hpb.symm, if_pos ⟨rfl, hb⟩]
  · intro k hk hkr
    rw [cell k, if_neg (by rintro rfl; exact hxB hk), if_neg (by rintro rfl; exact hyB hk),
      if_neg (by rintro rfl; exact hpar.2.2.1 hk), if_neg (fun e => hkr e.1)]
  · intro k hk
    exact hout k (by rintro rfl; exact hxC hk) (by rintro rfl; exact hyC hk)
      (by rintro rfl; exact hpar.2.2.2.2 hk) (fun e => dBC e (Or.inr hk))
  · simp [addrs_node]
  · rw [cell _, if_neg hpx, if_neg hpy, if_pos rfl]
    refine h1.redirect x1 ?_ y
    exact h5 x (Or.inr (Or.inl rfl))
  · intro k hk hkp
    simp only [addrs_node, List.mem_append, List.mem_cons, not_or] at hk
    exact hout k hk.2.1 hk.2.2.2.1 hkp hk.2.2.1

/-- The function `rotate_right` at the node at the lower end of a path whose
left child is a node: the child takes its place. -/
theorem MWF.rotr_mem {m : Nat → rbnode α} {fs : List (Frame α)} {A B C : Tree α}
    {x y : Nat} {cx cy : Color} {dx dy : α}
    (h : MWF m (plug fs (Tree.node (Tree.node A y cy dy B) x cx dx C))) :
    MWF (rotate_right m x) (plug fs (Tree.node A y cy dy (Tree.node B x cx dx C))) ∧
      rotate_right m x RB_NIL = m RB_NIL ∧
      (rotate_right m x RB_ROOT).color = (m RB_ROOT).color := by
  obtain ⟨h1, h2, h3, _, h5⟩ := h.split
  have hpar := h.parent_not_mem
  obtain ⟨x1, x2, hx, ⟨y1, y2, hy, rA, rB⟩, rC⟩ := h2
  simp only [addrs_node, List.nodup_append, List.nodup_cons, List.Disjoint, List.mem_cons,
    List.mem_append, not_or] at h3 hpar h5
  obtain ⟨⟨ndA, ⟨hyB, ndB⟩, dAB⟩, ⟨hxC, ndC⟩, dABC⟩ := h3
  have hyA : y ∉ A.addrs := fun e => dAB e (Or.inl rfl)
  have hxA : x ∉ A.addrs := fun e => dABC (Or.inl e) (Or.inl rfl)
  have hxB : x ∉ B.addrs := fun e => dABC (Or.inr (Or.inr e)) (Or.inl rfl)
  have hyC : y ∉ C.addrs := fun e => dABC (Or.inr (Or.inl rfl)) (Or.inr e)
  have hxy : x ≠ y := fun e => dABC (Or.inr (Or.inl rfl)) (Or.inl e.symm)
  have hpx : ctxParent fs ≠ x := fun e => hpar.2.1 e
  have hpy : ctxParent fs ≠ y := fun e => hpar.1.2.1 e
  have hbx : B.root ≠ x := by
    rcases root_mem_or_nil B with e | e
    · rw [e]; exact fun e2 => x1 e2.symm
    · intro e2; exact hxB (e2 ▸ e)
  have hby : B.root ≠ y := by
    rcases root_mem_or_nil B with e | e
    · rw [e]; exact fun e2 => y1 e2.symm
    · intro e2; exact hyB (e2 ▸ e)
  have hpb : ctxParent fs ≠ B.root := by
    rcases root_mem_or_nil B with e | e
    · rw [e]; exact ctxParent_ne_nil h1
    · intro e2; exact hpar.1.2.2 (e2 ▸ e)
  have cell := rotate_right_cell m x y A.root B.root C.root (ctxParent fs) cx cy (some dx)
    (some dy) hx hy hxy hbx hby hpx hpy hpb
  have hout : ∀ k, k ≠ x → k ≠ y → k ≠ ctxParent fs → k ∉ B.addrs →
      rotate_right m x k = m k := by
    intro k k1 k2 k3 k4
    rw [cell k, if_neg k1, if_neg k2, if_neg k3, if_neg]
    rintro ⟨e1, e2⟩
    rcases root_mem_or_nil B with e | e
    · exact e2 e
    · exact k4 (e1 ▸ e)
  refine h.replace_same ⟨y1, y2, ?_, rA.congr ?_,
    ⟨x1, x2, ?_, rB.reparent ndB ?_ ?_, rC.congr ?_⟩⟩ ?_ ?_ ?_
  · rw [cell y, if_neg (Ne.symm hxy), if_pos rfl]; rfl
  · intro k hk
    exact hout k (by rintro rfl; exact hxA hk) (by rintro rfl; exact hyA hk)
      (by rintro rfl; exact hpar.1.1 hk) (fun e => dAB hk (Or.inr e))
  · rw [cell x, if_pos rfl]
  · intro hb
    rw [cell B.root, if_neg hbx, if_neg hby, if_neg hpb.symm, if_pos ⟨rfl, hb⟩]
  · intro k hk hkr
    rw [cell k, if_neg (by rintro rfl; exact hxB hk), if_neg (by rintro rfl; exact hyB hk),
      if_neg (by rintro rfl; exact hpar.1.2.2 hk), if_neg (fun e => hkr e.1)]
  · intro k hk
    exact hout k (by rintro rfl; exact hxC hk) (by rintro rfl; exact hyC hk)
      (by rintro rfl; exact hpar.2.2 hk) (fun e => dABC (Or.inr (Or.inr e)) (Or.inr hk))
  · simp [addrs_node]
  · rw [cell _, if_neg hpx, if_neg hpy, if_pos rfl]
    refine h1.redirect x1 ?_ y
    exact h5 x (Or.inr (Or.inl rfl))
  · intro k hk hkp
    simp only [addrs_node, List.mem_append, List.mem_cons, not_or] at hk
    exact hout k hk.2.1 hk.1.2.1 hkp hk.1.2.2

/-! ## Finding a node on a path; sizes -/

theorem plug_append (fs gs : List (Frame α)) (t : Tree α) :
    plug (fs ++ gs) t = plug gs (plug fs t) := by
  induction fs generalizing t with
  | nil => rfl
  | cons f fs ih => simp [plug, ih]

/-- Every node of a shape sits at the lower end of a path. -/
theorem exists_focus (t : Tree α) (x : Nat) (hx : x ∈ t.addrs) :
    ∃ fs l c d r, t = plug fs (Tree.node l x c d r) := by
  induction t with
  | leaf => simp [addrs_leaf] at hx
  | node l a c d r ihl ihr =>
    simp only [addrs_node, List.mem_append, List.mem_cons] at hx
    rcases hx with hx | rfl | hx
    · obtain ⟨fs, l2, c2, d2, r2, e⟩ := ihl hx
      refine ⟨fs ++ [Frame.L a c d r], l2, c2, d2, r2, ?_⟩
      rw [plug_append, ← e]; rfl
    · exact ⟨[], l, c, d, r, rfl⟩
    · obtain ⟨fs, l2, c2, d2, r2, e⟩ := ihr hx
      refine ⟨fs ++ [Frame.R l a c d], l2, c2, d2, r2, ?_⟩
      rw [plug_append, ← e]; rfl

theorem height_le_length (t : Tree α) : t.height ≤ t.addrs.length := by
  induction t with
  | leaf => simp [Tree.height]
  | node l a c d r ihl ihr =>
    simp only [Tree.height, addrs_node, List.length_append, List.length_cons]
    omega

theorem length_le_ctxAddrs (fs : List (Frame α)) : fs.length ≤ (ctxAddrs fs).length := by
  induction fs with
  | nil => simp
  | cons f fs ih =>
    cases f <;>
      simp only [ctxAddrs, ctxBefore, ctxAfter, List.length_cons, List.length_append,
        List.length_map, List.map_append, List.length_nil] at ih ⊢ <;> omega

theorem length_plug (fs : List (Frame α)) (t : Tree α) :
    (plug fs t).addrs.length = t.addrs.length + (ctxAddrs fs).length := by
  simp only [addrs_plug, ctxAddrs, List.length_append]; omega

/-- A path with a shape at its end is shorter than the number of nodes allows. -/
theorem path_le_length (fs : List (Frame α)) (t : Tree α) :
    fs.length + t.height ≤ (plug fs t).addrs.length := by
  have h1 := height_le_length t
  have h2 := length_le_ctxAddrs fs
  rw [length_plug]; omega

/-- The allocator's `brk` bounds the number of nodes. -/
theorem WF.length_lt {s : rbtree α} {t : Tree α} (h : WF s t) :
    t.addrs.length + 2 ≤ s.brk := by
  have hnd : (RB_ROOT :: RB_NIL :: t.addrs).Nodup := by
    refine List.nodup_cons.2 ⟨?_, List.nodup_cons.2 ⟨?_, h.mwf.nodup⟩⟩
    · simp only [List.mem_cons, not_or]
      exact ⟨RB_ROOT_ne_NIL, fun hk => (h.mwf.rep.ne_nil _ hk).2 rfl⟩
    · exact fun hk => (h.mwf.rep.ne_nil _ hk).1 rfl
  have hsub : RB_ROOT :: RB_NIL :: t.addrs ⊆ List.range s.brk := by
    intro k hk
    simp only [List.mem_cons] at hk
    have := h.brk_ge
    rcases hk with rfl | rfl | hk
    · simp [RB_ROOT]; omega
    · simp [RB_NIL]; omega
    · exact List.mem_range.2 (h.bound k hk)
  have := (List.subperm_of_subset hnd hsub).length_le
  simpa using this

/-! ## The two loops of `rb_successor` -/

theorem leftmost_head (t : Tree α) : t.leftmost = t.addrs.head? := by
  induction t with
  | leaf => rfl
  | node l a c d r ihl _ =>
    cases l with
    | leaf => simp [Tree.leftmost, addrs_node, addrs_leaf]
    | node l2 a2 c2 d2 r2 =>
      simp only [Tree.leftmost, ihl, addrs_node]
      simp

theorem leftmost_loop_spec {m : Nat → rbnode α} {p : Nat} {l r : Tree α} {a : Nat}
    {c : Color} {d : α} (h : Rep m p (Tree.node l a c d r)) (fuel : Nat)
    (hf : (Tree.node l a c d r).height ≤ fuel) :
    leftmost_loop m fuel a = (Tree.node l a c d r).leftmost := by
  induction fuel generalizing p l r a c d with
  | zero => simp [Tree.height] at hf
  | succ f ih =>
    obtain ⟨_, _, h3, h4, _⟩ := h
    cases l with
    | leaf => simp [leftmost_loop, h3, Tree.root, Tree.leftmost]
    | node l2 a2 c2 d2 r2 =>
      have hne : a2 ≠ RB_NIL := h4.1
      simp only [leftmost_loop, h3, Tree.root, ne_eq, hne, not_false_eq_true, if_true,
        Tree.leftmost]
      refine ih h4 ?_
      simp only [Tree.height] at hf ⊢
      omega

/-- The node the upward loop of `rb_successor` stops at: the first node the
path reaches from its left child, if there is one. -/
theorem climb_loop_spec {m : Nat → rbnode α} (fs : List (Frame α)) (t : Tree α)
    (h : MWF m (plug fs t)) (ht : t.root ≠ RB_NIL) (fuel : Nat) (hf : fs.length < fuel) :
    (climb_loop m fuel t.root (ctxParent fs)).map
        (fun q => if q = RB_ROOT then none else some q) =
      some (((ctxAfter fs).map Prod.fst).head?) := by
  induction fuel generalizing fs t with
  | zero => omega
  | succ f ih =>
    cases fs with
    | nil =>
      have h2 : (m RB_ROOT).right = RB_NIL := h.stub_right
      simp [climb_loop, ctxParent, h2, ht, ctxAfter]
    | cons fr fs =>
      cases fr with
      | L a c d r =>
        have h3 : MWF m (plug fs (Tree.node t a c d r)) := h
        have hr := h3.read
        have ha : a ≠ RB_ROOT := (h3.split.2.1).2.1
        have hne : t.root ≠ r.root := by
          have hnd := h3.split.2.2.1
          simp only [addrs_node, List.nodup_append, List.nodup_cons, List.Disjoint,
            List.mem_cons] at hnd
          rcases root_mem_or_nil r with e | e
          · rw [e]; exact ht
          · rcases root_mem_or_nil t with e2 | e2
            · exact absurd e2 ht
            · intro e3; exact hnd.2.2 e2 (Or.inr (e3 ▸ e))
        simp [climb_loop, ctxParent, Frame.addr, hr, hne, ctxAfter, ha]
      | R l a c d =>
        have h3 : MWF m (plug fs (Tree.node l a c d t)) := h
        have hr := h3.read
        have ha : a ≠ RB_NIL := (h3.split.2.1).1
        have := ih fs (Tree.node l a c d t) h3 ha (by simp at hf; omega)
        simp only [Tree.root] at this
        simp only [climb_loop, ctxParent, Frame.addr, hr, if_true, ctxAfter]
        exact this

/-- The function `rb_successor` at a node: the next address in in-order. -/
theorem successor_mem_spec {m : Nat → rbnode α} {fs : List (Frame α)} {l r : Tree α}
    {x : Nat} {c : Color} {d : α} (h : MWF m (plug fs (Tree.node l x c d r))) (fuel : Nat)
    (hf : (plug fs (Tree.node l x c d r)).addrs.length < fuel) :
    successor_mem m fuel x = some ((r.addrs ++ (ctxAfter fs).map Prod.fst).head?) := by
  have hlen := path_le_length fs (Tree.node l x c d r)
  have hr := h.read
  obtain ⟨_, h2, _, _, _⟩ := h.split
  cases r with
  | leaf =>
    have := climb_loop_spec fs (Tree.node l x c d Tree.leaf) h h2.1 fuel (by omega)
    simp only [Tree.root] at this
    simp only [successor_mem, hr, Tree.root, ne_eq, not_true_eq_false, if_false, addrs_leaf,
      List.nil_append]
    exact this
  | node l2 a2 c2 d2 r2 =>
    have hrep : Rep m x (Tree.node l2 a2 c2 d2 r2) := h2.2.2.2.2
    have hne : a2 ≠ RB_NIL := hrep.1
    have := leftmost_loop_spec hrep fuel (by simp only [Tree.height] at hlen ⊢; omega)
    simp only [successor_mem, hr, Tree.root, ne_eq, hne, not_false_eq_true, if_true, this,
      leftmost_head, Option.map_some']
    simp [addrs_node]
    cases l2.addrs <;> simp

/-! ## Reading and recolouring along a path -/

@[simp] theorem set_color_left (m : Nat → rbnode α) (a : Nat) (c : Color) (b : Nat) :
    (set_color m a c b).left = (m b).left := by
  rw [set_color_apply]; split_ifs with h <;> simp [h]

@[simp] theorem set_color_right (m : Nat → rbnode α) (a : Nat) (c : Color) (b : Nat) :
    (set_color m a c b).right = (m b).right := by
  rw [set_color_apply]; split_ifs with h <;> simp [h]

@[simp] theorem set_color_parent (m : Nat → rbnode α) (a : Nat) (c : Color) (b : Nat) :
    (set_color m a c b).parent = (m b).parent := by
  rw [set_color_apply]; split_ifs with h <;> simp [h]

@[simp] theorem set_color_data (m : Nat → rbnode α) (a : Nat) (c : Color) (b : Nat) :
    (set_color m a c b).data = (m b).data := by
  rw [set_color_apply]; split_ifs with h <;> simp [h]

theorem set_color_color (m : Nat → rbnode α) (a : Nat) (c : Color) (b : Nat) :
    (set_color m a c b).color = if b = a then c else (m b).color := by
  rw [set_color_apply]; split_ifs with h <;> simp

@[simp] theorem root_node (l : Tree α) (a : Nat) (c : Color) (d : α) (r : Tree α) :
    (Tree.node l a c d r).root = a := rfl

@[simp] theorem root_leaf : (Tree.leaf : Tree α).root = RB_NIL := rfl

@[simp] theorem color_node (l : Tree α) (a : Nat) (c : Color) (d : α) (r : Tree α) :
    (Tree.node l a c d r).color = c := rfl

@[simp] theorem color_leaf : (Tree.leaf : Tree α).color = Color.BLACK := rfl

@[simp] theorem ctxParent_cons (f : Frame α) (fs : List (Frame α)) :
    ctxParent (f :: fs) = f.addr := rfl

@[simp] theorem ctxParent_nil : ctxParent ([] : List (Frame α)) = RB_ROOT := rfl

@[simp] theorem ctxColor_cons (f : Frame α) (fs : List (Frame α)) :
    ctxColor (f :: fs) = f.color := rfl

@[simp] theorem ctxColor_nil : ctxColor ([] : List (Frame α)) = Color.BLACK := rfl

@[simp] theorem addr_L (a : Nat) (c : Color) (d : α) (r : Tree α) :
    (Frame.L a c d r).addr = a := rfl

@[simp] theorem addr_R (l : Tree α) (a : Nat) (c : Color) (d : α) :
    (Frame.R l a c d).addr = a := rfl

@[simp] theorem color_L (a : Nat) (c : Color) (d : α) (r : Tree α) :
    (Frame.L a c d r).color = c := rfl

@[simp] theorem color_R (l : Tree α) (a : Nat) (c : Color) (d : α) :
    (Frame.R l a c d).color = c := rfl

@[simp] theorem sibling_L (a : Nat) (c : Color) (d : α) (r : Tree α) :
    (Frame.L a c d r).sibling = r := rfl

@[simp] theorem sibling_R (l : Tree α) (a : Nat) (c : Color) (d : α) :
    (Frame.R l a c d).sibling = l := rfl

@[simp] theorem fill_root (f : Frame α) (t : Tree α) : (f.fill t).root = f.addr := by
  cases f <;> rfl

@[simp] theorem fill_color (f : Frame α) (t : Tree α) : (f.fill t).color = f.color := by
  cases f <;> rfl

@[simp] theorem paint_addr (f : Frame α) (c : Color) : (f.paint c).addr = f.addr := by
  cases f <;> rfl

@[simp] theorem paint_color (f : Frame α) (c : Color) : (f.paint c).color = c := by
  cases f <;> rfl

@[simp] theorem paint_sibling (f : Frame α) (c : Color) : (f.paint c).sibling = f.sibling := by
  cases f <;> rfl

theorem nodes_paint_frame (f : Frame α) (c : Color) (fs : List (Frame α)) (t : Tree α) :
    (plug (f.paint c :: fs) t).nodes = (plug (f :: fs) t).nodes := by
  cases f <;> simp [plug, Frame.paint, Frame.fill, nodes_plug, Tree.nodes]

theorem MWF.root_parent {m : Nat → rbnode α} {fs : List (Frame α)} {t : Tree α}
    (h : MWF m (plug fs t)) (ht : t.root ≠ RB_NIL) : (m t.root).parent = ctxParent fs := by
  cases t with
  | leaf => exact absurd rfl ht
  | node l a c d r => rw [Tree.root, h.read]

theorem BWF.root_color {m : Nat → rbnode α} {fs : List (Frame α)} {t : Tree α}
    (h : BWF m (plug fs t)) : (m t.root).color = t.color := by
  cases t with
  | leaf => exact h.nil_black
  | node l a c d r => rw [Tree.root, h.mwf.read]; rfl

theorem BWF.ctx_color {m : Nat → rbnode α} {fs : List (Frame α)} {t : Tree α}
    (h : BWF m (plug fs t)) : (m (ctxParent fs)).color = ctxColor fs := by
  cases fs with
  | nil => exact h.stub_black
  | cons f fs =>
    have h2 : BWF m (plug fs (f.fill t)) := h
    have := h2.root_color
    simpa [ctxParent, ctxColor] using this

theorem BWF.frame_parent {m : Nat → rbnode α} {f : Frame α} {fs : List (Frame α)}
    {t : Tree α} (h : BWF m (plug (f :: fs) t)) : (m f.addr).parent = ctxParent fs := by
  have h2 : MWF m (plug fs (f.fill t)) := h.mwf
  cases f with
  | L a c d r => exact h2.root_parent (h2.split.2.1).1
  | R l a c d => exact h2.root_parent (h2.split.2.1).1

theorem BWF.paint {m : Nat → rbnode α} {fs : List (Frame α)} {l r : Tree α} {a : Nat}
    {c : Color} {d : α} (h : BWF m (plug fs (Tree.node l a c d r))) (c2 : Color) :
    BWF (set_color m a c2) (plug fs (Tree.node l a c2 d r)) := by
  obtain ⟨h1, h2, h3⟩ := h.mwf.paint_mem c2
  exact ⟨h1, by rw [h2]; exact h.nil_black, by rw [h3]; exact h.stub_black⟩

theorem BWF.paint_frame {m : Nat → rbnode α} {f : Frame α} {fs : List (Frame α)}
    {t : Tree α} (h : BWF m (plug (f :: fs) t)) (c2 : Color) :
    BWF (set_color m f.addr c2) (plug (f.paint c2 :: fs) t) := by
  cases f with
  | L a c d r =>
    have h2 : BWF m (plug fs (Tree.node t a c d r)) := h
    exact h2.paint c2
  | R l a c d =>
    have h2 : BWF m (plug fs (Tree.node l a c d t)) := h
    exact h2.paint c2

theorem BWF.rotl {m : Nat → rbnode α} {fs : List (Frame α)} {A B C : Tree α}
    {x y : Nat} {cx cy : Color} {dx dy : α}
    (h : BWF m (plug fs (Tree.node A x cx dx (Tree.node B y cy dy C)))) :
    BWF (rotate_left m x) (plug fs (Tree.node (Tree.node A x cx dx B) y cy dy C)) := by
  obtain ⟨h1, h2, h3⟩ := h.mwf.rotl_mem
  exact ⟨h1, by rw [h2]; exact h.nil_black, by rw [h3]; exact h.stub_black⟩

theorem BWF.rotr {m : Nat → rbnode α} {fs : List (Frame α)} {A B C : Tree α}
    {x y : Nat} {cx cy : Color} {dx dy : α}
    (h : BWF m (plug fs (Tree.node (Tree.node A y cy dy B) x cx dx C))) :
    BWF (rotate_right m x) (plug fs (Tree.node A y cy dy (Tree.node B x cx dx C))) := by
  obtain ⟨h1, h2, h3⟩ := h.mwf.rotr_mem
  exact ⟨h1, by rw [h2]; exact h.nil_black, by rw [h3]; exact h.stub_black⟩

/-- In a node with a left child, the children are different cells. -/
theorem MWF.left_ne_right {m : Nat → rbnode α} {fs : List (Frame α)} {l r : Tree α}
    {a : Nat} {c : Color} {d : α} (h : MWF m (plug fs (Tree.node l a c d r)))
    (hl : l.root ≠ RB_NIL) : l.root ≠ r.root := by
  have hnd := h.split.2.2.1
  simp only [addrs_node, List.nodup_append, List.nodup_cons, List.Disjoint,
    List.mem_cons] at hnd
  rcases root_mem_or_nil r with e | e
  · rw [e]; exact hl
  · rcases root_mem_or_nil l with e2 | e2
    · exact absurd e2 hl
    · intro e3; exact hnd.2.2 e2 (Or.inr (e3 ▸ e))

theorem MWF.right_ne_left {m : Nat → rbnode α} {fs : List (Frame α)} {l r : Tree α}
    {a : Nat} {c : Color} {d : α} (h : MWF m (plug fs (Tree.node l a c d r)))
    (hr : r.root ≠ RB_NIL) : r.root ≠ l.root := by
  have hnd := h.split.2.2.1
  simp only [addrs_node, List.nodup_append, List.nodup_cons, List.Disjoint,
    List.mem_cons] at hnd
  rcases root_mem_or_nil l with e | e
  · rw [e]; exact hr
  · rcases root_mem_or_nil r with e2 | e2
    · exact absurd e2 hr
    · intro e3; exact hnd.2.2 e (Or.inr (e3 ▸ e2))

theorem MWF.node_ne {m : Nat → rbnode α} {fs : List (Frame α)} {l r : Tree α}
    {a : Nat} {c : Color} {d : α} (h : MWF m (plug fs (Tree.node l a c d r))) :
    a ≠ RB_NIL ∧ a ≠ RB_ROOT ∧ a ≠ l.root ∧ a ≠ r.root ∧ a ≠ ctxParent fs := by
  obtain ⟨_, h2, h3, _, _⟩ := h.split
  have hp := h.parent_not_mem
  simp only [addrs_node, List.nodup_append, List.nodup_cons, List.Disjoint,
    List.mem_cons, List.mem_append, not_or] at h3 hp
  refine ⟨h2.1, h2.2.1, ?_, ?_, fun e => hp.2.1 e.symm⟩
  · rcases root_mem_or_nil l with e | e
    · rw [e]; exact h2.1
    · intro e2; exact h3.2.2 e (Or.inl (e2 ▸ rfl))
  · rcases root_mem_or_nil r with e | e
    · rw [e]; exact h2.1
    · intro e2; exact h3.2.1.1 (e2 ▸ e)

/-! ## One pass of `insert_repair`, case by case

The current node `cur` sits below its parent (frame `P`) and its grandparent
`g`; `U` is the uncle's subtree. -/

/-- RED uncle, parent on the left of the grandparent: recolour and move up. -/
theorem insert_body_red_L {s : rbtree α} {P : Frame α} {g : Nat} {cg : Color} {dg : α}
    {Ul Ur : Tree α} {ua : Nat} {du : α} {rest : List (Frame α)}
    {ul ur : Tree α} {cur : Nat} {cu : Color} {d : α}
    (h : BWF s.mem (plug (P :: Frame.L g cg dg (Tree.node Ul ua Color.RED du Ur) :: rest)
      (Tree.node ul cur cu d ur))) :
    ∃ m3, insert_repair_body s cur = ({ s with mem := m3 }, g) ∧
      BWF m3 (plug rest (Tree.node ((P.paint Color.BLACK).fill (Tree.node ul cur cu d ur)) g
        Color.RED dg (Tree.node Ul ua Color.BLACK du Ur))) := by
  have e1 : (s.mem cur).parent = P.addr := h.mwf.root_parent h.mwf.node_ne.1
  have e2 : (s.mem P.addr).parent = g := h.frame_parent
  have hg : BWF s.mem (plug rest (Tree.node (P.fill (Tree.node ul cur cu d ur)) g cg dg
      (Tree.node Ul ua Color.RED du Ur))) := h
  have e3 := hg.mwf.read
  have hU : BWF s.mem (plug (Frame.R (P.fill (Tree.node ul cur cu d ur)) g cg dg :: rest)
      (Tree.node Ul ua Color.RED du Ur)) := h
  have e4 := hU.mwf.read
  have k1 := h.paint_frame Color.BLACK
  have k1' : BWF _ (plug (Frame.R ((P.paint Color.BLACK).fill (Tree.node ul cur cu d ur)) g cg
      dg :: rest) (Tree.node Ul ua Color.RED du Ur)) := k1
  have k2 := k1'.paint Color.BLACK
  have k2' : BWF _ (plug rest (Tree.node ((P.paint Color.BLACK).fill (Tree.node ul cur cu d ur))
      g cg dg (Tree.node Ul ua Color.BLACK du Ur))) := k2
  have k3 := k2'.paint Color.RED
  refine ⟨_, ?_, k3⟩
  simp [insert_repair_body, e1, e2, e3, e4]

/-- RED uncle, parent on the right of the grandparent: recolour and move up. -/
theorem insert_body_red_R {s : rbtree α} {P : Frame α} {g : Nat} {cg : Color} {dg : α}
    {Ul Ur : Tree α} {ua : Nat} {du : α} {rest : List (Frame α)}
    {ul ur : Tree α} {cur : Nat} {cu : Color} {d : α}
    (h : BWF s.mem (plug (P :: Frame.R (Tree.node Ul ua Color.RED du Ur) g cg dg :: rest)
      (Tree.node ul cur cu d ur))) :
    ∃ m3, insert_repair_body s cur = ({ s with mem := m3 }, g) ∧
      BWF m3 (plug rest (Tree.node (Tree.node Ul ua Color.BLACK du Ur) g Color.RED dg
        ((P.paint Color.BLACK).fill (Tree.node ul cur cu d ur)))) := by
  have e1 : (s.mem cur).parent = P.addr := h.mwf.root_parent h.mwf.node_ne.1
  have e2 : (s.mem P.addr).parent = g := h.frame_parent
  have hg : BWF s.mem (plug rest (Tree.node (Tree.node Ul ua Color.RED du Ur) g cg dg
      (P.fill (Tree.node ul cur cu d ur)))) := h
  have e3 := hg.mwf.read
  have hne : P.addr ≠ ua := by
    have := hg.mwf.right_ne_left (by
      rw [fill_root]
      have hp : MWF s.mem (plug (Frame.R (Tree.node Ul ua Color.RED du Ur) g cg dg :: rest)
        (P.fill (Tree.node ul cur cu d ur))) := h.mwf
      cases P <;> exact hp.node_ne.1)
    simpa using this
  have hU : BWF s.mem (plug (Frame.L g cg dg (P.fill (Tree.node ul cur cu d ur)) :: rest)
      (Tree.node Ul ua Color.RED du Ur)) := h
  have e4 := hU.mwf.read
  have k1 := h.paint_frame Color.BLACK
  have k1' : BWF _ (plug (Frame.L g cg dg ((P.paint Color.BLACK).fill
      (Tree.node ul cur cu d ur)) :: rest) (Tree.node Ul ua Color.RED du Ur)) := k1
  have k2 := k1'.paint Color.BLACK
  have k2' : BWF _ (plug rest (Tree.node (Tree.node Ul ua Color.BLACK du Ur) g cg dg
      ((P.paint Color.BLACK).fill (Tree.node ul cur cu d ur)))) := k2
  have k3 := k2'.paint Color.RED
  refine ⟨_, ?_, k3⟩
  simp [insert_repair_body, e1, e2, e3, e4, hne]

/-- BLACK uncle, left-left: one right rotation at the grandparent. -/
theorem insert_body_black_LL {s : rbtree α} {p g : Nat} {cp cg : Color} {dp dg : α}
    {S U : Tree α} {rest : List (Frame α)} {ul ur : Tree α} {cur : Nat} {cu : Color} {d : α}
    (h : BWF s.mem (plug (Frame.L p cp dp S :: Frame.L g cg dg U :: rest)
      (Tree.node ul cur cu d ur)))
    (hU : U.color = Color.BLACK) :
    ∃ m3, insert_repair_body s cur =
        ({ s with mem := m3, cnt_right_insert := s.cnt_right_insert + 1 }, cur) ∧
      BWF m3 (plug rest (Tree.node (Tree.node ul cur cu d ur) p Color.BLACK dp
        (Tree.node S g Color.RED dg U))) := by
  have e1 : (s.mem cur).parent = p := h.mwf.root_parent h.mwf.node_ne.1
  have e2 : (s.mem p).parent = g := h.frame_parent
  have hp : BWF s.mem (plug (Frame.L g cg dg U :: rest)
      (Tree.node (Tree.node ul cur cu d ur) p cp dp S)) := h
  have ep := hp.mwf.read
  have hg : BWF s.mem (plug rest (Tree.node (Tree.node (Tree.node ul cur cu d ur) p cp dp S) g
      cg dg U)) := h
  have eg := hg.mwf.read
  have hUf : BWF s.mem (plug (Frame.R (Tree.node (Tree.node ul cur cu d ur) p cp dp S) g cg
      dg :: rest) U) := h
  have eU : (s.mem U.root).color = Color.BLACK := by rw [hUf.root_color, hU]
  have hne : cur ≠ S.root := hp.mwf.left_ne_right h.mwf.node_ne.1
  have k1 : BWF (set_color s.mem p Color.BLACK) (plug rest (Tree.node
      (Tree.node (Tree.node ul cur cu d ur) p Color.BLACK dp S) g cg dg U)) :=
    h.paint_frame Color.BLACK
  have k2 := k1.paint Color.RED
  have k3 := k2.rotr
  refine ⟨_, ?_, k3⟩
  simp [insert_repair_body, e1, e2, ep, eg, eU, hne]

/-- BLACK uncle, left-right: a left rotation at the parent, then a right
rotation at the grandparent. -/
theorem insert_body_black_LR {s : rbtree α} {p g : Nat} {cp cg : Color} {dp dg : α}
    {S U : Tree α} {rest : List (Frame α)} {ul ur : Tree α} {cur : Nat} {cu : Color} {d : α}
    (h : BWF s.mem (plug (Frame.R S p cp dp :: Frame.L g cg dg U :: rest)
      (Tree.node ul cur cu d ur)))
    (hU : U.color = Color.BLACK) :
    ∃ m3, insert_repair_body s cur =
        ({ s with mem := m3, cnt_left_insert := s.cnt_left_insert + 1,
                  cnt_right_insert := s.cnt_right_insert + 1 }, p) ∧
      BWF m3 (plug rest (Tree.node (Tree.node S p cp dp ul) cur Color.BLACK d
        (Tree.node ur g Color.RED dg U))) := by
  have e1 : (s.mem cur).parent = p := h.mwf.root_parent h.mwf.node_ne.1
  have e2 : (s.mem p).parent = g := h.frame_parent
  have hp : BWF s.mem (plug (Frame.L g cg dg U :: rest)
      (Tree.node S p cp dp (Tree.node ul cur cu d ur))) := h
  have ep := hp.mwf.read
  have hg : BWF s.mem (plug rest (Tree.node (Tree.node S p cp dp (Tree.node ul cur cu d ur)) g
      cg dg U)) := h
  have eg := hg.mwf.read
  have hUf : BWF s.mem (plug (Frame.R (Tree.node S p cp dp (Tree.node ul cur cu d ur)) g cg
      dg :: rest) U) := h
  have eU : (s.mem U.root).color = Color.BLACK := by rw [hUf.root_color, hU]
  have j1 := hp.rotl
  have j1' : BWF (rotate_left s.mem p) (plug (Frame.L cur cu d ur :: Frame.L g cg dg U :: rest)
      (Tree.node S p cp dp ul)) := j1
  have f1 : (rotate_left s.mem p p).parent = cur := j1'.mwf.root_parent j1'.mwf.node_ne.1
  have f2 : (rotate_left s.mem p cur).parent = g := j1'.frame_parent
  have j2 := j1.paint Color.BLACK
  have j2' : BWF _ (plug rest (Tree.node (Tree.node (Tree.node S p cp dp ul) cur Color.BLACK d
      ur) g cg dg U)) := j2
  have j3 := j2'.paint Color.RED
  have j4 := j3.rotr
  refine ⟨_, ?_, j4⟩
  simp [insert_repair_body, e1, e2, ep, eg, eU, f1, f2]

/-- BLACK uncle, right-right: one left rotation at the grandparent. -/
theorem insert_body_black_RR {s : rbtree α} {p g : Nat} {cp cg : Color} {dp dg : α}
    {S U : Tree α} {rest : List (Frame α)} {ul ur : Tree α} {cur : Nat} {cu : Color} {d : α}
    (h : BWF s.mem (plug (Frame.R S p cp dp :: Frame.R U g cg dg :: rest)
      (Tree.node ul cur cu d ur)))
    (hU : U.color = Color.BLACK) :
    ∃ m3, insert_repair_body s cur =
        ({ s with mem := m3, cnt_left_insert := s.cnt_left_insert + 1 }, cur) ∧
      BWF m3 (plug rest (Tree.node (Tree.node U g Color.RED dg S) p Color.BLACK dp
        (Tree.node ul cur cu d ur))) := by
  have e1 : (s.mem cur).parent = p := h.mwf.root_parent h.mwf.node_ne.1
  have e2 : (s.mem p).parent = g := h.frame_parent
  have hp : BWF s.mem (plug (Frame.R U g cg dg :: rest)
      (Tree.node S p cp dp (Tree.node ul cur cu d ur))) := h
  have ep := hp.mwf.read
  have hg : BWF s.mem (plug rest (Tree.node U g cg dg
      (Tree.node S p cp dp (Tree.node ul cur cu d ur)))) := h
  have eg := hg.mwf.read
  have hUf : BWF s.mem (plug (Frame.L g cg dg (Tree.node S p cp dp (Tree.node ul cur cu d ur))
      :: rest) U) := h
  have eU : (s.mem U.root).color = Color.BLACK := by rw [hUf.root_color, hU]
  have hpU : p ≠ U.root := by simpa using hg.mwf.right_ne_left hp.mwf.node_ne.1
  have hne : cur ≠ S.root := hp.mwf.right_ne_left h.mwf.node_ne.1
  have k1 : BWF (set_color s.mem p Color.BLACK) (plug rest (Tree.node U g cg dg
      (Tree.node S p Color.BLACK dp (Tree.node ul cur cu d ur)))) :=
    h.paint_frame Color.BLACK
  have k2 := k1.paint Color.RED
  have k3 := k2.rotl
  refine ⟨_, ?_, k3⟩
  simp [insert_repair_body, e1, e2, ep, eg, eU, hne, hpU]

/-- BLACK uncle, right-left: a right rotation at the parent, then a left
rotation at the grandparent. -/
theorem insert_body_black_RL {s : rbtree α} {p g : Nat} {cp cg : Color} {dp dg : α}
    {S U : Tree α} {rest : List (Frame α)} {ul ur : Tree α} {cur : Nat} {cu : Color} {d : α}
    (h : BWF s.mem (plug (Frame.L p cp dp S :: Frame.R U g cg dg :: rest)
      (Tree.node ul cur cu d ur)))
    (hU : U.color = Color.BLACK) :
    ∃ m3, insert_repair_body s cur =
        ({ s with mem := m3, cnt_right_insert := s.cnt_right_insert + 1,
                  cnt_left_insert := s.cnt_left_insert + 1 }, p) ∧
      BWF m3 (plug rest (Tree.node (Tree.node U g Color.RED dg ul) cur Color.BLACK d
        (Tree.node ur p cp dp S))) := by
  have e1 : (s.mem cur).parent = p := h.mwf.root_parent h.mwf.node_ne.1
  have e2 : (s.mem p).parent = g := h.frame_parent
  have hp : BWF s.mem (plug (Frame.R U g cg dg :: rest)
      (Tree.node (Tree.node ul cur cu d ur) p cp dp S)) := h
  have ep := hp.mwf.read
  have hg : BWF s.mem (plug rest (Tree.node U g cg dg
      (Tree.node (Tree.node ul cur cu d ur) p cp dp S))) := h
  have eg := hg.mwf.read
  have hUf : BWF s.mem (plug (Frame.L g cg dg (Tree.node (Tree.node ul cur cu d ur) p cp dp S)
      :: rest) U) := h
  have eU : (s.mem U.root).color = Color.BLACK := by rw [hUf.root_color, hU]
  have hpU : p ≠ U.root := by simpa using hg.mwf.right_ne_left hp.mwf.node_ne.1
  have j1 := hp.rotr
  have j1' : BWF (rotate_right s.mem p) (plug (Frame.R ul cur cu d :: Frame.R U g cg dg :: rest)
      (Tree.node ur p cp dp S)) := j1
  have f1 : (rotate_right s.mem p p).parent = cur := j1'.mwf.root_parent j1'.mwf.node_ne.1
  have f2 : (rotate_right s.mem p cur).parent = g := j1'.frame_parent
  have j2 := j1.paint Color.BLACK
  have j2' : BWF _ (plug rest (Tree.node U g cg dg (Tree.node ul cur Color.BLACK d
      (Tree.node ur p cp dp S)))) := j2
  have j3 := j2'.paint Color.RED
  have j4 := j3.rotl
  refine ⟨_, ?_, j4⟩
  simp [insert_repair_body, e1, e2, ep, eg, eU, f1, f2, hpU]

/-! ## Colour invariants on shapes and paths -/

theorem bh_mem_pathBlacks (t : Tree α) : t.bh ∈ t.pathBlacks := by
  induction t with
  | leaf => simp [Tree.bh, Tree.pathBlacks]
  | node l a c d r ihl _ =>
    simp only [Tree.bh, Tree.pathBlacks, List.map_append, List.mem_append, List.mem_map]
    exact Or.inl ⟨l.bh, ihl, rfl⟩

theorem balanced_pathBlacks (t : Tree α) (h : t.balanced) : ∀ n ∈ t.pathBlacks, n = t.bh := by
  induction t with
  | leaf => intro n hn; simpa [Tree.pathBlacks, Tree.bh] using hn
  | node l a c d r ihl ihr =>
    obtain ⟨h1, h2, h3⟩ := h
    intro n hn
    simp only [Tree.pathBlacks, List.map_append, List.mem_append, List.mem_map] at hn
    rcases hn with ⟨k, hk, rfl⟩ | ⟨k, hk, rfl⟩
    · rw [ihl h2 k hk]; rfl
    · rw [ihr h3 k hk, ← h1]; rfl

/-- Balance at every node is the same as equal black counts on all paths from
the root to the sentinel. -/
theorem balanced_iff_equalPaths (t : Tree α) : t.balanced ↔ t.equalPaths := by
  constructor
  · intro h a ha b hb
    rw [balanced_pathBlacks t h a ha, balanced_pathBlacks t h b hb]
  · intro h
    induction t with
    | leaf => trivial
    | node l a c d r ihl ihr =>
      have key : ∀ x ∈ l.pathBlacks ++ r.pathBlacks, ∀ y ∈ l.pathBlacks ++ r.pathBlacks,
          x = y := by
        intro x hx y hy
        have := h (x + blk c) (List.mem_map.2 ⟨x, hx, rfl⟩) (y + blk c)
          (List.mem_map.2 ⟨y, hy, rfl⟩)
        omega
      refine ⟨?_, ihl ?_, ihr ?_⟩
      · exact key _ (List.mem_append.2 (Or.inl (bh_mem_pathBlacks l))) _
          (List.mem_append.2 (Or.inr (bh_mem_pathBlacks r)))
      · intro x hx y hy
        exact key x (List.mem_append.2 (Or.inl hx)) y (List.mem_append.2 (Or.inl hy))
      · intro x hx y hy
        exact key x (List.mem_append.2 (Or.inr hx)) y (List.mem_append.2 (Or.inr hy))

theorem color_cases (c : Color) : c = Color.RED ∨ c = Color.BLACK := by
  cases c <;> simp

theorem not_red_iff (c : Color) : ¬ c = Color.RED ↔ c = Color.BLACK := by
  cases c <;> simp

theorem not_black_iff (c : Color) : ¬ c = Color.BLACK ↔ c = Color.RED := by
  cases c <;> simp

/-- A shape at the end of a path satisfies no-red-red and balance exactly when
the shape does, the path does around it, and the link between them is not
RED-RED. -/
theorem plug_valid (fs : List (Frame α)) (t : Tree α) :
    (plug fs t).noRedRed ∧ (plug fs t).balanced ↔
      t.noRedRed ∧ t.balanced ∧ CtxInv fs t.bh ∧ (ctxColor fs = Color.RED → t.color = Color.BLACK) := by
  induction fs generalizing t with
  | nil => simp [plug, CtxInv]
  | cons f fs ih =>
    have hcol : ∀ c : Color, (c = Color.RED → ctxColor fs = Color.BLACK) ↔
        (ctxColor fs = Color.RED → c = Color.BLACK) := by
      intro c
      rcases color_cases c with rfl | rfl <;> rcases color_cases (ctxColor fs) with e | e <;>
        simp [e]
    cases f with
    | L a c d r =>
      rw [show plug (Frame.L a c d r :: fs) t = plug fs (Tree.node t a c d r) from rfl,
        ih (Tree.node t a c d r)]
      simp only [Tree.noRedRed, Tree.balanced, Tree.bh, CtxInv, sibling_L, color_L,
        ctxColor_cons, color_node]
      constructor
      · rintro ⟨⟨hc, hl, hr⟩, ⟨hb, bl, br⟩, hctx, hcc⟩
        exact ⟨hl, bl, ⟨hr, br, hb.symm, fun e => ⟨(hc e).2, (hcol c).2 hcc e⟩, hctx⟩,
          fun e => (hc e).1⟩
      · rintro ⟨hl, bl, ⟨hr, br, hb, hc, hctx⟩, hcc⟩
        exact ⟨⟨fun e => ⟨hcc e, (hc e).1⟩, hl, hr⟩, ⟨hb.symm, bl, br⟩, hctx,
          (hcol c).1 fun e => (hc e).2⟩
    | R l a c d =>
      rw [show plug (Frame.R l a c d :: fs) t = plug fs (Tree.node l a c d t) from rfl,
        ih (Tree.node l a c d t)]
      simp only [Tree.noRedRed, Tree.balanced, Tree.bh, CtxInv, sibling_R, color_R,
        ctxColor_cons, color_node]
      constructor
      · rintro ⟨⟨hc, hl, hr⟩, ⟨hb, bl, br⟩, hctx, hcc⟩
        exact ⟨hr, br, ⟨hl, bl, hb, fun e => ⟨(hc e).1, (hcol c).2 hcc e⟩, hb ▸ hctx⟩,
          fun e => (hc e).2⟩
      · rintro ⟨hr, br, ⟨hl, bl, hb, hc, hctx⟩, hcc⟩
        exact ⟨⟨fun e => ⟨(hc e).1, hcc e⟩, hl, hr⟩, ⟨hb, bl, br⟩, hb ▸ hctx,
          (hcol c).1 fun e => (hc e).2⟩

theorem plug_color_cons (f : Frame α) (fs : List (Frame α)) (t t2 : Tree α) :
    (plug (f :: fs) t).color = (plug (f :: fs) t2).color := by
  induction fs generalizing f t t2 with
  | nil => simp [plug]
  | cons g fs ih =>
    have := ih g (f.fill t) (f.fill t2)
    exact this

/-! ## The loop of `insert_repair` -/

theorem InsFrame.of_mem (s : rbtree α) (m : Nat → rbnode α) : InsFrame s { s with mem := m } := by
  simp [InsFrame]

theorem InsFrame.step {s s1 s2 : rbtree α} (h1 : InsFrame s s1)
    (hl : s1.cnt_left_insert = s.cnt_left_insert)
    (hr : s1.cnt_right_insert = s.cnt_right_insert) (h2 : InsFrame s1 s2) : InsFrame s s2 := by
  obtain ⟨a1, a2, a3, a4, a5, _, _, _⟩ := h1
  obtain ⟨b1, b2, b3, b4, b5, b6, b7, b8⟩ := h2
  refine ⟨b1.trans a1, b2.trans a2, b3.trans a3, b4.trans a4, b5.trans a5, ?_, ?_, ?_⟩ <;> omega

/-- One pass of the loop body: either the pass ends the repair (after one or
two rotations the parent of `current` is BLACK), or `current` moved two nodes
up the path after a recolouring. -/
theorem insert_repair_step {s : rbtree α} {P : Frame α} {fs : List (Frame α)}
    {ul ur : Tree α} {cur : Nat} {cu : Color} {d : α}
    (h : BWF s.mem (plug (P :: fs) (Tree.node ul cur cu d ur)))
    (hP : P.color = Color.RED)
    (hroot : (plug (P :: fs) (Tree.node ul cur cu d ur)).color = Color.BLACK) :
    ∃ s1 cur1, insert_repair_body s cur = (s1, cur1) ∧ InsFrame s s1 ∧
      ((∃ T, BWF s1.mem T ∧ T.nodes = (plug (P :: fs) (Tree.node ul cur cu d ur)).nodes ∧
          (s1.mem (s1.mem cur1).parent).color = Color.BLACK ∧
          (RedFocus (P :: fs) (Tree.node ul cur cu d ur) → T.noRedRed ∧ T.balanced)) ∨
       (∃ rest u2l u2r c2 d2,
          BWF s1.mem (plug rest (Tree.node u2l cur1 c2 d2 u2r)) ∧
          rest.length + 1 = fs.length ∧
          (plug rest (Tree.node u2l cur1 c2 d2 u2r)).nodes =
            (plug (P :: fs) (Tree.node ul cur cu d ur)).nodes ∧
          (rest ≠ [] → (plug rest (Tree.node u2l cur1 c2 d2 u2r)).color = Color.BLACK) ∧
          s1.cnt_left_insert = s.cnt_left_insert ∧ s1.cnt_right_insert = s.cnt_right_insert ∧
          (RedFocus (P :: fs) (Tree.node ul cur cu d ur) →
            RedFocus rest (Tree.node u2l cur1 c2 d2 u2r)))) := by
  cases fs with
  | nil =>
    exfalso
    simp only [plug, fill_color, hP] at hroot
    cases hroot
  | cons G rest =>
    cases G with
    | L g cg dg U =>
      rcases color_cases U.color with hU | hU
      · -- RED uncle
        cases U with
        | leaf => cases hU
        | node Ul ua cU du Ur =>
          simp only [color_node] at hU
          subst hU
          obtain ⟨m3, e, k⟩ := insert_body_red_L h
          refine ⟨_, _, e, InsFrame.of_mem s m3, Or.inr ⟨rest, _, _, _, _, k, rfl, ?_, ?_, rfl,
            rfl, ?_⟩⟩
          · cases P <;> simp [nodes_plug, Tree.nodes, Frame.fill, Frame.paint, ctxBefore, ctxAfter]
          · intro hne
            cases rest with
            | nil => exact absurd rfl hne
            | cons P2 rest2 =>
              rw [← hroot]
              exact plug_color_cons P2 rest2 _ _
          · rintro ⟨f1, f2, f3, f4⟩
            simp only [CtxInv, hP, sibling_L, color_L, ctxColor_cons, Tree.bh, color_node,
              Tree.noRedRed, Tree.balanced] at f1 f2 f3 f4
            obtain ⟨q1, q2, q3, q4, ⟨-, q5, q6⟩, ⟨q7, q8, q9⟩, q10, -, q11⟩ := f4
            have hcg : cg = Color.BLACK := (q4 trivial).2
            subst hcg
            subst f1
            refine ⟨rfl, ?_, ?_, ?_⟩
            · cases P <;>
                simp_all [Tree.noRedRed, Frame.fill, Frame.paint]
            · cases P <;>
                simp_all [Tree.balanced, Tree.bh, Frame.fill, Frame.paint, blk]
            · cases P <;>
                simp_all [Tree.balanced, Tree.bh, Frame.fill, Frame.paint, blk]
      · -- BLACK uncle
        cases P with
        | L p cp dp S =>
          obtain ⟨m3, e, k⟩ := insert_body_black_LL h hU
          have k2 : BWF m3 (plug (Frame.L p Color.BLACK dp (Tree.node S g Color.RED dg U) :: rest)
            (Tree.node ul cur cu d ur)) := k
          refine ⟨_, _, e, by simp [InsFrame] <;> omega, Or.inl ⟨_, k, ?_, ?_, ?_⟩⟩
          · simp [nodes_plug, Tree.nodes, ctxBefore, ctxAfter]
          · have := k2.ctx_color
            rw [← k2.mwf.root_parent k2.mwf.node_ne.1] at this
            simpa using this
          · rintro ⟨f1, f2, f3, f4⟩
            simp only [color_L] at hP
            subst hP
            simp only [CtxInv, sibling_L, color_L, ctxColor_cons, Tree.bh, color_node,
              Tree.noRedRed, Tree.balanced] at f1 f2 f3 f4
            obtain ⟨q1, q2, q3, q4, q5, q6, q7, -, q11⟩ := f4
            have hcg : cg = Color.BLACK := (q4 trivial).2
            subst hcg
            subst f1
            refine (plug_valid _ _).2 ⟨?_, ?_, ?_, ?_⟩
            · simp_all [Tree.noRedRed]
            · simp_all [Tree.balanced, Tree.bh, blk]
            · simp_all [Tree.bh, blk]
            · simp
        | R S p cp dp =>
          obtain ⟨m3, e, k⟩ := insert_body_black_LR h hU
          have k2 : BWF m3 (plug (Frame.L cur Color.BLACK d (Tree.node ur g Color.RED dg U) :: rest)
            (Tree.node S p cp dp ul)) := k
          refine ⟨_, _, e, by simp [InsFrame] <;> omega, Or.inl ⟨_, k, ?_, ?_, ?_⟩⟩
          · simp [nodes_plug, Tree.nodes, ctxBefore, ctxAfter]
          · have := k2.ctx_color
            rw [← k2.mwf.root_parent k2.mwf.node_ne.1] at this
            simpa using this
          · rintro ⟨f1, f2, f3, f4⟩
            simp only [color_R] at hP
            subst hP
            simp only [CtxInv, sibling_L, sibling_R, color_L, color_R, ctxColor_cons, Tree.bh,
              color_node, Tree.noRedRed, Tree.balanced] at f1 f2 f3 f4
            obtain ⟨q1, q2, q3, q4, q5, q6, q7, -, q11⟩ := f4
            have hcg : cg = Color.BLACK := (q4 trivial).2
            subst hcg
            subst f1
            refine (plug_valid _ _).2 ⟨?_, ?_, ?_, ?_⟩
            · simp_all [Tree.noRedRed]
            · simp_all [Tree.balanced, Tree.bh, blk]
            · simp_all [Tree.bh, blk]
            · simp
    | R U g cg dg =>
      rcases color_cases U.color with hU | hU
      · cases U with
        | leaf => cases hU
        | node Ul ua cU du Ur =>
          simp only [color_node] at hU
          subst hU
          obtain ⟨m3, e, k⟩ := insert_body_red_R h
          refine ⟨_, _, e, InsFrame.of_mem s m3, Or.inr ⟨rest, _, _, _, _, k, rfl, ?_, ?_, rfl,
            rfl, ?_⟩⟩
          · cases P <;> simp [nodes_plug, Tree.nodes, Frame.fill, Frame.paint, ctxBefore, ctxAfter]
          · intro hne
            cases rest with
            | nil => exact absurd rfl hne
            | cons P2 rest2 =>
              rw [← hroot]
              exact plug_color_cons P2 rest2 _ _
          · rintro ⟨f1, f2, f3, f4⟩
            simp only [CtxInv, hP, sibling_R, color_R, ctxColor_cons, Tree.bh, color_node,
              Tree.noRedRed, Tree.balanced] at f1 f2 f3 f4
            obtain ⟨q1, q2, q3, q4, ⟨-, q5, q6⟩, ⟨q7, q8, q9⟩, q10, -, q11⟩ := f4
            have hcg : cg = Color.BLACK := (q4 trivial).2
            subst hcg
            subst f1
            refine ⟨rfl, ?_, ?_, ?_⟩
            · cases P <;>
                simp_all [Tree.noRedRed, Frame.fill, Frame.paint]
            · cases P <;>
                simp_all [Tree.balanced, Tree.bh, Frame.fill, Frame.paint, blk]
            · cases P <;>
                simp_all [Tree.balanced, Tree.bh, Frame.fill, Frame.paint, blk]
      · cases P with
        | R S p cp dp =>
          obtain ⟨m3, e, k⟩ := insert_body_black_RR h hU
          have k2 : BWF m3 (plug (Frame.R (Tree.node U g Color.RED dg S) p Color.BLACK dp :: rest)
            (Tree.node ul cur cu d ur)) := k
          refine ⟨_, _, e, by simp [InsFrame] <;> omega, Or.inl ⟨_, k, ?_, ?_, ?_⟩⟩
          · simp [nodes_plug, Tree.nodes, ctxBefore, ctxAfter]
          · have := k2.ctx_color
            rw [← k2.mwf.root_parent k2.mwf.node_ne.1] at this
            simpa using this
          · rintro ⟨f1, f2, f3, f4⟩
            simp only [color_R] at hP
            subst hP
            simp only [CtxInv, sibling_L, sibling_R, color_L, color_R, ctxColor_cons, Tree.bh,
              color_node, Tree.noRedRed, Tree.balanced] at f1 f2 f3 f4
            obtain ⟨q1, q2, q3, q4, q5, q6, q7, -, q11⟩ := f4
            have hcg : cg = Color.BLACK := (q4 trivial).2
            subst hcg
            subst f1
            refine (plug_valid _ _).2 ⟨?_, ?_, ?_, ?_⟩
            · simp_all [Tree.noRedRed]
            · simp_all [Tree.balanced, Tree.bh, blk]
            · simp_all [Tree.bh, blk]
            · simp
        | L p cp dp S =>
          obtain ⟨m3, e, k⟩ := insert_body_black_RL h hU
          have k2 : BWF m3 (plug (Frame.R (Tree.node U g Color.RED dg ul) cur Color.BLACK d :: rest)
            (Tree.node ur p cp dp S)) := k
          refine ⟨_, _, e, by simp [InsFrame] <;> omega, Or.inl ⟨_, k, ?_, ?_, ?_⟩⟩
          · simp [nodes_plug, Tree.nodes, ctxBefore, ctxAfter]
          · have := k2.ctx_color
            rw [← k2.mwf.root_parent k2.mwf.node_ne.1] at this
            simpa using this
          · rintro ⟨f1, f2, f3, f4⟩
            simp only [color_L] at hP
            subst hP
            simp only [CtxInv, sibling_L, sibling_R, color_L, color_R, ctxColor_cons, Tree.bh,
              color_node, Tree.noRedRed, Tree.balanced] at f1 f2 f3 f4
            obtain ⟨q1, q2, q3, q4, q5, q6, q7, -, q11⟩ := f4
            have hcg : cg = Color.BLACK := (q4 trivial).2
            subst hcg
            subst f1
            refine (plug_valid _ _).2 ⟨?_, ?_, ?_, ?_⟩
            · simp_all [Tree.noRedRed]
            · simp_all [Tree.balanced, Tree.bh, blk]
            · simp_all [Tree.bh, blk]
            · simp

/-- The function `insert_repair` returns, on a well-formed memory whose real
root is BLACK, when started at a node with a RED parent: the result is well
formed with the same nodes in the same order, and it satisfies no-red-red and
balance if the path and the subtree did, the RED-RED link apart. -/
theorem insert_repair_spec (fuel : Nat) :
    ∀ (s : rbtree α) (P : Frame α) (fs : List (Frame α)) (ul ur : Tree α) (cur : Nat)
      (cu : Color) (d : α),
      BWF s.mem (plug (P :: fs) (Tree.node ul cur cu d ur)) →
      P.color = Color.RED →
      (plug (P :: fs) (Tree.node ul cur cu d ur)).color = Color.BLACK →
      fs.length ≤ fuel →
      ∃ s2 T, insert_repair fuel s cur = some s2 ∧ BWF s2.mem T ∧
        T.nodes = (plug (P :: fs) (Tree.node ul cur cu d ur)).nodes ∧ InsFrame s s2 ∧
        (RedFocus (P :: fs) (Tree.node ul cur cu d ur) → T.noRedRed ∧ T.balanced) := by
  induction fuel with
  | zero =>
    intro s P fs ul ur cur cu d h hP hroot hf
    exfalso
    have : fs = [] := List.length_eq_zero.1 (Nat.le_zero.1 hf)
    subst this
    simp only [plug, fill_color, hP] at hroot
    cases hroot
  | succ f ih =>
    intro s P fs ul ur cur cu d h hP hroot hf
    obtain ⟨s1, cur1, e, hfr, hcase⟩ := insert_repair_step h hP hroot
    rcases hcase with ⟨T, k, hn, hc, hcol⟩ | ⟨rest, u2l, u2r, c2, d2, k, hlen, hn, hrc, hl, hr, hcol⟩
    · refine ⟨s1, T, ?_, k, hn, hfr, hcol⟩
      simp [insert_repair, e, hc]
    · have hpar : (s1.mem cur1).parent = ctxParent rest := k.mwf.root_parent k.mwf.node_ne.1
      have hcc : (s1.mem (ctxParent rest)).color = ctxColor rest := k.ctx_color
      rcases color_cases (ctxColor rest) with hred | hblack
      · cases rest with
        | nil => simp at hred
        | cons P2 rest2 =>
          simp only [ctxColor_cons] at hred
          simp only [ctxParent_cons, ctxColor_cons] at hpar hcc
          obtain ⟨s2, T, e2, k2, hn2, hfr2, hcol2⟩ :=
            ih s1 P2 rest2 u2l u2r cur1 c2 d2 k hred (hrc (by simp))
              (by simp only [List.length_cons] at hlen; omega)
          refine ⟨s2, T, ?_, k2, hn2.trans hn, hfr.step hl hr hfr2, fun hf => hcol2 (hcol hf)⟩
          simp [insert_repair, e, hpar, hcc, hred, e2]
      · refine ⟨s1, _, ?_, k, hn, hfr, ?_⟩
        · simp [insert_repair, e, hpar, hcc, hblack]
        · intro hf
          obtain ⟨g1, g2, g3, g4⟩ := hcol hf
          exact (plug_valid _ _).2 ⟨g2, g3, g4, fun e => by rw [hblack] at e; cases e⟩

/-! ## The descent of `rb_insert` and the new node -/

theorem plug_zoom (cmp : α → α → Int) (x : α) (t : Tree α) (fs : List (Frame α)) :
    plug (zoom cmp x t fs) Tree.leaf = plug fs t := by
  induction t generalizing fs with
  | leaf => rfl
  | node l a c d r ihl ihr =>
    simp only [zoom]
    split_ifs
    · rw [ihl]; rfl
    · rw [ihr]; rfl

theorem zoom_pathOK (cmp : α → α → Int) (x : α) (t : Tree α) (fs : List (Frame α))
    (h : PathOK cmp x fs) : PathOK cmp x (zoom cmp x t fs) := by
  induction t generalizing fs with
  | leaf => exact h
  | node l a c d r ihl ihr =>
    simp only [zoom]
    split_ifs with hc
    · exact ihl _ ⟨hc, h⟩
    · exact ihr _ ⟨hc, h⟩

theorem insert_descend_spec (cmp : α → α → Int) (x : α) {m : Nat → rbnode α} (t : Tree α) :
    ∀ (fs : List (Frame α)) (fuel : Nat), MWF m (plug fs t) → t.height < fuel →
      insert_descend cmp m x fuel t.root (ctxParent fs) = some (ctxParent (zoom cmp x t fs)) := by
  induction t with
  | leaf =>
    intro fs fuel _ hf
    cases fuel with
    | zero => omega
    | succ f => simp [insert_descend, zoom]
  | node l a c d r ihl ihr =>
    intro fs fuel h hf
    cases fuel with
    | zero => omega
    | succ f =>
      have hr := h.read
      have ha := h.node_ne.1
      simp only [Tree.height] at hf
      simp only [insert_descend, root_node, ne_eq, ha, not_false_eq_true, if_true, hr, zoom]
      split_ifs with hc
      · exact ihl (Frame.L a c d r :: fs) f h (by omega)
      · exact ihr (Frame.R l a c d :: fs) f h (by omega)

/-- Every node of a shape, with its element, sits at the lower end of a path. -/
theorem exists_focus_node (t : Tree α) (x : Nat) (e : α) (hx : (x, e) ∈ t.nodes) :
    ∃ fs l c r, t = plug fs (Tree.node l x c e r) := by
  induction t with
  | leaf => simp [Tree.nodes] at hx
  | node l a c d r ihl ihr =>
    simp only [Tree.nodes, List.mem_append, List.mem_cons, Prod.mk.injEq] at hx
    rcases hx with hx | ⟨rfl, rfl⟩ | hx
    · obtain ⟨fs, l2, c2, r2, e⟩ := ihl hx
      refine ⟨fs ++ [Frame.L a c d r], l2, c2, r2, ?_⟩
      rw [plug_append, ← e]; rfl
    · exact ⟨[], l, c, r, rfl⟩
    · obtain ⟨fs, l2, c2, r2, e⟩ := ihr hx
      refine ⟨fs ++ [Frame.R l a c d], l2, c2, r2, ?_⟩
      rw [plug_append, ← e]; rfl

theorem MWF.data_of_mem {m : Nat → rbnode α} {t : Tree α} (h : MWF m t) {x : Nat} {e : α}
    (hx : (x, e) ∈ t.nodes) : (m x).data = some e := by
  obtain ⟨fs, l, c, r, rfl⟩ := exists_focus_node t x e hx
  rw [h.read]

theorem mem_addrs_iff (t : Tree α) (x : Nat) : x ∈ t.addrs ↔ ∃ e, (x, e) ∈ t.nodes := by
  simp [Tree.addrs]

/-- Linking a fresh cell as a RED node where the path ends at the sentinel. -/
theorem MWF.attach {m m2 : Nat → rbnode α} {fs : List (Frame α)}
    (h : MWF m (plug fs Tree.leaf)) (n : Nat) (x : α) (hn1 : n ≠ RB_NIL) (hn2 : n ≠ RB_ROOT)
    (hfresh : n ∉ (plug fs Tree.leaf).addrs)
    (hcell : m2 n = { left := RB_NIL, right := RB_NIL, parent := ctxParent fs,
                      color := Color.RED, data := some x })
    (hp : m2 (ctxParent fs) = holeSet fs (m (ctxParent fs)) n)
    (hm : ∀ k, k ≠ n → k ≠ ctxParent fs → m2 k = m k) :
    MWF m2 (plug fs (Tree.node Tree.leaf n Color.RED x Tree.leaf)) ∧ m2 RB_NIL = m RB_NIL ∧
      (m2 RB_ROOT).color = (m RB_ROOT).color := by
  have hnot : n ∉ ctxAddrs fs := fun hk => hfresh ((mem_addrs_plug _ _ _).2 (Or.inr hk))
  refine h.replace ⟨hn1, hn2, hcell, trivial, trivial⟩ ?_ ?_ hp ?_
  · simp [addrs_node, addrs_leaf]
  · intro k hk
    simp only [addrs_node, addrs_leaf, List.nil_append, List.mem_singleton] at hk
    subst hk; exact hnot
  · intro k _ hk hkp
    refine hm k ?_ hkp
    intro e; exact hk (by simp [addrs_node, addrs_leaf, e])

/-- The link step of `rb_insert`: the side is chosen as the descent went. -/
theorem link_spec (cmp : α → α → Int) (x : α) {m : Nat → rbnode α} {z : List (Frame α)}
    (h : MWF m (plug z Tree.leaf)) (hz : PathOK cmp x z) (n : Nat)
    (hn1 : n ≠ RB_NIL) (hn2 : n ≠ RB_ROOT) (hfresh : n ∉ (plug z Tree.leaf).addrs) :
    ∃ gl : Bool,
      (if ctxParent z = RB_ROOT then some true
        else ((set_node m n { left := RB_NIL, right := RB_NIL, parent := ctxParent z, color := Color.RED, data := some x }) (ctxParent z)).data.map
              (fun d => decide (cmp x d < 0))) = some gl ∧
      ∀ m2, m2 = (if gl then
                set_left (set_node m n { left := RB_NIL, right := RB_NIL, parent := ctxParent z, color := Color.RED, data := some x }) (ctxParent z) n
              else
                set_right (set_node m n { left := RB_NIL, right := RB_NIL, parent := ctxParent z, color := Color.RED, data := some x }) (ctxParent z) n) →
        MWF m2 (plug z (Tree.node Tree.leaf n Color.RED x Tree.leaf)) ∧ m2 RB_NIL = m RB_NIL ∧
          (m2 RB_ROOT).color = (m RB_ROOT).color := by
  have hnot : n ∉ ctxAddrs z := fun hk => hfresh ((mem_addrs_plug _ _ _).2 (Or.inr hk))
  cases z with
  | nil =>
    refine ⟨true, by simp, ?_⟩
    rintro m2 rfl
    refine h.attach n x hn1 hn2 hfresh ?_ ?_ ?_
    · simp [set_left_apply, set_node_apply, hn2, Ne.symm hn2]
    · simp [set_left_apply, set_node_apply, hn2, Ne.symm hn2, holeSet]
    · intro k hk hkp
      simp only [ctxParent_nil] at hkp
      simp [set_left_apply, set_node_apply, hk, hkp]
  | cons f fs =>
    have hpn : ctxParent (f :: fs) ≠ n := by
      intro e; exact hnot (e ▸ ctxParent_mem f fs)
    have hpr : ctxParent (f :: fs) ≠ RB_ROOT := (h.split.1.ne_nil_ctx _ (ctxParent_mem f fs)).2
    cases f with
    | L a c d r =>
      have h2 : MWF m (plug fs (Tree.node Tree.leaf a c d r)) := h
      have hr := h2.read
      simp only [ctxParent_cons, addr_L] at hpn hpr ⊢
      refine ⟨true, by simp [set_node_apply, hpn, hpr, hr, hz.1], ?_⟩
      rintro m2 rfl
      refine h.attach n x hn1 hn2 hfresh ?_ ?_ ?_
      · simp [set_left_apply, set_node_apply, hpn, Ne.symm hpn]
      · simp [set_left_apply, set_node_apply, hpn, Ne.symm hpn, holeSet]
      · intro k hk hkp
        simp only [ctxParent_cons, addr_L] at hkp
        simp [set_left_apply, set_node_apply, hk, hkp]
    | R l a c d =>
      have h2 : MWF m (plug fs (Tree.node l a c d Tree.leaf)) := h
      have hr := h2.read
      simp only [ctxParent_cons, addr_R] at hpn hpr ⊢
      refine ⟨false, by simp [set_node_apply, hpn, hpr, hr, hz.1], ?_⟩
      rintro m2 rfl
      refine h.attach n x hn1 hn2 hfresh ?_ ?_ ?_
      · simp [set_right_apply, set_node_apply, hpn, Ne.symm hpn]
      · simp [set_right_apply, set_node_apply, hpn, Ne.symm hpn, holeSet]
      · intro k hk hkp
        simp only [ctxParent_cons, addr_R] at hkp
        simp [set_right_apply, set_node_apply, hk, hkp]

/-! ## The function `rb_insert` -/

theorem BWF.of_WF {s : rbtree α} {t : Tree α} (h : WF s t)
    (hnil : (s.mem RB_NIL).color = Color.BLACK) (hstub : (s.mem RB_ROOT).color = Color.BLACK) :
    BWF s.mem t := ⟨h.mwf, hnil, hstub⟩

theorem noRedRed_paint_black {l r : Tree α} {a : Nat} {c : Color} {d : α}
    (h : (Tree.node l a c d r).noRedRed) : (Tree.node l a Color.BLACK d r).noRedRed := by
  simp only [Tree.noRedRed] at h ⊢
  exact ⟨fun e => (by cases e), h.2⟩

theorem InsFrame.same_ins (s : rbtree α) : InsFrame s s := by simp [InsFrame]

/-- The repair step of `rb_insert` after the new RED node `n` was linked at
the end of the path `z`. -/
theorem insert_fix (s2 : rbtree α) {z : List (Frame α)} {n : Nat} {x : α}
    (hb : BWF s2.mem (plug z (Tree.node Tree.leaf n Color.RED x Tree.leaf)))
    (hroot : z ≠ [] → (plug z (Tree.node Tree.leaf n Color.RED x Tree.leaf)).color = Color.BLACK)
    (hfuel : z.length ≤ s2.brk) :
    ∃ s3 T, (if (s2.mem (s2.mem n).parent).color = Color.RED then insert_repair s2.brk s2 n
        else some s2) = some s3 ∧ BWF s3.mem T ∧
      T.nodes = (plug z (Tree.node Tree.leaf n Color.RED x Tree.leaf)).nodes ∧ InsFrame s2 s3 ∧
      (CtxInv z 0 → T.noRedRed ∧ T.balanced) := by
  have hpar : (s2.mem n).parent = ctxParent z := hb.mwf.root_parent hb.mwf.node_ne.1
  have hcc : (s2.mem (ctxParent z)).color = ctxColor z := hb.ctx_color
  rw [hpar, hcc]
  rcases color_cases (ctxColor z) with hred | hblack
  · cases z with
    | nil => simp at hred
    | cons P fs =>
      simp only [ctxColor_cons] at hred
      obtain ⟨s3, T, e, k, hn, hfr, hcol⟩ := insert_repair_spec s2.brk s2 P fs Tree.leaf Tree.leaf
        n Color.RED x hb hred (hroot (by simp)) (by simp only [List.length_cons] at hfuel; omega)
      refine ⟨s3, T, ?_, k, hn, hfr, ?_⟩
      · simp [hred, e]
      · intro hc
        exact hcol ⟨rfl, by simp [Tree.noRedRed], by simp [Tree.balanced],
          by simpa [Tree.bh, blk] using hc⟩
  · refine ⟨s2, _, ?_, hb, rfl, InsFrame.same_ins s2, ?_⟩
    · simp [hblack]
    · intro hc
      refine (plug_valid _ _).2 ⟨by simp [Tree.noRedRed], by simp [Tree.balanced],
        by simpa [Tree.bh, blk] using hc, ?_⟩
      intro e; rw [hblack] at e; cases e

/-- What `rb_insert` does on a well-formed tree whose sentinel, root stub and
real root are BLACK and whose cached minimum is `NULL` or a node: it returns
the fresh node `brk`, which is linked where the descent for `x` ended; all
other nodes keep their in-order positions and elements. -/
theorem rb_insert_spec (cmp : α → α → Int) {s : rbtree α} {t : Tree α} (x : α)
    (hwf : WF s t) (hnil : (s.mem RB_NIL).color = Color.BLACK)
    (hstub : (s.mem RB_ROOT).color = Color.BLACK) (hroot : t.color = Color.BLACK)
    (hmin : MinValid s t) :
    ∃ s2 t2, rb_insert cmp s x = some (s2, some s.brk) ∧ WF s2 t2 ∧
      (s2.mem RB_NIL).color = Color.BLACK ∧ (s2.mem RB_ROOT).color = Color.BLACK ∧
      t2.color = Color.BLACK ∧
      t2.nodes = ctxBefore (zoom cmp x t []) ++ (s.brk, x) :: ctxAfter (zoom cmp x t []) ∧
      s2.brk = s.brk + 1 ∧ s2.destroyed = s.destroyed ∧
      (s.min = none → s2.min = some s.brk) ∧
      (∀ mn e, s.min = some mn → (mn, e) ∈ t.nodes →
        s2.min = if cmp x e < 0 then some s.brk else some mn) ∧
      (t.noRedRed → t.balanced → t2.noRedRed ∧ t2.balanced) ∧
      s2.cnt_left_delete = s.cnt_left_delete ∧ s2.cnt_right_delete = s.cnt_right_delete ∧
      s.cnt_left_insert ≤ s2.cnt_left_insert ∧ s.cnt_right_insert ≤ s2.cnt_right_insert ∧
      s2.cnt_left_insert + s2.cnt_right_insert ≤ s.cnt_left_insert + s.cnt_right_insert + 2 := by
  have hlen := hwf.length_lt
  have hht := height_le_length t
  have hpz := plug_zoom cmp x t []
  simp only [plug] at hpz
  have hm0 : MWF s.mem (plug (zoom cmp x t []) Tree.leaf) := by rw [hpz]; exact hwf.mwf
  have hdesc := insert_descend_spec cmp x t [] s.brk hwf.mwf (by omega)
  simp only [ctxParent_nil] at hdesc
  have hn1 : s.brk ≠ RB_NIL := by have := hwf.brk_ge; simp [RB_NIL]; omega
  have hn2 : s.brk ≠ RB_ROOT := by have := hwf.brk_ge; simp [RB_ROOT]; omega
  have hfresh : s.brk ∉ (plug (zoom cmp x t []) Tree.leaf).addrs := by
    rw [hpz]; intro hk; exact absurd (hwf.bound _ hk) (lt_irrefl _)
  obtain ⟨gl, hgl, hlink⟩ := link_spec cmp x hm0 (zoom_pathOK cmp x t [] trivial) s.brk hn1 hn2
    hfresh
  obtain ⟨hm2, hnil2, hroot2⟩ := hlink _ rfl
  have hb2 : BWF (if gl = true then
        set_left (set_node s.mem s.brk { left := RB_NIL, right := RB_NIL, parent := ctxParent (zoom cmp x t []), color := Color.RED, data := some x }) (ctxParent (zoom cmp x t [])) s.brk
      else
        set_right (set_node s.mem s.brk { left := RB_NIL, right := RB_NIL, parent := ctxParent (zoom cmp x t []), color := Color.RED, data := some x }) (ctxParent (zoom cmp x t [])) s.brk)
      (plug (zoom cmp x t []) (Tree.node Tree.leaf s.brk Color.RED x Tree.leaf)) :=
    ⟨hm2, by rw [hnil2]; exact hnil, by rw [hroot2]; exact hstub⟩
  generalize hmdef : (if gl = true then
        set_left (set_node s.mem s.brk { left := RB_NIL, right := RB_NIL, parent := ctxParent (zoom cmp x t []), color := Color.RED, data := some x }) (ctxParent (zoom cmp x t [])) s.brk
      else
        set_right (set_node s.mem s.brk { left := RB_NIL, right := RB_NIL, parent := ctxParent (zoom cmp x t []), color := Color.RED, data := some x }) (ctxParent (zoom cmp x t [])) s.brk) = m2 at hb2 hm2 hnil2 hroot2
  have hnodes : t.nodes = ctxBefore (zoom cmp x t []) ++ ctxAfter (zoom cmp x t []) := by
    have := nodes_plug (zoom cmp x t []) (Tree.leaf : Tree α)
    rw [hpz] at this
    simpa [Tree.nodes] using this
  have hnodes2 : (plug (zoom cmp x t []) (Tree.node Tree.leaf s.brk Color.RED x Tree.leaf)).nodes =
      ctxBefore (zoom cmp x t []) ++ (s.brk, x) :: ctxAfter (zoom cmp x t []) := by
    simp [nodes_plug, Tree.nodes]
  have hdn : (m2 s.brk).data = some x := by rw [hm2.read]
  have hdo : ∀ mn e, (mn, e) ∈ t.nodes → (m2 mn).data = some e := by
    intro mn e hmem
    refine hm2.data_of_mem ?_
    rw [hnodes2]
    rw [hnodes] at hmem
    simp only [List.mem_append, List.mem_cons] at hmem ⊢
    tauto
  -- the cached minimum
  have hminv : ∃ mnv, insert_min cmp m2 s.min s.brk = some mnv ∧
      (s.min = none → mnv = some s.brk) ∧
      (∀ mn e, s.min = some mn → (mn, e) ∈ t.nodes →
        mnv = if cmp x e < 0 then some s.brk else some mn) := by
    cases hsm : s.min with
    | none => exact ⟨some s.brk, rfl, fun _ => rfl, fun mn e h => (by cases h)⟩
    | some mn =>
      obtain ⟨e, he⟩ := (mem_addrs_iff t mn).1 (hmin mn hsm)
      refine ⟨if cmp x e < 0 then some s.brk else some mn, ?_, fun h => (by cases h), ?_⟩
      · simp [insert_min, hdn, hdo mn e he]
      · intro mn2 e2 h2 he2
        cases h2
        have h3 := hdo mn e he
        rw [hdo mn e2 he2] at h3
        cases h3
        rfl
  obtain ⟨mnv, hmnv, hmin1, hmin2⟩ := hminv
  -- the repair
  have hzlen : (zoom cmp x t []).length ≤ s.brk + 1 := by
    have := path_le_length (zoom cmp x t []) (Tree.node Tree.leaf s.brk Color.RED x Tree.leaf)
    have h3 : (plug (zoom cmp x t []) (Tree.node Tree.leaf s.brk Color.RED x Tree.leaf)).addrs.length
        = t.addrs.length + 1 := by
      simp only [Tree.addrs, hnodes2, hnodes, List.map_append, List.length_append,
        List.length_map, List.map_cons, List.length_cons]
      omega
    omega
  obtain ⟨s3, T, hfix, hbT, hnT, hfr, hcolT⟩ :=
    insert_fix { s with mem := m2, brk := s.brk + 1, min := mnv } (z := zoom cmp x t [])
      (n := s.brk) (x := x) hb2
      (by
        intro hne
        cases hz : zoom cmp x t [] with
        | nil => exact absurd hz hne
        | cons P fs =>
          rw [plug_color_cons P fs _ Tree.leaf, ← hz, hpz]; exact hroot)
      hzlen
  -- the root is painted BLACK
  cases T with
  | leaf => rw [hnodes2] at hnT; simp [Tree.nodes] at hnT
  | node Tl a c d Tr =>
    have hbT0 : BWF s3.mem (plug [] (Tree.node Tl a c d Tr)) := hbT
    have hfin := hbT0.paint Color.BLACK
    have hstubl : (s3.mem RB_ROOT).left = a := hbT.mwf.stub_left
    obtain ⟨f1, f2, f3, f4, f5, f6, f7, f8⟩ := hfr
    simp only at f1 f2 f3 f4 f5 f6 f7 f8
    refine ⟨{ s3 with mem := set_color s3.mem a Color.BLACK }, Tree.node Tl a Color.BLACK d Tr,
      ?_, ⟨hfin.mwf, ?_, ?_⟩, hfin.nil_black, hfin.stub_black, rfl, ?_, f2, f3, ?_, ?_, ?_,
      f4, f5, f6, f7, f8⟩
    · unfold rb_insert
      rw [hwf.mwf.stub_left, hdesc]
      simp only [Option.some_bind, hgl, hmdef, hmnv]
      rw [hfix]
      simp [hstubl]
    · show 2 ≤ s3.brk
      rw [f2]; have := hwf.brk_ge; omega
    · intro k hk
      show k < s3.brk
      rw [f2]
      have hk2 : k ∈ (Tree.node Tl a c d Tr).addrs := by
        simpa [Tree.addrs, Tree.nodes] using hk
      simp only [Tree.addrs, hnT, hnodes2, List.map_append, List.map_cons, List.mem_append,
        List.mem_cons] at hk2
      have hb : ∀ k, k ∈ t.addrs → k < s.brk := hwf.bound
      simp only [Tree.addrs, hnodes, List.map_append, List.mem_append] at hb
      rcases hk2 with hk2 | rfl | hk2
      · have := hb k (Or.inl hk2); omega
      · omega
      · have := hb k (Or.inr hk2); omega
    · rw [← hnodes2, ← hnT]; simp [Tree.nodes]
    · intro h; rw [f1]; exact hmin1 h
    · intro mn e h1 h2; rw [f1]; exact hmin2 mn e h1 h2
    · intro g1 g2
      have hc : CtxInv (zoom cmp x t []) 0 := by
        have := (plug_valid (zoom cmp x t []) (Tree.leaf : Tree α)).1 (by rw [hpz]; exact ⟨g1, g2⟩)
        simpa [Tree.bh] using this.2.2.1
      obtain ⟨c1, c2⟩ := hcolT hc
      exact ⟨noRedRed_paint_black c1, c2⟩

/-! ## The order property along the descent -/

theorem CmpOrder.not_lt {cmp : α → α → Int} (h : CmpOrder cmp) (a b : α) :
    ¬ cmp a b < 0 ↔ cmp b a ≤ 0 := by
  rw [h.antisymm a b]; omega

theorem CmpOrder.le_of_lt {cmp : α → α → Int} (_h : CmpOrder cmp) {a b : α}
    (hab : cmp a b < 0) : cmp a b ≤ 0 := by omega

theorem CmpOrder.refl {cmp : α → α → Int} (h : CmpOrder cmp) (a : α) : cmp a a = 0 := by
  have h1 := h.antisymm a a
  omega

theorem CmpOrder.eq_symm {cmp : α → α → Int} (h : CmpOrder cmp) {a b : α}
    (hab : cmp a b = 0) : cmp b a = 0 := by
  have h1 := h.antisymm a b
  have h2 := h.antisymm b a
  omega

theorem inorder_plug (fs : List (Frame α)) (t : Tree α) :
    (plug fs t).inorder =
      (ctxBefore fs).map Prod.snd ++ t.inorder ++ (ctxAfter fs).map Prod.snd := by
  simp [Tree.inorder, nodes_plug]

/-- The descent of `rb_insert` ends between the elements not greater than `x`
and the elements greater than `x`. -/
theorem zoom_bounds {cmp : α → α → Int} (hcmp : CmpOrder cmp) (x : α) (t : Tree α) :
    ∀ fs : List (Frame α), SortedBy cmp (plug fs t).inorder →
      (∀ e ∈ (ctxBefore fs).map Prod.snd, cmp e x ≤ 0) →
      (∀ e ∈ (ctxAfter fs).map Prod.snd, cmp x e < 0) →
      (∀ e ∈ (ctxBefore (zoom cmp x t fs)).map Prod.snd, cmp e x ≤ 0) ∧
        (∀ e ∈ (ctxAfter (zoom cmp x t fs)).map Prod.snd, cmp x e < 0) := by
  induction t with
  | leaf => intro fs _ hb ha; exact ⟨hb, ha⟩
  | node l a c d r ihl ihr =>
    intro fs hs hb ha
    have hs2 := hs
    rw [inorder_plug, inorder_node] at hs2
    simp only [SortedBy, List.pairwise_append, List.pairwise_cons, List.mem_append,
      List.mem_cons] at hs2
    obtain ⟨⟨_, ⟨_, ⟨hdr, _⟩, hld⟩, _⟩, _, _⟩ := hs2
    simp only [zoom]
    split_ifs with hc
    · refine ihl (Frame.L a c d r :: fs) hs hb ?_
      intro e he
      simp only [ctxAfter, List.map_append, List.map_cons, List.mem_append, List.mem_cons,
        List.cons_append] at he
      rcases he with rfl | he | he
      · exact hc
      · by_contra hne
        have h1 : cmp e x ≤ 0 := (hcmp.not_lt x e).1 hne
        have h2 : cmp d e ≤ 0 := hdr e (by simpa [Tree.inorder] using he)
        have h3 := hcmp.trans d e x h2 h1
        exact (hcmp.not_lt x d).2 h3 hc
      · exact ha e he
    · refine ihr (Frame.R l a c d :: fs) hs ?_ ha
      intro e he
      have hdx : cmp d x ≤ 0 := (hcmp.not_lt x d).1 hc
      simp only [ctxBefore, List.map_append, List.map_cons, List.mem_append, List.mem_cons,
        List.map_nil, List.not_mem_nil, or_false] at he
      rcases he with he | he | rfl
      · exact hb e he
      · exact hcmp.trans e d x (hld e (by simpa [Tree.inorder] using he) d (Or.inl rfl)) hdx
      · exact hdx

theorem takeWhile_split {p : α → Bool} (pre post : List α) (h1 : ∀ e ∈ pre, p e = true)
    (h2 : ∀ e ∈ post, p e = false) :
    (pre ++ post).takeWhile p = pre ∧ (pre ++ post).dropWhile p = post := by
  induction pre with
  | nil =>
    cases post with
    | nil => simp
    | cons b bs => simp [List.takeWhile, List.dropWhile, h2 b (by simp)]
  | cons a as ih =>
    have := ih (fun e he => h1 e (by simp [he]))
    simp [List.takeWhile, List.dropWhile, h1 a (by simp), this.1, this.2]

/-- Putting `x` between the elements not greater and the elements greater
keeps the order property. -/
theorem sorted_insert {cmp : α → α → Int} (x : α) (pre post : List α)
    (hs : SortedBy cmp (pre ++ post)) (h1 : ∀ e ∈ pre, cmp e x ≤ 0)
    (h2 : ∀ e ∈ post, cmp x e < 0) : SortedBy cmp (pre ++ x :: post) := by
  simp only [SortedBy, List.pairwise_append, List.pairwise_cons, List.mem_cons] at hs ⊢
  obtain ⟨a1, a2, a3⟩ := hs
  refine ⟨a1, ⟨fun e he => by have := h2 e he; omega, a2⟩, ?_⟩
  intro a ha b hb
  rcases hb with rfl | hb
  · exact h1 a ha
  · exact a3 a ha b hb

/-- The order property on the in-order traversal gives it node by node. -/
theorem bst_of_ordered {cmp : α → α → Int} (t : Tree α) (h : t.ordered cmp) : t.bst cmp := by
  induction t with
  | leaf => trivial
  | node l a c d r ihl ihr =>
    simp only [Tree.ordered, SortedBy, inorder_node, List.pairwise_append, List.pairwise_cons,
      List.mem_cons] at h
    obtain ⟨h1, ⟨h2, h3⟩, h4⟩ := h
    exact ⟨fun e he => h4 e he d (Or.inl rfl), h2, ihl h1, ihr h3⟩

/-- Insertion in order terms: where the new element goes. -/
theorem rb_insert_inorder {cmp : α → α → Int} (hcmp : CmpOrder cmp) (x : α) (t : Tree α)
    (hord : t.ordered cmp) :
    (ctxBefore (zoom cmp x t [])).map Prod.snd =
        t.inorder.takeWhile (fun e => decide (cmp e x ≤ 0)) ∧
      (ctxAfter (zoom cmp x t [])).map Prod.snd =
        t.inorder.dropWhile (fun e => decide (cmp e x ≤ 0)) ∧
      SortedBy cmp ((ctxBefore (zoom cmp x t [])).map Prod.snd ++
        x :: (ctxAfter (zoom cmp x t [])).map Prod.snd) := by
  obtain ⟨hb, ha⟩ := zoom_bounds hcmp x t [] hord (by simp [ctxBefore]) (by simp [ctxAfter])
  have hin : t.inorder = (ctxBefore (zoom cmp x t [])).map Prod.snd ++
      (ctxAfter (zoom cmp x t [])).map Prod.snd := by
    have := inorder_plug (zoom cmp x t []) (Tree.leaf : Tree α)
    rw [plug_zoom] at this
    simpa [Tree.inorder, Tree.nodes, plug] using this
  have hsplit := takeWhile_split (p := fun e => decide (cmp e x ≤ 0)) _ _
    (fun e he => by simpa using hb e he)
    (fun e he => by
      have := (hcmp.antisymm x e).1 (ha e he)
      simp only [decide_eq_false_iff_not, not_le]; exact this)
  rw [← hin] at hsplit
  refine ⟨hsplit.1.symm, hsplit.2.symm, sorted_insert x _ _ ?_ hb ha⟩
  rw [← hin]; exact hord

/-! ## One pass of `delete_repair`, case by case

The current node `cur` (with its subtree) hangs below its parent `p`; `S` is
the sibling's subtree. -/

/-- Left child, RED sibling: recolour and rotate left at the parent; the new
sibling is the old sibling's left child. -/
theorem delete_red_left {s : rbtree α} {p : Nat} {cp : Color} {dp : α}
    {Sl Sr : Tree α} {sa : Nat} {ds : α} {rest : List (Frame α)}
    {cl cr : Tree α} {cur : Nat} {cc : Color} {cd : α}
    (h : BWF s.mem (plug (Frame.L p cp dp (Tree.node Sl sa Color.RED ds Sr) :: rest)
      (Tree.node cl cur cc cd cr))) :
    ∃ m3, delete_red_sibling_left s cur sa =
        ({ s with mem := m3, cnt_left_delete := s.cnt_left_delete + 1 }, Sl.root) ∧
      BWF m3 (plug (Frame.L p Color.RED dp Sl :: Frame.L sa Color.BLACK ds Sr :: rest)
        (Tree.node cl cur cc cd cr)) := by
  have e1 : (s.mem cur).parent = p := h.mwf.root_parent h.mwf.node_ne.1
  have hS : BWF s.mem (plug (Frame.R (Tree.node cl cur cc cd cr) p cp dp :: rest)
      (Tree.node Sl sa Color.RED ds Sr)) := h
  have eS := hS.mwf.read
  have k1 := hS.paint Color.BLACK
  have k1' : BWF _ (plug rest (Tree.node (Tree.node cl cur cc cd cr) p cp dp
      (Tree.node Sl sa Color.BLACK ds Sr))) := k1
  have k2 := k1'.paint Color.RED
  have k3 := k2.rotl
  have k3' : BWF _ (plug (Frame.L p Color.RED dp Sl :: Frame.L sa Color.BLACK ds Sr :: rest)
      (Tree.node cl cur cc cd cr)) := k3
  have f1 := k3'.mwf.root_parent k3'.mwf.node_ne.1
  have k3'' : BWF _ (plug (Frame.L sa Color.BLACK ds Sr :: rest)
      (Tree.node (Tree.node cl cur cc cd cr) p Color.RED dp Sl)) := k3
  have f2 := k3''.mwf.read
  simp only [root_node, ctxParent_cons, addr_L] at f1 f2
  refine ⟨_, ?_, k3'⟩
  simp [delete_red_sibling_left, e1, eS, f1, f2]

/-- Left child, BLACK sibling: the first block does nothing. -/
theorem delete_red_left_skip {s : rbtree α} {p : Nat} {cp : Color} {dp : α}
    {S : Tree α} {rest : List (Frame α)} {c : Tree α}
    (h : BWF s.mem (plug (Frame.L p cp dp S :: rest) c)) (hS : S.color = Color.BLACK)
    (cur : Nat) :
    delete_red_sibling_left s cur S.root = (s, S.root) := by
  have hS2 : BWF s.mem (plug (Frame.R c p cp dp :: rest) S) := h
  have e := hS2.root_color
  simp [delete_red_sibling_left, e, hS]

/-- Left child, BLACK sibling with two BLACK children: the sibling becomes
RED; a RED parent becomes BLACK and ends the loop, below a BLACK parent the
loop goes on at the parent. -/
theorem delete_black_left_recolor {s : rbtree α} {p : Nat} {cp : Color} {dp : α}
    {Sl Sr : Tree α} {sa : Nat} {cs : Color} {ds : α} {rest : List (Frame α)}
    {cl cr : Tree α} {cur : Nat} {cc : Color} {cd : α}
    (h : BWF s.mem (plug (Frame.L p cp dp (Tree.node Sl sa cs ds Sr) :: rest)
      (Tree.node cl cur cc cd cr)))
    (hl : Sl.color = Color.BLACK) (hr : Sr.color = Color.BLACK) :
    ∃ m2, delete_black_sibling_left s cur sa =
        ({ s with mem := m2 }, (if cp = Color.RED then cur else p), decide (cp = Color.RED)) ∧
      BWF m2 (plug (Frame.L p Color.BLACK dp (Tree.node Sl sa Color.RED ds Sr) :: rest)
        (Tree.node cl cur cc cd cr)) := by
  have e1 : (s.mem cur).parent = p := h.mwf.root_parent h.mwf.node_ne.1
  have hS : BWF s.mem (plug (Frame.R (Tree.node cl cur cc cd cr) p cp dp :: rest)
      (Tree.node Sl sa cs ds Sr)) := h
  have eS := hS.mwf.read
  have hSl : BWF s.mem (plug (Frame.L sa cs ds Sr :: Frame.R (Tree.node cl cur cc cd cr) p cp
      dp :: rest) Sl) := h
  have hSr : BWF s.mem (plug (Frame.R Sl sa cs ds :: Frame.R (Tree.node cl cur cc cd cr) p cp
      dp :: rest) Sr) := h
  have el : (s.mem Sl.root).color = Color.BLACK := by rw [hSl.root_color, hl]
  have er : (s.mem Sr.root).color = Color.BLACK := by rw [hSr.root_color, hr]
  have hp : BWF s.mem (plug rest (Tree.node (Tree.node cl cur cc cd cr) p cp dp
      (Tree.node Sl sa cs ds Sr))) := h
  have ep := hp.mwf.read
  have hpsa : p ≠ sa := hp.mwf.node_ne.2.2.2.1
  have k1 := hS.paint Color.RED
  have k1' : BWF _ (plug rest (Tree.node (Tree.node cl cur cc cd cr) p cp dp
      (Tree.node Sl sa Color.RED ds Sr))) := k1
  rcases color_cases cp with rfl | rfl
  · have k2 := k1'.paint Color.BLACK
    refine ⟨_, ?_, k2⟩
    simp [delete_black_sibling_left, e1, eS, el, er, ep, set_color_color, hpsa]
  · refine ⟨_, ?_, k1'⟩
    simp [delete_black_sibling_left, e1, eS, el, er, ep, set_color_color, hpsa]

/-- Left child, BLACK sibling whose right (far) child is RED: recolour and
rotate left at the parent; the loop ends. -/
theorem delete_black_left_far {s : rbtree α} {p : Nat} {cp : Color} {dp : α}
    {Sl Yl Yr : Tree α} {sa ya : Nat} {cs : Color} {ds dy : α} {rest : List (Frame α)}
    {cl cr : Tree α} {cur : Nat} {cc : Color} {cd : α}
    (h : BWF s.mem (plug (Frame.L p cp dp
      (Tree.node Sl sa cs ds (Tree.node Yl ya Color.RED dy Yr)) :: rest)
      (Tree.node cl cur cc cd cr))) :
    ∃ m4, delete_black_sibling_left s cur sa =
        ({ s with mem := m4, cnt_left_delete := s.cnt_left_delete + 1 }, cur, true) ∧
      BWF m4 (plug rest (Tree.node (Tree.node (Tree.node cl cur cc cd cr) p Color.BLACK dp Sl)
        sa cp ds (Tree.node Yl ya Color.BLACK dy Yr))) := by
  have e1 : (s.mem cur).parent = p := h.mwf.root_parent h.mwf.node_ne.1
  have hS : BWF s.mem (plug (Frame.R (Tree.node cl cur cc cd cr) p cp dp :: rest)
      (Tree.node Sl sa cs ds (Tree.node Yl ya Color.RED dy Yr))) := h
  have eS := hS.mwf.read
  have hY : BWF s.mem (plug (Frame.R Sl sa cs ds :: Frame.R (Tree.node cl cur cc cd cr) p cp
      dp :: rest) (Tree.node Yl ya Color.RED dy Yr)) := h
  have eY := hY.mwf.read
  have hp : BWF s.mem (plug rest (Tree.node (Tree.node cl cur cc cd cr) p cp dp
      (Tree.node Sl sa cs ds (Tree.node Yl ya Color.RED dy Yr)))) := h
  have ep := hp.mwf.read
  have k1 := hS.paint cp
  have k1' : BWF _ (plug rest (Tree.node (Tree.node cl cur cc cd cr) p cp dp
      (Tree.node Sl sa cp ds (Tree.node Yl ya Color.RED dy Yr)))) := k1
  have k2 := k1'.paint Color.BLACK
  have k2' : BWF _ (plug (Frame.R Sl sa cp ds :: Frame.R (Tree.node cl cur cc cd cr) p
      Color.BLACK dp :: rest) (Tree.node Yl ya Color.RED dy Yr)) := k2
  have k3 := k2'.paint Color.BLACK
  have k3' : BWF _ (plug rest (Tree.node (Tree.node cl cur cc cd cr) p Color.BLACK dp
      (Tree.node Sl sa cp ds (Tree.node Yl ya Color.BLACK dy Yr)))) := k3
  have k4 := k3'.rotl
  refine ⟨_, ?_, k4⟩
  simp [delete_black_sibling_left, e1, eS, eY, ep]

/-- Left child, BLACK sibling whose left (near) child is RED and right (far)
child BLACK: a right rotation at the sibling, then recolouring and a left
rotation at the parent; the loop ends. -/
theorem delete_black_left_near {s : rbtree α} {p : Nat} {cp : Color} {dp : α}
    {A B Sr : Tree α} {sa la : Nat} {cs : Color} {ds dl : α} {rest : List (Frame α)}
    {cl cr : Tree α} {cur : Nat} {cc : Color} {cd : α}
    (h : BWF s.mem (plug (Frame.L p cp dp
      (Tree.node (Tree.node A la Color.RED dl B) sa cs ds Sr) :: rest)
      (Tree.node cl cur cc cd cr)))
    (hr : Sr.color = Color.BLACK) :
    ∃ m4, delete_black_sibling_left s cur sa =
        ({ s with mem := m4, cnt_right_delete := s.cnt_right_delete + 1,
                  cnt_left_delete := s.cnt_left_delete + 1 }, cur, true) ∧
      BWF m4 (plug rest (Tree.node (Tree.node (Tree.node cl cur cc cd cr) p Color.BLACK dp A)
        la cp dl (Tree.node B sa Color.BLACK ds Sr))) := by
  have e1 : (s.mem cur).parent = p := h.mwf.root_parent h.mwf.node_ne.1
  have hS : BWF s.mem (plug (Frame.R (Tree.node cl cur cc cd cr) p cp dp :: rest)
      (Tree.node (Tree.node A la Color.RED dl B) sa cs ds Sr)) := h
  have eS := hS.mwf.read
  have hSr : BWF s.mem (plug (Frame.R (Tree.node A la Color.RED dl B) sa cs ds ::
      Frame.R (Tree.node cl cur cc cd cr) p cp dp :: rest) Sr) := h
  have er : (s.mem Sr.root).color = Color.BLACK := by rw [hSr.root_color, hr]
  have hL : BWF s.mem (plug (Frame.L sa cs ds Sr :: Frame.R (Tree.node cl cur cc cd cr) p cp
      dp :: rest) (Tree.node A la Color.RED dl B)) := h
  have eL := hL.mwf.read
  have j1 := hL.paint Color.BLACK
  have j1' : BWF _ (plug (Frame.R (Tree.node cl cur cc cd cr) p cp dp :: rest)
      (Tree.node (Tree.node A la Color.BLACK dl B) sa cs ds Sr)) := j1
  have j2 := j1'.paint Color.RED
  have j3 := j2.rotr
  have j3c : BWF _ (plug (Frame.L p cp dp (Tree.node A la Color.BLACK dl
      (Tree.node B sa Color.RED ds Sr)) :: rest) (Tree.node cl cur cc cd cr)) := j3
  have f1 := j3c.mwf.root_parent j3c.mwf.node_ne.1
  have j3p : BWF _ (plug rest (Tree.node (Tree.node cl cur cc cd cr) p cp dp
      (Tree.node A la Color.BLACK dl (Tree.node B sa Color.RED ds Sr)))) := j3
  have f2 := j3p.mwf.read
  have f3 := j3.mwf.read
  simp only [root_node, ctxParent_cons, addr_L, addr_R] at f1 f2 f3
  have k1 := j3.paint cp
  have k1' : BWF _ (plug rest (Tree.node (Tree.node cl cur cc cd cr) p cp dp
      (Tree.node A la cp dl (Tree.node B sa Color.RED ds Sr)))) := k1
  have k2 := k1'.paint Color.BLACK
  have k2' : BWF _ (plug (Frame.R A la cp dl :: Frame.R (Tree.node cl cur cc cd cr) p
      Color.BLACK dp :: rest) (Tree.node B sa Color.RED ds Sr)) := k2
  have k3 := k2'.paint Color.BLACK
  have k3' : BWF _ (plug rest (Tree.node (Tree.node cl cur cc cd cr) p Color.BLACK dp
      (Tree.node A la cp dl (Tree.node B sa Color.BLACK ds Sr)))) := k3
  have k4 := k3'.rotl
  refine ⟨_, ?_, k4⟩
  simp [delete_black_sibling_left, e1, eS, eL, er, f1, f2, f3]

/-- Right child, RED sibling: recolour and rotate right at the parent; the new
sibling is the old sibling's right child. -/
theorem delete_red_right {s : rbtree α} {p : Nat} {cp : Color} {dp : α}
    {Sl Sr : Tree α} {sa : Nat} {ds : α} {rest : List (Frame α)}
    {cl cr : Tree α} {cur : Nat} {cc : Color} {cd : α}
    (h : BWF s.mem (plug (Frame.R (Tree.node Sl sa Color.RED ds Sr) p cp dp :: rest)
      (Tree.node cl cur cc cd cr))) :
    ∃ m3, delete_red_sibling_right s cur sa =
        ({ s with mem := m3, cnt_right_delete := s.cnt_right_delete + 1 }, Sr.root) ∧
      BWF m3 (plug (Frame.R Sr p Color.RED dp :: Frame.R Sl sa Color.BLACK ds :: rest)
        (Tree.node cl cur cc cd cr)) := by
  have e1 : (s.mem cur).parent = p := h.mwf.root_parent h.mwf.node_ne.1
  have hS : BWF s.mem (plug (Frame.L p cp dp (Tree.node cl cur cc cd cr) :: rest)
      (Tree.node Sl sa Color.RED ds Sr)) := h
  have eS := hS.mwf.read
  have k1 := hS.paint Color.BLACK
  have k1' : BWF _ (plug rest (Tree.node (Tree.node Sl sa Color.BLACK ds Sr) p cp dp
      (Tree.node cl cur cc cd cr))) := k1
  have k2 := k1'.paint Color.RED
  have k3 := k2.rotr
  have k3' : BWF _ (plug (Frame.R Sr p Color.RED dp :: Frame.R Sl sa Color.BLACK ds :: rest)
      (Tree.node cl cur cc cd cr)) := k3
  have f1 := k3'.mwf.root_parent k3'.mwf.node_ne.1
  have k3'' : BWF _ (plug (Frame.R Sl sa Color.BLACK ds :: rest)
      (Tree.node Sr p Color.RED dp (Tree.node cl cur cc cd cr))) := k3
  have f2 := k3''.mwf.read
  simp only [root_node, ctxParent_cons, addr_R] at f1 f2
  refine ⟨_, ?_, k3'⟩
  simp [delete_red_sibling_right, e1, eS, f1, f2]

/-- Right child, BLACK sibling: the first block does nothing. -/
theorem delete_red_right_skip {s : rbtree α} {p : Nat} {cp : Color} {dp : α}
    {S : Tree α} {rest : List (Frame α)} {c : Tree α}
    (h : BWF s.mem (plug (Frame.R S p cp dp :: rest) c)) (hS : S.color = Color.BLACK)
    (cur : Nat) :
    delete_red_sibling_right s cur S.root = (s, S.root) := by
  have hS2 : BWF s.mem (plug (Frame.L p cp dp c :: rest) S) := h
  have e := hS2.root_color
  simp [delete_red_sibling_right, e, hS]

/-- Right child, BLACK sibling with two BLACK children: the sibling becomes
RED; a RED parent becomes BLACK and ends the loop, below a BLACK parent the
loop goes on at the parent. -/
theorem delete_black_right_recolor {s : rbtree α} {p : Nat} {cp : Color} {dp : α}
    {Sl Sr : Tree α} {sa : Nat} {cs : Color} {ds : α} {rest : List (Frame α)}
    {cl cr : Tree α} {cur : Nat} {cc : Color} {cd : α}
    (h : BWF s.mem (plug (Frame.R (Tree.node Sl sa cs ds Sr) p cp dp :: rest)
      (Tree.node cl cur cc cd cr)))
    (hl : Sl.color = Color.BLACK) (hr : Sr.color = Color.BLACK) :
    ∃ m2, delete_black_sibling_right s cur sa =
        ({ s with mem := m2 }, (if cp = Color.RED then cur else p), decide (cp = Color.RED)) ∧
      BWF m2 (plug (Frame.R (Tree.node Sl sa Color.RED ds Sr) p Color.BLACK dp :: rest)
        (Tree.node cl cur cc cd cr)) := by
  have e1 : (s.mem cur).parent = p := h.mwf.root_parent h.mwf.node_ne.1
  have hS : BWF s.mem (plug (Frame.L p cp dp (Tree.node cl cur cc cd cr) :: rest)
      (Tree.node Sl sa cs ds Sr)) := h
  have eS := hS.mwf.read
  have hSl : BWF s.mem (plug (Frame.L sa cs ds Sr :: Frame.L p cp dp (Tree.node cl cur cc cd cr)
      :: rest) Sl) := h
  have hSr : BWF s.mem (plug (Frame.R Sl sa cs ds :: Frame.L p cp dp (Tree.node cl cur cc cd cr)
      :: rest) Sr) := h
  have el : (s.mem Sl.root).color = Color.BLACK := by rw [hSl.root_color, hl]
  have er : (s.mem Sr.root).color = Color.BLACK := by rw [hSr.root_color, hr]
  have hp : BWF s.mem (plug rest (Tree.node (Tree.node Sl sa cs ds Sr) p cp dp
      (Tree.node cl cur cc cd cr))) := h
  have ep := hp.mwf.read
  have hpsa : p ≠ sa := hp.mwf.node_ne.2.2.1
  have k1 := hS.paint Color.RED
  have k1' : BWF _ (plug rest (Tree.node (Tree.node Sl sa Color.RED ds Sr) p cp dp
      (Tree.node cl cur cc cd cr))) := k1
  rcases color_cases cp with rfl | rfl
  · have k2 := k1'.paint Color.BLACK
    refine ⟨_, ?_, k2⟩
    simp [delete_black_sibling_right, e1, eS, el, er, ep, set_color_color, hpsa]
  · refine ⟨_, ?_, k1'⟩
    simp [delete_black_sibling_right, e1, eS, el, er, ep, set_color_color, hpsa]

/-- Right child, BLACK sibling whose left (far) child is RED: recolour and
rotate right at the parent; the loop ends. -/
theorem delete_black_right_far {s : rbtree α} {p : Nat} {cp : Color} {dp : α}
    {Sr Yl Yr : Tree α} {sa ya : Nat} {cs : Color} {ds dy : α} {rest : List (Frame α)}
    {cl cr : Tree α} {cur : Nat} {cc : Color} {cd : α}
    (h : BWF s.mem (plug (Frame.R
      (Tree.node (Tree.node Yl ya Color.RED dy Yr) sa cs ds Sr) p cp dp :: rest)
      (Tree.node cl cur cc cd cr))) :
    ∃ m4, delete_black_sibling_right s cur sa =
        ({ s with mem := m4, cnt_right_delete := s.cnt_right_delete + 1 }, cur, true) ∧
      BWF m4 (plug rest (Tree.node (Tree.node Yl ya Color.BLACK dy Yr) sa cp ds
        (Tree.node Sr p Color.BLACK dp (Tree.node cl cur cc cd cr)))) := by
  have e1 : (s.mem cur).parent = p := h.mwf.root_parent h.mwf.node_ne.1
  have hS : BWF s.mem (plug (Frame.L p cp dp (Tree.node cl cur cc cd cr) :: rest)
      (Tree.node (Tree.node Yl ya Color.RED dy Yr) sa cs ds Sr)) := h
  have eS := hS.mwf.read
  have hY : BWF s.mem (plug (Frame.L sa cs ds Sr :: Frame.L p cp dp (Tree.node cl cur cc cd cr)
      :: rest) (Tree.node Yl ya Color.RED dy Yr)) := h
  have eY := hY.mwf.read
  have hp : BWF s.mem (plug rest (Tree.node
      (Tree.node (Tree.node Yl ya Color.RED dy Yr) sa cs ds Sr) p cp dp
      (Tree.node cl cur cc cd cr))) := h
  have ep := hp.mwf.read
  have k1 := hS.paint cp
  have k1' : BWF _ (plug rest (Tree.node
      (Tree.node (Tree.node Yl ya Color.RED dy Yr) sa cp ds Sr) p cp dp
      (Tree.node cl cur cc cd cr))) := k1
  have k2 := k1'.paint Color.BLACK
  have k2' : BWF _ (plug (Frame.L sa cp ds Sr :: Frame.L p Color.BLACK dp
      (Tree.node cl cur cc cd cr) :: rest) (Tree.node Yl ya Color.RED dy Yr)) := k2
  have k3 := k2'.paint Color.BLACK
  have k3' : BWF _ (plug rest (Tree.node
      (Tree.node (Tree.node Yl ya Color.BLACK dy Yr) sa cp ds Sr) p Color.BLACK dp
      (Tree.node cl cur cc cd cr))) := k3
  have k4 := k3'.rotr
  refine ⟨_, ?_, k4⟩
  simp [delete_black_sibling_right, e1, eS, eY, ep]

/-- Right child, BLACK sibling whose right (near) child is RED and left (far)
child BLACK: a left rotation at the sibling, then recolouring and a right
rotation at the parent; the loop ends. -/
theorem delete_black_right_near {s : rbtree α} {p : Nat} {cp : Color} {dp : α}
    {A B Sl : Tree α} {sa la : Nat} {cs : Color} {ds dl : α} {rest : List (Frame α)}
    {cl cr : Tree α} {cur : Nat} {cc : Color} {cd : α}
    (h : BWF s.mem (plug (Frame.R
      (Tree.node Sl sa cs ds (Tree.node A la Color.RED dl B)) p cp dp :: rest)
      (Tree.node cl cur cc cd cr)))
    (hl : Sl.color = Color.BLACK) :
    ∃ m4, delete_black_sibling_right s cur sa =
        ({ s with mem := m4, cnt_left_delete := s.cnt_left_delete + 1,
                  cnt_right_delete := s.cnt_right_delete + 1 }, cur, true) ∧
      BWF m4 (plug rest (Tree.node (Tree.node Sl sa Color.BLACK ds A) la cp dl
        (Tree.node B p Color.BLACK dp (Tree.node cl cur cc cd cr)))) := by
  have e1 : (s.mem cur).parent = p := h.mwf.root_parent h.mwf.node_ne.1
  have hS : BWF s.mem (plug (Frame.L p cp dp (Tree.node cl cur cc cd cr) :: rest)
      (Tree.node Sl sa cs ds (Tree.node A la Color.RED dl B))) := h
  have eS := hS.mwf.read
  have hSl : BWF s.mem (plug (Frame.L sa cs ds (Tree.node A la Color.RED dl B) ::
      Frame.L p cp dp (Tree.node cl cur cc cd cr) :: rest) Sl) := h
  have el : (s.mem Sl.root).color = Color.BLACK := by rw [hSl.root_color, hl]
  have hL : BWF s.mem (plug (Frame.R Sl sa cs ds :: Frame.L p cp dp (Tree.node cl cur cc cd cr)
      :: rest) (Tree.node A la Color.RED dl B)) := h
  have eL := hL.mwf.read
  have j1 := hL.paint Color.BLACK
  have j1' : BWF _ (plug (Frame.L p cp dp (Tree.node cl cur cc cd cr) :: rest)
      (Tree.node Sl sa cs ds (Tree.node A la Color.BLACK dl B))) := j1
  have j2 := j1'.paint Color.RED
  have j3 := j2.rotl
  have j3c : BWF _ (plug (Frame.R (Tree.node (Tree.node Sl sa Color.RED ds A) la Color.BLACK dl
      B) p cp dp :: rest) (Tree.node cl cur cc cd cr)) := j3
  have f1 := j3c.mwf.root_parent j3c.mwf.node_ne.1
  have j3p : BWF _ (plug rest (Tree.node
      (Tree.node (Tree.node Sl sa Color.RED ds A) la Color.BLACK dl B) p cp dp
      (Tree.node cl cur cc cd cr))) := j3
  have f2 := j3p.mwf.read
  have f3 := j3.mwf.read
  simp only [root_node, ctxParent_cons, addr_L, addr_R] at f1 f2 f3
  have k1 := j3.paint cp
  have k1' : BWF _ (plug rest (Tree.node
      (Tree.node (Tree.node Sl sa Color.RED ds A) la cp dl B) p cp dp
      (Tree.node cl cur cc cd cr))) := k1
  have k2 := k1'.paint Color.BLACK
  have k2' : BWF _ (plug (Frame.L la cp dl B :: Frame.L p Color.BLACK dp
      (Tree.node cl cur cc cd cr) :: rest) (Tree.node Sl sa Color.RED ds A)) := k2
  have k3 := k2'.paint Color.BLACK
  have k3' : BWF _ (plug rest (Tree.node
      (Tree.node (Tree.node Sl sa Color.BLACK ds A) la cp dl B) p Color.BLACK dp
      (Tree.node cl cur cc cd cr))) := k3
  have k4 := k3'.rotr
  refine ⟨_, ?_, k4⟩
  simp [delete_black_sibling_right, e1, eS, eL, el, f1, f2, f3]

/-! ## One pass of `delete_repair` with the colour conditions -/

theorem color_plug (fs : List (Frame α)) (t : Tree α) :
    (plug fs t).color = ctxTop fs t.color := by
  induction fs generalizing t with
  | nil => rfl
  | cons f fs ih => rw [show plug (f :: fs) t = plug fs (f.fill t) from rfl, ih]; simp [ctxTop]

theorem ctxTop_black (fs : List (Frame α)) (c : Color) (h : ctxTop fs c = Color.BLACK) :
    ctxTop fs Color.BLACK = Color.BLACK := by
  cases fs with
  | nil => rfl
  | cons f fs => exact h

theorem ctxTop_cons (f : Frame α) (fs : List (Frame α)) (c : Color) :
    ctxTop (f :: fs) c = ctxTop fs f.color := rfl

theorem node_of_red (t : Tree α) (h : t.color = Color.RED) :
    ∃ l a d r, t = Tree.node l a Color.RED d r := by
  cases t with
  | leaf => simp at h
  | node l a c d r => simp only [color_node] at h; subst h; exact ⟨l, a, d, r, rfl⟩

theorem node_of_bh (t : Tree α) (k : Nat) (h : t.bh = k + 1) :
    ∃ l a c d r, t = Tree.node l a c d r := by
  cases t with
  | leaf => simp [Tree.bh] at h
  | node l a c d r => exact ⟨l, a, c, d, r, rfl⟩

/-- A BLACK shape without BLACK nodes on its paths is empty. -/
theorem leaf_of_black (t : Tree α) (hc : t.color = Color.BLACK) (hb : t.bh = 0) :
    t = Tree.leaf := by
  cases t with
  | leaf => rfl
  | node l a c d r =>
    simp only [color_node] at hc
    subst hc
    simp [Tree.bh, blk] at hb

/-- Left child below a BLACK sibling: the pass either ends the loop with the
colour conditions restored around a subtree one BLACK node short, or it moves
to a BLACK parent that is now one BLACK node short itself. -/
theorem delete_black_left_step {s : rbtree α} {p : Nat} {cp : Color} {dp : α} {S : Tree α}
    {rest : List (Frame α)} {cl cr : Tree α} {cur : Nat} {cc : Color} {cd : α} {k : Nat}
    (h : BWF s.mem (plug (Frame.L p cp dp S :: rest) (Tree.node cl cur cc cd cr)))
    (hinv : CtxInv (Frame.L p cp dp S :: rest) (k + 1)) (hS : S.color = Color.BLACK) :
    ∃ s2 F, BWF s2.mem (plug F (Tree.node cl cur cc cd cr)) ∧
      ctxBefore F = ctxBefore (Frame.L p cp dp S :: rest) ∧
      ctxAfter F = ctxAfter (Frame.L p cp dp S :: rest) ∧
      ((delete_black_sibling_left s cur S.root = (s2, cur, true) ∧ DelFrame 2 s s2 ∧ F ≠ [] ∧
          CtxInv F k ∧ (ctxTop rest cp = Color.BLACK → ∀ c1, ctxTop F c1 = Color.BLACK)) ∨
       (delete_black_sibling_left s cur S.root = (s2, p, false) ∧ DelFrame 0 s s2 ∧
          cp = Color.BLACK ∧ ∃ S2, F = Frame.L p Color.BLACK dp S2 :: rest ∧
            S2.noRedRed ∧ S2.balanced ∧ S2.bh = k)) := by
  simp only [CtxInv, sibling_L, color_L] at hinv
  obtain ⟨i1, i2, i3, i4, i5⟩ := hinv
  obtain ⟨Sl, sa, cs, ds, Sr, rfl⟩ := node_of_bh S k i3
  simp only [color_node] at hS
  subst hS
  simp only [Tree.noRedRed, Tree.balanced, Tree.bh, blk] at i1 i2 i3
  obtain ⟨-, n1, n2⟩ := i1
  obtain ⟨b0, b1, b2⟩ := i2
  rcases color_cases Sr.color with hr | hr
  · obtain ⟨Yl, ya, dy, Yr, rfl⟩ := node_of_red Sr hr
    obtain ⟨m4, e, k4⟩ := delete_black_left_far h
    refine ⟨_, Frame.L p Color.BLACK dp Sl ::
      Frame.L sa cp ds (Tree.node Yl ya Color.BLACK dy Yr) :: rest, k4, ?_, ?_,
      Or.inl ⟨e, ?_, by simp, ?_, ?_⟩⟩
    · simp [ctxBefore]
    · simp [ctxAfter, Tree.nodes]
    · simp [DelFrame] <;> omega
    · simp only [Tree.noRedRed, Tree.balanced, Tree.bh, blk] at n2 b0 b2
      simp only [CtxInv, sibling_L, color_L, Tree.noRedRed, Tree.balanced, Tree.bh, blk,
        color_node]
      refine ⟨n1, b1, by omega, by simp, ⟨by simp, n2.2.1, n2.2.2⟩, b2, by omega, ?_, i5⟩
      intro e; exact ⟨trivial, (i4 e).2⟩
    · intro ht c1; simpa [ctxTop] using ht
  · rcases color_cases Sl.color with hl | hl
    · obtain ⟨A, la, dl, B, rfl⟩ := node_of_red Sl hl
      obtain ⟨m4, e, k4⟩ := delete_black_left_near h hr
      refine ⟨_, Frame.L p Color.BLACK dp A ::
        Frame.L la cp dl (Tree.node B sa Color.BLACK ds Sr) :: rest, k4, ?_, ?_,
        Or.inl ⟨e, ?_, by simp, ?_, ?_⟩⟩
      · simp [ctxBefore]
      · simp [ctxAfter, Tree.nodes]
      · simp [DelFrame] <;> omega
      · simp only [Tree.noRedRed, Tree.balanced, Tree.bh, blk, color_node] at n1 b0 b1 i3
        simp only [CtxInv, sibling_L, color_L, Tree.noRedRed, Tree.balanced, Tree.bh, blk,
          color_node]
        refine ⟨n1.2.1, b1.2.1, by omega, by simp, ⟨by simp, n1.2.2, n2⟩,
          ⟨by omega, b1.2.2, b2⟩, by omega, ?_, i5⟩
        intro e; exact ⟨trivial, (i4 e).2⟩
      · intro ht c1; simpa [ctxTop] using ht
    · obtain ⟨m2, e, k2⟩ := delete_black_left_recolor h hl hr
      have hv : (Tree.node Sl sa Color.RED ds Sr).noRedRed ∧
          (Tree.node Sl sa Color.RED ds Sr).balanced ∧
          (Tree.node Sl sa Color.RED ds Sr).bh = k := by
        simp only [Tree.noRedRed, Tree.balanced, Tree.bh, blk]
        exact ⟨⟨fun _ => ⟨hl, hr⟩, n1, n2⟩, ⟨b0, b1, b2⟩, by omega⟩
      refine ⟨{ s with mem := m2 }, Frame.L p Color.BLACK dp (Tree.node Sl sa Color.RED ds Sr) :: rest, k2,
        ?_, ?_, ?_⟩
      · simp [ctxBefore]
      · simp [ctxAfter, Tree.nodes]
      · rcases color_cases cp with rfl | rfl
        · left
          refine ⟨by simpa using e, by simp [DelFrame], by simp, ?_, ?_⟩
          · simp only [CtxInv, sibling_L, color_L]
            exact ⟨hv.1, hv.2.1, hv.2.2, by simp, by simpa [blk] using i5⟩
          · intro ht c1
            exact ctxTop_black rest _ ht
        · right
          exact ⟨by simpa using e, by simp [DelFrame], rfl, _, rfl, hv⟩

/-- Right child below a BLACK sibling; the mirror image. -/
theorem delete_black_right_step {s : rbtree α} {p : Nat} {cp : Color} {dp : α} {S : Tree α}
    {rest : List (Frame α)} {cl cr : Tree α} {cur : Nat} {cc : Color} {cd : α} {k : Nat}
    (h : BWF s.mem (plug (Frame.R S p cp dp :: rest) (Tree.node cl cur cc cd cr)))
    (hinv : CtxInv (Frame.R S p cp dp :: rest) (k + 1)) (hS : S.color = Color.BLACK) :
    ∃ s2 F, BWF s2.mem (plug F (Tree.node cl cur cc cd cr)) ∧
      ctxBefore F = ctxBefore (Frame.R S p cp dp :: rest) ∧
      ctxAfter F = ctxAfter (Frame.R S p cp dp :: rest) ∧
      ((delete_black_sibling_right s cur S.root = (s2, cur, true) ∧ DelFrame 2 s s2 ∧ F ≠ [] ∧
          CtxInv F k ∧ (ctxTop rest cp = Color.BLACK → ∀ c1, ctxTop F c1 = Color.BLACK)) ∨
       (delete_black_sibling_right s cur S.root = (s2, p, false) ∧ DelFrame 0 s s2 ∧
          cp = Color.BLACK ∧ ∃ S2, F = Frame.R S2 p Color.BLACK dp :: rest ∧
            S2.noRedRed ∧ S2.balanced ∧ S2.bh = k)) := by
  simp only [CtxInv, sibling_R, color_R] at hinv
  obtain ⟨i1, i2, i3, i4, i5⟩ := hinv
  obtain ⟨Sl, sa, cs, ds, Sr, rfl⟩ := node_of_bh S k i3
  simp only [color_node] at hS
  subst hS
  simp only [Tree.noRedRed, Tree.balanced, Tree.bh, blk] at i1 i2 i3
  obtain ⟨-, n1, n2⟩ := i1
  obtain ⟨b0, b1, b2⟩ := i2
  rcases color_cases Sl.color with hl | hl
  · obtain ⟨Yl, ya, dy, Yr, rfl⟩ := node_of_red Sl hl
    obtain ⟨m4, e, k4⟩ := delete_black_right_far h
    refine ⟨_, Frame.R Sr p Color.BLACK dp ::
      Frame.R (Tree.node Yl ya Color.BLACK dy Yr) sa cp ds :: rest, k4, ?_, ?_,
      Or.inl ⟨e, ?_, by simp, ?_, ?_⟩⟩
    · simp [ctxBefore, Tree.nodes]
    · simp [ctxAfter]
    · simp [DelFrame] <;> omega
    · simp only [Tree.noRedRed, Tree.balanced, Tree.bh, blk] at n1 b0 b1 i3
      simp only [CtxInv, sibling_R, color_R, Tree.noRedRed, Tree.balanced, Tree.bh, blk,
        color_node]
      refine ⟨n2, b2, by omega, by simp, ⟨by simp, n1.2.1, n1.2.2⟩, b1, by omega, ?_, i5⟩
      intro e; exact ⟨trivial, (i4 e).2⟩
    · intro ht c1; simpa [ctxTop] using ht
  · rcases color_cases Sr.color with hr | hr
    · obtain ⟨A, la, dl, B, rfl⟩ := node_of_red Sr hr
      obtain ⟨m4, e, k4⟩ := delete_black_right_near h hl
      refine ⟨_, Frame.R B p Color.BLACK dp ::
        Frame.R (Tree.node Sl sa Color.BLACK ds A) la cp dl :: rest, k4, ?_, ?_,
        Or.inl ⟨e, ?_, by simp, ?_, ?_⟩⟩
      · simp [ctxBefore, Tree.nodes]
      · simp [ctxAfter]
      · simp [DelFrame] <;> omega
      · simp only [Tree.noRedRed, Tree.balanced, Tree.bh, blk, color_node] at n2 b0 b2 i3
        simp only [CtxInv, sibling_R, color_R, Tree.noRedRed, Tree.balanced, Tree.bh, blk,
          color_node]
        refine ⟨n2.2.2, b2.2.2, by omega, by simp, ⟨by simp, n1, n2.2.1⟩,
          ⟨by omega, b1, b2.2.1⟩, by omega, ?_, i5⟩
        intro e; exact ⟨trivial, (i4 e).2⟩
      · intro ht c1; simpa [ctxTop] using ht
    · obtain ⟨m2, e, k2⟩ := delete_black_right_recolor h hl hr
      have hv : (Tree.node Sl sa Color.RED ds Sr).noRedRed ∧
          (Tree.node Sl sa Color.RED ds Sr).balanced ∧
          (Tree.node Sl sa Color.RED ds Sr).bh = k := by
        simp only [Tree.noRedRed, Tree.balanced, Tree.bh, blk]
        exact ⟨⟨fun _ => ⟨hl, hr⟩, n1, n2⟩, ⟨b0, b1, b2⟩, by omega⟩
      refine ⟨{ s with mem := m2 }, Frame.R (Tree.node Sl sa Color.RED ds Sr) p Color.BLACK dp :: rest, k2,
        ?_, ?_, ?_⟩
      · simp [ctxBefore, Tree.nodes]
      · simp [ctxAfter]
      · rcases color_cases cp with rfl | rfl
        · left
          refine ⟨by simpa using e, by simp [DelFrame], by simp, ?_, ?_⟩
          · simp only [CtxInv, sibling_R, color_R]
            exact ⟨hv.1, hv.2.1, hv.2.2, by simp, by simpa [blk] using i5⟩
          · intro ht c1
            exact ctxTop_black rest _ ht
        · right
          exact ⟨by simpa using e, by simp [DelFrame], rfl, _, rfl, hv⟩

theorem DelFrame.trans {a b : Nat} {s s2 s3 : rbtree α} (h1 : DelFrame a s s2)
    (h2 : DelFrame b s2 s3) : DelFrame (a + b) s s3 := by
  simp only [DelFrame] at *
  obtain ⟨a1, a2, a3, a4, a5, a6, a7, a8⟩ := h1
  obtain ⟨b1, b2, b3, b4, b5, b6, b7, b8⟩ := h2
  refine ⟨by rw [b1, a1], by rw [b2, a2], by rw [b3, a3], by rw [b4, a4], by rw [b5, a5],
    by omega, by omega, by omega⟩

theorem DelFrame.mono {a b : Nat} {s s2 : rbtree α} (h : DelFrame a s s2) (hab : a ≤ b) :
    DelFrame b s s2 := by
  simp only [DelFrame] at *
  obtain ⟨a1, a2, a3, a4, a5, a6, a7, a8⟩ := h
  exact ⟨a1, a2, a3, a4, a5, a6, a7, by omega⟩

/-- One pass through the body of the loop of `delete_repair`, at a node whose
subtree is one BLACK node short of what the path above it asks for. -/
theorem delete_body_step {s : rbtree α} {P : Frame α} {rest : List (Frame α)}
    {cl cr : Tree α} {cur : Nat} {cc : Color} {cd : α} {k : Nat}
    (h : BWF s.mem (plug (P :: rest) (Tree.node cl cur cc cd cr)))
    (hinv : CtxInv (P :: rest) (k + 1)) :
    ∃ s2 F, BWF s2.mem (plug F (Tree.node cl cur cc cd cr)) ∧
      ctxBefore F = ctxBefore (P :: rest) ∧ ctxAfter F = ctxAfter (P :: rest) ∧
      ((delete_repair_body s cur = (s2, cur, true) ∧ DelFrame 3 s s2 ∧ F ≠ [] ∧
          CtxInv F k ∧ (ctxTop rest P.color = Color.BLACK → ∀ c1, ctxTop F c1 = Color.BLACK)) ∨
       (delete_repair_body s cur = (s2, P.addr, false) ∧ DelFrame 0 s s2 ∧
          P.color = Color.BLACK ∧ ∃ P2, F = P2 :: rest ∧ P2.addr = P.addr ∧
            P2.color = Color.BLACK ∧ P2.sibling.noRedRed ∧ P2.sibling.balanced ∧
            P2.sibling.bh = k)) := by
  have e1 : (s.mem cur).parent = P.addr := h.mwf.root_parent h.mwf.node_ne.1
  cases P with
  | L p cp dp S =>
    have hp : BWF s.mem (plug rest (Tree.node (Tree.node cl cur cc cd cr) p cp dp S)) := h
    have ep := hp.mwf.read
    simp only [addr_L, root_node] at e1 ep
    have hb : delete_repair_body s cur =
        delete_black_sibling_left (delete_red_sibling_left s cur S.root).1 cur
          (delete_red_sibling_left s cur S.root).2 := by
      simp [delete_repair_body, e1, ep]
    rcases color_cases S.color with hS | hS
    · obtain ⟨Sl, sa, ds, Sr, rfl⟩ := node_of_red S hS
      obtain ⟨m3, e, k3⟩ := delete_red_left h
      simp only [CtxInv, sibling_L, color_L, color_node, Tree.noRedRed, Tree.balanced, Tree.bh,
        blk] at hinv
      obtain ⟨⟨i1, n1, n2⟩, ⟨b0, b1, b2⟩, i3, i4, i5⟩ := hinv
      have hcp : cp = Color.BLACK := by
        rcases color_cases cp with e | e
        · simpa using (i4 e).1
        · exact e
      subst hcp
      have hinv2 : CtxInv (Frame.L p Color.RED dp Sl :: Frame.L sa Color.BLACK ds Sr :: rest)
          (k + 1) := by
        simp only [CtxInv, sibling_L, color_L, blk, ctxColor_cons]
        exact ⟨n1, b1, by omega, fun _ => ⟨(i1 trivial).1, trivial⟩, n2, b2, by omega,
          by simp, i5⟩
      obtain ⟨s2, F, w1, w2, w3, w4⟩ := delete_black_left_step
        (s := { s with mem := m3, cnt_left_delete := s.cnt_left_delete + 1 }) k3 hinv2
        (i1 trivial).1
      refine ⟨s2, F, w1, ?_, ?_, ?_⟩
      · rw [w2]; simp [ctxBefore]
      · rw [w3]; simp [ctxAfter, Tree.nodes]
      · rcases w4 with ⟨x1, x2, x3, x4, x5⟩ | ⟨_, _, x3, _⟩
        · left
          refine ⟨?_, ?_, x3, x4, ?_⟩
          · simp only [root_node] at hb
            rw [hb, e]; exact x1
          · have f1 : DelFrame 1 s
                { s with mem := m3, cnt_left_delete := s.cnt_left_delete + 1 } := by
              simp [DelFrame] <;> omega
            exact f1.trans x2
          · intro ht c1
            exact x5 (by simpa [ctxTop] using ht) c1
        · simp at x3
    · rw [delete_red_left_skip h hS] at hb
      obtain ⟨s2, F, w1, w2, w3, w4⟩ := delete_black_left_step h hinv hS
      refine ⟨s2, F, w1, w2, w3, ?_⟩
      rcases w4 with ⟨x1, x2, x3, x4, x5⟩ | ⟨x1, x2, x3, S2, x4, x5⟩
      · left
        exact ⟨by rw [hb]; exact x1, x2.mono (by omega), x3, x4, x5⟩
      · right
        exact ⟨by rw [hb]; exact x1, x2, x3, _, x4, rfl, rfl, x5⟩
  | R S p cp dp =>
    have hp : BWF s.mem (plug rest (Tree.node S p cp dp (Tree.node cl cur cc cd cr))) := h
    have ep := hp.mwf.read
    have hne : cur ≠ S.root := hp.mwf.right_ne_left h.mwf.node_ne.1
    simp only [addr_R, root_node] at e1 ep
    have hb : delete_repair_body s cur =
        delete_black_sibling_right (delete_red_sibling_right s cur S.root).1 cur
          (delete_red_sibling_right s cur S.root).2 := by
      simp [delete_repair_body, e1, ep, hne]
    rcases color_cases S.color with hS | hS
    · obtain ⟨Sl, sa, ds, Sr, rfl⟩ := node_of_red S hS
      obtain ⟨m3, e, k3⟩ := delete_red_right h
      simp only [CtxInv, sibling_R, color_R, color_node, Tree.noRedRed, Tree.balanced, Tree.bh,
        blk] at hinv
      obtain ⟨⟨i1, n1, n2⟩, ⟨b0, b1, b2⟩, i3, i4, i5⟩ := hinv
      have hcp : cp = Color.BLACK := by
        rcases color_cases cp with e | e
        · simpa using (i4 e).1
        · exact e
      subst hcp
      have hinv2 : CtxInv (Frame.R Sr p Color.RED dp :: Frame.R Sl sa Color.BLACK ds :: rest)
          (k + 1) := by
        simp only [CtxInv, sibling_R, color_R, blk, ctxColor_cons]
        exact ⟨n2, b2, by omega, fun _ => ⟨(i1 trivial).2, trivial⟩, n1, b1, by omega,
          by simp, i5⟩
      obtain ⟨s2, F, w1, w2, w3, w4⟩ := delete_black_right_step
        (s := { s with mem := m3, cnt_right_delete := s.cnt_right_delete + 1 }) k3 hinv2
        (i1 trivial).2
      refine ⟨s2, F, w1, ?_, ?_, ?_⟩
      · rw [w2]; simp [ctxBefore, Tree.nodes]
      · rw [w3]; simp [ctxAfter]
      · rcases w4 with ⟨x1, x2, x3, x4, x5⟩ | ⟨_, _, x3, _⟩
        · left
          refine ⟨?_, ?_, x3, x4, ?_⟩
          · simp only [root_node] at hb
            rw [hb, e]; exact x1
          · have f1 : DelFrame 1 s
                { s with mem := m3, cnt_right_delete := s.cnt_right_delete + 1 } := by
              simp [DelFrame] <;> omega
            exact f1.trans x2
          · intro ht c1
            exact x5 (by simpa [ctxTop] using ht) c1
        · simp at x3
    · rw [delete_red_right_skip h hS] at hb
      obtain ⟨s2, F, w1, w2, w3, w4⟩ := delete_black_right_step h hinv hS
      refine ⟨s2, F, w1, w2, w3, ?_⟩
      rcases w4 with ⟨x1, x2, x3, x4, x5⟩ | ⟨x1, x2, x3, S2, x4, x5⟩
      · left
        exact ⟨by rw [hb]; exact x1, x2.mono (by omega), x3, x4, x5⟩
      · right
        exact ⟨by rw [hb]; exact x1, x2, x3, _, x4, rfl, rfl, x5⟩

/-! ## The loop of `delete_repair` -/

/-- A node below another node is not the real root. -/
theorem MWF.root_ne {m : Nat → rbnode α} {f : Frame α} {fs : List (Frame α)} {t : Tree α}
    (h : MWF m (plug (f :: fs) t)) (ht : t.root ≠ RB_NIL) : t.root ≠ (m RB_ROOT).left := by
  intro e
  have h0 : MWF m (plug [] (plug (f :: fs) t)) := h
  have e2 : (plug (f :: fs) t).root = t.root := by rw [e, h.stub_left]
  have p1 := h0.root_parent (by rw [e2]; exact ht)
  have p2 := h.root_parent ht
  rw [e2, p2] at p1
  exact (h.split.1.ne_nil_ctx _ (ctxParent_mem f fs)).2 p1

theorem ctxBefore_congr (f : Frame α) {fs gs : List (Frame α)}
    (h : ctxBefore fs = ctxBefore gs) : ctxBefore (f :: fs) = ctxBefore (f :: gs) := by
  cases f <;> simp [ctxBefore, h]

theorem ctxAfter_congr (f : Frame α) {fs gs : List (Frame α)}
    (h : ctxAfter fs = ctxAfter gs) : ctxAfter (f :: fs) = ctxAfter (f :: gs) := by
  cases f <;> simp [ctxAfter, h]

theorem node_of_root (t : Tree α) (h : t.root ≠ RB_NIL) :
    ∃ l a c d r, t = Tree.node l a c d r := by
  cases t with
  | leaf => exact absurd rfl h
  | node l a c d r => exact ⟨l, a, c, d, r, rfl⟩

/-- The function `delete_repair` returns.  Started at a node `C` whose subtree
is one BLACK node short of what the path above it asks for, it leaves `C`
below a path with the same nodes before and after it, around which the colour
conditions hold for a subtree one BLACK node short; it performs at most three
rotations. -/
theorem delete_repair_spec : ∀ (fuel : Nat) (s : rbtree α) (P : Frame α)
    (rest : List (Frame α)) (C : Tree α) (k : Nat),
    BWF s.mem (plug (P :: rest) C) → C.root ≠ RB_NIL → CtxInv (P :: rest) (k + 1) →
    rest.length < fuel →
    ∃ s2 F, delete_repair fuel s C.root = some s2 ∧ BWF s2.mem (plug F C) ∧
      ctxBefore F = ctxBefore (P :: rest) ∧ ctxAfter F = ctxAfter (P :: rest) ∧ F ≠ [] ∧
      CtxInv F k ∧ DelFrame 3 s s2 ∧
      (ctxTop rest P.color = Color.BLACK → ∀ c1, ctxTop F c1 = Color.BLACK) := by
  intro fuel
  induction fuel with
  | zero => intro s P rest C k _ _ _ hf; omega
  | succ n ih =>
    intro s P rest C k h hC hinv hf
    obtain ⟨cl, cur, cc, cd, cr, rfl⟩ := node_of_root C hC
    obtain ⟨s2, F, w1, w2, w3, w4⟩ := delete_body_step h hinv
    rcases w4 with ⟨x1, x2, x3, x4, x5⟩ | ⟨x1, x2, x3, P2, rfl, y1, y2, y3, y4, y5⟩
    · exact ⟨s2, F, by simp [delete_repair, x1], w1, w2, w3, x3, x4, x2, x5⟩
    · cases rest with
      | nil =>
        have hroot : (s2.mem RB_ROOT).left = P.addr := by
          rw [w1.mwf.stub_left]; simp [plug, y1]
        refine ⟨s2, [P2], by simp [delete_repair, x1, hroot], w1, w2, w3, by simp, ?_,
          x2.mono (by omega), ?_⟩
        · simp [CtxInv, y2, y3, y4, y5]
        · intro _ c1; simp [ctxTop, y2]
      | cons P3 rest3 =>
        have w1b : BWF s2.mem (plug (P3 :: rest3) (P2.fill (Tree.node cl cur cc cd cr))) := w1
        have hn : (P2.fill (Tree.node cl cur cc cd cr)).root ≠ RB_NIL := by
          rw [fill_root]
          exact (w1.mwf.split.1.ne_nil_ctx _ (ctxParent_mem P2 _)).1
        have hne := w1b.mwf.root_ne hn
        rw [fill_root, y1] at hne
        have hinv2 : CtxInv (P3 :: rest3) (k + 1 + 1) := by
          have := hinv
          simp only [CtxInv] at this
          have h5 := this.2.2.2.2
          rw [x3] at h5
          simpa [CtxInv, blk] using h5
        obtain ⟨s3, F2, z1, z2, z3, z4, z5, z6, z7, z8⟩ :=
          ih s2 P3 rest3 (P2.fill (Tree.node cl cur cc cd cr)) (k + 1) w1b hn hinv2
            (by simp only [List.length_cons] at hf; omega)
        rw [fill_root, y1] at z1
        refine ⟨s3, P2 :: F2, ?_, z2, ?_, ?_, by simp, ?_, ?_, ?_⟩
        · simp only [delete_repair, x1, root_node]
          simp [hne, z1]
        · rw [ctxBefore_congr P2 z3, w2]
        · rw [ctxAfter_congr P2 z4, w3]
        · simp only [CtxInv]
          exact ⟨y3, y4, y5, by simp [y2], by simpa [y2, blk] using z6⟩
        · exact (x2.trans z7).mono (by omega)
        · intro ht c1
          exact z8 ht _

/-! ## The splice of `rb_delete` -/

theorem splice_out_cell (m : Nat → rbnode α) (tg c P : Nat) (hP : (m tg).parent = P)
    (h1 : tg ≠ c) (h2 : P ≠ c) (k : Nat) :
    splice_out m tg c k =
      if k = P then
        (if tg = (m P).left then { m P with left := c } else { m P with right := c })
      else if k = c ∧ c ≠ RB_NIL then { m c with parent := P }
      else m k := by
  have h1s := h1.symm
  have h2s := h2.symm
  by_cases hc : c = RB_NIL
  · by_cases hl : tg = (m P).left
    · simp [splice_out, set_left_apply, set_right_apply, set_parent_apply, hP, hc, ← hl]
    · simp [splice_out, set_left_apply, set_right_apply, set_parent_apply, hP, hc, hl]
  · by_cases hl : tg = (m P).left
    · simp [splice_out, set_left_apply, set_right_apply, set_parent_apply, hP, hc, h1, h2, ← hl]
    · simp [splice_out, set_left_apply, set_right_apply, set_parent_apply, hP, hc, h1, h2, hl]

/-- Splicing out a node with the subtree `ch` on one side: `ch` takes its
place (the subtree on the other side is dropped). -/
theorem BWF.splice {m : Nat → rbnode α} {f : Frame α} {G : List (Frame α)} {ch : Tree α}
    (h : BWF m (plug (f :: G) ch)) :
    BWF (splice_out m f.addr ch.root) (plug G ch) := by
  have hG : BWF m (plug G (f.fill ch)) := h
  obtain ⟨c1, c2, c3, c4, c5⟩ := h.mwf.split
  obtain ⟨g1, g2, g3, g4, g5⟩ := hG.mwf.split
  have hP : (m f.addr).parent = ctxParent G := h.frame_parent
  have hfa : f.addr ≠ RB_NIL := (c1.ne_nil_ctx _ (ctxParent_mem f G)).1
  have hfmem : f.addr ∈ (f.fill ch).addrs := by
    cases f <;> simp [Frame.fill, addrs_node]
  have hsub : ∀ k ∈ ch.addrs, k ∈ (f.fill ch).addrs := by
    intro k hk
    cases f <;> simp [Frame.fill, addrs_node, hk]
  have hnotf : ∀ k ∈ ch.addrs, k ≠ f.addr := by
    intro k hk e
    exact c5 k hk (e ▸ ctxParent_mem f G)
  have hnotP : ∀ k ∈ (f.fill ch).addrs, k ≠ ctxParent G := by
    intro k hk e
    exact hG.mwf.parent_not_mem (e ▸ hk)
  have h1 : f.addr ≠ ch.root := by
    rcases root_mem_or_nil ch with e | e
    · rw [e]; exact hfa
    · exact fun e2 => hnotf _ e e2.symm
  have h2 : ctxParent G ≠ ch.root := by
    rcases root_mem_or_nil ch with e | e
    · rw [e]; exact ctxParent_ne_nil g1
    · exact fun e2 => hnotP _ (hsub _ e) e2.symm
  have cell := splice_out_cell m f.addr ch.root (ctxParent G) hP h1 h2
  have key : MWF (splice_out m f.addr ch.root) (plug G ch) ∧
      splice_out m f.addr ch.root RB_NIL = m RB_NIL ∧
      (splice_out m f.addr ch.root RB_ROOT).color = (m RB_ROOT).color :=
    hG.mwf.replace ?_ c3 ?_ ?_ ?_
  · obtain ⟨k1, k2, k3⟩ := key
    exact ⟨k1, by rw [k2]; exact h.nil_black, by rw [k3]; exact h.stub_black⟩
  · refine c2.reparent c3 ?_ ?_
    · intro hr
      rw [cell]
      simp [Ne.symm h2, hr]
    · intro a ha har
      rw [cell]
      have : a ≠ ctxParent G := hnotP a (hsub a ha)
      simp [this, har]
  · intro k hk
    exact g5 k (hsub k hk)
  · rw [cell]
    simp only [if_true]
    exact g1.redirect (by rw [fill_root]; exact hfa)
      (by rw [fill_root]; exact fun e => g5 _ hfmem e) ch.root |> fun e => by
        rw [fill_root] at e; exact e
  · intro k hk1 hk2 hk3
    rw [cell]
    have : ¬ (k = ch.root ∧ ch.root ≠ RB_NIL) := by
      rintro ⟨e, hr⟩
      rcases root_mem_or_nil ch with e2 | e2
      · exact hr e2
      · exact hk2 (e ▸ e2)
    simp [hk3, this]

/-! ## Colour repair and splice of `rb_delete` -/

/-- The `child` of a node with a sentinel on one side is the root of the
subtree on the other side. -/
theorem child_eq {m : Nat → rbnode α} {f : Frame α} {G : List (Frame α)} {ch : Tree α}
    (h : BWF m (plug (f :: G) ch)) (hs : f.sibling = Tree.leaf) :
    (if (m f.addr).left = RB_NIL then (m f.addr).right else (m f.addr).left) = ch.root := by
  cases f with
  | L a c d r =>
    simp only [sibling_L] at hs
    subst hs
    have hG : BWF m (plug G (Tree.node ch a c d Tree.leaf)) := h
    rw [addr_L, hG.mwf.read]
    simp only [root_leaf]
    split_ifs with e
    · exact e.symm
    · rfl
  | R l a c d =>
    simp only [sibling_R] at hs
    subst hs
    have hG : BWF m (plug G (Tree.node Tree.leaf a c d ch)) := h
    rw [addr_R, hG.mwf.read]
    simp

theorem DelFrame.same_del (n : Nat) (s : rbtree α) : DelFrame n s s := by simp [DelFrame]

/-- The colour repair of `rb_delete` at a node `f` with a sentinel on one side
and the subtree `ch` on the other: afterwards `ch` (painted BLACK if it was
RED below a BLACK node) can take the place of the node. -/
theorem delete_repaired {s1 : rbtree α} {f : Frame α} {G : List (Frame α)} {ch : Tree α}
    (h : BWF s1.mem (plug (f :: G) ch)) (hs : f.sibling = Tree.leaf)
    (hfuel : G.length ≤ s1.brk)
    (hnr : (plug (f :: G) ch).noRedRed) (hbal : (plug (f :: G) ch).balanced)
    (hroot : (plug (f :: G) ch).color = Color.BLACK) :
    ∃ s2 F ch2,
      (if f.color = Color.BLACK then
        if ch.color = Color.RED then
          some { s1 with mem := set_color s1.mem ch.root Color.BLACK }
        else if f.addr = (s1.mem RB_ROOT).left then some s1
        else delete_repair s1.brk s1 f.addr
      else some s1) = some s2 ∧
      DelFrame 3 s1 s2 ∧ BWF s2.mem (plug (f :: F) ch2) ∧ ch2.root = ch.root ∧
      ch2.nodes = ch.nodes ∧ ctxBefore F = ctxBefore G ∧ ctxAfter F = ctxAfter G ∧
      (plug F ch2).noRedRed ∧ (plug F ch2).balanced ∧ (plug F ch2).color = Color.BLACK := by
  obtain ⟨v1, v2, v3, v4⟩ := (plug_valid (f :: G) ch).1 ⟨hnr, hbal⟩
  simp only [CtxInv, hs, ctxColor_cons] at v3
  obtain ⟨-, -, i3, i4, i5⟩ := v3
  have hbh : ch.bh = 0 := by simpa [Tree.bh] using i3.symm
  rw [hbh] at i5
  have htop : ctxTop G f.color = Color.BLACK := by
    rw [color_plug] at hroot; exact hroot
  have hG : BWF s1.mem (plug G (f.fill ch)) := h
  rcases color_cases f.color with hf | hf
  · have hc : ch.color = Color.BLACK := v4 hf
    have hleaf := leaf_of_black ch hc hbh
    subst hleaf
    refine ⟨s1, G, Tree.leaf, by simp [hf], DelFrame.same_del 3 s1, h, rfl, rfl, rfl, rfl, ?_⟩
    have := (plug_valid G (Tree.leaf : Tree α)).2 ⟨trivial, trivial,
      by simpa [hf, blk, Tree.bh] using i5, fun _ => rfl⟩
    refine ⟨this.1, this.2, ?_⟩
    rw [color_plug]
    exact ctxTop_black G _ htop
  · rw [hf] at htop
    simp only [hf, blk] at i5
    rcases color_cases ch.color with hc | hc
    · obtain ⟨A, ca, da, B, rfl⟩ := node_of_red ch hc
      have k1 := h.paint Color.BLACK
      refine ⟨{ s1 with mem := set_color s1.mem ca Color.BLACK }, G,
        Tree.node A ca Color.BLACK da B, by simp [hf], by simp [DelFrame], k1, rfl,
        by simp [Tree.nodes], rfl, rfl, ?_⟩
      have := (plug_valid G (Tree.node A ca Color.BLACK da B)).2 ⟨noRedRed_paint_black v1,
        by simpa [Tree.balanced] using v2,
        by
          simp only [Tree.bh, blk] at hbh ⊢
          have e : A.bh = 0 := by omega
          rw [e]; simpa using i5,
        fun _ => rfl⟩
      refine ⟨this.1, this.2, ?_⟩
      rw [color_plug]
      exact htop
    · have hleaf := leaf_of_black ch hc hbh
      subst hleaf
      cases G with
      | nil =>
        have hr : (s1.mem RB_ROOT).left = f.addr := by
          rw [hG.mwf.stub_left]; simp [plug]
        refine ⟨s1, [], Tree.leaf, by simp [hf, hr], DelFrame.same_del 3 s1, h, rfl, rfl, rfl, rfl,
          trivial, trivial, rfl⟩
      | cons P rest =>
        have hn : (f.fill (Tree.leaf : Tree α)).root ≠ RB_NIL := by
          rw [fill_root]
          exact (h.mwf.split.1.ne_nil_ctx _ (ctxParent_mem f _)).1
        have hne := hG.mwf.root_ne hn
        obtain ⟨s2, F, z1, z2, z3, z4, z5, z6, z7, z8⟩ :=
          delete_repair_spec s1.brk s1 P rest (f.fill Tree.leaf) 0 hG hn
            (by simpa using i5) (by simp only [List.length_cons] at hfuel; omega)
        rw [fill_root] at z1 hne
        refine ⟨s2, F, Tree.leaf, by simp [hf, hne, z1], z7, z2, rfl, rfl, z3, z4, ?_⟩
        have := (plug_valid F (Tree.leaf : Tree α)).2 ⟨trivial, trivial,
          by simpa [Tree.bh] using z6, fun _ => rfl⟩
        refine ⟨this.1, this.2, ?_⟩
        rw [color_plug]
        exact z8 htop _

/-- Lines 370-403 of `rb_delete` at a node with a sentinel on one side: the
node leaves the tree, all other nodes keep their in-order positions, the
colour invariants are kept, and at most three rotations are performed. -/
theorem delete_splice_spec {s1 : rbtree α} {f : Frame α} {G : List (Frame α)} {ch : Tree α}
    (data : Option α) (keep : Int)
    (h : BWF s1.mem (plug (f :: G) ch)) (hs : f.sibling = Tree.leaf)
    (hfuel : G.length ≤ s1.brk)
    (hnr : (plug (f :: G) ch).noRedRed) (hbal : (plug (f :: G) ch).balanced)
    (hroot : (plug (f :: G) ch).color = Color.BLACK) :
    ∃ s2 m2 t2, delete_splice s1 f.addr data keep =
        some (if keep = 0 then ({ s2 with mem := m2, destroyed := s2.destroyed ++ [data] }, none)
              else ({ s2 with mem := m2 }, data)) ∧
      DelFrame 3 s1 s2 ∧ BWF m2 t2 ∧
      t2.nodes = ctxBefore G ++ ch.nodes ++ ctxAfter G ∧
      t2.noRedRed ∧ t2.balanced ∧ t2.color = Color.BLACK := by
  obtain ⟨s2, F, ch2, e, fr, k, r1, r2, r3, r4, r5, r6, r7⟩ :=
    delete_repaired h hs hfuel hnr hbal hroot
  have hchild := child_eq h hs
  have hcol_t : (s1.mem f.addr).color = f.color := by
    have hG : BWF s1.mem (plug G (f.fill ch)) := h
    have := hG.root_color
    rwa [fill_root, fill_color] at this
  have hcol_c : (s1.mem ch.root).color = ch.color := h.root_color
  refine ⟨s2, splice_out s2.mem f.addr ch.root, plug F ch2, ?_, fr, ?_, ?_, r5, r6, r7⟩
  · simp only [delete_splice, hchild, hcol_t, hcol_c, e, Option.map_some']
  · rw [← r1]; exact k.splice
  · rw [nodes_plug, r2, r3, r4]

/-! ## The function `rb_delete` -/

/-- Overwriting the element pointer of the node at the lower end of a path. -/
theorem MWF.store_mem {m : Nat → rbnode α} {fs : List (Frame α)} {l r : Tree α} {a : Nat}
    {c : Color} {d : α} (h : MWF m (plug fs (Tree.node l a c d r))) (d2 : α) :
    MWF (set_data m a (some d2)) (plug fs (Tree.node l a c d2 r)) ∧
      set_data m a (some d2) RB_NIL = m RB_NIL ∧
      (set_data m a (some d2) RB_ROOT).color = (m RB_ROOT).color := by
  obtain ⟨h1, h2, h3, _, _⟩ := h.split
  have hpa : ctxParent fs ≠ a := by
    intro e; exact h.parent_not_mem (by simp [addrs_node, e])
  obtain ⟨r1, r2, r3, r4, r5⟩ := h2
  simp only [addrs_node, List.nodup_append, List.nodup_cons, List.Disjoint,
    List.mem_cons] at h3
  obtain ⟨_, ⟨har, _⟩, hd⟩ := h3
  have hal : a ∉ l.addrs := fun ha => hd ha (Or.inl rfl)
  refine h.replace_same ⟨r1, r2, ?_, r4.congr ?_, r5.congr ?_⟩ ?_ ?_ ?_
  · rw [set_data_same, r3]
  · intro k hk; exact set_data_other _ _ _ _ (by rintro rfl; exact hal hk)
  · intro k hk; exact set_data_other _ _ _ _ (by rintro rfl; exact har hk)
  · simp [addrs_node]
  · rw [set_data_other _ _ _ _ hpa]; exact h1.holeSet_self.symm
  · intro k hk _
    exact set_data_other _ _ _ _ (by rintro rfl; exact hk (by simp [addrs_node]))

theorem BWF.store {m : Nat → rbnode α} {fs : List (Frame α)} {l r : Tree α} {a : Nat}
    {c : Color} {d : α} (h : BWF m (plug fs (Tree.node l a c d r))) (d2 : α) :
    BWF (set_data m a (some d2)) (plug fs (Tree.node l a c d2 r)) := by
  obtain ⟨h1, h2, h3⟩ := h.mwf.store_mem d2
  exact ⟨h1, by rw [h2]; exact h.nil_black, by rw [h3]; exact h.stub_black⟩

theorem ctxBefore_append (gs fs : List (Frame α)) :
    ctxBefore (gs ++ fs) = ctxBefore fs ++ ctxBefore gs := by
  induction gs with
  | nil => simp [ctxBefore]
  | cons f gs ih => cases f <;> simp [ctxBefore, ih]

theorem ctxAfter_append (gs fs : List (Frame α)) :
    ctxAfter (gs ++ fs) = ctxAfter gs ++ ctxAfter fs := by
  induction gs with
  | nil => simp [ctxAfter]
  | cons f gs ih => cases f <;> simp [ctxAfter, ih]

/-- The leftmost node of a non-empty shape sits at the end of a path that only
goes left. -/
theorem leftmost_focus (l : Tree α) : ∀ (a : Nat) (c : Color) (d : α) (r : Tree α),
    ∃ gs tg ct dt cr, Tree.node l a c d r = plug gs (Tree.node Tree.leaf tg ct dt cr) ∧
      ctxBefore gs = [] := by
  induction l with
  | leaf => intro a c d r; exact ⟨[], a, c, d, r, rfl, rfl⟩
  | node l2 a2 c2 d2 r2 ih _ =>
    intro a c d r
    obtain ⟨gs, tg, ct, dt, cr, e, hg⟩ := ih a2 c2 d2 r2
    refine ⟨gs ++ [Frame.L a c d r], tg, ct, dt, cr, ?_, ?_⟩
    · rw [plug_append, ← e]; rfl
    · rw [ctxBefore_append, hg]; simp [ctxBefore]

theorem MWF.leaf_of_root {m : Nat → rbnode α} {fs : List (Frame α)} {t : Tree α}
    (h : MWF m (plug fs t)) (e : t.root = RB_NIL) : t = Tree.leaf := by
  cases t with
  | leaf => rfl
  | node l a c d r => exact absurd e h.node_ne.1

/-- The colour conditions do not depend on the elements. -/
theorem valid_store (fs : List (Frame α)) (l r : Tree α) (a : Nat) (c : Color) (d d2 : α)
    (hnr : (plug fs (Tree.node l a c d r)).noRedRed)
    (hbal : (plug fs (Tree.node l a c d r)).balanced)
    (hroot : (plug fs (Tree.node l a c d r)).color = Color.BLACK) :
    (plug fs (Tree.node l a c d2 r)).noRedRed ∧ (plug fs (Tree.node l a c d2 r)).balanced ∧
      (plug fs (Tree.node l a c d2 r)).color = Color.BLACK := by
  have h1 := (plug_valid fs (Tree.node l a c d r)).1 ⟨hnr, hbal⟩
  have h2 := (plug_valid fs (Tree.node l a c d2 r)).2 h1
  refine ⟨h2.1, h2.2, ?_⟩
  rw [color_plug] at hroot ⊢
  exact hroot

/-- Lines 370-403 of `rb_delete`, with the result as a pair. -/
theorem delete_splice_pair {s1 : rbtree α} {f : Frame α} {G : List (Frame α)} {ch : Tree α}
    (data : Option α) (keep : Int)
    (h : BWF s1.mem (plug (f :: G) ch)) (hs : f.sibling = Tree.leaf)
    (hfuel : G.length ≤ s1.brk)
    (hnr : (plug (f :: G) ch).noRedRed) (hbal : (plug (f :: G) ch).balanced)
    (hroot : (plug (f :: G) ch).color = Color.BLACK) :
    ∃ s2 t2, delete_splice s1 f.addr data keep = some (s2, if keep = 0 then none else data) ∧
      BWF s2.mem t2 ∧ t2.nodes = ctxBefore G ++ ch.nodes ++ ctxAfter G ∧
      t2.noRedRed ∧ t2.balanced ∧ t2.color = Color.BLACK ∧ s2.min = s1.min ∧
      DeleteFrame s1 s2 data keep := by
  obtain ⟨s2, m2, t2, e, fr, k, r1, r2, r3, r4⟩ :=
    delete_splice_spec data keep h hs hfuel hnr hbal hroot
  simp only [DelFrame] at fr
  obtain ⟨f1, f2, f3, f4, f5, f6, f7, f8⟩ := fr
  by_cases hk : keep = 0
  · refine ⟨{ s2 with mem := m2, destroyed := s2.destroyed ++ [data] }, t2, ?_, k, r1, r2, r3,
      r4, f1, ?_⟩
    · rw [e]; simp [hk]
    · simp only [DeleteFrame, hk, if_true]
      exact ⟨f2, by rw [f3], f4, f5, f6, f7, f8⟩
  · refine ⟨{ s2 with mem := m2 }, t2, ?_, k, r1, r2, r3, r4, f1, ?_⟩
    · rw [e]; simp [hk]
    · simp only [DeleteFrame, hk, if_false]
      exact ⟨f2, f3, f4, f5, f6, f7, f8⟩

theorem WF.path_fuel {s : rbtree α} {fs : List (Frame α)} {t : Tree α}
    (h : WF s (plug fs t)) : fs.length < s.brk := by
  have h1 := path_le_length fs t
  have h2 := h.length_lt
  omega

/-- The function `rb_delete` at a node `h` with a sentinel child: `h` leaves
the tree, every other node keeps its element and its in-order position, the
colour invariants are kept, and a cached minimum `h` moves on to the
successor of `h`. -/
theorem rb_delete_specA {s : rbtree α} {fs : List (Frame α)} {hl hr : Tree α} {h : Nat}
    {hc : Color} {dh : α} (keep : Int)
    (hwf : WF s (plug fs (Tree.node hl h hc dh hr)))
    (hnil : (s.mem RB_NIL).color = Color.BLACK) (hstub : (s.mem RB_ROOT).color = Color.BLACK)
    (hroot : (plug fs (Tree.node hl h hc dh hr)).color = Color.BLACK)
    (hnr : (plug fs (Tree.node hl h hc dh hr)).noRedRed)
    (hbal : (plug fs (Tree.node hl h hc dh hr)).balanced)
    (hone : hl = Tree.leaf ∨ hr = Tree.leaf) :
    ∃ s2 t2, rb_delete s h keep = some (s2, if keep = 0 then none else some dh) ∧
      BWF s2.mem t2 ∧ t2.nodes = ctxBefore fs ++ hl.nodes ++ hr.nodes ++ ctxAfter fs ∧
      t2.noRedRed ∧ t2.balanced ∧ t2.color = Color.BLACK ∧
      s2.min = (if s.min = some h then (hr.addrs ++ (ctxAfter fs).map Prod.fst).head?
                else s.min) ∧
      DeleteFrame s s2 (some dh) keep := by
  have hb : BWF s.mem (plug fs (Tree.node hl h hc dh hr)) := ⟨hwf.mwf, hnil, hstub⟩
  have hread := hwf.mwf.read
  have hcond : (s.mem h).left = RB_NIL ∨ (s.mem h).right = RB_NIL := by
    rw [hread]
    rcases hone with e | e
    · left; rw [e]; rfl
    · right; rw [e]; rfl
  have hfuel : fs.length ≤ s.brk := le_of_lt hwf.path_fuel
  have key : ∀ s1 : rbtree α, s1.mem = s.mem → s1.brk = s.brk →
      ∃ s2 t2, delete_splice s1 h (some dh) keep = some (s2, if keep = 0 then none else some dh) ∧
        BWF s2.mem t2 ∧ t2.nodes = ctxBefore fs ++ hl.nodes ++ hr.nodes ++ ctxAfter fs ∧
        t2.noRedRed ∧ t2.balanced ∧ t2.color = Color.BLACK ∧ s2.min = s1.min ∧
        DeleteFrame s1 s2 (some dh) keep := by
    intro s1 e1 e2
    rcases hone with e | e
    · subst e
      have hb1 : BWF s1.mem (plug (Frame.R Tree.leaf h hc dh :: fs) hr) := by rw [e1]; exact hb
      obtain ⟨s2, t2, k1, k2, k3, k4⟩ :=
        delete_splice_pair (some dh) keep hb1 rfl (by rw [e2]; exact hfuel) hnr hbal hroot
      exact ⟨s2, t2, k1, k2, by rw [k3]; simp [Tree.nodes], k4⟩
    · subst e
      have hb1 : BWF s1.mem (plug (Frame.L h hc dh Tree.leaf :: fs) hl) := by rw [e1]; exact hb
      obtain ⟨s2, t2, k1, k2, k3, k4⟩ :=
        delete_splice_pair (some dh) keep hb1 rfl (by rw [e2]; exact hfuel) hnr hbal hroot
      exact ⟨s2, t2, k1, k2, by rw [k3]; simp [Tree.nodes], k4⟩
  have hdata : (s.mem h).data = some dh := by rw [hread]
  by_cases hm : s.min = some h
  · have hsucc : rb_successor s h = some ((hr.addrs ++ (ctxAfter fs).map Prod.fst).head?) :=
      successor_mem_spec hwf.mwf s.brk (by have := hwf.length_lt; omega)
    obtain ⟨s2, t2, k1, k2, k3, k4, k5, k6, k7, k8⟩ :=
      key { s with min := (hr.addrs ++ (ctxAfter fs).map Prod.fst).head? } rfl rfl
    refine ⟨s2, t2, ?_, k2, k3, k4, k5, k6, ?_, ?_⟩
    · simp only [rb_delete, delete_choose, hcond, hm, hsucc, if_true, Option.map_some',
        Option.some_bind, hdata]
      exact k1
    · rw [k7]; simp [hm]
    · simpa [DeleteFrame] using k8
  · obtain ⟨s2, t2, k1, k2, k3, k4, k5, k6, k7, k8⟩ := key s rfl rfl
    refine ⟨s2, t2, ?_, k2, k3, k4, k5, k6, ?_, k8⟩
    · simp only [rb_delete, delete_choose, hcond, hm, if_true, if_false, Option.some_bind, hdata]
      exact k1
    · rw [k7]; simp [hm]

/-- The function `rb_delete` at a node `h` with two children: the successor
of `h`, the first node of its right subtree, leaves the tree after its element
was moved into `h`; every other node keeps its element and its in-order
position, the colour invariants are kept, and so is the cached minimum. -/
theorem rb_delete_specB {s : rbtree α} {fs : List (Frame α)} {hl hr : Tree α} {h : Nat}
    {hc : Color} {dh : α} (keep : Int)
    (hwf : WF s (plug fs (Tree.node hl h hc dh hr)))
    (hnil : (s.mem RB_NIL).color = Color.BLACK) (hstub : (s.mem RB_ROOT).color = Color.BLACK)
    (hroot : (plug fs (Tree.node hl h hc dh hr)).color = Color.BLACK)
    (hnr : (plug fs (Tree.node hl h hc dh hr)).noRedRed)
    (hbal : (plug fs (Tree.node hl h hc dh hr)).balanced)
    (hl2 : hl.root ≠ RB_NIL) (hr2 : hr.root ≠ RB_NIL) :
    ∃ s2 t2 tg dt rest, rb_delete s h keep = some (s2, if keep = 0 then none else some dh) ∧
      BWF s2.mem t2 ∧ hr.nodes = (tg, dt) :: rest ∧
      t2.nodes = ctxBefore fs ++ hl.nodes ++ (h, dt) :: rest ++ ctxAfter fs ∧
      t2.noRedRed ∧ t2.balanced ∧ t2.color = Color.BLACK ∧ s2.min = s.min ∧
      DeleteFrame s s2 (some dh) keep := by
  have hb : BWF s.mem (plug fs (Tree.node hl h hc dh hr)) := ⟨hwf.mwf, hnil, hstub⟩
  have hread := hwf.mwf.read
  have hcond : ¬ ((s.mem h).left = RB_NIL ∨ (s.mem h).right = RB_NIL) := by
    rw [hread]; simp [hl2, hr2]
  have hdata : (s.mem h).data = some dh := by rw [hread]
  obtain ⟨A1, a1, c1, d1, B1, rfl⟩ := node_of_root hr hr2
  obtain ⟨gs, tg, ct, dt, cr, e, hgs⟩ := leftmost_focus A1 a1 c1 d1 B1
  have hnodes : (Tree.node A1 a1 c1 d1 B1).nodes = (tg, dt) :: (cr.nodes ++ ctxAfter gs) := by
    rw [e, nodes_plug, hgs]; simp [Tree.nodes]
  have hsucc : rb_successor s h = some (some tg) := by
    have := successor_mem_spec hwf.mwf s.brk (by have := hwf.length_lt; omega)
    rw [Tree.addrs, hnodes] at this
    simpa using this
  have hshape : ∀ d : α, plug fs (Tree.node hl h hc d (Tree.node A1 a1 c1 d1 B1)) =
      plug (Frame.R Tree.leaf tg ct dt :: (gs ++ Frame.R hl h hc d :: fs)) cr := by
    intro d
    rw [e]
    show _ = plug (gs ++ Frame.R hl h hc d :: fs) (Tree.node Tree.leaf tg ct dt cr)
    rw [plug_append]; rfl
  have htg : (s.mem tg).data = some dt := by
    have h2 := hwf.mwf
    rw [hshape dh] at h2
    have h3 : MWF s.mem (plug (gs ++ Frame.R hl h hc dh :: fs)
        (Tree.node Tree.leaf tg ct dt cr)) := h2
    rw [h3.read]
  have hb1 := hb.store dt
  obtain ⟨v1, v2, v3⟩ := valid_store fs hl (Tree.node A1 a1 c1 d1 B1) h hc dh dt hnr hbal hroot
  rw [hshape dt] at hb1 v1 v2 v3
  have hfuel : (gs ++ Frame.R hl h hc dt :: fs).length ≤ s.brk := by
    have h1 := path_le_length (gs ++ Frame.R hl h hc dh :: fs) (Tree.node Tree.leaf tg ct dt cr)
    have h2 := hwf.length_lt
    have h3 : plug (gs ++ Frame.R hl h hc dh :: fs) (Tree.node Tree.leaf tg ct dt cr) =
        plug fs (Tree.node hl h hc dh (Tree.node A1 a1 c1 d1 B1)) := (hshape dh).symm
    rw [h3] at h1
    simp only [List.length_append, List.length_cons] at h1 ⊢
    omega
  obtain ⟨s2, t2, k1, k2, k3, k4, k5, k6, k7, k8⟩ :=
    @delete_splice_pair α { s with mem := set_data s.mem h (some dt) } _ _ _
      (some dh) keep hb1 rfl hfuel v1 v2 v3
  refine ⟨s2, t2, tg, dt, cr.nodes ++ ctxAfter gs, ?_, k2, hnodes, ?_, k4, k5, k6, k7,
    by simpa [DeleteFrame] using k8⟩
  · simp only [rb_delete, delete_choose, hcond, hsucc, htg, if_false, Option.some_bind, hdata]
    exact k1
  · rw [k3, ctxBefore_append, ctxAfter_append, hgs]
    simp [ctxBefore, ctxAfter]

/-! ## The invariants under `rb_insert` and `rb_delete` -/

theorem Rep.unique_shape {m : Nat → rbnode α} (t : Tree α) : ∀ (t2 : Tree α) (p p2 : Nat),
    Rep m p t → Rep m p2 t2 → t.root = t2.root → t = t2 := by
  induction t with
  | leaf =>
    intro t2 p p2 _ h2 e
    cases t2 with
    | leaf => rfl
    | node l a c d r => exact absurd e.symm h2.1
  | node l a c d r ihl ihr =>
    intro t2 p p2 h1 h2 e
    cases t2 with
    | leaf => exact absurd e h1.1
    | node l2 a2 c2 d2 r2 =>
      simp only [root_node] at e
      subst e
      obtain ⟨_, _, e1, r1, r2'⟩ := h1
      obtain ⟨_, _, e2, s1, s2⟩ := h2
      rw [e1] at e2
      simp only [rbnode.mk.injEq, Option.some.injEq] at e2
      obtain ⟨q1, q2, _, q4, q5⟩ := e2
      rw [ihl l2 _ _ r1 s1 q1, ihr r2 _ _ r2' s2 q2, q4, q5]

/-- A memory determines its shape. -/
theorem MWF.unique {m : Nat → rbnode α} {t t2 : Tree α} (h : MWF m t) (h2 : MWF m t2) :
    t = t2 :=
  Rep.unique_shape t t2 _ _ h.rep h2.rep (by rw [← h.stub_left, ← h2.stub_left])

theorem head_addrs (l : List (Nat × α)) : (l.map Prod.fst).head? = l.head?.map Prod.fst := by
  cases l <;> rfl

theorem Inv.minValid {cmp : α → α → Int} {s : rbtree α} {t : Tree α} (h : Inv cmp s t) :
    MinValid s t := by
  intro mn e
  rw [h.min, leftmost_head] at e
  exact List.mem_of_mem_head? e

/-- The function `rb_insert` keeps all invariants. -/
theorem rb_insert_inv {cmp : α → α → Int} (hcmp : CmpOrder cmp) {s : rbtree α} {t : Tree α}
    (x : α) (hinv : Inv cmp s t) :
    ∃ s2 t2, rb_insert cmp s x = some (s2, some s.brk) ∧ Inv cmp s2 t2 ∧
      t2.nodes = ctxBefore (zoom cmp x t []) ++ (s.brk, x) :: ctxAfter (zoom cmp x t []) ∧
      s2.brk = s.brk + 1 ∧ s2.destroyed = s.destroyed := by
  obtain ⟨s2, t2, e, wf2, c1, c2, c3, hn, hbrk, hdes, m1, m2, hv, _⟩ :=
    rb_insert_spec cmp x hinv.wf hinv.color.nil_black hinv.color.stub_black
      hinv.color.root_black hinv.minValid
  obtain ⟨o1, o2, o3⟩ := rb_insert_inorder hcmp x t hinv.ordered
  have hv2 := hv hinv.color.no_red_red ((balanced_iff_equalPaths t).2 hinv.color.equal_paths)
  have hz : ctxBefore (zoom cmp x t []) ++ ctxAfter (zoom cmp x t []) = t.nodes := by
    have := nodes_plug (zoom cmp x t []) (Tree.leaf : Tree α)
    rw [plug_zoom] at this
    simpa [plug, Tree.nodes] using this.symm
  refine ⟨s2, t2, e, ⟨wf2, ⟨c1, c2, c3, hv2.1, (balanced_iff_equalPaths t2).1 hv2.2⟩, ?_, ?_⟩,
    hn, hbrk, hdes⟩
  · simp only [Tree.ordered, Tree.inorder, hn, List.map_append, List.map_cons]
    exact o3
  · rw [leftmost_head, Tree.addrs, hn]
    have hmin := hinv.min
    rw [leftmost_head, Tree.addrs] at hmin
    cases hnodes : t.nodes with
    | nil =>
      rw [hnodes] at hmin hz
      have hb : ctxBefore (zoom cmp x t []) = [] := (List.append_eq_nil.1 hz).1
      rw [m1 (by simpa using hmin), hb]
      rfl
    | cons p rest =>
      obtain ⟨mn, el⟩ := p
      rw [hnodes] at hmin hz
      have hmin2 : s.min = some mn := by simpa using hmin
      rw [m2 mn el hmin2 (by rw [hnodes]; simp)]
      have hin : t.inorder = el :: rest.map Prod.snd := by simp [Tree.inorder, hnodes]
      rw [hin] at o1
      by_cases hlt : cmp x el < 0
      · have hnle : ¬ cmp el x ≤ 0 := by
          have := (hcmp.antisymm x el).1 hlt
          omega
        have hb : ctxBefore (zoom cmp x t []) = [] := by
          have : (ctxBefore (zoom cmp x t [])).map Prod.snd = [] := by
            rw [o1]; simp [List.takeWhile, hnle]
          simpa using this
        rw [hb]; simp [hlt]
      · have hle : cmp el x ≤ 0 := (hcmp.not_lt x el).1 hlt
        cases hb : ctxBefore (zoom cmp x t []) with
        | nil =>
          rw [hb] at o1
          simp [List.takeWhile, hle] at o1
        | cons q qs =>
          rw [hb] at hz
          simp only [List.cons_append, List.cons.injEq] at hz
          rw [hz.1]
          simp [hlt]

/-- The function `rb_delete` on a well-formed tree that satisfies the colour
invariants: it returns, the tree stays well formed and keeps the colour
invariants, the in-order traversal loses exactly the element at the position
of the node, and a cached minimum that was the leftmost node is the leftmost
node again. -/
theorem rb_delete_core {s : rbtree α} {fs : List (Frame α)}
    {l r : Tree α} {h : Nat} {c : Color} {d : α} (keep : Int)
    (hwf : WF s (plug fs (Tree.node l h c d r)))
    (hcol : ColorInv s (plug fs (Tree.node l h c d r))) :
    ∃ s2 t2, rb_delete s h keep = some (s2, if keep = 0 then none else some d) ∧
      WF s2 t2 ∧ ColorInv s2 t2 ∧
      t2.inorder = (ctxBefore fs).map Prod.snd ++ l.inorder ++ r.inorder ++
        (ctxAfter fs).map Prod.snd ∧
      (∀ a ∈ t2.addrs, a ∈ (plug fs (Tree.node l h c d r)).addrs) ∧
      (s.min = (plug fs (Tree.node l h c d r)).leftmost → s2.min = t2.leftmost) ∧
      DeleteFrame s s2 (some d) keep := by
  have hbal := (balanced_iff_equalPaths _).2 hcol.equal_paths
  have hnodes : (plug fs (Tree.node l h c d r)).nodes =
      ctxBefore fs ++ l.nodes ++ (h, d) :: (r.nodes ++ ctxAfter fs) := by
    rw [nodes_plug]; simp [Tree.nodes]
  have hnd := hwf.mwf.nodup
  rw [Tree.addrs, hnodes] at hnd
  have fin : ∀ (s2 : rbtree α) (t2 : Tree α) (post : List (Nat × α)),
      BWF s2.mem t2 → t2.nodes = ctxBefore fs ++ l.nodes ++ post →
      post.map Prod.snd = (r.nodes ++ ctxAfter fs).map Prod.snd →
      (∀ a ∈ post.map Prod.fst, a ∈ (plug fs (Tree.node l h c d r)).addrs) →
      t2.noRedRed → t2.balanced → t2.color = Color.BLACK →
      (s.min = (plug fs (Tree.node l h c d r)).leftmost →
        s2.min = ((ctxBefore fs ++ l.nodes ++ post).map Prod.fst).head?) →
      DeleteFrame s s2 (some d) keep →
      WF s2 t2 ∧ ColorInv s2 t2 ∧
        t2.inorder = (ctxBefore fs).map Prod.snd ++ l.inorder ++ r.inorder ++
          (ctxAfter fs).map Prod.snd ∧
        (∀ a ∈ t2.addrs, a ∈ (plug fs (Tree.node l h c d r)).addrs) ∧
        (s.min = (plug fs (Tree.node l h c d r)).leftmost → s2.min = t2.leftmost) := by
    intro s2 t2 post hb hn hpost hsub v1 v2 v3 hm fr
    have hin : t2.inorder = (ctxBefore fs).map Prod.snd ++ l.inorder ++ r.inorder ++
        (ctxAfter fs).map Prod.snd := by
      simp only [Tree.inorder, hn, List.map_append, hpost, List.append_assoc]
    have hsub2 : ∀ a ∈ t2.addrs, a ∈ (plug fs (Tree.node l h c d r)).addrs := by
      intro a ha
      simp only [Tree.addrs, hn, List.map_append, List.mem_append] at ha
      rcases ha with (ha | ha) | ha
      · simp only [Tree.addrs, hnodes, List.map_append, List.mem_append]
        exact Or.inl (Or.inl ha)
      · simp only [Tree.addrs, hnodes, List.map_append, List.mem_append]
        exact Or.inl (Or.inr ha)
      · exact hsub a ha
    refine ⟨⟨hb.mwf, ?_, ?_⟩, ⟨hb.nil_black, hb.stub_black, v3, v1,
      (balanced_iff_equalPaths t2).1 v2⟩, hin, hsub2, ?_⟩
    · rw [fr.1]; exact hwf.brk_ge
    · intro a ha
      rw [fr.1]
      exact hwf.bound a (hsub2 a ha)
    · intro h0
      rw [leftmost_head, Tree.addrs, hn]; exact hm h0
  by_cases hone : l = Tree.leaf ∨ r = Tree.leaf
  · obtain ⟨s2, t2, e, hb, hn, v1, v2, v3, hm, fr⟩ :=
      rb_delete_specA keep hwf hcol.nil_black hcol.stub_black
        hcol.root_black hcol.no_red_red hbal hone
    refine ⟨s2, t2, e, ?_⟩
    have := fin s2 t2 (r.nodes ++ ctxAfter fs) hb (by rw [hn]; simp) rfl ?_ v1 v2 v3 ?_ fr
    · exact ⟨this.1, this.2.1, this.2.2.1, this.2.2.2.1, this.2.2.2.2, fr⟩
    · intro a ha
      simp only [Tree.addrs, hnodes, List.map_append, List.mem_append, List.map_cons,
        List.mem_cons]
      simp only [List.map_append, List.mem_append] at ha
      rcases ha with ha | ha
      · exact Or.inr (Or.inr (Or.inl ha))
      · exact Or.inr (Or.inr (Or.inr ha))
    · intro hmin
      rw [leftmost_head, Tree.addrs, hnodes] at hmin
      rw [hm]
      cases hpre : ctxBefore fs ++ l.nodes with
      | nil =>
        rw [hpre] at hmin
        have : s.min = some h := by simpa using hmin
        simp [this, Tree.addrs]
      | cons p ps =>
        rw [hpre] at hmin hnd
        have hmin2 : s.min = some p.1 := by simpa using hmin
        have hne : p.1 ≠ h := by
          intro e2
          simp only [List.cons_append, List.map_cons, List.map_append, List.nodup_cons,
            List.mem_append, List.mem_cons, List.mem_map] at hnd
          exact hnd.1 (Or.inr (Or.inl e2))
        simp [hmin2, hne]
  · have hl2 : l.root ≠ RB_NIL := by
      intro e
      have h2 : MWF s.mem (plug (Frame.L h c d r :: fs) l) := hwf.mwf
      exact hone (Or.inl (h2.leaf_of_root e))
    have hr2 : r.root ≠ RB_NIL := by
      intro e
      have h2 : MWF s.mem (plug (Frame.R l h c d :: fs) r) := hwf.mwf
      exact hone (Or.inr (h2.leaf_of_root e))
    obtain ⟨s2, t2, tg, dt, rest, e, hb, hr, hn, v1, v2, v3, hm, fr⟩ :=
      rb_delete_specB keep hwf hcol.nil_black hcol.stub_black
        hcol.root_black hcol.no_red_red hbal hl2 hr2
    refine ⟨s2, t2, e, ?_⟩
    have := fin s2 t2 ((h, dt) :: rest ++ ctxAfter fs) hb (by rw [hn]; simp)
      (by rw [hr]; simp) ?_ v1 v2 v3 ?_ fr
    · exact ⟨this.1, this.2.1, this.2.2.1, this.2.2.2.1, this.2.2.2.2, fr⟩
    · intro a ha
      simp only [Tree.addrs, hnodes, List.map_append, List.mem_append, List.map_cons,
        List.mem_cons, hr]
      simp only [List.map_append, List.mem_append, List.map_cons, List.cons_append,
        List.mem_cons] at ha
      rcases ha with ha | ha | ha
      · exact Or.inr (Or.inl ha)
      · exact Or.inr (Or.inr (Or.inl (Or.inr ha)))
      · exact Or.inr (Or.inr (Or.inr ha))
    · intro hmin
      rw [leftmost_head, Tree.addrs, hnodes] at hmin
      rw [hm, hmin]
      obtain ⟨l1, la, lc, ld, lr, rfl⟩ := node_of_root l hl2
      cases hpre : ctxBefore fs ++ (Tree.node l1 la lc ld lr).nodes with
      | nil => simp [Tree.nodes] at hpre
      | cons p ps => simp

/-- The function `rb_delete` keeps all invariants, and removes from the
in-order traversal exactly the element at the position of the node. -/
theorem rb_delete_inv {cmp : α → α → Int} {s : rbtree α} {fs : List (Frame α)}
    {l r : Tree α} {h : Nat} {c : Color} {d : α} (keep : Int)
    (hinv : Inv cmp s (plug fs (Tree.node l h c d r))) :
    ∃ s2 t2, rb_delete s h keep = some (s2, if keep = 0 then none else some d) ∧
      Inv cmp s2 t2 ∧
      t2.inorder = (ctxBefore fs).map Prod.snd ++ l.inorder ++ r.inorder ++
        (ctxAfter fs).map Prod.snd ∧
      (∀ a ∈ t2.addrs, a ∈ (plug fs (Tree.node l h c d r)).addrs) ∧
      DeleteFrame s s2 (some d) keep := by
  obtain ⟨s2, t2, e, w, cl, hin, hsub, hm, fr⟩ := rb_delete_core keep hinv.wf hinv.color
  refine ⟨s2, t2, e, ⟨w, cl, ?_, hm hinv.min⟩, hin, hsub, fr⟩
  have hord := hinv.ordered
  simp only [Tree.ordered, Tree.inorder, nodes_plug, Tree.nodes, List.map_append,
    List.map_cons, List.append_assoc, List.cons_append] at hord
  rw [Tree.ordered, SortedBy, hin]
  simp only [SortedBy, Tree.inorder, List.append_assoc] at hord ⊢
  refine List.Pairwise.sublist ?_ hord
  refine List.Sublist.append (List.Sublist.refl _) (List.Sublist.append (List.Sublist.refl _) ?_)
  exact List.sublist_cons_self _ _

/-! ## Reachable states, lookup and successor -/

theorem WF.create : WF (rb_create : rbtree α) Tree.leaf := by
  refine ⟨⟨rfl, rfl, rfl, rfl, rfl, rfl, rfl, rfl, trivial, ?_⟩, ?_, ?_⟩
  · simp [addrs_leaf]
  · simp [rb_create]
  · intro a ha; simp [addrs_leaf] at ha

theorem Inv.of_create (cmp : α → α → Int) : Inv cmp (rb_create : rbtree α) Tree.leaf := by
  refine ⟨WF.create, ⟨rfl, rfl, rfl, trivial, ?_⟩, ?_, rfl⟩
  · intro a ha b hb
    simp only [Tree.pathBlacks, List.mem_singleton] at ha hb
    rw [ha, hb]
  · simp [Tree.ordered, SortedBy, Tree.inorder, Tree.nodes]

/-- Every reachable state satisfies all invariants. -/
theorem reachable_inv {cmp : α → α → Int} (hcmp : CmpOrder cmp) {s : rbtree α}
    (h : Reachable cmp s) : ∃ t, Inv cmp s t := by
  induction h with
  | create => exact ⟨Tree.leaf, Inv.of_create cmp⟩
  | @insert s s2 x hd _ e ih =>
    obtain ⟨t, hinv⟩ := ih
    obtain ⟨s3, t3, e3, hinv3, _⟩ := rb_insert_inv hcmp x hinv
    rw [e] at e3
    simp only [Option.some.injEq, Prod.mk.injEq] at e3
    rw [e3.1]
    exact ⟨t3, hinv3⟩
  | @delete s s2 node keep d _ hn e ih =>
    obtain ⟨t, hinv⟩ := ih
    obtain ⟨t1, h1, h2⟩ := hn
    have := h1.unique hinv.wf.mwf
    subst this
    obtain ⟨fs, l, c, dd, r, rfl⟩ := exists_focus t1 node h2
    obtain ⟨s3, t3, e3, hinv3, _⟩ := rb_delete_inv keep hinv
    rw [e] at e3
    simp only [Option.some.injEq, Prod.mk.injEq] at e3
    rw [e3.1]
    exact ⟨t3, hinv3⟩

/-- In a list whose entries have pairwise different addresses, an entry
determines what stands before it and what stands after it. -/
theorem split_unique {β : Type} (f : β → Nat) (x y : β) (hxy : f x = f y) :
    ∀ (pre pre2 post post2 : List β), ((pre ++ x :: post).map f).Nodup →
      pre ++ x :: post = pre2 ++ y :: post2 → pre = pre2 ∧ x = y ∧ post = post2 := by
  intro pre
  induction pre with
  | nil =>
    intro pre2 post post2 hnd e
    cases pre2 with
    | nil =>
      simp only [List.nil_append, List.cons.injEq] at e
      exact ⟨rfl, e.1, e.2⟩
    | cons b pre2 =>
      simp only [List.nil_append, List.cons_append, List.cons.injEq] at e
      exfalso
      simp only [List.nil_append, List.map_cons, List.nodup_cons, List.mem_map] at hnd
      apply hnd.1
      refine ⟨y, ?_, hxy.symm⟩
      rw [e.2]; simp
  | cons a pre ih =>
    intro pre2 post post2 hnd e
    cases pre2 with
    | nil =>
      simp only [List.nil_append, List.cons_append, List.cons.injEq] at e
      exfalso
      simp only [List.cons_append, List.map_cons, List.nodup_cons, List.mem_map] at hnd
      apply hnd.1
      refine ⟨x, by simp, ?_⟩
      rw [hxy, e.1]
    | cons b pre2 =>
      simp only [List.cons_append, List.cons.injEq] at e
      simp only [List.cons_append, List.map_cons, List.nodup_cons] at hnd
      obtain ⟨q1, q2, q3⟩ := ih pre2 post post2 hnd.2 e.2
      exact ⟨by rw [e.1, q1], q2, q3⟩

/-- The function `rb_successor` on a well-formed tree: the node that follows
in the in-order traversal, `NULL` after the last node. -/
theorem rb_successor_spec {s : rbtree α} {t : Tree α} (hwf : WF s t) (x : Nat)
    (pre post : List Nat) (hsplit : t.addrs = pre ++ x :: post) :
    rb_successor s x = some post.head? := by
  have hx : x ∈ t.addrs := by rw [hsplit]; simp
  obtain ⟨fs, l, c, d, r, rfl⟩ := exists_focus t x hx
  have h1 := successor_mem_spec hwf.mwf s.brk (by have := hwf.length_lt; omega)
  have h2 : (plug fs (Tree.node l x c d r)).addrs =
      ((ctxBefore fs).map Prod.fst ++ l.addrs) ++ x ::
        (r.addrs ++ (ctxAfter fs).map Prod.fst) := by
    rw [addrs_plug, addrs_node]; simp
  have hnd := hwf.mwf.nodup
  rw [h2] at hnd hsplit
  have := split_unique (fun a : Nat => a) x x rfl _ _ _ _ (by simpa using hnd) hsplit
  rw [rb_successor, h1, this.2.2]

/-- The loop of `rb_find` on an ordered subtree: it finds a node whose element
compares equal to the key if the subtree holds one, and ends at the sentinel
if it holds none. -/
theorem find_loop_spec {cmp : α → α → Int} (hcmp : CmpOrder cmp) (k : α)
    {m : Nat → rbnode α} (t : Tree α) :
    ∀ (fs : List (Frame α)) (fuel : Nat), MWF m (plug fs t) → t.height < fuel →
      t.ordered cmp →
      ((∀ e ∈ t.inorder, cmp k e ≠ 0) → find_loop cmp m k fuel t.root = some none) ∧
      ((∃ e ∈ t.inorder, cmp k e = 0) →
        ∃ node e, find_loop cmp m k fuel t.root = some (some node) ∧ (node, e) ∈ t.nodes ∧
          cmp k e = 0) := by
  induction t with
  | leaf =>
    intro fs fuel _ hf _
    cases fuel with
    | zero => omega
    | succ n =>
      refine ⟨fun _ => by simp [find_loop], ?_⟩
      rintro ⟨e, he, _⟩
      simp [Tree.inorder, Tree.nodes] at he
  | node l a c d r ihl ihr =>
    intro fs fuel h hf hord
    cases fuel with
    | zero => omega
    | succ n =>
      have hr := h.read
      have ha := h.node_ne.1
      simp only [Tree.height] at hf
      simp only [Tree.ordered, SortedBy, inorder_node, List.pairwise_append, List.pairwise_cons,
        List.mem_cons] at hord
      obtain ⟨o1, ⟨o2, o3⟩, o4⟩ := hord
      have hl := ihl (Frame.L a c d r :: fs) n h (by omega) o1
      have hrr := ihr (Frame.R l a c d :: fs) n h (by omega) o3
      simp only [find_loop, root_node, ne_eq, ha, not_false_eq_true, if_true, hr]
      by_cases h0 : cmp k d = 0
      · refine ⟨fun hall => absurd h0 (hall d (by simp [inorder_node])), fun _ => ?_⟩
        exact ⟨a, d, by simp [h0], by simp [Tree.nodes], h0⟩
      · by_cases hlt : cmp k d < 0
        · simp only [h0, if_false, hlt, if_true]
          refine ⟨fun hall => hl.1 fun e he => hall e (by simp [inorder_node, he]), ?_⟩
          rintro ⟨e, he, hke⟩
          simp only [inorder_node, List.mem_append, List.mem_cons] at he
          rcases he with he | rfl | he
          · obtain ⟨node, e2, q1, q2, q3⟩ := hl.2 ⟨e, he, hke⟩
            exact ⟨node, e2, q1, by simp [Tree.nodes, q2], q3⟩
          · exact absurd hke h0
          · exfalso
            have h1 : cmp d e ≤ 0 := o2 e he
            have h2 : cmp e k ≤ 0 := by have := hcmp.eq_symm hke; omega
            have h3 := hcmp.trans d e k h1 h2
            have h4 := (hcmp.antisymm k d).1 hlt
            omega
        · simp only [h0, if_false, hlt]
          refine ⟨fun hall => hrr.1 fun e he => hall e (by simp [inorder_node, he]), ?_⟩
          rintro ⟨e, he, hke⟩
          simp only [inorder_node, List.mem_append, List.mem_cons] at he
          rcases he with he | rfl | he
          · exfalso
            have h1 : cmp e d ≤ 0 := o4 e he d (Or.inl rfl)
            have h3 := hcmp.trans k e d (by omega) h1
            omega
          · exact absurd hke h0
          · obtain ⟨node, e2, q1, q2, q3⟩ := hrr.2 ⟨e, he, hke⟩
            exact ⟨node, e2, q1, by simp [Tree.nodes, q2], q3⟩

/-- The function `rb_find` on a well-formed ordered tree. -/
theorem rb_find_spec {cmp : α → α → Int} (hcmp : CmpOrder cmp) (k : α) {s : rbtree α}
    {t : Tree α} (hwf : WF s t) (hord : t.ordered cmp) :
    ((∀ e ∈ t.inorder, cmp k e ≠ 0) → rb_find cmp s k = some none) ∧
    ((∃ e ∈ t.inorder, cmp k e = 0) →
      ∃ node e, rb_find cmp s k = some (some node) ∧ (node, e) ∈ t.nodes ∧ cmp k e = 0) := by
  have h := find_loop_spec hcmp k t [] s.brk hwf.mwf (by
    have := height_le_length t
    have := hwf.length_lt
    omega) hord
  rw [rb_find, hwf.mwf.stub_left]
  exact h

/-! ## Insertion and removal of lists of keys -/

theorem CmpOrder.eq_trans {cmp : α → α → Int} (h : CmpOrder cmp) {a b c : α}
    (hab : cmp a b = 0) (hbc : cmp b c = 0) : cmp a c = 0 := by
  have h1 := h.trans a b c (by omega) (by omega)
  have h2 := h.trans c b a (by have := h.eq_symm hbc; omega) (by have := h.eq_symm hab; omega)
  have h3 := h.antisymm a c
  have h4 := h.antisymm c a
  omega

theorem insert_list_inv {cmp : α → α → Int} (hcmp : CmpOrder cmp) (xs : List α) :
    ∀ (s : rbtree α) (t : Tree α), Inv cmp s t →
      ∃ s2 t2, insert_list cmp s xs = some s2 ∧ Inv cmp s2 t2 ∧
        t2.inorder.Perm (t.inorder ++ xs) := by
  induction xs with
  | nil => intro s t h; exact ⟨s, t, rfl, h, by simp⟩
  | cons x xs ih =>
    intro s t h
    obtain ⟨s1, t1, e1, h1, hn, _⟩ := rb_insert_inv hcmp x h
    obtain ⟨o1, o2, _⟩ := rb_insert_inorder hcmp x t h.ordered
    obtain ⟨s2, t2, e2, h2, hp⟩ := ih s1 t1 h1
    refine ⟨s2, t2, by simp [insert_list, e1, e2], h2, hp.trans ?_⟩
    have hin : t1.inorder = t.inorder.takeWhile (fun e => decide (cmp e x ≤ 0)) ++
        x :: t.inorder.dropWhile (fun e => decide (cmp e x ≤ 0)) := by
      simp only [Tree.inorder, hn, List.map_append, List.map_cons]
      rw [o1, o2]; rfl
    rw [hin]
    have h3 : (t.inorder.takeWhile (fun e => decide (cmp e x ≤ 0)) ++
        x :: t.inorder.dropWhile (fun e => decide (cmp e x ≤ 0))).Perm (x :: t.inorder) := by
      refine List.perm_middle.trans ?_
      rw [List.takeWhile_append_dropWhile]
    refine (List.Perm.append_right xs h3).trans ?_
    simp only [List.cons_append]
    exact List.perm_middle.symm

/-- Removing the one entry whose key compares equal to `k` is the same as
filtering by the key, when the keys are pairwise different. -/
theorem filter_remove {cmp : α → α → Int} (hcmp : CmpOrder cmp) (k e : α) (A B : List α)
    (hp : (A ++ e :: B).Pairwise (fun a b => cmp a b ≠ 0)) (hk : cmp k e = 0) :
    (A ++ e :: B).filter (fun y => decide (cmp k y ≠ 0)) = A ++ B := by
  simp only [List.pairwise_append, List.pairwise_cons, List.mem_cons] at hp
  obtain ⟨_, ⟨p2, _⟩, p4⟩ := hp
  have hA : ∀ a ∈ A, cmp k a ≠ 0 := by
    intro a ha h0
    exact p4 a ha e (Or.inl rfl) (hcmp.eq_trans (hcmp.eq_symm h0) hk)
  have hB : ∀ b ∈ B, cmp k b ≠ 0 := by
    intro b hb h0
    exact p2 b hb (hcmp.eq_trans (hcmp.eq_symm hk) h0)
  rw [List.filter_append, List.filter_cons]
  simp only [hk, ne_eq, not_true_eq_false, decide_False, Bool.false_eq_true, if_false]
  rw [List.filter_eq_self.2 (fun a ha => by simpa using hA a ha),
    List.filter_eq_self.2 (fun b hb => by simpa using hB b hb)]

theorem remove_key_inv {cmp : α → α → Int} (hcmp : CmpOrder cmp) (k : α) (keep : Int)
    {s : rbtree α} {t : Tree α} (h : Inv cmp s t)
    (hp : t.inorder.Pairwise (fun a b => cmp a b ≠ 0)) :
    ∃ s2 t2, remove_key cmp s k keep = some s2 ∧ Inv cmp s2 t2 ∧
      t2.inorder = t.inorder.filter (fun y => decide (cmp k y ≠ 0)) := by
  obtain ⟨f1, f2⟩ := rb_find_spec hcmp k h.wf h.ordered
  by_cases hex : ∃ e ∈ t.inorder, cmp k e = 0
  · obtain ⟨node, e, q1, q2, q3⟩ := f2 hex
    obtain ⟨fs, l, c, r, rfl⟩ := exists_focus_node t node e q2
    obtain ⟨s2, t2, e2, h2, hin, _⟩ := rb_delete_inv keep h
    refine ⟨s2, t2, by simp [remove_key, q1, e2], h2, ?_⟩
    have ht : (plug fs (Tree.node l node c e r)).inorder =
        ((ctxBefore fs).map Prod.snd ++ l.inorder) ++ e ::
          (r.inorder ++ (ctxAfter fs).map Prod.snd) := by
      rw [inorder_plug, inorder_node]; simp
    rw [ht] at hp ⊢
    rw [filter_remove hcmp k e _ _ hp q3, hin]
    simp
  · have hall : ∀ e ∈ t.inorder, cmp k e ≠ 0 := fun e he h0 => hex ⟨e, he, h0⟩
    refine ⟨s, t, by simp [remove_key, f1 hall], h, ?_⟩
    rw [List.filter_eq_self.2 (fun a ha => by simpa using hall a ha)]

theorem remove_list_inv {cmp : α → α → Int} (hcmp : CmpOrder cmp) (keep : Int)
    (ds : List α) : ∀ (s : rbtree α) (t : Tree α), Inv cmp s t →
      t.inorder.Pairwise (fun a b => cmp a b ≠ 0) →
      ∃ s2 t2, remove_list cmp s ds keep = some s2 ∧ Inv cmp s2 t2 ∧
        t2.inorder = t.inorder.filter (fun y => ds.all (fun d => decide (cmp d y ≠ 0))) := by
  induction ds with
  | nil => intro s t h _; exact ⟨s, t, rfl, h, by simp⟩
  | cons d ds ih =>
    intro s t h hp
    obtain ⟨s1, t1, e1, h1, hin1⟩ := remove_key_inv hcmp d keep h hp
    obtain ⟨s2, t2, e2, h2, hin2⟩ := ih s1 t1 h1 (by
      rw [hin1]; exact hp.sublist (List.filter_sublist _))
    refine ⟨s2, t2, by simp [remove_list, e1, e2], h2, ?_⟩
    rw [hin2, hin1, List.filter_filter]
    congr 1
    funext y
    simp [Bool.and_comm]

/-- Among entries with pairwise different keys, exactly one is filtered out
by a key that occurs. -/
theorem filter_one {cmp : α → α → Int} (hcmp : CmpOrder cmp) (d : α) (xs : List α)
    (hp : xs.Pairwise (fun a b => cmp a b ≠ 0)) (hx : ∃ x ∈ xs, cmp d x = 0) :
    (xs.filter (fun y => decide (cmp d y ≠ 0))).length + 1 = xs.length := by
  obtain ⟨x, hx, hdx⟩ := hx
  obtain ⟨A, B, rfl⟩ := List.append_of_mem hx
  rw [filter_remove hcmp d x A B hp hdx]
  simp only [List.length_append, List.length_cons]
  omega

theorem filter_count {cmp : α → α → Int} (hcmp : CmpOrder cmp) (ds : List α) :
    ∀ xs : List α, xs.Pairwise (fun a b => cmp a b ≠ 0) →
      ds.Pairwise (fun a b => cmp a b ≠ 0) → (∀ d ∈ ds, ∃ x ∈ xs, cmp d x = 0) →
      (xs.filter (fun y => ds.all (fun d => decide (cmp d y ≠ 0)))).length + ds.length =
        xs.length := by
  induction ds with
  | nil => intro xs _ _ _; simp
  | cons d ds ih =>
    intro xs hp hds hsub
    have h1 := filter_one hcmp d xs hp (hsub d (by simp))
    have hds2 := List.pairwise_cons.1 hds
    have h2 := ih (xs.filter (fun y => decide (cmp d y ≠ 0)))
      (hp.sublist (List.filter_sublist _)) hds2.2 (by
        intro d2 hd2
        obtain ⟨x, hx, hdx⟩ := hsub d2 (by simp [hd2])
        refine ⟨x, ?_, hdx⟩
        rw [List.mem_filter]
        refine ⟨hx, ?_⟩
        have : cmp d x ≠ 0 := fun h0 =>
          hds2.1 d2 hd2 (hcmp.eq_trans h0 (hcmp.eq_symm hdx))
        simpa using this)
    rw [List.filter_filter] at h2
    have h3 : (xs.filter (fun y => (d :: ds).all (fun d => decide (cmp d y ≠ 0)))) =
        xs.filter (fun a => (ds.all (fun d => decide (cmp d a ≠ 0))) &&
          decide (cmp d a ≠ 0)) := by
      congr 1
      funext y
      simp [Bool.and_comm]
    rw [h3]
    simp only [List.length_cons]
    omega

/-! ## The demo comparator and the concrete trees -/

/-- The comparator `compare_func` is a total preorder on its keys. -/
theorem compare_func_order : CmpOrder compare_func := by
  constructor
  · intro a b
    simp only [compare_func]
    split_ifs <;> omega
  · intro a b c
    simp only [compare_func]
    split_ifs <;> omega

theorem insert_list_reachable {cmp : α → α → Int} (xs : List α) :
    ∀ (s s2 : rbtree α), Reachable cmp s → insert_list cmp s xs = some s2 →
      Reachable cmp s2 := by
  induction xs with
  | nil =>
    intro s s2 h e
    simp only [insert_list, Option.some.injEq] at e
    rw [← e]; exact h
  | cons x xs ih =>
    intro s s2 h e
    simp only [insert_list] at e
    cases hr : rb_insert cmp s x with
    | none => rw [hr] at e; simp at e
    | some r =>
      rw [hr] at e
      exact ih r.1 s2 (Reachable.insert h (by rw [hr])) e

theorem leftmost_none_iff (t : Tree α) : t.leftmost = none ↔ t = Tree.leaf := by
  cases t with
  | leaf => simp [Tree.leftmost]
  | node l a c d r =>
    rw [leftmost_head, addrs_node]
    cases l.addrs <;> simp

set_option maxRecDepth 100000 in
theorem tree7_eq : insert_list compare_func rb_create [5, 3, 8, 1, 4, 7, 9] = some tree7 := rfl

set_option maxRecDepth 100000 in
theorem tree7_wf : WF tree7 shape7 := by
  refine ⟨⟨?_, ?_, ?_, ?_, ?_, ?_, ?_, ?_, ?_, ?_⟩, ?_, ?_⟩ <;> decide

set_option maxRecDepth 100000 in
theorem tree7_color : ColorInv tree7 shape7 := by
  refine ⟨by decide, by decide, rfl, by simp [shape7, Tree.noRedRed], ?_⟩
  unfold Tree.equalPaths
  decide

set_option maxRecDepth 100000 in
theorem tree7_inv : Inv compare_func tree7 shape7 := by
  refine ⟨tree7_wf, tree7_color, ?_, by decide⟩
  unfold Tree.ordered SortedBy
  decide

theorem tree7_reachable : Reachable compare_func tree7 :=
  insert_list_reachable _ _ _ Reachable.create tree7_eq

set_option maxRecDepth 100000 in
theorem tree6_eq : rb_delete tree7 2 1 = some (tree6, some 5) := rfl

set_option maxRecDepth 100000 in
theorem tree6_wf : WF tree6 shape6 := by
  refine ⟨⟨?_, ?_, ?_, ?_, ?_, ?_, ?_, ?_, ?_, ?_⟩, ?_, ?_⟩ <;> decide

set_option maxRecDepth 100000 in
theorem tree6_color : ColorInv tree6 shape6 := by
  refine ⟨by decide, by decide, rfl, by simp [shape6, Tree.noRedRed], ?_⟩
  unfold Tree.equalPaths
  decide

set_option maxRecDepth 100000 in
theorem tree557_eq : insert_list compare_func rb_create [5, 5, 7] = some tree557 := rfl

set_option maxRecDepth 100000 in
theorem tree557_wf : WF tree557 shape557 := by
  refine ⟨⟨?_, ?_, ?_, ?_, ?_, ?_, ?_, ?_, ?_, ?_⟩, ?_, ?_⟩ <;> decide

theorem tree557_reachable : Reachable compare_func tree557 :=
  insert_list_reachable _ _ _ Reachable.create tree557_eq

theorem redRoot_wf : WF redRoot shapeRed := by
  refine ⟨⟨?_, ?_, ?_, ?_, ?_, ?_, ?_, ?_, ?_, ?_⟩, ?_, ?_⟩ <;> decide

/-! ## The claims -/

/-- The function `rb_insert` on a well-formed tree whose sentinel, root stub
and real root are BLACK, whose cached minimum is `NULL` or a node, and that
satisfies the order property: the in-order traversal afterwards is the
previous one with `x` inserted right after the last element that compares
less than or equal to `x`, and the handle returned is a node that stores `x`. -/
theorem rb_insert_ordered {cmp : α → α → Int} (hcmp : CmpOrder cmp) {s : rbtree α}
    {t : Tree α} (x : α) (hwf : WF s t) (hnil : (s.mem RB_NIL).color = Color.BLACK)
    (hstub : (s.mem RB_ROOT).color = Color.BLACK) (hroot : t.color = Color.BLACK)
    (hmin : MinValid s t) (hord : t.ordered cmp) :
    ∃ s2 t2 h, rb_insert cmp s x = some (s2, some h) ∧ WF s2 t2 ∧
      t2.inorder = t.inorder.takeWhile (fun e => decide (cmp e x ≤ 0)) ++
        x :: t.inorder.dropWhile (fun e => decide (cmp e x ≤ 0)) ∧
      (∀ e ∈ t.inorder.takeWhile (fun e => decide (cmp e x ≤ 0)), cmp e x ≤ 0) ∧
      (∀ e ∈ t.inorder.dropWhile (fun e => decide (cmp e x ≤ 0)), cmp x e < 0) ∧
      t2.ordered cmp ∧ (h, x) ∈ t2.nodes ∧ (s2.mem h).data = some x := by
  obtain ⟨s2, t2, e, wf2, _, _, _, hn, _⟩ := rb_insert_spec cmp x hwf hnil hstub hroot hmin
  obtain ⟨o1, o2, o3⟩ := rb_insert_inorder hcmp x t hord
  have zb := zoom_bounds hcmp x t [] hord (by simp [ctxBefore]) (by simp [ctxAfter])
  have hmem : (s.brk, x) ∈ t2.nodes := by rw [hn]; simp
  refine ⟨s2, t2, s.brk, e, wf2, ?_, ?_, ?_, ?_, hmem, wf2.mwf.data_of_mem hmem⟩
  · simp only [Tree.inorder, hn, List.map_append, List.map_cons]
    rw [o1, o2]; rfl
  · rw [← o1]; exact zb.1
  · rw [← o2]; exact zb.2
  · simp only [Tree.ordered, Tree.inorder, hn, List.map_append, List.map_cons]
    exact o3

/-- C1: for every tree reachable from `rb_create` by calls of `rb_insert` and
`rb_delete` (comparator a total preorder), which satisfies the order
property, and for every element `x`: `rb_insert(x)` returns a handle, the
in-order traversal afterwards is the previous one with `x` inserted right
after the last element that compares less than or equal to `x` (every element
before `x` compares `≤ x`, every element after it compares greater, so that
equal elements stand in insertion order), the traversal is still sorted and
has gained exactly `x`, and the handle is a node that stores `x`. -/
theorem C1_insert_inorder {cmp : α → α → Int} (hcmp : CmpOrder cmp) {s : rbtree α}
    (hr : Reachable cmp s) {t : Tree α} (hwf : WF s t) (x : α) :
    t.ordered cmp ∧
    ∃ s2 t2 h, rb_insert cmp s x = some (s2, some h) ∧ WF s2 t2 ∧
      t2.inorder = t.inorder.takeWhile (fun e => decide (cmp e x ≤ 0)) ++
        x :: t.inorder.dropWhile (fun e => decide (cmp e x ≤ 0)) ∧
      (∀ e ∈ t.inorder.takeWhile (fun e => decide (cmp e x ≤ 0)), cmp e x ≤ 0) ∧
      (∀ e ∈ t.inorder.dropWhile (fun e => decide (cmp e x ≤ 0)), cmp x e < 0) ∧
      t2.ordered cmp ∧ t2.inorder.length = t.inorder.length + 1 ∧
      (h, x) ∈ t2.nodes ∧ (s2.mem h).data = some x := by
  obtain ⟨t1, hinv⟩ := reachable_inv hcmp hr
  have := hinv.wf.mwf.unique hwf.mwf
  subst this
  obtain ⟨s2, t2, h, e, wf2, q1, q2, q3, q4, q5, q6⟩ :=
    rb_insert_ordered hcmp x hwf hinv.color.nil_black hinv.color.stub_black
      hinv.color.root_black hinv.minValid hinv.ordered
  refine ⟨hinv.ordered, s2, t2, h, e, wf2, q1, q2, q3, q4, ?_, q5, q6⟩
  rw [q1]
  have := List.takeWhile_append_dropWhile (fun e => decide (cmp e x ≤ 0)) t1.inorder
  have hl := congrArg List.length this
  simp only [List.length_append, List.length_cons] at hl ⊢
  omega

/-- C1, a witness: inserting 6 into the tree of the example scenario. -/
theorem C1_insert_inorder_witness :
    CmpOrder compare_func ∧ Reachable compare_func tree7 ∧ WF tree7 shape7 ∧
    shape7.ordered compare_func ∧
    ∃ s2 t2 h, rb_insert compare_func tree7 6 = some (s2, some h) ∧ WF s2 t2 ∧
      t2.inorder = shape7.inorder.takeWhile (fun e => decide (compare_func e 6 ≤ 0)) ++
        6 :: shape7.inorder.dropWhile (fun e => decide (compare_func e 6 ≤ 0)) ∧
      (∀ e ∈ shape7.inorder.takeWhile (fun e => decide (compare_func e 6 ≤ 0)),
        compare_func e 6 ≤ 0) ∧
      (∀ e ∈ shape7.inorder.dropWhile (fun e => decide (compare_func e 6 ≤ 0)),
        compare_func 6 e < 0) ∧
      t2.ordered compare_func ∧ t2.inorder.length = shape7.inorder.length + 1 ∧
      (h, 6) ∈ t2.nodes ∧ (s2.mem h).data = some 6 :=
  ⟨compare_func_order, tree7_reachable, tree7_wf,
    C1_insert_inorder compare_func_order tree7_reachable tree7_wf 6⟩

set_option maxRecDepth 100000 in
/-- Why `rb_insert_ordered` asks for a BLACK real root.  The state `redRoot`,
a well-formed tree of the one node 2 holding 5, RED, is not reachable from
`rb_create` by calls of `rb_insert` and `rb_delete`.  On it `rb_insert` of 3
links the new node below node 2, enters `insert_repair` because the parent is
RED, takes the root stub for the grandparent, and its `rotate_right` at the
stub leaves the stub's left link at the sentinel: the tree below the root
stub is empty afterwards. -/
theorem redRoot_insert_empties :
    ¬ Reachable compare_func redRoot ∧
    WF redRoot shapeRed ∧ shapeRed.ordered compare_func ∧ MinValid redRoot shapeRed ∧
    (redRoot.mem RB_NIL).color = Color.BLACK ∧ (redRoot.mem RB_ROOT).color = Color.BLACK ∧
    shapeRed.inorder = [5] ∧
    (rb_insert compare_func redRoot 3).map (fun r => ((r.1.mem RB_ROOT).left, r.2)) =
      some (RB_NIL, some 3) ∧
    ∀ r, rb_insert compare_func redRoot 3 = some r → ∀ t2, MWF r.1.mem t2 →
      t2.inorder = [] := by
  have hev : (rb_insert compare_func redRoot 3).map (fun r => ((r.1.mem RB_ROOT).left, r.2)) =
      some (RB_NIL, some 3) := by decide
  refine ⟨?_, redRoot_wf, ?_, ?_, by decide, by decide, by decide, hev, ?_⟩
  · intro hr
    obtain ⟨t1, hinv⟩ := reachable_inv compare_func_order hr
    have := hinv.wf.mwf.unique redRoot_wf.mwf
    subst this
    exact absurd hinv.color.root_black (by decide)
  · unfold Tree.ordered SortedBy; decide
  · intro mn e
    have : mn = 2 := by
      simp only [redRoot, Option.some.injEq] at e
      exact e.symm
    subst this
    decide
  · intro r hr t2 h2
    rw [hr] at hev
    simp only [Option.map_some', Option.some.injEq, Prod.mk.injEq] at hev
    have h3 : MWF r.1.mem (plug [] t2) := h2
    have := h3.leaf_of_root (by rw [← h2.stub_left]; exact hev.1)
    rw [this]; rfl

/-- C2: for every tree that satisfies all invariants and every node `h` of
it, holding `d` at its position in the in-order traversal: `rb_delete(h,
keep)` returns, the tree satisfies all invariants again (so the traversal is
still sorted), and its in-order traversal is the previous one with exactly the
element at the position of `h` removed. -/
theorem C2_delete_inorder {cmp : α → α → Int} {s : rbtree α} {t : Tree α}
    (hinv : Inv cmp s t) (h : Nat) (d : α) (pre post : List (Nat × α)) (keep : Int)
    (hsplit : t.nodes = pre ++ (h, d) :: post) :
    ∃ s2 t2 r, rb_delete s h keep = some (s2, r) ∧ Inv cmp s2 t2 ∧
      t2.inorder = pre.map Prod.snd ++ post.map Prod.snd ∧ t2.ordered cmp := by
  have hmem : (h, d) ∈ t.nodes := by rw [hsplit]; simp
  obtain ⟨fs, l, c, r, rfl⟩ := exists_focus_node t h d hmem
  obtain ⟨s2, t2, e, hinv2, hin, _⟩ := rb_delete_inv keep hinv
  have hn : (plug fs (Tree.node l h c d r)).nodes =
      (ctxBefore fs ++ l.nodes) ++ (h, d) :: (r.nodes ++ ctxAfter fs) := by
    rw [nodes_plug]; simp [Tree.nodes]
  have hnd := hinv.wf.mwf.nodup
  rw [Tree.addrs, hn] at hnd
  rw [hn] at hsplit
  obtain ⟨q1, _, q3⟩ := split_unique Prod.fst (h, d) (h, d) rfl _ _ _ _ hnd hsplit
  refine ⟨s2, t2, _, e, hinv2, ?_, hinv2.ordered⟩
  rw [hin, ← q1, ← q3]
  simp [Tree.inorder]

/-- C2, a witness: deleting the node holding 5 from the tree of the example
scenario. -/
theorem C2_delete_inorder_witness :
    Inv compare_func tree7 shape7 ∧
    shape7.nodes = [(5, 1), (3, 3), (6, 4)] ++ (2, 5) :: [(7, 7), (4, 8), (8, 9)] ∧
    ∃ s2 t2 r, rb_delete tree7 2 1 = some (s2, r) ∧ Inv compare_func s2 t2 ∧
      t2.inorder = [(5, 1), (3, 3), (6, 4)].map Prod.snd ++
        [(7, 7), (4, 8), (8, 9)].map Prod.snd ∧ t2.ordered compare_func :=
  ⟨tree7_inv, rfl, C2_delete_inorder tree7_inv 2 5 _ _ 1 rfl⟩

/-- C3: for every well-formed tree that satisfies the colour invariants
(sentinel BLACK, root stub BLACK, real root BLACK, no RED node with a RED
child, the same number of BLACK nodes on every path from the root to the
sentinel), whose cached minimum is `NULL` or a node, and every element `x`:
`rb_insert(x)` returns and the tree satisfies the same colour invariants
afterwards. -/
theorem C3_insert_colour (cmp : α → α → Int) {s : rbtree α} {t : Tree α} (x : α)
    (hwf : WF s t) (hcol : ColorInv s t) (hmin : MinValid s t) :
    ∃ s2 t2 h, rb_insert cmp s x = some (s2, h) ∧ WF s2 t2 ∧ ColorInv s2 t2 := by
  obtain ⟨s2, t2, e, wf2, c1, c2, c3, _, _, _, _, _, hv, _⟩ :=
    rb_insert_spec cmp x hwf hcol.nil_black hcol.stub_black hcol.root_black hmin
  have hv2 := hv hcol.no_red_red ((balanced_iff_equalPaths t).2 hcol.equal_paths)
  exact ⟨s2, t2, _, e, wf2, c1, c2, c3, hv2.1, (balanced_iff_equalPaths t2).1 hv2.2⟩

/-- C3, a witness: inserting 6 into the tree of the example scenario. -/
theorem C3_insert_colour_witness :
    WF tree7 shape7 ∧ ColorInv tree7 shape7 ∧
    ∃ s2 t2 h, rb_insert compare_func tree7 6 = some (s2, h) ∧ WF s2 t2 ∧ ColorInv s2 t2 :=
  ⟨tree7_wf, tree7_color, C3_insert_colour compare_func 6 tree7_wf tree7_color tree7_inv.minValid⟩

/-- C4: for every well-formed tree that satisfies the colour invariants and
every node `h` of it: `rb_delete(h, keep)` returns and the tree satisfies the
same colour invariants afterwards.  The statement ranges over all shapes, so
over every sibling case of `delete_repair` on both sides, the deletion of the
root and the deletion of the sole element. -/
theorem C4_delete_colour {s : rbtree α} {t : Tree α} (hwf : WF s t) (hcol : ColorInv s t)
    (h : Nat) (hh : h ∈ t.addrs) (keep : Int) :
    ∃ s2 t2 r, rb_delete s h keep = some (s2, r) ∧ WF s2 t2 ∧ ColorInv s2 t2 := by
  obtain ⟨fs, l, c, d, r, rfl⟩ := exists_focus t h hh
  obtain ⟨s2, t2, e, w, cl, _⟩ := rb_delete_core keep hwf hcol
  exact ⟨s2, t2, _, e, w, cl⟩

/-- C4, a witness: deleting the root of the tree of the example scenario. -/
theorem C4_delete_colour_witness :
    WF tree7 shape7 ∧ ColorInv tree7 shape7 ∧ 2 ∈ shape7.addrs ∧
    ∃ s2 t2 r, rb_delete tree7 2 0 = some (s2, r) ∧ WF s2 t2 ∧ ColorInv s2 t2 :=
  ⟨tree7_wf, tree7_color, by decide,
    C4_delete_colour tree7_wf tree7_color 2 (by decide) 0⟩

/-- C5: for every list `xs` of elements with pairwise different keys inserted
by `rb_insert` into an empty tree, and every list `ds` of pairwise different
ones of them then removed, each located by `rb_find` and removed by
`rb_delete`: both loops return, and afterwards `rb_find(k)` returns a node
whose element compares equal to `k` when `k` is a retained key (it compares
equal to an inserted element and to no removed one) and `NULL` for every other
key; so the number of inserted elements found is the number inserted minus the
number removed. -/
theorem C5_membership {cmp : α → α → Int} (hcmp : CmpOrder cmp) (xs ds : List α)
    (keep : Int) (hxs : xs.Pairwise (fun a b => cmp a b ≠ 0))
    (hds : ds.Pairwise (fun a b => cmp a b ≠ 0)) (hsub : ∀ d ∈ ds, d ∈ xs) :
    ∃ s1 s2, insert_list cmp rb_create xs = some s1 ∧
      remove_list cmp s1 ds keep = some s2 ∧
      (∀ k, ((∃ x ∈ xs, cmp k x = 0) ∧ ∀ d ∈ ds, cmp k d ≠ 0) →
        ∃ node e, rb_find cmp s2 k = some (some node) ∧ (s2.mem node).data = some e ∧
          cmp k e = 0) ∧
      (∀ k, ¬ ((∃ x ∈ xs, cmp k x = 0) ∧ ∀ d ∈ ds, cmp k d ≠ 0) →
        rb_find cmp s2 k = some none) ∧
      (xs.filter (fun x => decide (rb_find cmp s2 x ≠ some none))).length + ds.length =
        xs.length := by
  obtain ⟨s1, t1, e1, h1, p1⟩ := insert_list_inv hcmp xs rb_create Tree.leaf (Inv.of_create cmp)
  have p1b : t1.inorder.Perm xs := by simpa [Tree.inorder, Tree.nodes] using p1
  have hp1 : t1.inorder.Pairwise (fun a b => cmp a b ≠ 0) := by
    refine (List.Perm.pairwise_iff ?_ p1b).2 hxs
    intro a b hab h0
    exact hab (hcmp.eq_symm h0)
  obtain ⟨s2, t2, e2, h2, hin⟩ := remove_list_inv hcmp keep ds s1 t1 h1 hp1
  have hmem : ∀ y, y ∈ t2.inorder ↔ y ∈ xs ∧ ∀ d ∈ ds, cmp d y ≠ 0 := by
    intro y
    rw [hin, List.mem_filter, p1b.mem_iff]
    simp
  have hret : ∀ k, ((∃ x ∈ xs, cmp k x = 0) ∧ ∀ d ∈ ds, cmp k d ≠ 0) ↔
      ∃ e ∈ t2.inorder, cmp k e = 0 := by
    intro k
    constructor
    · rintro ⟨⟨x, hx, hkx⟩, hall⟩
      refine ⟨x, (hmem x).2 ⟨hx, fun d hd h0 => hall d hd ?_⟩, hkx⟩
      exact hcmp.eq_trans hkx (hcmp.eq_symm h0)
    · rintro ⟨e, he, hke⟩
      obtain ⟨hx, hall⟩ := (hmem e).1 he
      refine ⟨⟨e, hx, hke⟩, fun d hd h0 => hall d hd ?_⟩
      exact hcmp.eq_trans (hcmp.eq_symm h0) hke
  have hnone : ∀ k, ¬ ((∃ x ∈ xs, cmp k x = 0) ∧ ∀ d ∈ ds, cmp k d ≠ 0) →
      rb_find cmp s2 k = some none := by
    intro k hk
    refine (rb_find_spec hcmp k h2.wf h2.ordered).1 ?_
    intro e he h0
    exact hk ((hret k).2 ⟨e, he, h0⟩)
  have hsome : ∀ k, ((∃ x ∈ xs, cmp k x = 0) ∧ ∀ d ∈ ds, cmp k d ≠ 0) →
      ∃ node e, rb_find cmp s2 k = some (some node) ∧ (s2.mem node).data = some e ∧
        cmp k e = 0 := by
    intro k hk
    obtain ⟨node, e, q1, q2, q3⟩ := (rb_find_spec hcmp k h2.wf h2.ordered).2 ((hret k).1 hk)
    exact ⟨node, e, q1, h2.wf.mwf.data_of_mem q2, q3⟩
  refine ⟨s1, s2, e1, e2, hsome, hnone, ?_⟩
  have hcount := filter_count hcmp ds xs hxs hds
    (fun d hd => ⟨d, hsub d hd, hcmp.refl d⟩)
  rw [← hcount]
  congr 2
  refine List.filter_congr ?_
  intro x hx
  by_cases hr : ∀ d ∈ ds, cmp x d ≠ 0
  · obtain ⟨node, e, q1, _⟩ := hsome x ⟨⟨x, hx, hcmp.refl x⟩, hr⟩
    have hall : ∀ d ∈ ds, cmp d x ≠ 0 := fun d hd h0 => hr d hd (hcmp.eq_symm h0)
    rw [q1]
    simpa using hall
  · have q1 := hnone x (fun h => hr h.2)
    rw [q1]
    have : ¬ ∀ d ∈ ds, cmp d x ≠ 0 := fun hall => hr fun d hd h0 => hall d hd (hcmp.eq_symm h0)
    simp only [ne_eq, not_true_eq_false, decide_False]
    symm
    simpa using this

/-- C5, a witness: the keys 5, 3, 8 inserted and the key 3 removed. -/
theorem C5_membership_witness :
    ∃ s1 s2, insert_list compare_func rb_create [5, 3, 8] = some s1 ∧
      remove_list compare_func s1 [3] 1 = some s2 ∧
      (∀ k, ((∃ x ∈ [5, 3, 8], compare_func k x = 0) ∧ ∀ d ∈ [3], compare_func k d ≠ 0) →
        ∃ node e, rb_find compare_func s2 k = some (some node) ∧
          (s2.mem node).data = some e ∧ compare_func k e = 0) ∧
      (∀ k, ¬ ((∃ x ∈ [5, 3, 8], compare_func k x = 0) ∧
          ∀ d ∈ [3], compare_func k d ≠ 0) →
        rb_find compare_func s2 k = some none) ∧
      (([5, 3, 8] : List Int).filter
        (fun x => decide (rb_find compare_func s2 x ≠ some none))).length + [3].length =
        [5, 3, 8].length :=
  C5_membership compare_func_order [5, 3, 8] [3] 1 (by decide) (by decide) (by decide)

/-- C6: in every tree reachable from `rb_create` by calls of `rb_insert` and
`rb_delete` (duplicates allowed, comparator a total preorder), the cached
minimum `rbt->min` is the leftmost node of the tree, and it is `NULL` exactly
when the tree is empty. -/
theorem C6_min_cache {cmp : α → α → Int} (hcmp : CmpOrder cmp) {s : rbtree α}
    (hr : Reachable cmp s) :
    ∃ t, WF s t ∧ s.min = t.leftmost ∧ (s.min = none ↔ t = Tree.leaf) := by
  obtain ⟨t, hinv⟩ := reachable_inv hcmp hr
  refine ⟨t, hinv.wf, hinv.min, ?_⟩
  rw [hinv.min]
  exact leftmost_none_iff t

/-- C6, a witness: the tree of the example scenario. -/
theorem C6_min_cache_witness :
    Reachable compare_func tree7 ∧
    ∃ t, WF tree7 t ∧ tree7.min = t.leftmost ∧ (tree7.min = none ↔ t = Tree.leaf) :=
  ⟨tree7_reachable, C6_min_cache compare_func_order tree7_reachable⟩

/-- C8: for every well-formed tree and every node `x` of it, at its position
in the in-order sequence of the nodes: `rb_successor(x)` returns the node that
immediately follows `x` in the in-order traversal, and it returns `NULL`
exactly when `x` is the last node of the traversal. -/
theorem C8_successor_inorder {s : rbtree α} {t : Tree α} (hwf : WF s t) (x : Nat)
    (pre post : List Nat) (hsplit : t.addrs = pre ++ x :: post) :
    rb_successor s x = some post.head? ∧ (rb_successor s x = some none ↔ post = []) := by
  have h := rb_successor_spec hwf x pre post hsplit
  refine ⟨h, ?_⟩
  rw [h]
  cases post <;> simp

/-- C8, a witness: the successor of the root of the example scenario. -/
theorem C8_successor_inorder_witness :
    WF tree7 shape7 ∧ shape7.addrs = [5, 3, 6] ++ 2 :: [7, 4, 8] ∧
    rb_successor tree7 2 = some [7, 4, 8].head? ∧
    (rb_successor tree7 2 = some none ↔ [7, 4, 8] = []) :=
  ⟨tree7_wf, rfl, C8_successor_inorder tree7_wf 2 [5, 3, 6] [7, 4, 8] rfl⟩

/-- C9 (amended): in every tree reachable from `rb_create` by calls of
`rb_insert` and `rb_delete` with duplicates permitted (comparator a total
preorder), for every node all elements in its left subtree compare less than
or equal to the node's element and all elements in its right subtree compare
greater than or equal to it. -/
theorem C9_order_nonstrict {cmp : α → α → Int} (hcmp : CmpOrder cmp) {s : rbtree α}
    (hr : Reachable cmp s) : ∃ t, WF s t ∧ t.bst cmp := by
  obtain ⟨t, hinv⟩ := reachable_inv hcmp hr
  exact ⟨t, hinv.wf, bst_of_ordered t hinv.ordered⟩

/-- C9, a witness: the tree with the duplicate key. -/
theorem C9_order_nonstrict_witness :
    Reachable compare_func tree557 ∧ ∃ t, WF tree557 t ∧ t.bst compare_func :=
  ⟨tree557_reachable, C9_order_nonstrict compare_func_order tree557_reachable⟩

/-- C9 as stated fails: in the tree built by inserting 5, 5, 7 the rotation
of `insert_repair` makes the second 5 the root and the first 5 its left child,
so the left subtree of the root holds an element that is not strictly less
than the root's element. -/
theorem C9_strict_left_counterexample :
    Reachable compare_func tree557 ∧ WF tree557 shape557 ∧
    ¬ shape557.bstStrictLeft compare_func := by
  refine ⟨tree557_reachable, tree557_wf, ?_⟩
  intro h
  have := h.1 5 (by decide)
  revert this
  decide

set_option maxRecDepth 100000 in
/-- C10: inserting the keys 5, 3, 8, 1, 4, 7, 9 in that order into an empty
tree yields the tree `tree7` with shape `shape7`: its in-order traversal is
`[1, 3, 4, 5, 7, 8, 9]` and the cached minimum is node 5, which holds 1.  The
node 2 holds 5 and has two children, and its successor is node 7, which holds
7.  Then `rb_delete` on node 2 returns the element 5 and yields `tree6` with
shape `shape6`: node 7 is spliced out, node 2 holds 7, the in-order traversal
is `[1, 3, 4, 7, 8, 9]`, and the colour invariants hold. -/
theorem C10_scenario :
    insert_list compare_func rb_create [5, 3, 8, 1, 4, 7, 9] = some tree7 ∧
    WF tree7 shape7 ∧ shape7.inorder = [1, 3, 4, 5, 7, 8, 9] ∧
    tree7.min = some 5 ∧ (tree7.mem 5).data = some 1 ∧
    (tree7.mem 2).data = some 5 ∧ (tree7.mem 2).left ≠ RB_NIL ∧
    (tree7.mem 2).right ≠ RB_NIL ∧
    rb_successor tree7 2 = some (some 7) ∧ (tree7.mem 7).data = some 7 ∧
    rb_delete tree7 2 1 = some (tree6, some 5) ∧
    WF tree6 shape6 ∧ shape6.inorder = [1, 3, 4, 7, 8, 9] ∧
    7 ∉ shape6.addrs ∧ (2, 7) ∈ shape6.nodes ∧ ColorInv tree6 shape6 :=
  ⟨tree7_eq, tree7_wf, by decide, by decide, by decide, by decide, by decide, by decide,
    by decide, by decide, tree6_eq, tree6_wf, by decide, by decide, by decide, tree6_color⟩

/-! ## The checker `rb_check_black_height` -/

/-- The recursion of `check_black_height` on a subtree whose root is not a RED
node below a RED node: it returns, with the number of BLACK nodes on the
paths of the subtree plus one (for the sentinel) if the subtree satisfies
no-red-red and balance, and with 0 if it does not. -/
theorem check_black_height_spec {m : Nat → rbnode α} (t : Tree α) :
    ∀ (fs : List (Frame α)) (fuel : Nat), BWF m (plug fs t) → t.height < fuel →
      (t.color = Color.RED → ctxColor fs = Color.BLACK) →
      (t.noRedRed ∧ t.balanced → check_black_height m fuel t.root = some ((t.bh : Int) + 1)) ∧
      (¬ (t.noRedRed ∧ t.balanced) → check_black_height m fuel t.root = some 0) := by
  induction t with
  | leaf =>
    intro fs fuel _ hf _
    cases fuel with
    | zero => omega
    | succ n =>
      refine ⟨fun _ => by simp [check_black_height, Tree.bh], fun h => ?_⟩
      exact absurd ⟨trivial, trivial⟩ h
  | node l a c d r ihl ihr =>
    intro fs fuel h hf hctx
    cases fuel with
    | zero => omega
    | succ n =>
      have ha := h.mwf.node_ne.1
      have hrd := h.mwf.read
      have hL : BWF m (plug (Frame.L a c d r :: fs) l) := h
      have hR : BWF m (plug (Frame.R l a c d :: fs) r) := h
      have cl : (m l.root).color = l.color := hL.root_color
      have cr : (m r.root).color = r.color := hR.root_color
      have cp : (m (ctxParent fs)).color = ctxColor fs := h.ctx_color
      simp only [Tree.height] at hf
      simp only [color_node] at hctx
      have hpar : ¬ (c = Color.RED ∧ ctxColor fs = Color.RED) := by
        rintro ⟨h1, h2⟩
        rw [hctx h1] at h2
        exact absurd h2 (by decide)
      by_cases hbad : c = Color.RED ∧ (l.color = Color.RED ∨ r.color = Color.RED)
      · have e : check_black_height m (n + 1) (Tree.node l a c d r).root = some 0 := by
          simp only [check_black_height, root_node, ha, if_false, hrd, cl, cr, cp]
          rw [if_pos]
          exact ⟨hbad.1, by rcases hbad.2 with q | q <;> simp [q]⟩
        refine ⟨fun hv => ?_, fun _ => e⟩
        exfalso
        have := hv.1.1 hbad.1
        rcases hbad.2 with q | q
        · rw [this.1] at q; exact absurd q (by decide)
        · rw [this.2] at q; exact absurd q (by decide)
      · have hcond : ¬ (c = Color.RED ∧
            (l.color = Color.RED ∨ r.color = Color.RED ∨ ctxColor fs = Color.RED)) := by
          rintro ⟨h1, h2 | h2 | h2⟩
          · exact hbad ⟨h1, Or.inl h2⟩
          · exact hbad ⟨h1, Or.inr h2⟩
          · exact hpar ⟨h1, h2⟩
        have hloc : c = Color.RED → l.color = Color.BLACK ∧ r.color = Color.BLACK := by
          intro h1
          refine ⟨(not_red_iff _).1 fun q => hbad ⟨h1, Or.inl q⟩,
            (not_red_iff _).1 fun q => hbad ⟨h1, Or.inr q⟩⟩
        have il := ihl (Frame.L a c d r :: fs) n hL (by omega)
          (by intro q; simp only [ctxColor_cons, color_L]
              exact (not_red_iff _).1 fun h1 => by
                rw [(hloc h1).1] at q; exact absurd q (by decide))
        have ir := ihr (Frame.R l a c d :: fs) n hR (by omega)
          (by intro q; simp only [ctxColor_cons, color_R]
              exact (not_red_iff _).1 fun h1 => by
                rw [(hloc h1).2] at q; exact absurd q (by decide))
        simp only [check_black_height, root_node, ha, if_false, hrd, cl, cr, cp]
        rw [if_neg hcond]
        by_cases vl : l.noRedRed ∧ l.balanced
        · rw [il.1 vl]
          have p1 : ¬ ((l.bh : Int) + 1 = 0) := by omega
          simp only [p1, if_false]
          by_cases vr : r.noRedRed ∧ r.balanced
          · rw [ir.1 vr]
            have p2 : ¬ ((r.bh : Int) + 1 = 0) := by omega
            simp only [p2, if_false]
            by_cases hb : l.bh = r.bh
            · refine ⟨fun _ => ?_, fun hv => ?_⟩
              · rw [hb]
                rcases color_cases c with hc | hc <;> subst hc <;>
                  simp [Tree.bh, blk, hb]
              · exact absurd ⟨⟨hloc, vl.1, vr.1⟩, hb, vl.2, vr.2⟩ hv
            · have p3 : (l.bh : Int) + 1 ≠ (r.bh : Int) + 1 := by omega
              refine ⟨fun hv => absurd hv.2.1 hb, fun _ => ?_⟩
              simp [p3]
          · rw [ir.2 vr]
            refine ⟨fun hv => absurd ⟨hv.1.2.2, hv.2.2.2⟩ vr, fun _ => by simp⟩
        · rw [il.2 vl]
          refine ⟨fun hv => absurd ⟨hv.1.2.1, hv.2.2.1⟩ vl, fun _ => by simp⟩

/-- The function `rb_check_black_height` on a well-formed tree whose sentinel,
root stub and real root are BLACK. -/
theorem rb_check_black_height_black {s : rbtree α} {t : Tree α} (hwf : WF s t)
    (hn : (s.mem RB_NIL).color = Color.BLACK) (hs : (s.mem RB_ROOT).color = Color.BLACK)
    (hr : t.color = Color.BLACK) :
    (t.noRedRed ∧ t.balanced → rb_check_black_height s = some ((t.bh : Int) + 1)) ∧
    (¬ (t.noRedRed ∧ t.balanced) → rb_check_black_height s = some 0) := by
  have hb : BWF s.mem (plug [] t) := ⟨hwf.mwf, hn, hs⟩
  have hc : (s.mem t.root).color = t.color := hb.root_color
  have e : rb_check_black_height s = check_black_height s.mem s.brk t.root := by
    simp [rb_check_black_height, hwf.mwf.stub_left, hn, hs, hc, hr]
  rw [e]
  exact check_black_height_spec t [] s.brk hb (by
    have := height_le_length t
    have := hwf.length_lt
    omega) (fun _ => rfl)

/-- The function `rb_check_black_height` returns 0 when the sentinel, the root
stub or the real root is RED. -/
theorem rb_check_black_height_red {s : rbtree α} {t : Tree α} (hwf : WF s t)
    (h : (s.mem RB_NIL).color = Color.RED ∨ (s.mem RB_ROOT).color = Color.RED ∨
      (s.mem t.root).color = Color.RED) :
    rb_check_black_height s = some 0 := by
  simp only [rb_check_black_height, hwf.mwf.stub_left]
  rw [if_pos]
  tauto

/-- The colour the memory holds for the real root is the colour of the root
of the shape, except for the empty tree, whose real root is the sentinel. -/
theorem root_color_mem {s : rbtree α} {t : Tree α} (hwf : WF s t) (ht : t.root ≠ RB_NIL) :
    (s.mem t.root).color = t.color := by
  obtain ⟨l, a, c, d, r, rfl⟩ := node_of_root t ht
  have h0 : MWF s.mem (plug [] (Tree.node l a c d r)) := hwf.mwf
  rw [root_node, h0.read]
  rfl

/-- The result of `rb_check_black_height` on a well-formed tree with arbitrary
colours: the number of BLACK nodes on the paths plus one if the colour
invariants hold, and 0 if one of them fails. -/
theorem rb_check_black_height_spec {s : rbtree α} {t : Tree α} (hwf : WF s t) :
    (ColorInv s t → rb_check_black_height s = some ((t.bh : Int) + 1)) ∧
    (¬ ColorInv s t → rb_check_black_height s = some 0) := by
  constructor
  · intro hc
    exact (rb_check_black_height_black hwf hc.nil_black hc.stub_black hc.root_black).1
      ⟨hc.no_red_red, (balanced_iff_equalPaths t).2 hc.equal_paths⟩
  · intro hc
    rcases color_cases (s.mem RB_NIL).color with hn | hn
    · exact rb_check_black_height_red hwf (Or.inl hn)
    rcases color_cases (s.mem RB_ROOT).color with hs | hs
    · exact rb_check_black_height_red hwf (Or.inr (Or.inl hs))
    rcases color_cases (s.mem t.root).color with hr | hr
    · exact rb_check_black_height_red hwf (Or.inr (Or.inr hr))
    have hr2 : t.color = Color.BLACK := by
      by_cases ht : t.root = RB_NIL
      · cases t with
        | leaf => rfl
        | node l a c d r =>
          have h0 : MWF s.mem (plug [] (Tree.node l a c d r)) := hwf.mwf
          exact absurd ht h0.node_ne.1
      · rw [← root_color_mem hwf ht]; exact hr
    refine (rb_check_black_height_black hwf hn hs hr2).2 ?_
    rintro ⟨v1, v2⟩
    exact hc ⟨hn, hs, hr2, v1, (balanced_iff_equalPaths t).1 v2⟩

/-- The black-height of the glossary is the count of BLACK nodes on the paths
of the shape, the sentinel counted and a BLACK root not. -/
theorem blackHeight_eq (t : Tree α) (hr : t.color = Color.BLACK) :
    t.blackHeight = t.bh := by
  cases t with
  | leaf => rfl
  | node l a c d r =>
    simp only [color_node] at hr
    subst hr
    simp [Tree.blackHeight, Tree.bh, blk]

/-! ## The checker `rb_check_order` -/

theorem cmp_flip {cmp : α → α → Int} (hcmp : CmpOrder cmp) (a b : α) :
    0 ≤ cmp a b ↔ cmp b a ≤ 0 := by
  have := hcmp.antisymm a b
  constructor <;> intro h <;> by_contra hn
  · exact absurd (this.2 (by omega)) (by omega)
  · exact absurd (this.1 (by omega)) (by omega)

/-- The bounds that `check_order` hands down: a list `l ++ d :: r` is ordered
and within `[lo, hi]` exactly when `d` is within `[lo, hi]`, `l` is ordered
and within `[lo, d]`, and `r` is ordered and within `[d, hi]`. -/
theorem ordered_bounds_iff {cmp : α → α → Int} (hcmp : CmpOrder cmp) (l r : List α)
    (d lo hi : α) :
    (SortedBy cmp (l ++ d :: r) ∧ ∀ e ∈ l ++ d :: r, 0 ≤ cmp e lo ∧ cmp e hi ≤ 0) ↔
      (0 ≤ cmp d lo ∧ cmp d hi ≤ 0) ∧
      (SortedBy cmp l ∧ ∀ e ∈ l, 0 ≤ cmp e lo ∧ cmp e d ≤ 0) ∧
      (SortedBy cmp r ∧ ∀ e ∈ r, 0 ≤ cmp e d ∧ cmp e hi ≤ 0) := by
  simp only [SortedBy, List.pairwise_append, List.pairwise_cons, List.mem_append,
    List.mem_cons]
  constructor
  · rintro ⟨⟨s1, ⟨s2, s3⟩, s4⟩, hb⟩
    refine ⟨hb d (Or.inr (Or.inl rfl)), ⟨s1, fun e he => ⟨(hb e (Or.inl he)).1,
      s4 e he d (Or.inl rfl)⟩⟩, s3, fun e he => ⟨(cmp_flip hcmp e d).2 (s2 e he),
      (hb e (Or.inr (Or.inr he))).2⟩⟩
  · rintro ⟨⟨b1, b2⟩, ⟨s1, hl⟩, s3, hr⟩
    have dr : ∀ e ∈ r, cmp d e ≤ 0 := fun e he => (cmp_flip hcmp e d).1 (hr e he).1
    refine ⟨⟨s1, ⟨dr, s3⟩, ?_⟩, ?_⟩
    · rintro a ha b (rfl | hb)
      · exact (hl a ha).2
      · exact hcmp.trans a d b (hl a ha).2 (dr b hb)
    · rintro e (he | rfl | he)
      · exact ⟨(hl e he).1, hcmp.trans e d hi (hl e he).2 b2⟩
      · exact ⟨b1, b2⟩
      · refine ⟨?_, (hr e he).2⟩
        exact (cmp_flip hcmp e lo).2
          (hcmp.trans lo d e ((cmp_flip hcmp d lo).1 b1) (dr e he))

/-- The recursion of `check_order` on a subtree: it returns, with 1 if the
in-order traversal of the subtree is ordered and every element is within the
bounds, and with 0 if not. -/
theorem check_order_spec {cmp : α → α → Int} (hcmp : CmpOrder cmp) {m : Nat → rbnode α}
    (t : Tree α) :
    ∀ (fs : List (Frame α)) (fuel : Nat) (lo hi : α), MWF m (plug fs t) → t.height < fuel →
      ((t.ordered cmp ∧ ∀ e ∈ t.inorder, 0 ≤ cmp e lo ∧ cmp e hi ≤ 0) →
        check_order cmp m fuel t.root lo hi = some 1) ∧
      (¬ (t.ordered cmp ∧ ∀ e ∈ t.inorder, 0 ≤ cmp e lo ∧ cmp e hi ≤ 0) →
        check_order cmp m fuel t.root lo hi = some 0) := by
  induction t with
  | leaf =>
    intro fs fuel lo hi _ hf
    cases fuel with
    | zero => omega
    | succ n =>
      refine ⟨fun _ => by simp [check_order], fun h => ?_⟩
      exfalso
      apply h
      simp [Tree.ordered, SortedBy, Tree.inorder, Tree.nodes]
  | node l a c d r ihl ihr =>
    intro fs fuel lo hi h hf
    cases fuel with
    | zero => omega
    | succ n =>
      have ha := h.node_ne.1
      have hrd := h.read
      simp only [Tree.height] at hf
      have il := ihl (Frame.L a c d r :: fs) n lo d h (by omega)
      have ir := ihr (Frame.R l a c d :: fs) n d hi h (by omega)
      have key := ordered_bounds_iff hcmp l.inorder r.inorder d lo hi
      simp only [Tree.ordered, inorder_node] at il ir ⊢
      rw [key]
      simp only [check_order, root_node, ha, if_false, hrd]
      by_cases hd : cmp d lo < 0 ∨ cmp d hi > 0
      · rw [if_pos hd]
        refine ⟨fun hv => ?_, fun _ => rfl⟩
        exfalso
        have := hv.1
        omega
      · rw [if_neg hd]
        have hd2 : 0 ≤ cmp d lo ∧ cmp d hi ≤ 0 := by omega
        by_cases vl : SortedBy cmp l.inorder ∧ ∀ e ∈ l.inorder, 0 ≤ cmp e lo ∧ cmp e d ≤ 0
        · rw [il.1 vl]
          by_cases vr : SortedBy cmp r.inorder ∧ ∀ e ∈ r.inorder, 0 ≤ cmp e d ∧ cmp e hi ≤ 0
          · rw [ir.1 vr]
            refine ⟨fun _ => by simp, fun hv => absurd ⟨hd2, vl, vr⟩ hv⟩
          · rw [ir.2 vr]
            refine ⟨fun hv => absurd hv.2.2 vr, fun _ => by simp⟩
        · rw [il.2 vl]
          refine ⟨fun hv => absurd hv.2.1 vl, fun _ => by simp⟩

/-- The function `rb_check_order` on a well-formed tree. -/
theorem rb_check_order_spec {cmp : α → α → Int} (hcmp : CmpOrder cmp) {s : rbtree α}
    {t : Tree α} (hwf : WF s t) (lo hi : α) :
    ((t.ordered cmp ∧ ∀ e ∈ t.inorder, 0 ≤ cmp e lo ∧ cmp e hi ≤ 0) →
      rb_check_order cmp s lo hi = some 1) ∧
    (¬ (t.ordered cmp ∧ ∀ e ∈ t.inorder, 0 ≤ cmp e lo ∧ cmp e hi ≤ 0) →
      rb_check_order cmp s lo hi = some 0) := by
  rw [rb_check_order, hwf.mwf.stub_left]
  exact check_order_spec hcmp t [] s.brk lo hi hwf.mwf (by
    have := height_le_length t
    have := hwf.length_lt
    omega)

/-! ## The traversal `rb_apply` -/

theorem visit_until_append {σ : Type} (func : Option α → σ → σ × Int) (xs ys : List (Option α)) :
    ∀ cookie : σ, visit_until func (xs ++ ys) cookie =
      if (visit_until func xs cookie).2 ≠ 0 then visit_until func xs cookie
      else visit_until func ys (visit_until func xs cookie).1 := by
  induction xs with
  | nil => intro cookie; simp [visit_until]
  | cons x xs ih =>
    intro cookie
    simp only [List.cons_append, visit_until]
    by_cases h : (func x cookie).2 = 0
    · simp only [h, ne_eq, not_true_eq_false, if_false]
      exact ih _
    · simp [h]

theorem visit_until_one {σ : Type} (func : Option α → σ → σ × Int) (x : Option α)
    (cookie : σ) :
    visit_until func [x] cookie =
      if (func x cookie).2 ≠ 0 then func x cookie else ((func x cookie).1, 0) := by
  simp [visit_until]

/-- A pair whose second component is 0. -/
theorem pair_zero {σ : Type} (p : σ × Int) (h : p.2 = 0) : (p.1, (0 : Int)) = p := by
  cases p; simp_all

/-- The recursion of `rb_apply` on a subtree: it returns, and it calls the
visitor on the elements in the sequence of the traversal order until a call
returns a status other than 0. -/
theorem rb_apply_rec_spec {σ : Type} {m : Nat → rbnode α} (func : Option α → σ → σ × Int)
    (order : rbtraversal) (t : Tree α) :
    ∀ (fs : List (Frame α)) (fuel : Nat) (cookie : σ), MWF m (plug fs t) → t.height < fuel →
      rb_apply_rec m func order fuel t.root cookie =
        some (visit_until func ((t.sequence order).map some) cookie) := by
  induction t with
  | leaf =>
    intro fs fuel cookie _ hf
    cases fuel with
    | zero => omega
    | succ n => cases order <;> simp [rb_apply_rec, Tree.sequence, Tree.preorder, Tree.inorder,
        Tree.nodes, Tree.postorder, visit_until]
  | node l a c d r ihl ihr =>
    intro fs fuel cookie h hf
    cases fuel with
    | zero => omega
    | succ n =>
      have ha := h.node_ne.1
      have hrd := h.read
      simp only [Tree.height] at hf
      have il := fun ck => ihl (Frame.L a c d r :: fs) n ck h (by omega)
      have ir := fun ck => ihr (Frame.R l a c d :: fs) n ck h (by omega)
      cases order with
      | PREORDER =>
        simp only [Tree.sequence] at il ir ⊢
        simp only [rb_apply_rec, root_node, ne_eq, ha, not_false_eq_true, if_true, hrd, il, ir,
          Tree.preorder, List.map_cons, List.map_append, visit_until, reduceCtorEq, if_false]
        by_cases h1 : (func (some d) cookie).2 = 0
        · simp only [h1, not_true_eq_false, if_false]
          rw [visit_until_append]
          by_cases h2 : (visit_until func (l.preorder.map some) (func (some d) cookie).1).2 = 0
          · simp only [h2, ne_eq, not_true_eq_false, if_false]
            by_cases h3 : (visit_until func (r.preorder.map some)
                (visit_until func (l.preorder.map some) (func (some d) cookie).1).1).2 = 0
            · simp only [h3, not_true_eq_false, if_false]
              rw [pair_zero _ h3]
            · simp [h3]
          · simp [h2]
        · simp [h1]
      | INORDER =>
        simp only [Tree.sequence] at il ir ⊢
        simp only [rb_apply_rec, root_node, ne_eq, ha, not_false_eq_true, if_true, hrd, il, ir,
          inorder_node, List.map_cons, List.map_append, reduceCtorEq, if_false,
          not_true_eq_false]
        rw [visit_until_append]
        by_cases h1 : (visit_until func (l.inorder.map some) cookie).2 = 0
        · simp only [h1, ne_eq, not_true_eq_false, if_false, visit_until]
          by_cases h2 : (func (some d) (visit_until func (l.inorder.map some) cookie).1).2 = 0
          · simp only [h2, not_true_eq_false, if_false]
            by_cases h3 : (visit_until func (r.inorder.map some)
                (func (some d) (visit_until func (l.inorder.map some) cookie).1).1).2 = 0
            · simp only [h3, not_true_eq_false, if_false]
              rw [pair_zero _ h3]
            · simp [h3]
          · simp [h2]
        · simp [h1]
      | POSTORDER =>
        simp only [Tree.sequence] at il ir ⊢
        simp only [rb_apply_rec, root_node, ne_eq, ha, not_false_eq_true, if_true, hrd, il, ir,
          Tree.postorder, List.map_cons, List.map_append, reduceCtorEq, if_false,
          not_true_eq_false, List.map_nil]
        rw [visit_until_append, visit_until_append, visit_until_one]
        by_cases h1 : (visit_until func (l.postorder.map some) cookie).2 = 0
        · simp only [h1, ne_eq, not_true_eq_false, if_false]
          by_cases h2 : (visit_until func (r.postorder.map some)
              (visit_until func (l.postorder.map some) cookie).1).2 = 0
          · simp only [h2, not_true_eq_false, if_false]
            by_cases h3 : (func (some d) (visit_until func (r.postorder.map some)
                (visit_until func (l.postorder.map some) cookie).1).1).2 = 0
            · simp [h3]
            · simp [h3]
          · simp [h2]
        · simp [h1]

/-- The function `rb_apply` on a subtree of a well-formed tree. -/
theorem rb_apply_spec {σ : Type} {s : rbtree α} {fs : List (Frame α)} {t : Tree α}
    (hwf : WF s (plug fs t)) (func : Option α → σ → σ × Int) (cookie : σ)
    (order : rbtraversal) :
    rb_apply s t.root func cookie order =
      some (visit_until func ((t.sequence order).map some) cookie) := by
  rw [rb_apply]
  exact rb_apply_rec_spec func order t fs s.brk cookie hwf.mwf (by
    have := path_le_length fs t
    have := hwf.length_lt
    omega)

/-- The logging visitor on a sequence on which it returns 0 throughout: it is
called on every element, in sequence. -/
theorem visit_log_all (g : Option α → Int) (xs : List (Option α)) :
    ∀ log : List (Option α), (∀ e ∈ xs, g e = 0) →
      visit_until (log_visitor g) xs log = (log ++ xs, 0) := by
  induction xs with
  | nil => intro log _; simp [visit_until]
  | cons x xs ih =>
    intro log h
    have h1 : g x = 0 := h x (by simp)
    simp only [visit_until, log_visitor, h1, ne_eq, not_true_eq_false, if_false]
    have := ih (log ++ [x]) (fun e he => h e (by simp [he]))
    simp only [log_visitor] at this
    rw [this]
    simp

/-- The logging visitor on a sequence with a first element on which it returns
a status other than 0: it is called on the elements up to and including that
one and on no later one. -/
theorem visit_log_stop (g : Option α → Int) (pre post : List (Option α)) (x : Option α)
    (log : List (Option α)) (hpre : ∀ e ∈ pre, g e = 0) (hx : g x ≠ 0) :
    visit_until (log_visitor g) (pre ++ x :: post) log = (log ++ pre ++ [x], g x) := by
  rw [visit_until_append, visit_log_all g pre log hpre]
  simp [visit_until, log_visitor, hx]

/-! ## Rotations, cell by cell -/

/-- The cells after `rotate_left` about the node `x` at the lower end of a
path, whose right child `y` is a node. -/
theorem MWF.rotl_cells {m : Nat → rbnode α} {fs : List (Frame α)} {A B C : Tree α}
    {x y : Nat} {cx cy : Color} {dx dy : α}
    (h : MWF m (plug fs (Tree.node A x cx dx (Tree.node B y cy dy C)))) (k : Nat) :
    rotate_left m x k =
      if k = x then { left := A.root, right := B.root, parent := y, color := cx,
                      data := some dx }
      else if k = y then { left := x, right := C.root, parent := ctxParent fs, color := cy,
                           data := some dy }
      else if k = ctxParent fs then
        (if x = (m (ctxParent fs)).left then { m (ctxParent fs) with left := y }
          else { m (ctxParent fs) with right := y })
      else if k = B.root ∧ B.root ≠ RB_NIL then { m B.root with parent := x }
      else m k := by
  obtain ⟨h1, h2, h3, _, h5⟩ := h.split
  have hpar := h.parent_not_mem
  obtain ⟨x1, x2, hx, rA, y1, y2, hy, rB, rC⟩ := h2
  simp only [addrs_node, List.nodup_append, List.nodup_cons, List.Disjoint, List.mem_cons,
    List.mem_append, not_or] at h3 hpar h5
  obtain ⟨ndA, ⟨⟨hxB, hxy, hxC⟩, ndB, ⟨hyC, ndC⟩, dBC⟩, dA⟩ := h3
  have hyB : y ∉ B.addrs := fun e => dBC e (Or.inl rfl)
  have hpx : ctxParent fs ≠ x := fun e => hpar.2.1 e
  have hpy : ctxParent fs ≠ y := fun e => hpar.2.2.2.1 e
  have hbx : B.root ≠ x := by
    rcases root_mem_or_nil B with e | e
    · rw [e]; exact fun e2 => x1 e2.symm
    · intro e2; exact hxB (e2 ▸ e)
  have hby : B.root ≠ y := by
    rcases root_mem_or_nil B with e | e
    · rw [e]; exact fun e2 => y1 e2.symm
    · intro e2; exact hyB (e2 ▸ e)
  have hpb : ctxParent fs ≠ B.root := by
    rcases root_mem_or_nil B with e | e
    · rw [e]; exact ctxParent_ne_nil h1
    · intro e2; exact hpar.2.2.1 (e2 ▸ e)
  exact rotate_left_cell m x y A.root B.root C.root (ctxParent fs) cx cy (some dx)
    (some dy) hx hy hxy hbx hby hpx hpy hpb k

/-- The cells after `rotate_right` about the node `x` at the lower end of a
path, whose left child `y` is a node. -/
theorem MWF.rotr_cells {m : Nat → rbnode α} {fs : List (Frame α)} {A B C : Tree α}
    {x y : Nat} {cx cy : Color} {dx dy : α}
    (h : MWF m (plug fs (Tree.node (Tree.node A y cy dy B) x cx dx C))) (k : Nat) :
    rotate_right m x k =
      if k = x then { left := B.root, right := C.root, parent := y, color := cx,
                      data := some dx }
      else if k = y then { left := A.root, right := x, parent := ctxParent fs, color := cy,
                           data := some dy }
      else if k = ctxParent fs then
        (if x = (m (ctxParent fs)).left then { m (ctxParent fs) with left := y }
          else { m (ctxParent fs) with right := y })
      else if k = B.root ∧ B.root ≠ RB_NIL then { m B.root with parent := x }
      else m k := by
  obtain ⟨h1, h2, h3, _, h5⟩ := h.split
  have hpar := h.parent_not_mem
  obtain ⟨x1, x2, hx, ⟨y1, y2, hy, rA, rB⟩, rC⟩ := h2
  simp only [addrs_node, List.nodup_append, List.nodup_cons, List.Disjoint, List.mem_cons,
    List.mem_append, not_or] at h3 hpar h5
  obtain ⟨⟨ndA, ⟨hyB, ndB⟩, dAB⟩, ⟨hxC, ndC⟩, dABC⟩ := h3
  have hxB : x ∉ B.addrs := fun e => dABC (Or.inr (Or.inr e)) (Or.inl rfl)
  have hxy : x ≠ y := fun e => dABC (Or.inr (Or.inl rfl)) (Or.inl e.symm)
  have hpx : ctxParent fs ≠ x := fun e => hpar.2.1 e
  have hpy : ctxParent fs ≠ y := fun e => hpar.1.2.1 e
  have hbx : B.root ≠ x := by
    rcases root_mem_or_nil B with e | e
    · rw [e]; exact fun e2 => x1 e2.symm
    · intro e2; exact hxB (e2 ▸ e)
  have hby : B.root ≠ y := by
    rcases root_mem_or_nil B with e | e
    · rw [e]; exact fun e2 => y1 e2.symm
    · intro e2; exact hyB (e2 ▸ e)
  have hpb : ctxParent fs ≠ B.root := by
    rcases root_mem_or_nil B with e | e
    · rw [e]; exact ctxParent_ne_nil h1
    · intro e2; exact hpar.1.2.2 (e2 ▸ e)
  exact rotate_right_cell m x y A.root B.root C.root (ctxParent fs) cx cy (some dx)
    (some dy) hx hy hxy hbx hby hpx hpy hpb k

/-- A rotation to the left changes no colour and no element pointer. -/
theorem MWF.rotl_keeps {m : Nat → rbnode α} {fs : List (Frame α)} {A B C : Tree α}
    {x y : Nat} {cx cy : Color} {dx dy : α}
    (h : MWF m (plug fs (Tree.node A x cx dx (Tree.node B y cy dy C)))) (k : Nat) :
    (rotate_left m x k).color = (m k).color ∧ (rotate_left m x k).data = (m k).data := by
  have hx := h.read
  have hR : MWF m (plug (Frame.R A x cx dx :: fs) (Tree.node B y cy dy C)) := h
  have hy := hR.read
  rw [h.rotl_cells k]
  split_ifs with e1 e2 e3 e4 e5
  · subst e1; rw [hx]; exact ⟨rfl, rfl⟩
  · subst e2; rw [hy]; exact ⟨rfl, rfl⟩
  · subst e3; exact ⟨rfl, rfl⟩
  · subst e3; exact ⟨rfl, rfl⟩
  · rw [e5.1]; exact ⟨rfl, rfl⟩
  · exact ⟨rfl, rfl⟩

/-- A rotation to the right changes no colour and no element pointer. -/
theorem MWF.rotr_keeps {m : Nat → rbnode α} {fs : List (Frame α)} {A B C : Tree α}
    {x y : Nat} {cx cy : Color} {dx dy : α}
    (h : MWF m (plug fs (Tree.node (Tree.node A y cy dy B) x cx dx C))) (k : Nat) :
    (rotate_right m x k).color = (m k).color ∧ (rotate_right m x k).data = (m k).data := by
  have hx := h.read
  have hL : MWF m (plug (Frame.L x cx dx C :: fs) (Tree.node A y cy dy B)) := h
  have hy := hL.read
  rw [h.rotr_cells k]
  split_ifs with e1 e2 e3 e4 e5
  · subst e1; rw [hx]; exact ⟨rfl, rfl⟩
  · subst e2; rw [hy]; exact ⟨rfl, rfl⟩
  · subst e3; exact ⟨rfl, rfl⟩
  · subst e3; exact ⟨rfl, rfl⟩
  · rw [e5.1]; exact ⟨rfl, rfl⟩
  · exact ⟨rfl, rfl⟩

/-- Two memories that lay out the same shape agree on every node of it. -/
theorem MWF.cell_eq {m m2 : Nat → rbnode α} {t : Tree α} (h : MWF m t) (h2 : MWF m2 t)
    (k : Nat) (hk : k ∈ t.addrs) : m2 k = m k := by
  obtain ⟨fs, l, c, d, r, rfl⟩ := exists_focus t k hk
  rw [h.read, h2.read]

/-- The node above the lower end of a path is the root stub or a node of the
tree. -/
theorem ctxParent_cases (fs : List (Frame α)) (t : Tree α) :
    ctxParent fs = RB_ROOT ∨ ctxParent fs ∈ (plug fs t).addrs := by
  cases fs with
  | nil => exact Or.inl rfl
  | cons f fs => exact Or.inr ((mem_addrs_plug _ _ _).2 (Or.inr (ctxParent_mem f fs)))

/-- Two memories with the same shape, the same sentinel cell and the same stub
colour that agree outside the tree are equal. -/
theorem MWF.mem_eq {m m2 : Nat → rbnode α} {t : Tree α} (h : MWF m t) (h2 : MWF m2 t)
    (hn : m2 RB_NIL = m RB_NIL) (hc : (m2 RB_ROOT).color = (m RB_ROOT).color)
    (hout : ∀ k, k ∉ t.addrs → k ≠ RB_ROOT → k ≠ RB_NIL → m2 k = m k) : m2 = m := by
  funext k
  by_cases hk : k ∈ t.addrs
  · exact h.cell_eq h2 k hk
  by_cases hr : k = RB_ROOT
  · subst hr
    have a1 := h.stub_left
    have a2 := h.stub_right
    have a3 := h.stub_parent
    have a4 := h.stub_data
    have b1 := h2.stub_left
    have b2 := h2.stub_right
    have b3 := h2.stub_parent
    have b4 := h2.stub_data
    cases e1 : m RB_ROOT
    cases e2 : m2 RB_ROOT
    rw [e1] at a1 a2 a3 a4 hc
    rw [e2] at b1 b2 b3 b4 hc
    simp only at a1 a2 a3 a4 b1 b2 b3 b4 hc
    simp [a1, a2, a3, a4, b1, b2, b3, b4, hc]
  by_cases hn2 : k = RB_NIL
  · subst hn2; exact hn
  exact hout k hk hr hn2

/-- A rotation to the left leaves every cell outside the tree alone, the
root stub apart. -/
theorem MWF.rotl_out {m : Nat → rbnode α} {fs : List (Frame α)} {A B C : Tree α}
    {x y : Nat} {cx cy : Color} {dx dy : α}
    (h : MWF m (plug fs (Tree.node A x cx dx (Tree.node B y cy dy C)))) (k : Nat)
    (hk : k ∉ (plug fs (Tree.node A x cx dx (Tree.node B y cy dy C))).addrs)
    (hr : k ≠ RB_ROOT) : rotate_left m x k = m k := by
  have hp := ctxParent_cases fs (Tree.node A x cx dx (Tree.node B y cy dy C))
  simp only [mem_addrs_plug, addrs_node, List.mem_append, List.mem_cons, not_or] at hk
  rw [h.rotl_cells k, if_neg hk.1.2.1, if_neg hk.1.2.2.2.1, if_neg, if_neg]
  · rintro ⟨e1, e2⟩
    rcases root_mem_or_nil B with e | e
    · exact e2 e
    · exact hk.1.2.2.1 (e1 ▸ e)
  · intro e
    rcases hp with q | q
    · exact hr (e.trans q)
    · rw [← e] at q
      simp only [mem_addrs_plug, addrs_node, List.mem_append, List.mem_cons] at q
      tauto

/-- A rotation to the right leaves every cell outside the tree alone, the
root stub apart. -/
theorem MWF.rotr_out {m : Nat → rbnode α} {fs : List (Frame α)} {A B C : Tree α}
    {x y : Nat} {cx cy : Color} {dx dy : α}
    (h : MWF m (plug fs (Tree.node (Tree.node A y cy dy B) x cx dx C))) (k : Nat)
    (hk : k ∉ (plug fs (Tree.node (Tree.node A y cy dy B) x cx dx C)).addrs)
    (hr : k ≠ RB_ROOT) : rotate_right m x k = m k := by
  have hp := ctxParent_cases fs (Tree.node (Tree.node A y cy dy B) x cx dx C)
  simp only [mem_addrs_plug, addrs_node, List.mem_append, List.mem_cons, not_or] at hk
  rw [h.rotr_cells k, if_neg hk.1.2.1, if_neg hk.1.1.2.1, if_neg, if_neg]
  · rintro ⟨e1, e2⟩
    rcases root_mem_or_nil B with e | e
    · exact e2 e
    · exact hk.1.1.2.2 (e1 ▸ e)
  · intro e
    rcases hp with q | q
    · exact hr (e.trans q)
    · rw [← e] at q
      simp only [mem_addrs_plug, addrs_node, List.mem_append, List.mem_cons] at q
      tauto

theorem addrs_rot (fs : List (Frame α)) (A B C : Tree α) (x y : Nat) (cx cy : Color)
    (dx dy : α) :
    (plug fs (Tree.node (Tree.node A x cx dx B) y cy dy C)).nodes =
      (plug fs (Tree.node A x cx dx (Tree.node B y cy dy C))).nodes := by
  simp [nodes_plug, Tree.nodes]

/-- A rotation to the right about `y` undoes a rotation to the left about `x`,
whose right child `y` was: the memory is as it was before. -/
theorem MWF.rotl_restore {m : Nat → rbnode α} {fs : List (Frame α)} {A B C : Tree α}
    {x y : Nat} {cx cy : Color} {dx dy : α}
    (h : MWF m (plug fs (Tree.node A x cx dx (Tree.node B y cy dy C)))) :
    rotate_right (rotate_left m x) y = m := by
  obtain ⟨h2, n2, c2⟩ := h.rotl_mem
  obtain ⟨h3, n3, c3⟩ := h2.rotr_mem
  refine h.mem_eq h3 (n3.trans n2) (c3.trans c2) ?_
  intro k hk hr _
  have hk2 : k ∉ (plug fs (Tree.node (Tree.node A x cx dx B) y cy dy C)).addrs := by
    simp only [Tree.addrs, addrs_rot]
    exact hk
  rw [h2.rotr_out k hk2 hr, h.rotl_out k hk hr]

/-- A rotation to the left about `y` undoes a rotation to the right about `x`,
whose left child `y` was. -/
theorem MWF.rotr_restore {m : Nat → rbnode α} {fs : List (Frame α)} {A B C : Tree α}
    {x y : Nat} {cx cy : Color} {dx dy : α}
    (h : MWF m (plug fs (Tree.node (Tree.node A y cy dy B) x cx dx C))) :
    rotate_left (rotate_right m x) y = m := by
  obtain ⟨h2, n2, c2⟩ := h.rotr_mem
  obtain ⟨h3, n3, c3⟩ := h2.rotl_mem
  refine h.mem_eq h3 (n3.trans n2) (c3.trans c2) ?_
  intro k hk hr _
  have hk2 : k ∉ (plug fs (Tree.node A y cy dy (Tree.node B x cx dx C))).addrs := by
    simp only [Tree.addrs, ← addrs_rot]
    exact hk
  rw [h2.rotl_out k hk2 hr, h.rotr_out k hk hr]

/-! ## Sentinel and root stub -/

/-- The sentinel of a well-formed memory with a BLACK sentinel. -/
theorem BWF.nil_cell {m : Nat → rbnode α} {t : Tree α} (h : BWF m t) :
    m RB_NIL = { left := RB_NIL, right := RB_NIL, parent := RB_NIL, color := Color.BLACK,
                 data := none } := by
  have a1 := h.mwf.nil_left
  have a2 := h.mwf.nil_right
  have a3 := h.mwf.nil_parent
  have a4 := h.mwf.nil_data
  have a5 := h.nil_black
  cases e : m RB_NIL
  rw [e] at a1 a2 a3 a4 a5
  simp only at a1 a2 a3 a4 a5
  simp [a1, a2, a3, a4, a5]

/-- The sentinel and the root stub after an operation that keeps the tree
well formed and the colour invariants: the sentinel's cell is as it was, the
stub is BLACK and its right link leads to the sentinel. -/
theorem guards_kept {s s2 : rbtree α} {t t2 : Tree α} (hwf : WF s t) (hcol : ColorInv s t)
    (hwf2 : WF s2 t2) (hcol2 : ColorInv s2 t2) :
    s2.mem RB_NIL = s.mem RB_NIL ∧
    s2.mem RB_NIL = { left := RB_NIL, right := RB_NIL, parent := RB_NIL,
                      color := Color.BLACK, data := none } ∧
    (s2.mem RB_ROOT).color = (s.mem RB_ROOT).color ∧ (s2.mem RB_ROOT).color = Color.BLACK ∧
    (s2.mem RB_ROOT).right = (s.mem RB_ROOT).right ∧ (s2.mem RB_ROOT).right = RB_NIL := by
  have b1 : BWF s.mem t := ⟨hwf.mwf, hcol.nil_black, hcol.stub_black⟩
  have b2 : BWF s2.mem t2 := ⟨hwf2.mwf, hcol2.nil_black, hcol2.stub_black⟩
  refine ⟨by rw [b1.nil_cell, b2.nil_cell], b2.nil_cell, by rw [hcol.stub_black, hcol2.stub_black],
    hcol2.stub_black, by rw [hwf.mwf.stub_right, hwf2.mwf.stub_right], hwf2.mwf.stub_right⟩

/-! ## The nodes after `rb_delete` -/

/-- The function `rb_delete`, with the nodes of the tree afterwards: a node
with a sentinel on one side leaves the tree; for a node with two children the
first node of its right subtree leaves the tree and its element is moved to
the node. -/
theorem rb_delete_nodes {s : rbtree α} {fs : List (Frame α)}
    {l r : Tree α} {h : Nat} {c : Color} {d : α} (keep : Int)
    (hwf : WF s (plug fs (Tree.node l h c d r)))
    (hcol : ColorInv s (plug fs (Tree.node l h c d r))) :
    ∃ s2 t2, rb_delete s h keep = some (s2, if keep = 0 then none else some d) ∧
      WF s2 t2 ∧ ColorInv s2 t2 ∧ DeleteFrame s s2 (some d) keep ∧
      ((l = Tree.leaf ∨ r = Tree.leaf) →
        t2.nodes = ctxBefore fs ++ l.nodes ++ r.nodes ++ ctxAfter fs) ∧
      (¬ (l = Tree.leaf ∨ r = Tree.leaf) →
        ∃ tg dt rest, r.nodes = (tg, dt) :: rest ∧
          t2.nodes = ctxBefore fs ++ l.nodes ++ (h, dt) :: rest ++ ctxAfter fs) := by
  have hbal := (balanced_iff_equalPaths _).2 hcol.equal_paths
  obtain ⟨s2, t2, e, wf2, col2, _, _, _, fr⟩ := rb_delete_core keep hwf hcol
  refine ⟨s2, t2, e, wf2, col2, fr, ?_, ?_⟩
  · intro hone
    obtain ⟨s3, t3, e3, hb, hn, _⟩ :=
      rb_delete_specA keep hwf hcol.nil_black hcol.stub_black
        hcol.root_black hcol.no_red_red hbal hone
    rw [e] at e3
    simp only [Option.some.injEq, Prod.mk.injEq] at e3
    have hs := e3.1
    subst hs
    have := wf2.mwf.unique hb.mwf
    subst this
    exact hn
  · intro hone
    have hl2 : l.root ≠ RB_NIL := by
      intro e0
      have h2 : MWF s.mem (plug (Frame.L h c d r :: fs) l) := hwf.mwf
      exact hone (Or.inl (h2.leaf_of_root e0))
    have hr2 : r.root ≠ RB_NIL := by
      intro e0
      have h2 : MWF s.mem (plug (Frame.R l h c d :: fs) r) := hwf.mwf
      exact hone (Or.inr (h2.leaf_of_root e0))
    obtain ⟨s3, t3, tg, dt, rest, e3, hb, hr, hn, _⟩ :=
      rb_delete_specB keep hwf hcol.nil_black hcol.stub_black
        hcol.root_black hcol.no_red_red hbal hl2 hr2
    rw [e] at e3
    simp only [Option.some.injEq, Prod.mk.injEq] at e3
    have hs := e3.1
    subst hs
    have := wf2.mwf.unique hb.mwf
    subst this
    exact ⟨tg, dt, rest, hr, hn⟩

/-- A link of a node leads to the sentinel exactly when the subtree on that
side is empty. -/
theorem MWF.leaf_iff {m : Nat → rbnode α} {fs : List (Frame α)} {l r : Tree α} {a : Nat}
    {c : Color} {d : α} (h : MWF m (plug fs (Tree.node l a c d r))) :
    ((m a).left = RB_NIL ↔ l = Tree.leaf) ∧ ((m a).right = RB_NIL ↔ r = Tree.leaf) := by
  rw [h.read]
  have h1 : MWF m (plug (Frame.L a c d r :: fs) l) := h
  have h2 : MWF m (plug (Frame.R l a c d :: fs) r) := h
  exact ⟨⟨fun e => h1.leaf_of_root e, fun e => by rw [e]; rfl⟩,
    ⟨fun e => h2.leaf_of_root e, fun e => by rw [e]; rfl⟩⟩

/-- Taking one entry out of a list of nodes with pairwise different addresses. -/
theorem remove_one_facts (pre post : List (Nat × α)) (h : Nat) (d : α)
    (hnd : ((pre ++ (h, d) :: post).map Prod.fst).Nodup) :
    h ∉ (pre ++ post).map Prod.fst ∧
    (∀ a e, a ≠ h → ((a, e) ∈ pre ++ post ↔ (a, e) ∈ pre ++ (h, d) :: post)) ∧
    (∀ a e, (a, e) ∈ pre ++ post → (a, e) ∈ pre ++ (h, d) :: post) := by
  simp only [List.map_append, List.map_cons, List.nodup_append, List.nodup_cons,
    List.Disjoint, List.mem_cons, List.mem_map, Prod.exists, exists_and_right,
    exists_eq_right, not_or] at hnd
  obtain ⟨_, ⟨h1, _⟩, h2⟩ := hnd
  refine ⟨?_, ?_, ?_⟩
  · simp only [List.map_append, List.mem_append, List.mem_map, Prod.exists, exists_and_right,
      exists_eq_right, not_or]
    exact ⟨fun q => h2 q (Or.inl rfl), h1⟩
  · intro a e ha
    simp only [List.mem_append, List.mem_cons, Prod.mk.injEq]
    tauto
  · intro a e
    simp only [List.mem_append, List.mem_cons, Prod.mk.injEq]
    tauto

/-- Taking the entry after `h` out of a list of nodes with pairwise different
addresses and giving its element to `h`. -/
theorem remove_next_facts (pre post : List (Nat × α)) (h tg : Nat) (d dt : α)
    (hnd : ((pre ++ (h, d) :: (tg, dt) :: post).map Prod.fst).Nodup) :
    tg ≠ h ∧ tg ∉ (pre ++ (h, dt) :: post).map Prod.fst ∧
    (∀ a e, a ≠ h → a ≠ tg →
      ((a, e) ∈ pre ++ (h, dt) :: post ↔ (a, e) ∈ pre ++ (h, d) :: (tg, dt) :: post)) ∧
    (∀ a e, (a, e) ∈ pre ++ (h, dt) :: post →
      a = h ∨ (a, e) ∈ pre ++ (h, d) :: (tg, dt) :: post) := by
  simp only [List.map_append, List.map_cons, List.nodup_append, List.nodup_cons,
    List.Disjoint, List.mem_cons, List.mem_map, Prod.exists, exists_and_right,
    exists_eq_right, not_or] at hnd
  obtain ⟨_, ⟨⟨h0, h1⟩, h3, _⟩, h2⟩ := hnd
  refine ⟨fun q => h0 q.symm, ?_, ?_, ?_⟩
  · simp only [List.map_append, List.map_cons, List.mem_append, List.mem_cons, List.mem_map,
      Prod.exists, exists_and_right, exists_eq_right, not_or]
    exact ⟨fun q => h2 q (Or.inr (Or.inl rfl)), fun q => h0 q.symm, h3⟩
  · intro a e ha hs
    simp only [List.mem_append, List.mem_cons, Prod.mk.injEq]
    tauto
  · intro a e
    simp only [List.mem_append, List.mem_cons, Prod.mk.injEq]
    tauto

/-- The function `rb_delete` on a node `h` with two children: the node `sx`
that follows `h` in in-order, the leftmost node of the right subtree of `h`,
leaves the tree; `h` stays and holds the element `sx` held; every other node
stays with its element. -/
theorem rb_delete_two {s : rbtree α} {t : Tree α} (hwf : WF s t) (hcol : ColorInv s t)
    (h : Nat) (d : α) (hh : (h, d) ∈ t.nodes) (keep : Int)
    (h2 : (s.mem h).left ≠ RB_NIL ∧ (s.mem h).right ≠ RB_NIL) :
    ∃ s2 t2 sx dsx, rb_delete s h keep = some (s2, if keep = 0 then none else some d) ∧
      WF s2 t2 ∧ rb_successor s h = some (some sx) ∧
      leftmost_loop s.mem s.brk (s.mem h).right = some sx ∧
      (sx, dsx) ∈ t.nodes ∧ sx ≠ h ∧
      (h, dsx) ∈ t2.nodes ∧ sx ∉ t2.addrs ∧
      (∀ a e, a ≠ h → a ≠ sx → ((a, e) ∈ t2.nodes ↔ (a, e) ∈ t.nodes)) ∧
      (∀ a e, (a, e) ∈ t2.nodes → a = h ∨ (a, e) ∈ t.nodes) := by
  obtain ⟨fs, l, c, r, rfl⟩ := exists_focus_node t h d hh
  obtain ⟨s2, t2, e, wf2, _, _, _, hB⟩ := rb_delete_nodes keep hwf hcol
  have hlf := hwf.mwf.leaf_iff
  have hone : ¬ (l = Tree.leaf ∨ r = Tree.leaf) := by
    rintro (q | q)
    · exact h2.1 (hlf.1.2 q)
    · exact h2.2 (hlf.2.2 q)
  obtain ⟨tg, dt, rest, hr, hn⟩ := hB hone
  have hnodes : (plug fs (Tree.node l h c d r)).nodes =
      (ctxBefore fs ++ l.nodes) ++ (h, d) :: (tg, dt) :: (rest ++ ctxAfter fs) := by
    rw [nodes_plug]; simp [Tree.nodes, hr]
  have hn2 : t2.nodes = (ctxBefore fs ++ l.nodes) ++ (h, dt) :: (rest ++ ctxAfter fs) := by
    rw [hn]; simp
  have hnd := hwf.mwf.nodup
  rw [Tree.addrs, hnodes] at hnd
  obtain ⟨f1, f2, f3, f4⟩ := remove_next_facts _ _ h tg d dt hnd
  have hsucc : rb_successor s h = some (some tg) := by
    have := rb_successor_spec hwf h ((ctxBefore fs ++ l.nodes).map Prod.fst)
      (((tg, dt) :: (rest ++ ctxAfter fs)).map Prod.fst) (by rw [Tree.addrs, hnodes]; simp)
    rw [this]; simp
  have hlm : leftmost_loop s.mem s.brk (s.mem h).right = some tg := by
    obtain ⟨r1, ra, rc, rd, rr, rfl⟩ := node_of_root r
      (by intro q; exact hone (Or.inr (by
            have hR : MWF s.mem (plug (Frame.R l h c d :: fs) r) := hwf.mwf
            exact hR.leaf_of_root q)))
    have hR : MWF s.mem (plug (Frame.R l h c d :: fs) (Tree.node r1 ra rc rd rr)) := hwf.mwf
    have hrep := hR.split.2.1
    rw [hwf.mwf.read]
    have hlen := hwf.length_lt
    have hh1 := path_le_length (Frame.R l h c d :: fs) (Tree.node r1 ra rc rd rr)
    have hpl : plug (Frame.R l h c d :: fs) (Tree.node r1 ra rc rd rr) =
        plug fs (Tree.node l h c d (Tree.node r1 ra rc rd rr)) := rfl
    rw [hpl] at hh1
    have := leftmost_loop_spec hrep s.brk (by omega)
    simp only [root_node]
    rw [this, leftmost_head, Tree.addrs, hr]
    rfl
  refine ⟨s2, t2, tg, dt, e, wf2, hsucc, hlm, ?_, f1, ?_, ?_, ?_, ?_⟩
  · rw [hnodes]; simp
  · rw [hn2]; simp
  · rw [Tree.addrs, hn2]; exact f2
  · rw [hn2, hnodes]; exact f3
  · rw [hn2, hnodes]; exact f4

/-- The function `rb_delete` on a node `h` with at most one child: `h` leaves
the tree and every other node stays with its element. -/
theorem rb_delete_one {s : rbtree α} {t : Tree α} (hwf : WF s t) (hcol : ColorInv s t)
    (h : Nat) (d : α) (hh : (h, d) ∈ t.nodes) (keep : Int)
    (h1 : (s.mem h).left = RB_NIL ∨ (s.mem h).right = RB_NIL) :
    ∃ s2 t2, rb_delete s h keep = some (s2, if keep = 0 then none else some d) ∧
      WF s2 t2 ∧ h ∉ t2.addrs ∧
      (∀ a e, a ≠ h → ((a, e) ∈ t2.nodes ↔ (a, e) ∈ t.nodes)) ∧
      (∀ a e, (a, e) ∈ t2.nodes → (a, e) ∈ t.nodes) := by
  obtain ⟨fs, l, c, r, rfl⟩ := exists_focus_node t h d hh
  obtain ⟨s2, t2, e, wf2, _, _, hA, _⟩ := rb_delete_nodes keep hwf hcol
  have hlf := hwf.mwf.leaf_iff
  have hone : l = Tree.leaf ∨ r = Tree.leaf := by
    rcases h1 with q | q
    · exact Or.inl (hlf.1.1 q)
    · exact Or.inr (hlf.2.1 q)
  have hn := hA hone
  have hnodes : (plug fs (Tree.node l h c d r)).nodes =
      (ctxBefore fs ++ l.nodes) ++ (h, d) :: (r.nodes ++ ctxAfter fs) := by
    rw [nodes_plug]; simp [Tree.nodes]
  have hn2 : t2.nodes = (ctxBefore fs ++ l.nodes) ++ (r.nodes ++ ctxAfter fs) := by
    rw [hn]; simp
  have hnd := hwf.mwf.nodup
  rw [Tree.addrs, hnodes] at hnd
  obtain ⟨f1, f2, f3⟩ := remove_one_facts _ _ h d hnd
  refine ⟨s2, t2, e, wf2, ?_, ?_, ?_⟩
  · rw [Tree.addrs, hn2]; exact f1
  · rw [hn2, hnodes]; exact f2
  · rw [hn2, hnodes]; exact f3

/-! ## One pass of `insert_repair`, by the colour of the uncle -/

/-- The uncle that `insert_repair` reads is the other child of the
grandparent. -/
theorem uncle_color {s : rbtree α} {P G : Frame α} {rest : List (Frame α)}
    {ul ur : Tree α} {cur : Nat} {cu : Color} {d : α}
    (h : BWF s.mem (plug (P :: G :: rest) (Tree.node ul cur cu d ur))) :
    (s.mem (if (s.mem cur).parent = (s.mem (s.mem (s.mem cur).parent).parent).left
      then (s.mem (s.mem (s.mem cur).parent).parent).right
      else (s.mem (s.mem (s.mem cur).parent).parent).left)).color = G.sibling.color := by
  have e1 : (s.mem cur).parent = P.addr := h.mwf.root_parent h.mwf.node_ne.1
  have e2 : (s.mem P.addr).parent = G.addr := h.frame_parent
  rw [e1, e2]
  cases G with
  | L g cg dg U =>
    have hg : BWF s.mem (plug rest (Tree.node (P.fill (Tree.node ul cur cu d ur)) g cg dg U)) := h
    have hU : BWF s.mem (plug (Frame.R (P.fill (Tree.node ul cur cu d ur)) g cg dg :: rest) U) :=
      h
    rw [addr_L, hg.mwf.read]
    simp only [fill_root, if_true, sibling_L]
    exact hU.root_color
  | R U g cg dg =>
    have hg : BWF s.mem (plug rest (Tree.node U g cg dg (P.fill (Tree.node ul cur cu d ur)))) := h
    have hU : BWF s.mem (plug (Frame.L g cg dg (P.fill (Tree.node ul cur cu d ur)) :: rest) U) :=
      h
    have hne : P.addr ≠ U.root := by
      have := hg.mwf.right_ne_left (by
        rw [fill_root]
        have hp : MWF s.mem (plug (Frame.R U g cg dg :: rest)
          (P.fill (Tree.node ul cur cu d ur))) := h.mwf
        cases P <;> exact hp.node_ne.1)
      simpa using this
    rw [addr_R, hg.mwf.read]
    simp only [hne, if_false, sibling_R]
    exact hU.root_color

/-- A pass of the loop body of `insert_repair` with a RED uncle: no rotation,
the counters stay as they are. -/
theorem insert_pass_red {s : rbtree α} {P G : Frame α} {rest : List (Frame α)}
    {ul ur : Tree α} {cur : Nat} {cu : Color} {d : α}
    (h : BWF s.mem (plug (P :: G :: rest) (Tree.node ul cur cu d ur)))
    (hU : G.sibling.color = Color.RED) :
    (insert_repair_body s cur).1.cnt_left_insert = s.cnt_left_insert ∧
    (insert_repair_body s cur).1.cnt_right_insert = s.cnt_right_insert := by
  cases G with
  | L g cg dg U =>
    obtain ⟨Ul, ua, du, Ur, rfl⟩ := node_of_red U hU
    obtain ⟨m3, e, _⟩ := insert_body_red_L h
    rw [e]
    exact ⟨rfl, rfl⟩
  | R U g cg dg =>
    obtain ⟨Ul, ua, du, Ur, rfl⟩ := node_of_red U hU
    obtain ⟨m3, e, _⟩ := insert_body_red_R h
    rw [e]
    exact ⟨rfl, rfl⟩

/-- A pass of the loop body of `insert_repair` with a BLACK uncle: one or two
rotations, after which the parent of `current` is BLACK, so that the loop
ends. -/
theorem insert_pass_black {s : rbtree α} {P G : Frame α} {rest : List (Frame α)}
    {ul ur : Tree α} {cur : Nat} {cu : Color} {d : α}
    (h : BWF s.mem (plug (P :: G :: rest) (Tree.node ul cur cu d ur)))
    (hU : G.sibling.color = Color.BLACK) :
    s.cnt_left_insert ≤ (insert_repair_body s cur).1.cnt_left_insert ∧
    s.cnt_right_insert ≤ (insert_repair_body s cur).1.cnt_right_insert ∧
    ((insert_repair_body s cur).1.cnt_left_insert +
        (insert_repair_body s cur).1.cnt_right_insert =
        s.cnt_left_insert + s.cnt_right_insert + 1 ∨
      (insert_repair_body s cur).1.cnt_left_insert +
        (insert_repair_body s cur).1.cnt_right_insert =
        s.cnt_left_insert + s.cnt_right_insert + 2) ∧
    ((insert_repair_body s cur).1.mem
      ((insert_repair_body s cur).1.mem (insert_repair_body s cur).2).parent).color =
      Color.BLACK := by
  cases G with
  | L g cg dg U =>
    simp only [sibling_L] at hU
    cases P with
    | L p cp dp S =>
      obtain ⟨m3, e, k⟩ := insert_body_black_LL h hU
      have k2 : BWF m3 (plug (Frame.L p Color.BLACK dp (Tree.node S g Color.RED dg U) :: rest)
        (Tree.node ul cur cu d ur)) := k
      have q1 := k2.mwf.root_parent k2.mwf.node_ne.1
      have q2 := k2.ctx_color
      simp only [root_node, ctxParent_cons, addr_L, ctxColor_cons, color_L] at q1 q2
      rw [e]
      simp only [q1, q2]
      refine ⟨le_refl _, by omega, Or.inl (by omega), trivial⟩
    | R S p cp dp =>
      obtain ⟨m3, e, k⟩ := insert_body_black_LR h hU
      have k2 : BWF m3 (plug (Frame.L cur Color.BLACK d (Tree.node ur g Color.RED dg U) :: rest)
        (Tree.node S p cp dp ul)) := k
      have q1 := k2.mwf.root_parent k2.mwf.node_ne.1
      have q2 := k2.ctx_color
      simp only [root_node, ctxParent_cons, addr_L, ctxColor_cons, color_L] at q1 q2
      rw [e]
      simp only [q1, q2]
      refine ⟨by omega, by omega, Or.inr (by omega), trivial⟩
  | R U g cg dg =>
    simp only [sibling_R] at hU
    cases P with
    | R S p cp dp =>
      obtain ⟨m3, e, k⟩ := insert_body_black_RR h hU
      have k2 : BWF m3 (plug (Frame.R (Tree.node U g Color.RED dg S) p Color.BLACK dp :: rest)
        (Tree.node ul cur cu d ur)) := k
      have q1 := k2.mwf.root_parent k2.mwf.node_ne.1
      have q2 := k2.ctx_color
      simp only [root_node, ctxParent_cons, addr_R, ctxColor_cons, color_R] at q1 q2
      rw [e]
      simp only [q1, q2]
      refine ⟨by omega, le_refl _, Or.inl (by omega), trivial⟩
    | L p cp dp S =>
      obtain ⟨m3, e, k⟩ := insert_body_black_RL h hU
      have k2 : BWF m3 (plug (Frame.R (Tree.node U g Color.RED dg ul) cur Color.BLACK d :: rest)
        (Tree.node ur p cp dp S)) := k
      have q1 := k2.mwf.root_parent k2.mwf.node_ne.1
      have q2 := k2.ctx_color
      simp only [root_node, ctxParent_cons, addr_R, ctxColor_cons, color_R] at q1 q2
      rw [e]
      simp only [q1, q2]
      refine ⟨by omega, by omega, Or.inr (by omega), trivial⟩

/-! ## Depth -/

/-- A shape that is balanced has at least `2 ^ bh - 1` nodes. -/
theorem pow_bh_le (t : Tree α) (h : t.balanced) : 2 ^ t.bh ≤ t.nodes.length + 1 := by
  induction t with
  | leaf => simp [Tree.bh, Tree.nodes]
  | node l a c d r ihl ihr =>
    obtain ⟨h1, h2, h3⟩ := h
    have i1 := ihl h2
    have i2 := ihr h3
    rw [← h1] at i2
    have hb : blk c ≤ 1 := by cases c <;> simp [blk]
    have : 2 ^ (l.bh + blk c) ≤ 2 ^ (l.bh + 1) :=
      Nat.pow_le_pow_right (by decide) (by omega)
    simp only [Tree.bh, Tree.nodes, List.length_append, List.length_cons]
    rw [pow_succ] at this
    omega

/-- On a shape without a RED node below a RED node that is balanced, no path
is longer than twice the number of BLACK nodes on it, plus one if the root is
RED. -/
theorem height_le_bh (t : Tree α) (h1 : t.noRedRed) (h2 : t.balanced) :
    t.height + blk t.color ≤ 2 * t.bh + 1 := by
  induction t with
  | leaf => simp [Tree.height, Tree.bh, blk]
  | node l a c d r ihl ihr =>
    obtain ⟨n1, n2, n3⟩ := h1
    obtain ⟨b1, b2, b3⟩ := h2
    have i1 := ihl n2 b2
    have i2 := ihr n3 b3
    rw [← b1] at i2
    simp only [Tree.height, Tree.bh, color_node]
    cases c with
    | RED =>
      obtain ⟨c1, c2⟩ := n1 rfl
      rw [c1] at i1
      rw [c2] at i2
      simp only [blk] at i1 i2 ⊢
      have := max_le (a := l.height) (b := r.height) (c := 2 * l.bh) (by omega) (by omega)
      omega
    | BLACK =>
      simp only [blk]
      have hl : blk l.color ≤ 1 := by cases l.color <;> simp [blk]
      have := max_le (a := l.height) (b := r.height) (c := 2 * l.bh + 1) (by omega) (by omega)
      omega

/-- A shape that satisfies the colour conditions and has a BLACK root has
logarithmic height. -/
theorem height_log (t : Tree α) (h1 : t.noRedRed) (h2 : t.balanced)
    (h3 : t.color = Color.BLACK) :
    t.height ≤ 2 * t.bh ∧ 2 ^ ((t.height + 1) / 2) ≤ t.inorder.length + 1 := by
  have a1 := height_le_bh t h1 h2
  have a2 := pow_bh_le t h2
  rw [h3] at a1
  simp only [blk] at a1
  have a3 : t.height ≤ 2 * t.bh := by omega
  refine ⟨a3, ?_⟩
  have : 2 ^ ((t.height + 1) / 2) ≤ 2 ^ t.bh :=
    Nat.pow_le_pow_right (by decide) (by omega)
  simp only [Tree.inorder, List.length_map]
  omega

/-- The height bound with the real logarithm. -/
theorem height_logb (t : Tree α) (h1 : t.noRedRed) (h2 : t.balanced)
    (h3 : t.color = Color.BLACK) :
    (t.height : ℝ) ≤ 2 * Real.logb 2 ((t.inorder.length : ℝ) + 1) := by
  have a1 := (height_log t h1 h2 h3).1
  have a2 := pow_bh_le t h2
  have a3 : ((2 : ℝ) ^ t.bh) ≤ (t.inorder.length : ℝ) + 1 := by
    have : ((2 ^ t.bh : Nat) : ℝ) ≤ ((t.nodes.length + 1 : Nat) : ℝ) := Nat.cast_le.2 a2
    simpa [Tree.inorder] using this
  have a4 : (t.bh : ℝ) ≤ Real.logb 2 ((t.inorder.length : ℝ) + 1) := by
    rw [Real.le_logb_iff_rpow_le (by norm_num) (by positivity)]
    simpa using a3
  have a5 : (t.height : ℝ) ≤ 2 * (t.bh : ℝ) := by exact_mod_cast a1
  linarith

/-! ## The rotations on a tree state -/

theorem after_rotate_undo_left (s : rbtree α) (x y : Nat)
    (h : rotate_right (rotate_left s.mem x) y = s.mem) :
    after_rotate_right (after_rotate_left s x) y = s := by
  cases s
  simp only [after_rotate_right, after_rotate_left] at h ⊢
  simp [h]

theorem after_rotate_undo_right (s : rbtree α) (x y : Nat)
    (h : rotate_left (rotate_right s.mem x) y = s.mem) :
    after_rotate_left (after_rotate_right s x) y = s := by
  cases s
  simp only [after_rotate_right, after_rotate_left] at h ⊢
  simp [h]

/-- The function `rotate_left` about a node `x` of a well-formed tree whose
right child `y` is not the sentinel.  The tree is the path `fs` above `x`,
the subtree `A` left of `x`, and `B` and `C` below `y`; afterwards `y` stands
at the lower end of the same path, `x` is its left child, and `B` is the right
subtree of `x`. -/
theorem rotate_left_spec {s : rbtree α} {t : Tree α} (hwf : WF s t) (x : Nat)
    (hx : x ∈ t.addrs) (hr : (s.mem x).right ≠ RB_NIL) :
    ∃ fs A B C cx dx cy dy,
      t = plug fs (Tree.node A x cx dx (Tree.node B (s.mem x).right cy dy C)) ∧
      WF (after_rotate_left s x)
        (plug fs (Tree.node (Tree.node A x cx dx B) (s.mem x).right cy dy C)) ∧
      (plug fs (Tree.node (Tree.node A x cx dx B) (s.mem x).right cy dy C)).nodes = t.nodes ∧
      (s.mem x).parent = ctxParent fs ∧
      ((after_rotate_left s x).mem (s.mem x).right).parent = (s.mem x).parent ∧
      (after_rotate_left s x).mem (s.mem x).parent =
        (if x = (s.mem (s.mem x).parent).left
          then { s.mem (s.mem x).parent with left := (s.mem x).right }
          else { s.mem (s.mem x).parent with right := (s.mem x).right }) ∧
      (x = (s.mem RB_ROOT).left →
        (s.mem x).parent = RB_ROOT ∧
          ((after_rotate_left s x).mem RB_ROOT).left = (s.mem x).right) ∧
      (∀ k, ((after_rotate_left s x).mem k).color = (s.mem k).color ∧
        ((after_rotate_left s x).mem k).data = (s.mem k).data) ∧
      (after_rotate_left s x).mem RB_NIL = s.mem RB_NIL ∧
      (after_rotate_left s x).min = s.min ∧
      after_rotate_right (after_rotate_left s x) (s.mem x).right = s := by
  obtain ⟨fs, A, cx, dx, R, rfl⟩ := exists_focus t x hx
  have hrd := hwf.mwf.read
  rw [hrd] at hr
  simp only at hr
  obtain ⟨B, y, cy, dy, C, rfl⟩ := node_of_root R hr
  have hy : (s.mem x).right = y := by rw [hrd]; rfl
  have hp : (s.mem x).parent = ctxParent fs := by rw [hrd]
  rw [hy, hp]
  obtain ⟨h2, n2, c2⟩ := hwf.mwf.rotl_mem
  have hcell := hwf.mwf.rotl_cells
  have hnodes := addrs_rot fs A B C x y cx cy dx dy
  have hne := hwf.mwf.node_ne
  have hR : MWF s.mem (plug (Frame.R A x cx dx :: fs) (Tree.node B y cy dy C)) := hwf.mwf
  have hpy : ctxParent fs ≠ y := by
    have q := hwf.mwf.parent_not_mem
    intro e
    apply q
    rw [e]
    simp [addrs_node]
  refine ⟨fs, A, B, C, cx, dx, cy, dy, rfl, ⟨h2, hwf.brk_ge, ?_⟩, hnodes, rfl, ?_, ?_, ?_,
    fun k => hwf.mwf.rotl_keeps k, n2, rfl, after_rotate_undo_left s x y hwf.mwf.rotl_restore⟩
  · intro a ha
    apply hwf.bound
    simp only [Tree.addrs, hnodes] at ha
    exact ha
  · have := h2.read
    simp only [after_rotate_left]
    rw [this]
  · simp only [after_rotate_left]
    rw [hcell, if_neg hne.2.2.2.2.symm, if_neg hpy, if_pos rfl]
  · intro e
    cases fs with
    | nil =>
      refine ⟨rfl, ?_⟩
      simp only [after_rotate_left]
      rw [h2.stub_left]
      rfl
    | cons f fs =>
      exact absurd e (hwf.mwf.root_ne hne.1)

/-- The function `rotate_right` about a node `x` of a well-formed tree whose
left child `y` is not the sentinel: the mirror image of `rotate_left`. -/
theorem rotate_right_spec {s : rbtree α} {t : Tree α} (hwf : WF s t) (x : Nat)
    (hx : x ∈ t.addrs) (hl : (s.mem x).left ≠ RB_NIL) :
    ∃ fs A B C cx dx cy dy,
      t = plug fs (Tree.node (Tree.node A (s.mem x).left cy dy B) x cx dx C) ∧
      WF (after_rotate_right s x)
        (plug fs (Tree.node A (s.mem x).left cy dy (Tree.node B x cx dx C))) ∧
      (plug fs (Tree.node A (s.mem x).left cy dy (Tree.node B x cx dx C))).nodes = t.nodes ∧
      (s.mem x).parent = ctxParent fs ∧
      ((after_rotate_right s x).mem (s.mem x).left).parent = (s.mem x).parent ∧
      (after_rotate_right s x).mem (s.mem x).parent =
        (if x = (s.mem (s.mem x).parent).left
          then { s.mem (s.mem x).parent with left := (s.mem x).left }
          else { s.mem (s.mem x).parent with right := (s.mem x).left }) ∧
      (x = (s.mem RB_ROOT).left →
        (s.mem x).parent = RB_ROOT ∧
          ((after_rotate_right s x).mem RB_ROOT).left = (s.mem x).left) ∧
      (∀ k, ((after_rotate_right s x).mem k).color = (s.mem k).color ∧
        ((after_rotate_right s x).mem k).data = (s.mem k).data) ∧
      (after_rotate_right s x).mem RB_NIL = s.mem RB_NIL ∧
      (after_rotate_right s x).min = s.min ∧
      after_rotate_left (after_rotate_right s x) (s.mem x).left = s := by
  obtain ⟨fs, L, cx, dx, C, rfl⟩ := exists_focus t x hx
  have hrd := hwf.mwf.read
  rw [hrd] at hl
  simp only at hl
  obtain ⟨A, y, cy, dy, B, rfl⟩ := node_of_root L hl
  have hy : (s.mem x).left = y := by rw [hrd]; rfl
  have hp : (s.mem x).parent = ctxParent fs := by rw [hrd]
  rw [hy, hp]
  obtain ⟨h2, n2, c2⟩ := hwf.mwf.rotr_mem
  have hcell := hwf.mwf.rotr_cells
  have hnodes := (addrs_rot fs A B C y x cy cx dy dx).symm
  have hne := hwf.mwf.node_ne
  have hpy : ctxParent fs ≠ y := by
    have q := hwf.mwf.parent_not_mem
    intro e
    apply q
    rw [e]
    simp [addrs_node]
  refine ⟨fs, A, B, C, cx, dx, cy, dy, rfl, ⟨h2, hwf.brk_ge, ?_⟩, hnodes, rfl, ?_, ?_, ?_,
    fun k => hwf.mwf.rotr_keeps k, n2, rfl, after_rotate_undo_right s x y hwf.mwf.rotr_restore⟩
  · intro a ha
    apply hwf.bound
    simp only [Tree.addrs, hnodes] at ha
    exact ha
  · have := h2.read
    simp only [after_rotate_right]
    rw [this]
  · simp only [after_rotate_right]
    rw [hcell, if_neg hne.2.2.2.2.symm, if_neg hpy, if_pos rfl]
  · intro e
    cases fs with
    | nil =>
      refine ⟨rfl, ?_⟩
      simp only [after_rotate_right]
      rw [h2.stub_left]
      rfl
    | cons f fs =>
      exact absurd e (hwf.mwf.root_ne hne.1)

/-! ## The checkers and the traversal: claims C11 to C15 -/

/-- C11 (amended): for every well-formed tree that satisfies the colour
invariants, `rb_check_black_height` returns the black-height of the root as
the glossary defines it (the BLACK nodes on a path from the root to the
sentinel, the sentinel counted, the root not) plus one: it counts the BLACK
root as well. -/
theorem C11_black_height {s : rbtree α} {t : Tree α} (hwf : WF s t) (hcol : ColorInv s t) :
    rb_check_black_height s = some ((t.blackHeight : Int) + 1) := by
  rw [blackHeight_eq t hcol.root_black]
  exact (rb_check_black_height_spec hwf).1 hcol

set_option maxRecDepth 100000 in
/-- C11, a witness: the tree of the example scenario. -/
theorem C11_black_height_witness :
    WF tree7 shape7 ∧ ColorInv tree7 shape7 ∧
    rb_check_black_height tree7 = some ((shape7.blackHeight : Int) + 1) :=
  ⟨tree7_wf, tree7_color, C11_black_height tree7_wf tree7_color⟩

set_option maxRecDepth 100000 in
/-- C11, the counterexample: on the tree built by inserting 5, 3, 8, 1, 4, 7,
9, which satisfies the colour invariants and whose root has black-height 2,
`rb_check_black_height` returns 3 and not 2. -/
theorem C11_returns_three_counterexample :
    WF tree7 shape7 ∧ ColorInv tree7 shape7 ∧ shape7.blackHeight = 2 ∧
    rb_check_black_height tree7 = some 3 ∧ rb_check_black_height tree7 ≠ some 2 := by
  have h : rb_check_black_height tree7 = some 3 := by decide
  refine ⟨tree7_wf, tree7_color, rfl, h, ?_⟩
  rw [h]
  decide

/-- C12: for every well-formed tree that satisfies the colour invariants and
every node `h` of it, holding the element `e`: `rb_delete(h, keep)` with
`keep` other than 0 returns `e` and does not call `destroy`; with `keep` 0 it
calls `destroy` exactly once, on `e`, and returns `NULL`.  The statement
covers the node with two children, where the element the successor held is
moved into `h`: it is neither returned nor destroyed. -/
theorem C12_delete_result {s : rbtree α} {t : Tree α} (hwf : WF s t) (hcol : ColorInv s t)
    (h : Nat) (e : α) (hh : (h, e) ∈ t.nodes) (keep : Int) :
    ∃ s2, (keep ≠ 0 → rb_delete s h keep = some (s2, some e) ∧ s2.destroyed = s.destroyed) ∧
      (keep = 0 →
        rb_delete s h keep = some (s2, none) ∧ s2.destroyed = s.destroyed ++ [some e]) := by
  obtain ⟨fs, l, c, r, rfl⟩ := exists_focus_node t h e hh
  obtain ⟨s2, t2, e2, _, _, _, _, _, fr⟩ := rb_delete_core keep hwf hcol
  refine ⟨s2, fun hk => ?_, fun hk => ?_⟩
  · have := fr.2.1
    simp only [hk, if_false] at this e2
    exact ⟨e2, this⟩
  · subst hk
    have := fr.2.1
    simp only [if_true] at this e2
    exact ⟨e2, this⟩

set_option maxRecDepth 100000 in
/-- C12, a witness: the root of the tree of the example scenario, a node with
two children holding 5, deleted with `keep` 0 and with `keep` 1. -/
theorem C12_delete_result_witness :
    WF tree7 shape7 ∧ ColorInv tree7 shape7 ∧ (2, 5) ∈ shape7.nodes ∧
    (∃ s2, rb_delete tree7 2 0 = some (s2, none) ∧
      s2.destroyed = tree7.destroyed ++ [some 5]) ∧
    (∃ s2, rb_delete tree7 2 1 = some (s2, some 5) ∧ s2.destroyed = tree7.destroyed) :=
  ⟨tree7_wf, tree7_color, by decide,
    (C12_delete_result tree7_wf tree7_color 2 5 (by decide) 0).elim
      fun s2 h => ⟨s2, h.2 rfl⟩,
    (C12_delete_result tree7_wf tree7_color 2 5 (by decide) 1).elim
      fun s2 h => ⟨s2, h.1 (by decide)⟩⟩

/-- C13: for every subtree `t` of a well-formed tree, every visitor and every
order in PREORDER, INORDER, POSTORDER: `rb_apply` returns, and it is the
visitor called on the elements of the subtree in the sequence of that order,
one after the other, until a call returns a status other than 0, with that
status as the result and 0 if there is none.  For a visitor that logs its
calls: if it returns 0 on every element, it is called exactly once on each
element, in sequence, and `rb_apply` returns 0; if not, it is called on the
elements up to and including the first one on which it returns a status other
than 0, on no later element, and `rb_apply` returns that status. -/
theorem C13_apply_order (σ : Type) {s : rbtree α} (fs : List (Frame α)) (t : Tree α)
    (hwf : WF s (plug fs t)) (order : rbtraversal) :
    (∀ (func : Option α → σ → σ × Int) (cookie : σ),
      rb_apply s t.root func cookie order =
        some (visit_until func ((t.sequence order).map some) cookie)) ∧
    (∀ (g : Option α → Int) (log : List (Option α)),
      (∀ e ∈ t.sequence order, g (some e) = 0) →
      rb_apply s t.root (log_visitor g) log order =
        some (log ++ (t.sequence order).map some, 0)) ∧
    (∀ (g : Option α → Int) (log : List (Option α)) (pre post : List α) (x : α),
      t.sequence order = pre ++ x :: post → (∀ e ∈ pre, g (some e) = 0) → g (some x) ≠ 0 →
      rb_apply s t.root (log_visitor g) log order =
        some (log ++ pre.map some ++ [some x], g (some x))) := by
  refine ⟨fun func cookie => rb_apply_spec hwf func cookie order, ?_, ?_⟩
  · intro g log hall
    rw [rb_apply_spec hwf, visit_log_all]
    intro e he
    obtain ⟨a, ha, rfl⟩ := List.mem_map.1 he
    exact hall a ha
  · intro g log pre post x hsplit hpre hx
    rw [rb_apply_spec hwf, hsplit]
    simp only [List.map_append, List.map_cons]
    rw [visit_log_stop g _ _ _ log _ hx]
    intro e he
    obtain ⟨a, ha, rfl⟩ := List.mem_map.1 he
    exact hpre a ha

set_option maxRecDepth 100000 in
/-- C13, a witness: the tree of the example scenario in post-order, with a
visitor that returns the status 7 on the key 4. -/
theorem C13_apply_order_witness :
    WF tree7 (plug [] shape7) ∧
    shape7.sequence rbtraversal.POSTORDER = [1] ++ 4 :: [3, 7, 9, 8, 5] ∧
    rb_apply tree7 shape7.root
        (log_visitor (fun x : Option Int => if x = some 4 then 7 else 0)) []
        rbtraversal.POSTORDER =
      some ([] ++ [1].map some ++ [some 4], (fun x : Option Int => if x = some 4 then 7 else 0)
        (some 4)) :=
  ⟨tree7_wf, by decide,
    (C13_apply_order Nat [] shape7 tree7_wf rbtraversal.POSTORDER).2.2
      (fun x : Option Int => if x = some 4 then 7 else 0) [] [1] [3, 7, 9, 8, 5] 4 (by decide)
      (by decide) (by decide)⟩

/-- C14: for every well-formed tree with arbitrary colours,
`rb_check_black_height` returns, and it returns 0 exactly when the root stub,
the real root or the sentinel is RED, or some RED node has a RED child (which
is the same as some node having a RED parent while RED itself, the parent
of the real root being the stub), or the paths from the root to the sentinel
do not all have the same number of BLACK nodes (which is the same as some
node having subtrees with different black counts); in every other case it
returns a positive number. -/
theorem C14_check_zero {s : rbtree α} {t : Tree α} (hwf : WF s t) :
    ∃ n, rb_check_black_height s = some n ∧ 0 ≤ n ∧
      (n = 0 ↔
        ((s.mem RB_ROOT).color = Color.RED ∨ (s.mem (s.mem RB_ROOT).left).color = Color.RED ∨
          (s.mem RB_NIL).color = Color.RED ∨ ¬ t.noRedRed ∨ ¬ t.balanced)) ∧
      (t.balanced ↔ t.equalPaths) := by
  have hroot : (s.mem RB_ROOT).left = t.root := hwf.mwf.stub_left
  rw [hroot]
  by_cases hc : ColorInv s t
  · refine ⟨_, (rb_check_black_height_spec hwf).1 hc, by omega, ?_, balanced_iff_equalPaths t⟩
    constructor
    · intro h; omega
    · rintro (h | h | h | h | h)
      · rw [hc.stub_black] at h; exact absurd h (by decide)
      · exfalso
        by_cases ht : t.root = RB_NIL
        · rw [ht, hc.nil_black] at h; exact absurd h (by decide)
        · rw [root_color_mem hwf ht, hc.root_black] at h; exact absurd h (by decide)
      · rw [hc.nil_black] at h; exact absurd h (by decide)
      · exact absurd hc.no_red_red h
      · exact absurd ((balanced_iff_equalPaths t).2 hc.equal_paths) h
  · refine ⟨0, (rb_check_black_height_spec hwf).2 hc, le_refl _, ?_, balanced_iff_equalPaths t⟩
    refine ⟨fun _ => ?_, fun _ => rfl⟩
    by_contra hn
    simp only [not_or, not_not] at hn
    obtain ⟨h1, h2, h3, h4, h5⟩ := hn
    apply hc
    refine ⟨(not_red_iff _).1 h3, (not_red_iff _).1 h1, ?_, h4, (balanced_iff_equalPaths t).1 h5⟩
    by_cases ht : t.root = RB_NIL
    · cases t with
      | leaf => rfl
      | node l a c d r =>
        have h0 : MWF s.mem (plug [] (Tree.node l a c d r)) := hwf.mwf
        exact absurd ht h0.node_ne.1
    · rw [← root_color_mem hwf ht]
      exact (not_red_iff _).1 h2

set_option maxRecDepth 100000 in
/-- C14, a witness: the well-formed tree whose only node is RED. -/
theorem C14_check_zero_witness :
    WF redRoot shapeRed ∧ rb_check_black_height redRoot = some 0 ∧
    ∃ n, rb_check_black_height redRoot = some n ∧ 0 ≤ n ∧
      (n = 0 ↔
        ((redRoot.mem RB_ROOT).color = Color.RED ∨
          (redRoot.mem (redRoot.mem RB_ROOT).left).color = Color.RED ∨
          (redRoot.mem RB_NIL).color = Color.RED ∨ ¬ shapeRed.noRedRed ∨
          ¬ shapeRed.balanced)) ∧
      (shapeRed.balanced ↔ shapeRed.equalPaths) :=
  ⟨redRoot_wf, by decide, C14_check_zero redRoot_wf⟩

/-- C15: for every well-formed tree (arbitrary colours), every comparator
that is a total preorder and all bounds `lo` and `hi`: `rb_check_order(lo,
hi)` returns 0 or 1, and it returns 1 exactly when the in-order traversal is
non-decreasing and every element `e` satisfies `compare(e, lo) >= 0` and
`compare(e, hi) <= 0`; it returns 1 on the empty tree. -/
theorem C15_check_order {cmp : α → α → Int} (hcmp : CmpOrder cmp) {s : rbtree α}
    {t : Tree α} (hwf : WF s t) (lo hi : α) :
    ∃ n, rb_check_order cmp s lo hi = some n ∧ (n = 0 ∨ n = 1) ∧
      (n = 1 ↔ (t.ordered cmp ∧ ∀ e ∈ t.inorder, 0 ≤ cmp e lo ∧ cmp e hi ≤ 0)) ∧
      (t = Tree.leaf → n = 1) ∧
      rb_check_order cmp (rb_create : rbtree α) lo hi = some 1 := by
  have hempty : rb_check_order cmp (rb_create : rbtree α) lo hi = some 1 := by
    simp [rb_check_order, rb_create, check_order]
  have hspec := rb_check_order_spec hcmp hwf lo hi
  by_cases hv : t.ordered cmp ∧ ∀ e ∈ t.inorder, 0 ≤ cmp e lo ∧ cmp e hi ≤ 0
  · exact ⟨1, hspec.1 hv, Or.inr rfl, ⟨fun _ => hv, fun _ => rfl⟩, fun _ => rfl, hempty⟩
  · refine ⟨0, hspec.2 hv, Or.inl rfl, ⟨fun h => absurd h (by decide), fun h => absurd h hv⟩,
      ?_, hempty⟩
    intro ht
    exfalso
    apply hv
    subst ht
    simp [Tree.ordered, SortedBy, Tree.inorder, Tree.nodes]

set_option maxRecDepth 100000 in
/-- C15, a witness: the tree of the example scenario with the bounds 1 and 9,
and with the bounds 2 and 9, which exclude the key 1. -/
theorem C15_check_order_witness :
    CmpOrder compare_func ∧ WF tree7 shape7 ∧
    rb_check_order compare_func tree7 1 9 = some 1 ∧
    rb_check_order compare_func tree7 2 9 = some 0 ∧
    ∃ n, rb_check_order compare_func tree7 1 9 = some n ∧ (n = 0 ∨ n = 1) ∧
      (n = 1 ↔ (shape7.ordered compare_func ∧
        ∀ e ∈ shape7.inorder, 0 ≤ compare_func e 1 ∧ compare_func e 9 ≤ 0)) ∧
      (shape7 = Tree.leaf → n = 1) ∧
      rb_check_order compare_func (rb_create : rbtree Int) 1 9 = some 1 :=
  ⟨compare_func_order, tree7_wf, by decide, by decide,
    C15_check_order compare_func_order tree7_wf 1 9⟩

/-! ## Rotations, guards, deletion, repair and depth: claims C16 to C20 -/

/-- C16: for every well-formed tree and every node `x` of it whose right
child `y` is not the sentinel, `rotate_left(x)` makes `y` take the place of
`x` below the former parent of `x` (the root stub when `x` is the real root)
with `x` as its left child, leaves the in-order list of nodes and elements
unchanged, changes no colour and no element pointer of any cell, leaves the
sentinel and the cached minimum alone, and keeps the tree well formed (parent
links consistent with child links); `rotate_right` about `y` afterwards
restores the tree state.  The mirror image holds for `rotate_right` about a
node whose left child is not the sentinel. -/
theorem C16_rotations {s : rbtree α} {t : Tree α} (hwf : WF s t) (x : Nat)
    (hx : x ∈ t.addrs) :
    ((s.mem x).right ≠ RB_NIL →
      ∃ fs A B C cx dx cy dy,
        t = plug fs (Tree.node A x cx dx (Tree.node B (s.mem x).right cy dy C)) ∧
        WF (after_rotate_left s x)
          (plug fs (Tree.node (Tree.node A x cx dx B) (s.mem x).right cy dy C)) ∧
        (plug fs (Tree.node (Tree.node A x cx dx B) (s.mem x).right cy dy C)).nodes =
          t.nodes ∧
        (s.mem x).parent = ctxParent fs ∧
        ((after_rotate_left s x).mem (s.mem x).right).parent = (s.mem x).parent ∧
        (after_rotate_left s x).mem (s.mem x).parent =
          (if x = (s.mem (s.mem x).parent).left
            then { s.mem (s.mem x).parent with left := (s.mem x).right }
            else { s.mem (s.mem x).parent with right := (s.mem x).right }) ∧
        (x = (s.mem RB_ROOT).left →
          (s.mem x).parent = RB_ROOT ∧
            ((after_rotate_left s x).mem RB_ROOT).left = (s.mem x).right) ∧
        (∀ k, ((after_rotate_left s x).mem k).color = (s.mem k).color ∧
          ((after_rotate_left s x).mem k).data = (s.mem k).data) ∧
        (after_rotate_left s x).mem RB_NIL = s.mem RB_NIL ∧
        (after_rotate_left s x).min = s.min ∧
        after_rotate_right (after_rotate_left s x) (s.mem x).right = s) ∧
    ((s.mem x).left ≠ RB_NIL →
      ∃ fs A B C cx dx cy dy,
        t = plug fs (Tree.node (Tree.node A (s.mem x).left cy dy B) x cx dx C) ∧
        WF (after_rotate_right s x)
          (plug fs (Tree.node A (s.mem x).left cy dy (Tree.node B x cx dx C))) ∧
        (plug fs (Tree.node A (s.mem x).left cy dy (Tree.node B x cx dx C))).nodes =
          t.nodes ∧
        (s.mem x).parent = ctxParent fs ∧
        ((after_rotate_right s x).mem (s.mem x).left).parent = (s.mem x).parent ∧
        (after_rotate_right s x).mem (s.mem x).parent =
          (if x = (s.mem (s.mem x).parent).left
            then { s.mem (s.mem x).parent with left := (s.mem x).left }
            else { s.mem (s.mem x).parent with right := (s.mem x).left }) ∧
        (x = (s.mem RB_ROOT).left →
          (s.mem x).parent = RB_ROOT ∧
            ((after_rotate_right s x).mem RB_ROOT).left = (s.mem x).left) ∧
        (∀ k, ((after_rotate_right s x).mem k).color = (s.mem k).color ∧
          ((after_rotate_right s x).mem k).data = (s.mem k).data) ∧
        (after_rotate_right s x).mem RB_NIL = s.mem RB_NIL ∧
        (after_rotate_right s x).min = s.min ∧
        after_rotate_left (after_rotate_right s x) (s.mem x).left = s) :=
  ⟨rotate_left_spec hwf x hx, rotate_right_spec hwf x hx⟩

set_option maxRecDepth 100000 in
/-- C16, a witness: a rotation to the left about the real root of the tree of
the example scenario, whose right child is node 4; node 4 becomes the real
root, and the rotation to the right about node 4 restores the tree. -/
theorem C16_rotations_witness :
    WF tree7 shape7 ∧ 2 ∈ shape7.addrs ∧ (tree7.mem 2).right = 4 ∧
    ((after_rotate_left tree7 2).mem RB_ROOT).left = 4 ∧
    after_rotate_right (after_rotate_left tree7 2) 4 = tree7 := by
  have h := (C16_rotations tree7_wf 2 (by decide)).1 (by decide)
  obtain ⟨fs, A, B, C, cx, dx, cy, dy, _, _, _, _, _, _, h7, _, _, _, h11⟩ := h
  have e : (tree7.mem 2).right = 4 := by decide
  rw [e] at h7 h11
  exact ⟨tree7_wf, by decide, e, (h7 (by decide)).2, h11⟩

/-- C17: for every tree that satisfies all invariants, `rb_insert` of every
element and `rb_delete` of every node return, and afterwards the sentinel's
cell is what it was, BLACK with its three links to itself and no element,
and the root stub still has the colour it had, BLACK, and the right link it
had, to the sentinel.  The model keeps no log of memory writes; the statement
is on the cells before and after the call. -/
theorem C17_guards {cmp : α → α → Int} {s : rbtree α} {t : Tree α} (hinv : Inv cmp s t) :
    (∀ x, ∃ s2 h, rb_insert cmp s x = some (s2, h) ∧ GuardsKept s s2) ∧
    (∀ h ∈ t.addrs, ∀ keep, ∃ s2 r, rb_delete s h keep = some (s2, r) ∧ GuardsKept s s2) := by
  constructor
  · intro x
    obtain ⟨s2, t2, e, wf2, c1, c2, c3, _, _, _, _, _, hv, _⟩ :=
      rb_insert_spec cmp x hinv.wf hinv.color.nil_black hinv.color.stub_black
        hinv.color.root_black hinv.minValid
    have hv2 := hv hinv.color.no_red_red
      ((balanced_iff_equalPaths t).2 hinv.color.equal_paths)
    exact ⟨s2, _, e, guards_kept hinv.wf hinv.color wf2
      ⟨c1, c2, c3, hv2.1, (balanced_iff_equalPaths t2).1 hv2.2⟩⟩
  · intro h hh keep
    obtain ⟨fs, l, c, d, r, rfl⟩ := exists_focus t h hh
    obtain ⟨s2, t2, e, wf2, col2, _⟩ := rb_delete_core keep hinv.wf hinv.color
    exact ⟨s2, _, e, guards_kept hinv.wf hinv.color wf2 col2⟩

set_option maxRecDepth 100000 in
/-- C17, a witness: the tree of the example scenario, with the insertion of 6
and the deletion of the root. -/
theorem C17_guards_witness :
    Inv compare_func tree7 shape7 ∧
    (∃ s2 h, rb_insert compare_func tree7 6 = some (s2, h) ∧ GuardsKept tree7 s2) ∧
    (∃ s2 r, rb_delete tree7 2 0 = some (s2, r) ∧ GuardsKept tree7 s2) :=
  ⟨tree7_inv, (C17_guards tree7_inv).1 6, (C17_guards tree7_inv).2 2 (by decide) 0⟩

/-- C18: for every well-formed tree that satisfies the colour invariants and
every node `h` of it, holding `d`.  If `h` has two children, `rb_delete(h)`
removes the node `sx` that follows `h` in in-order, the leftmost node of the
right subtree of `h`: `h` stays in the tree and holds the element `sx` held,
`sx` is no longer a node of the tree, and every node other than `h` and `sx`
is a node afterwards exactly if it was one before, with the same element.
If `h` has at most one child, `h` itself is no longer a node of the tree and
every other node is a node afterwards exactly if it was one before, with the
same element. -/
theorem C18_delete_nodes {s : rbtree α} {t : Tree α} (hwf : WF s t) (hcol : ColorInv s t)
    (h : Nat) (d : α) (hh : (h, d) ∈ t.nodes) (keep : Int) :
    (((s.mem h).left ≠ RB_NIL ∧ (s.mem h).right ≠ RB_NIL) →
      ∃ s2 t2 sx dsx, rb_delete s h keep = some (s2, if keep = 0 then none else some d) ∧
        WF s2 t2 ∧ rb_successor s h = some (some sx) ∧
        leftmost_loop s.mem s.brk (s.mem h).right = some sx ∧
        (sx, dsx) ∈ t.nodes ∧ sx ≠ h ∧
        (h, dsx) ∈ t2.nodes ∧ sx ∉ t2.addrs ∧
        (∀ a e, a ≠ h → a ≠ sx → ((a, e) ∈ t2.nodes ↔ (a, e) ∈ t.nodes)) ∧
        (∀ a e, (a, e) ∈ t2.nodes → a = h ∨ (a, e) ∈ t.nodes)) ∧
    (((s.mem h).left = RB_NIL ∨ (s.mem h).right = RB_NIL) →
      ∃ s2 t2, rb_delete s h keep = some (s2, if keep = 0 then none else some d) ∧
        WF s2 t2 ∧ h ∉ t2.addrs ∧
        (∀ a e, a ≠ h → ((a, e) ∈ t2.nodes ↔ (a, e) ∈ t.nodes)) ∧
        (∀ a e, (a, e) ∈ t2.nodes → (a, e) ∈ t.nodes)) :=
  ⟨rb_delete_two hwf hcol h d hh keep, rb_delete_one hwf hcol h d hh keep⟩

set_option maxRecDepth 100000 in
/-- C18, a witness: the root of the tree of the example scenario, a node with
two children, and node 5, a node without children. -/
theorem C18_delete_nodes_witness :
    WF tree7 shape7 ∧ ColorInv tree7 shape7 ∧ (2, 5) ∈ shape7.nodes ∧
    (5, 1) ∈ shape7.nodes ∧
    (∃ s2 t2 sx dsx, rb_delete tree7 2 1 = some (s2, if (1 : Int) = 0 then none else some 5) ∧
        WF s2 t2 ∧ rb_successor tree7 2 = some (some sx) ∧
        leftmost_loop tree7.mem tree7.brk (tree7.mem 2).right = some sx ∧
        (sx, dsx) ∈ shape7.nodes ∧ sx ≠ 2 ∧
        (2, dsx) ∈ t2.nodes ∧ sx ∉ t2.addrs ∧
        (∀ a e, a ≠ 2 → a ≠ sx → ((a, e) ∈ t2.nodes ↔ (a, e) ∈ shape7.nodes)) ∧
        (∀ a e, (a, e) ∈ t2.nodes → a = 2 ∨ (a, e) ∈ shape7.nodes)) ∧
    (∃ s2 t2, rb_delete tree7 5 1 = some (s2, if (1 : Int) = 0 then none else some 1) ∧
        WF s2 t2 ∧ 5 ∉ t2.addrs ∧
        (∀ a e, a ≠ 5 → ((a, e) ∈ t2.nodes ↔ (a, e) ∈ shape7.nodes)) ∧
        (∀ a e, (a, e) ∈ t2.nodes → (a, e) ∈ shape7.nodes)) :=
  ⟨tree7_wf, tree7_color, by decide, by decide,
    (C18_delete_nodes tree7_wf tree7_color 2 5 (by decide) 1).1 (by decide),
    (C18_delete_nodes tree7_wf tree7_color 5 1 (by decide) 1).2 (by decide)⟩

set_option maxRecDepth 100000 in
theorem tree7_linked_bwf :
    BWF tree7_linked.mem (plug path7_linked (Tree.node Tree.leaf 9 Color.RED 0 Tree.leaf)) := by
  refine ⟨⟨?_, ?_, ?_, ?_, ?_, ?_, ?_, ?_, ?_, ?_⟩, ?_, ?_⟩ <;> decide

/-- C19: for every well-formed tree that satisfies the colour invariants,
whose cached minimum is `NULL` or a node, and every element `x`: `rb_insert`
returns, so the loop of `insert_repair` ends, and the two counters of
rotations in insertions do not decrease and grow by at most 2 in total.  For
every pass of the loop body at a node below a parent and a grandparent (`s1`
is the state, `P` and `G` are the parent and the grandparent on the path):
with a RED uncle the pass leaves both counters alone; with a BLACK uncle it
adds 1 or 2 to them in total and leaves the parent of `current` BLACK, which
ends the loop. -/
theorem C19_insert_rotations (cmp : α → α → Int) {s : rbtree α} {t : Tree α} (x : α)
    (hwf : WF s t) (hcol : ColorInv s t) (hmin : MinValid s t)
    {s1 : rbtree α} {P G : Frame α} {rest : List (Frame α)} {ul ur : Tree α} {cur : Nat}
    {cu : Color} {d : α}
    (h1 : BWF s1.mem (plug (P :: G :: rest) (Tree.node ul cur cu d ur))) :
    (∃ s2 h, rb_insert cmp s x = some (s2, h) ∧
      s.cnt_left_insert ≤ s2.cnt_left_insert ∧ s.cnt_right_insert ≤ s2.cnt_right_insert ∧
      s2.cnt_left_insert + s2.cnt_right_insert ≤
        s.cnt_left_insert + s.cnt_right_insert + 2) ∧
    ((s1.mem (if (s1.mem cur).parent = (s1.mem (s1.mem (s1.mem cur).parent).parent).left
        then (s1.mem (s1.mem (s1.mem cur).parent).parent).right
        else (s1.mem (s1.mem (s1.mem cur).parent).parent).left)).color = Color.RED →
      (insert_repair_body s1 cur).1.cnt_left_insert = s1.cnt_left_insert ∧
      (insert_repair_body s1 cur).1.cnt_right_insert = s1.cnt_right_insert) ∧
    ((s1.mem (if (s1.mem cur).parent = (s1.mem (s1.mem (s1.mem cur).parent).parent).left
        then (s1.mem (s1.mem (s1.mem cur).parent).parent).right
        else (s1.mem (s1.mem (s1.mem cur).parent).parent).left)).color = Color.BLACK →
      s1.cnt_left_insert ≤ (insert_repair_body s1 cur).1.cnt_left_insert ∧
      s1.cnt_right_insert ≤ (insert_repair_body s1 cur).1.cnt_right_insert ∧
      ((insert_repair_body s1 cur).1.cnt_left_insert +
          (insert_repair_body s1 cur).1.cnt_right_insert =
          s1.cnt_left_insert + s1.cnt_right_insert + 1 ∨
        (insert_repair_body s1 cur).1.cnt_left_insert +
          (insert_repair_body s1 cur).1.cnt_right_insert =
          s1.cnt_left_insert + s1.cnt_right_insert + 2) ∧
      ((insert_repair_body s1 cur).1.mem
        ((insert_repair_body s1 cur).1.mem (insert_repair_body s1 cur).2).parent).color =
        Color.BLACK) := by
  obtain ⟨s2, t2, e, _, _, _, _, _, _, _, _, _, _, _, _, k1, k2, k3⟩ :=
    rb_insert_spec cmp x hwf hcol.nil_black hcol.stub_black hcol.root_black hmin
  rw [uncle_color h1]
  exact ⟨⟨s2, _, e, k1, k2, k3⟩, insert_pass_red h1, insert_pass_black h1⟩

set_option maxRecDepth 100000 in
/-- C19, a witness: the insertion of 0 into the tree of the example scenario,
and the pass of the loop body at the new node, whose uncle is RED. -/
theorem C19_insert_rotations_witness :
    WF tree7 shape7 ∧ ColorInv tree7 shape7 ∧ MinValid tree7 shape7 ∧
    BWF tree7_linked.mem (plug path7_linked (Tree.node Tree.leaf 9 Color.RED 0 Tree.leaf)) ∧
    (∃ s2 h, rb_insert compare_func tree7 0 = some (s2, h) ∧
      tree7.cnt_left_insert ≤ s2.cnt_left_insert ∧
      tree7.cnt_right_insert ≤ s2.cnt_right_insert ∧
      s2.cnt_left_insert + s2.cnt_right_insert ≤
        tree7.cnt_left_insert + tree7.cnt_right_insert + 2) ∧
    (insert_repair_body tree7_linked 9).1.cnt_left_insert = tree7_linked.cnt_left_insert ∧
    (insert_repair_body tree7_linked 9).1.cnt_right_insert = tree7_linked.cnt_right_insert :=
  ⟨tree7_wf, tree7_color, tree7_inv.minValid, tree7_linked_bwf,
    (C19_insert_rotations compare_func 0 tree7_wf tree7_color tree7_inv.minValid
      tree7_linked_bwf).1,
    (C19_insert_rotations compare_func 0 tree7_wf tree7_color tree7_inv.minValid
      tree7_linked_bwf).2.1 (by decide)⟩

/-- C20: every tree reachable from `rb_create` by calls of `rb_insert` and
`rb_delete` (comparator a total preorder) has logarithmic depth: with `n`
elements and height `h` (the number of nodes on a longest path from the root
down), `2 ^ ceil(h / 2) <= n + 1` and `h <= 2 * log2 (n + 1)`. -/
theorem C20_depth {cmp : α → α → Int} (hcmp : CmpOrder cmp) {s : rbtree α}
    (h : Reachable cmp s) :
    ∃ t, WF s t ∧ 2 ^ ((t.height + 1) / 2) ≤ t.inorder.length + 1 ∧
      (t.height : ℝ) ≤ 2 * Real.logb 2 ((t.inorder.length : ℝ) + 1) := by
  obtain ⟨t, hinv⟩ := reachable_inv hcmp h
  have hb := (balanced_iff_equalPaths t).2 hinv.color.equal_paths
  exact ⟨t, hinv.wf, (height_log t hinv.color.no_red_red hb hinv.color.root_black).2,
    height_logb t hinv.color.no_red_red hb hinv.color.root_black⟩

/-- C20, a witness: the tree of the example scenario. -/
theorem C20_depth_witness :
    CmpOrder compare_func ∧ Reachable compare_func tree7 ∧
    ∃ t, WF tree7 t ∧ 2 ^ ((t.height + 1) / 2) ≤ t.inorder.length + 1 ∧
      (t.height : ℝ) ≤ 2 * Real.logb 2 ((t.inorder.length : ℝ) + 1) :=
  ⟨compare_func_order, tree7_reachable, C20_depth compare_func_order tree7_reachable⟩

end Rbt
